import Mathlib

/-!
LuaStudy: string table (lstring.c) and closures/upvalues (lfunc.c)

A shallow embedding of the C sources into Lean definitions, followed by
theorems about those definitions.

Representation choices, used throughout:

* a C object is a record carrying its address (`addr`), so that "the same
  object" is equality of addresses;
* an intrusive singly linked list (a string-table chain linked through
  `u.hnext`, the open-upvalue list linked through `u.open.next`) is the Lean
  list of its nodes, first node first;
* `unsigned int` is a `Nat` reduced modulo `2^32`, `lu_byte` a `Nat` reduced
  modulo `256`;
* a byte buffer `(const char *str, size_t l)` is a `List Nat` together with
  the length `l`;
* allocation is assumed to succeed (the out-of-memory path of the allocator
  hook is outside this development); `lua_assert` is compiled out, as in a
  production build, and assertions of interest are stated as predicates.
-/

namespace LuaStudy

/-! ## Configuration constants -/

/-- Modelled from the spec: the short-string threshold `LUAI_MAXSHORTLEN` of
`llimits.h`, which is not among the sources; 40 is the value Lua 5.3 ships. -/
def LUAI_MAXSHORTLEN : Nat := 40

/-- Modelled from the spec: `MAX_INT` of `llimits.h` (not among the sources),
the overflow ceiling of the table size, for a 32-bit `int`. -/
def MAX_INT : Nat := 2147483647

/-- Modelled from the spec: `MAX_SIZE` of `llimits.h` (not among the sources),
the maximum representable object size, for 64-bit `size_t` and `lua_Integer`. -/
def MAX_SIZE : Nat := 9223372036854775807

/-- Modelled from the spec: `sizeof(TString)` for the layout of `lobject.h` on
a 64-bit platform (pointer 8, four bytes, `unsigned int` 4, union 8). -/
def sizeof_TString : Nat := 24

/-- Constant `LUAI_HASHLIMIT` (lstring.c). -/
def LUAI_HASHLIMIT : Nat := 5

/-- Modelled from the spec: basic type tag `LUA_TNIL` of `lua.h` (not among the sources). -/
def LUA_TNIL : Nat := 0

/-- Modelled from the spec: basic type tag `LUA_TSTRING` of `lua.h` (not among the sources). -/
def LUA_TSTRING : Nat := 4

/-- Constant `LUA_TSHRSTR` (lobject.h): `LUA_TSTRING | (0 << 4)`. -/
def LUA_TSHRSTR : Nat := LUA_TSTRING ||| (0 <<< 4)

/-- Constant `LUA_TLNGSTR` (lobject.h): `LUA_TSTRING | (1 << 4)`. -/
def LUA_TLNGSTR : Nat := LUA_TSTRING ||| (1 <<< 4)

/-- Conversion to `unsigned int` (32 bits). -/
def cast_uint (n : Nat) : Nat := n % 2 ^ 32

/-- Conversion to `lu_byte`. -/
def cast_byte (n : Nat) : Nat := n % 256

/-! ## Data model -/

/-- Type `union Value` (lobject.h); a float is kept as its bit pattern. -/
inductive Value where
  | gc (o : Nat)
  | p (a : Nat)
  | b (x : Int)
  | f (a : Nat)
  | i (x : Int)
  | n (bits : Nat)
  deriving DecidableEq, Repr

/-- Type `TValue` (lobject.h): `Value value_; int tt_`. -/
structure TValue where
  value_ : Value := Value.gc 0
  tt_ : Nat := 0
  deriving DecidableEq, Repr

/-- Type `TString` (lobject.h). `addr` is the address of the object; the header
link `next` is the position in `global_State.allgc`; `u.hnext` is the position
in the chain; `bytes` is the buffer `getstr(ts)` that follows the header. -/
structure TString where
  addr : Nat := 0
  tt : Nat := 0
  marked : Nat := 0
  extra : Nat := 0
  shrlen : Nat := 0
  hash : Nat := 0
  lnglen : Nat := 0
  bytes : List Nat := []
  deriving DecidableEq, Repr

/-- Type `stringtable` (lstate.h): `hash` is the bucket array, each bucket the chain
of its nodes. -/
structure stringtable where
  hash : List (List TString) := []
  nuse : Int := 0
  size : Nat := 0
  deriving DecidableEq, Repr

/-- Type `global_State` (lstate.h), the fields used by lstring.c and lfunc.c.
`ud`, the auxiliary data of the allocator `frealloc`, is the next address the
allocator hands out; `allgc` lists the addresses of the collectable objects,
most recent first, and `fixedgc` those of the objects not to be collected;
`twups` is the head of the list of threads with open upvalues (`none` is
`NULL`); `strcache` is the array `strcache[STRCACHE_N][STRCACHE_M]`. -/
structure global_State where
  ud : Nat := 0
  strt : stringtable := {}
  seed : Nat := 0
  currentwhite : Nat := 1
  allgc : List Nat := []
  twups : Option Nat := none
  fixedgc : List Nat := []
  memerrmsg : TString := {}
  strcache : List (List TString) := []
  deriving DecidableEq, Repr

/-- Errors raised through `luaD_throw`. -/
inductive LuaError where
  | toobig
  | malformed (msg : String)
  | memory
  deriving DecidableEq, Repr

/-! ## Type tags (lobject.h) -/

/-- Modelled from the spec: basic type tag `LUA_TBOOLEAN` of `lua.h` (not among the sources). -/
def LUA_TBOOLEAN : Nat := 1

/-- Modelled from the spec: basic type tag `LUA_TNUMBER` of `lua.h` (not among the sources). -/
def LUA_TNUMBER : Nat := 3

/-- Modelled from the spec: basic type tag `LUA_TFUNCTION` of `lua.h` (not among the sources). -/
def LUA_TFUNCTION : Nat := 6

/-- Modelled from the spec: `LUA_NUMTAGS` of `lua.h` (not among the sources). -/
def LUA_NUMTAGS : Nat := 9

/-- Constant `LUA_TPROTO` (lobject.h). -/
def LUA_TPROTO : Nat := LUA_NUMTAGS

/-- Constant `LUA_TLCL` (lobject.h): `LUA_TFUNCTION | (0 << 4)`. -/
def LUA_TLCL : Nat := LUA_TFUNCTION ||| (0 <<< 4)

/-- Constant `LUA_TLCF` (lobject.h): `LUA_TFUNCTION | (1 << 4)`. -/
def LUA_TLCF : Nat := LUA_TFUNCTION ||| (1 <<< 4)

/-- Constant `LUA_TCCL` (lobject.h): `LUA_TFUNCTION | (2 << 4)`. -/
def LUA_TCCL : Nat := LUA_TFUNCTION ||| (2 <<< 4)

/-- Constant `LUA_TNUMFLT` (lobject.h): `LUA_TNUMBER | (0 << 4)`. -/
def LUA_TNUMFLT : Nat := LUA_TNUMBER ||| (0 <<< 4)

/-- Constant `LUA_TNUMINT` (lobject.h): `LUA_TNUMBER | (1 << 4)`. -/
def LUA_TNUMINT : Nat := LUA_TNUMBER ||| (1 <<< 4)

/-- Constant `BIT_ISCOLLECTABLE` (lobject.h): `1 << 6`. -/
def BIT_ISCOLLECTABLE : Nat := 1 <<< 6

/-- Macro `ctb(t)` (lobject.h): `t | BIT_ISCOLLECTABLE`. -/
def ctb (t : Nat) : Nat := t ||| BIT_ISCOLLECTABLE

/-- Macro `rttype(o)` (lobject.h): the raw tag `o->tt_`. -/
def rttype (o : TValue) : Nat := o.tt_

/-- Macro `novariant(x)` (lobject.h): `x & 0x0F`. -/
def novariant (x : Nat) : Nat := x &&& 0x0F

/-- Macro `ttype(o)` (lobject.h): `rttype(o) & 0x3F`. -/
def ttype (o : TValue) : Nat := rttype o &&& 0x3F

/-- Macro `ttnov(o)` (lobject.h): `novariant(rttype(o))`. -/
def ttnov (o : TValue) : Nat := novariant (rttype o)

/-- Macro `checktag(o,t)` (lobject.h): `rttype(o) == t`. -/
def checktag (o : TValue) (t : Nat) : Bool := rttype o == t

/-- Macro `checktype(o,t)` (lobject.h): `ttnov(o) == t`. -/
def checktype (o : TValue) (t : Nat) : Bool := ttnov o == t

/-- Macro `ttisnumber(o)` (lobject.h). -/
def ttisnumber (o : TValue) : Bool := checktype o LUA_TNUMBER

/-- Macro `ttisstring(o)` (lobject.h). -/
def ttisstring (o : TValue) : Bool := checktype o LUA_TSTRING

/-- Macro `ttisfunction(o)` (lobject.h). -/
def ttisfunction (o : TValue) : Bool := checktype o LUA_TFUNCTION

/-- Macro `iscollectable(o)` (lobject.h): `rttype(o) & BIT_ISCOLLECTABLE`. -/
def iscollectable (o : TValue) : Nat := rttype o &&& BIT_ISCOLLECTABLE

/-! ## Collector colours (lgc.h) -/

/-- Modelled from the spec: `WHITEBITS` of `lgc.h` (not among the sources),
the two white bits of the mark byte. -/
def WHITEBITS : Nat := 3

/-- Modelled from the spec: `otherwhite(g)` of `lgc.h` (not among the sources). -/
def otherwhite (g : global_State) : Nat := g.currentwhite ^^^ WHITEBITS

/-- Modelled from the spec: `isdead(g,v)` of `lgc.h` (not among the sources):
the object is pending collection, `!((marked ^ WHITEBITS) & otherwhite(g))`. -/
def isdead (g : global_State) (ts : TString) : Bool :=
  ((ts.marked ^^^ WHITEBITS) &&& otherwhite g) == 0

/-- Modelled from the spec: `changewhite(x)` of `lgc.h` (not among the
sources), which resurrects an object pending collection: `marked ^= WHITEBITS`. -/
def changewhite (ts : TString) : TString :=
  { ts with marked := ts.marked ^^^ WHITEBITS }

/-- Modelled from the spec: `luaC_white(g)` of `lgc.h` (not among the sources),
the colour given to new objects. -/
def luaC_white (g : global_State) : Nat := cast_byte (g.currentwhite &&& WHITEBITS)

/-- Modelled from the spec: `luaC_newobj` of `lgc.c` (not among the sources):
"returns a new collectible object ..., pre-linked into the primary object
list, with mark state initialized to the currently allocating color". Returns
the address and the mark byte of the new object and the updated state. -/
def luaC_newobj (g : global_State) : Nat × Nat × global_State :=
  (g.ud, luaC_white g, { g with ud := g.ud + 1, allgc := g.ud :: g.allgc })

/-! ## lstring.c -/

/-- Macro `lmod(s,size)` (lobject.h): `s & (size - 1)`, with `size - 1` converted to
`unsigned int`. -/
def lmod (s size : Nat) : Nat := s &&& ((size + 2 ^ 32 - 1) % 2 ^ 32)

/-- Function `memcmp(a, b, n)`: sign of the first difference among the first `n` bytes. -/
def memcmp : List Nat → List Nat → Nat → Int
  | _, _, 0 => 0
  | [], [], _ + 1 => 0
  | [], _ :: _, _ + 1 => -1
  | _ :: _, [], _ + 1 => 1
  | a :: as, b :: bs, n + 1 =>
    if a < b then -1 else if b < a then 1 else memcmp as bs n

/-- Function `memcpy(dst, src, n)`: the first `n` bytes of `dst` are replaced. -/
def memcpy (dst src : List Nat) (n : Nat) : List Nat :=
  src.take n ++ dst.drop n

/-- Macro `tsslen(s)` (lobject.h): the length of a string, `shrlen` for a short
string and `u.lnglen` for a long one. -/
def tsslen (ts : TString) : Nat :=
  if ts.tt = LUA_TSHRSTR then ts.shrlen else ts.lnglen

/-- Function `luaS_eqlngstr` (lstring.c:45). -/
def luaS_eqlngstr (a b : TString) : Int :=
  let len := a.lnglen
  if a.addr = b.addr ∨ (len = b.lnglen ∧ memcmp a.bytes b.bytes len = 0) then 1 else 0

/-- The loop of `luaS_hash`: `for (; l >= step; l -= step) h ^= ...`. -/
def luaS_hash.loop (str : List Nat) (step : Nat) (hstep : 0 < step) (l h : Nat) : Nat :=
  if _hl : l ≥ step then
    luaS_hash.loop str step hstep (l - step)
      (h ^^^ cast_uint (cast_uint (h <<< 5) + (h >>> 2) + cast_byte (str.getD (l - 1) 0)))
  else h
termination_by l
decreasing_by omega

/-- The loop of `luaS_hash` with the hashing left out: the positions `l - 1`
of the bytes `str[l - 1]` it reads, in the order in which it reads them. -/
def luaS_hash.reads (step : Nat) (hstep : 0 < step) (l : Nat) : List Nat :=
  if _hl : l ≥ step then (l - 1) :: luaS_hash.reads step hstep (l - step)
  else []
termination_by l
decreasing_by omega

/-- Function `luaS_hash` (lstring.c:58). -/
def luaS_hash (str : List Nat) (l seed : Nat) : Nat :=
  let h := seed ^^^ cast_uint l
  let step := (l >>> LUAI_HASHLIMIT) + 1
  luaS_hash.loop str step (Nat.succ_pos _) l h

/-- Function `luaS_hashlongstr` (lstring.c:67): returns the hash and the updated string. -/
def luaS_hashlongstr (ts : TString) : Nat × TString :=
  if ts.extra = 0 then
    let ts1 := { ts with hash := luaS_hash ts.bytes ts.lnglen ts.hash }
    let ts2 := { ts1 with extra := 1 }
    (ts2.hash, ts2)
  else (ts.hash, ts)

/-- Modelled from the spec: `luaM_reallocvector` of `lmem.h` (not among the
sources): the vector keeps its first elements and has `n` elements afterwards. -/
def luaM_reallocvector (v : List (List TString)) (n : Nat) : List (List TString) :=
  v.take n ++ List.replicate (n - v.length) []

/-- Inner loop of the rehash of `luaS_resize`: every node `p` of the chain is
put at the head of bucket `lmod(p->hash, newsize)`. -/
def luaS_resize.chain (newsize : Nat) : List TString → List (List TString) → List (List TString)
  | [], hash => hash
  | p :: hnext, hash =>
    let h := lmod p.hash newsize
    luaS_resize.chain newsize hnext (hash.set h (p :: hash.getD h []))

/-- One iteration of the outer rehash loop: bucket `i` is emptied and its
chain is redistributed. -/
def luaS_resize.step (newsize : Nat) (hash : List (List TString)) (i : Nat) : List (List TString) :=
  luaS_resize.chain newsize (hash.getD i []) (hash.set i [])

/-- The state of the bucket array of `luaS_resize` after the optional growth
and the rehash loop `for (i = 0; i < tb->size; i++)`, before the truncation. -/
def luaS_resize.rehash (tb : stringtable) (newsize : Nat) : List (List TString) :=
  let hash1 :=
    if newsize > tb.size then
      let v := luaM_reallocvector tb.hash newsize
      (List.range' tb.size (newsize - tb.size)).foldl (fun w i => w.set i []) v
    else tb.hash
  (List.range tb.size).foldl (luaS_resize.step newsize) hash1

/-- The assertion planted in `luaS_resize` before the truncation:
`tb->hash[newsize] == NULL && tb->hash[tb->size - 1] == NULL`. -/
def luaS_resize.vanishing (tb : stringtable) (newsize : Nat) : Bool :=
  let hash := luaS_resize.rehash tb newsize
  hash.getD newsize [] == [] && hash.getD (tb.size - 1) [] == []

/-- Function `luaS_resize` (lstring.c:94). -/
def luaS_resize (g : global_State) (newsize : Nat) : global_State :=
  let tb := g.strt
  let hash2 := luaS_resize.rehash tb newsize
  let hash3 := if newsize < tb.size then luaM_reallocvector hash2 newsize else hash2
  { g with strt := { hash := hash3, nuse := tb.nuse, size := newsize } }

/-- Function `createstrobj` (lstring.c:160): a new string object with `l + 1` bytes of
storage, the last one zero. -/
def createstrobj (g : global_State) (l tag h : Nat) : TString × global_State :=
  let (o, marked, g1) := luaC_newobj g
  ({ addr := o, tt := tag, marked := marked, hash := h, extra := 0,
     bytes := (List.replicate (l + 1) 0).set l 0 }, g1)

/-- Function `luaS_createlngstrobj` (lstring.c:174). -/
def luaS_createlngstrobj (g : global_State) (l : Nat) : TString × global_State :=
  let (ts, g1) := createstrobj g l LUA_TLNGSTR g.seed
  ({ ts with lnglen := l }, g1)

/-- The walk `while (*p != ts) p = &(*p)->u.hnext` of `luaS_remove` followed
by the unlinking `*p = (*p)->u.hnext`; `none` when the walk falls off the chain. -/
def luaS_remove.unlink (ts : TString) : List TString → Option (List TString)
  | [] => none
  | p :: hnext =>
    if p.addr = ts.addr then some hnext
    else (luaS_remove.unlink ts hnext).map (fun c => p :: c)

/-- Function `luaS_remove` (lstring.c:182). -/
def luaS_remove (g : global_State) (ts : TString) : Option global_State :=
  let tb := g.strt
  let i := lmod ts.hash tb.size
  match luaS_remove.unlink ts (tb.hash.getD i []) with
  | none => none
  | some c => some { g with strt := { tb with hash := tb.hash.set i c, nuse := tb.nuse - 1 } }

/-- The search loop of `internshrstr`: the first node of the chain with the
length and the bytes of `str`, resurrected if it is dead, and the chain with
that node updated. -/
def internshrstr.search (g : global_State) (str : List Nat) (l : Nat) :
    List TString → Option (TString × List TString)
  | [] => none
  | ts :: hnext =>
    if l = ts.shrlen ∧ memcmp str ts.bytes l = 0 then
      let ts1 := if isdead g ts then changewhite ts else ts
      some (ts1, ts1 :: hnext)
    else
      match internshrstr.search g str l hnext with
      | none => none
      | some (r, c) => some (r, ts :: c)

/-- The growth step of `internshrstr`: the table doubles when `nuse >= size`
and `size <= MAX_INT/2`. -/
def internshrstr.grow (g : global_State) : global_State :=
  if g.strt.nuse ≥ (g.strt.size : Int) ∧ g.strt.size ≤ MAX_INT / 2 then
    luaS_resize g (g.strt.size * 2)
  else g

/-- The creation step of `internshrstr`: a new short string with the bytes of
`str` and hash `h` is put at the head of the chain of its bucket. -/
def internshrstr.create (g : global_State) (str : List Nat) (l h : Nat) : TString × global_State :=
  let list := lmod h g.strt.size
  let (ts, g1) := createstrobj g l LUA_TSHRSTR h
  let ts1 := { ts with bytes := memcpy ts.bytes str l }
  let ts2 := { ts1 with shrlen := cast_byte l }
  (ts2, { g1 with strt := { g1.strt with
            hash := g1.strt.hash.set list (ts2 :: g1.strt.hash.getD list []),
            nuse := g1.strt.nuse + 1 } })

/-- Function `internshrstr` (lstring.c:195). -/
def internshrstr (g : global_State) (str : List Nat) (l : Nat) : TString × global_State :=
  let h := luaS_hash str l g.seed
  let list := lmod h g.strt.size
  match internshrstr.search g str l (g.strt.hash.getD list []) with
  | some (ts, c) => (ts, { g with strt := { g.strt with hash := g.strt.hash.set list c } })
  | none => internshrstr.create (internshrstr.grow g) str l h

/-- Function `luaS_newlstr` (lstring.c:232). -/
def luaS_newlstr (g : global_State) (str : List Nat) (l : Nat) :
    Except LuaError (TString × global_State) :=
  if l ≤ LUAI_MAXSHORTLEN then
    Except.ok (internshrstr g str l)
  else
    if l ≥ (MAX_SIZE - sizeof_TString) / 1 then
      Except.error LuaError.toobig
    else
      let (ts, g1) := luaS_createlngstrobj g l
      Except.ok ({ ts with bytes := memcpy ts.bytes str l }, g1)

/-! ## lstring.c: initialisation and the cache of `luaS_new` -/

/-- Modelled from the spec: `STRCACHE_N` of `llimits.h` (not among the
sources), the number of rows of the cache; 53 is the value Lua 5.3 ships. -/
def STRCACHE_N : Nat := 53

/-- Modelled from the spec: `STRCACHE_M` of `llimits.h` (not among the
sources), the number of entries of a row of the cache; 2 is the value Lua 5.3
ships. -/
def STRCACHE_M : Nat := 2

/-- Modelled from the spec: `MINSTRTABSIZE` of `llimits.h` (not among the
sources), the initial size of the string table; 128 is the value Lua 5.3
ships. -/
def MINSTRTABSIZE : Nat := 128

/-- The literal `MEMERRMSG` (lstring.c:25), "not enough memory", with its
terminating zero byte. -/
def MEMERRMSG : List Nat :=
  [110, 111, 116, 32, 101, 110, 111, 117, 103, 104, 32, 109, 101, 109, 111, 114, 121, 0]

/-- Modelled from the spec: `point2uint(p)` of `llimits.h` (not among the
sources), the address of a pointer as an `unsigned int`. -/
def point2uint (p : Nat) : Nat := cast_uint p

/-- Function `strlen(s)`: the number of bytes before the first zero byte. -/
def strlen : List Nat → Nat
  | [] => 0
  | c :: s => if c = 0 then 0 else strlen s + 1

/-- Function `strcmp(a, b)`: sign of the first difference, up to and
including the first zero byte (the end of a buffer counts as a zero byte). -/
def strcmp : List Nat → List Nat → Int
  | [], [] => 0
  | [], b :: _ => if b = 0 then 0 else -1
  | a :: _, [] => if a = 0 then 0 else 1
  | a :: as, b :: bs =>
    if a = b then (if a = 0 then 0 else strcmp as bs)
    else if a < b then -1 else 1

/-- Modelled from the spec: `luaC_fix` of `lgc.c` (not among the sources): the
object leaves the all-objects list for the permanently-uncollectible list. -/
def luaC_fix (g : global_State) (o : TString) : global_State :=
  { g with allgc := g.allgc.erase o.addr, fixedgc := o.addr :: g.fixedgc }

/-- Modelled from the spec: `luaS_newliteral(L, s)` of `lstring.h` (not among
the sources): `luaS_newlstr` on the literal `s` and `sizeof(s) - 1`, its
length without the terminating zero byte. -/
def luaS_newliteral (g : global_State) (s : List Nat) :
    Except LuaError (TString × global_State) :=
  luaS_newlstr g s (s.length - 1)

/-- Function `luaS_init` (lstring.c:143). The two loops store `g->memerrmsg`
in every entry of the cache. -/
def luaS_init (g : global_State) : Except LuaError global_State :=
  let g1 := luaS_resize g MINSTRTABSIZE
  match luaS_newliteral g1 MEMERRMSG with
  | Except.error e => Except.error e
  | Except.ok (ts, g2) =>
    let g3 := { g2 with memerrmsg := ts }
    let g4 := luaC_fix g3 g3.memerrmsg
    Except.ok { g4 with
      strcache := (List.range STRCACHE_N).map
        (fun _ => (List.range STRCACHE_M).map (fun _ => g4.memerrmsg)) }

/-- The first loop of `luaS_new`: the first entry `p[j]`, `j < STRCACHE_M`,
with `strcmp(str, getstr(p[j])) == 0`. -/
def luaS_new.hit (str : List Nat) (p : List TString) : Option TString :=
  (List.range STRCACHE_M).findSome?
    (fun j => match p[j]? with
      | some ts => if strcmp str ts.bytes = 0 then some ts else none
      | none => none)

/-- The second loop of `luaS_new`: `for (j = STRCACHE_M - 1; j > 0; j--)
p[j] = p[j - 1]`. -/
def luaS_new.shift (p : List TString) : List TString :=
  ((List.range' 1 (STRCACHE_M - 1)).reverse).foldl
    (fun q j => match q[j - 1]? with
      | some ts => q.set j ts
      | none => q) p

/-- Function `luaS_new` (lstring.c:253): `str_addr` is the address of the
string `str`, the key of the cache. -/
def luaS_new (g : global_State) (str_addr : Nat) (str : List Nat) :
    Except LuaError (TString × global_State) :=
  let i := point2uint str_addr % STRCACHE_N
  match luaS_new.hit str (g.strcache.getD i []) with
  | some ts => Except.ok (ts, g)
  | none =>
    let g1 := { g with strcache := g.strcache.set i (luaS_new.shift (g.strcache.getD i [])) }
    match luaS_newlstr g1 str (strlen str) with
    | Except.error e => Except.error e
    | Except.ok (ts, g2) =>
      Except.ok (ts, { g2 with
        strcache := g2.strcache.set i ((g2.strcache.getD i []).set 0 ts) })

/-! ## lfunc.c: upvalues -/

/-- Target of the pointer `UpVal.v`: a slot of the stack of the thread
(`stack level` is `L->stack + level`) or the upvalue's own storage
`&uv->u.value`. -/
inductive VPtr where
  | stack (level : Nat)
  | own
  deriving DecidableEq, Repr

/-- The union `UpVal.u`: `open` (the list link `next` is the position in
`lua_State.openupval`, `touched` is kept) or `value`. -/
inductive UpValU where
  | open_ (touched : Int)
  | value (val : TValue)
  deriving DecidableEq, Repr

/-- Modelled from the spec: `struct UpVal` of `lfunc.h` (not among the
sources), with the fields lfunc.c uses: `v`, `refcount` and the union `u`. -/
structure UpVal where
  v : VPtr
  refcount : Nat
  u : UpValU
  deriving DecidableEq, Repr

/-- Type `lua_State` (lstate.h), the fields used by lfunc.c. `self` is the address
of the thread; `openupval` is the list of the addresses of its open upvalues,
first node first; `twups` is the link in the list of threads with open
upvalues (a thread that is not in that list points to itself). -/
structure lua_State where
  self : Nat := 0
  stack : List TValue := []
  openupval : List Nat := []
  twups : Option Nat := none
  deriving DecidableEq, Repr

/-- The state the functions of lfunc.c work on: the thread `L`, its global
state `G(L)`, and the `UpVal` blocks handed out by `luaM_new`, indexed by
address (`none` is a freed block). -/
structure Machine where
  g : global_State := {}
  L : lua_State := {}
  upvals : List (Option UpVal) := []
  deriving DecidableEq, Repr

/-- Modelled from the spec: `isintwups(L)` of `lfunc.h` (not among the
sources): the thread is registered on the process-wide list, `L->twups != L`. -/
def isintwups (L : lua_State) : Bool := L.twups != some L.self

/-- Modelled from the spec: `upisopen(up)` of `lfunc.h` (not among the
sources): `up->v != &up->u.value`. -/
def upisopen (up : UpVal) : Bool := up.v != VPtr.own

/-- The block at address `a`, if it is allocated. -/
def Machine.upval (m : Machine) (a : Nat) : Option UpVal := (m.upvals.getD a none)

/-- Result of the scan of `luaF_findupval`: the upvalue found, or the link
`pp` at which a new one goes, as the number of nodes before it. -/
inductive Scan where
  | found (p : Nat)
  | notfound (pp : Nat)
  deriving DecidableEq, Repr

/-- The scan `while (*pp != NULL && (p = *pp)->v >= level)` of
`luaF_findupval`, over the list from `*pp` on; `k` nodes have been passed.
`none` when a node is not an allocated open upvalue. -/
def luaF_findupval.scan (upvals : List (Option UpVal)) (level : Nat) :
    List Nat → Nat → Option Scan
  | [], k => some (Scan.notfound k)
  | p :: next, k =>
    match upvals.getD p none with
    | none => none
    | some uv =>
      match uv.v with
      | VPtr.own => none
      | VPtr.stack lv =>
        if lv ≥ level then
          if lv = level then some (Scan.found p)
          else luaF_findupval.scan upvals level next (k + 1)
        else some (Scan.notfound k)

/-- Function `luaF_findupval` (lfunc.c:70): returns the address of the upvalue and the
new state. -/
def luaF_findupval (m : Machine) (level : Nat) : Option (Nat × Machine) :=
  match luaF_findupval.scan m.upvals level m.L.openupval 0 with
  | none => none
  | some (Scan.found p) => some (p, m)
  | some (Scan.notfound pp) =>
    let uv := m.upvals.length
    let new : UpVal := { refcount := 0, u := UpValU.open_ 1, v := VPtr.stack level }
    let upvals1 := m.upvals ++ [some new]
    let openupval1 := m.L.openupval.take pp ++ uv :: m.L.openupval.drop pp
    let L1 := { m.L with openupval := openupval1 }
    if !isintwups L1 then
      some (uv, { g := { m.g with twups := some L1.self },
                  L := { L1 with twups := m.g.twups },
                  upvals := upvals1 })
    else
      some (uv, { m with L := L1, upvals := upvals1 })

/-- The loop of `luaF_close` over the open list: returns the blocks, the
remaining open list, and the addresses of the upvalues it unlinked, in the
order in which it handled them. `none` when a node is not an allocated open
upvalue aliasing a slot of the stack. -/
def luaF_close.loop (stack : List TValue) (level : Nat) :
    List (Option UpVal) → List Nat → Option (List (Option UpVal) × List Nat × List Nat)
  | upvals, [] => some (upvals, [], [])
  | upvals, uv :: next =>
    match upvals.getD uv none with
    | none => none
    | some o =>
      match o.v with
      | VPtr.own => none
      | VPtr.stack lv =>
        if lv ≥ level then
          if o.refcount = 0 then
            (luaF_close.loop stack level (upvals.set uv none) next).map
              (fun r => (r.1, r.2.1, uv :: r.2.2))
          else
            match stack[lv]? with
            | none => none
            | some val =>
              (luaF_close.loop stack level
                (upvals.set uv (some { o with u := UpValU.value val, v := VPtr.own })) next).map
                (fun r => (r.1, r.2.1, uv :: r.2.2))
        else some (upvals, uv :: next, [])

/-- Function `luaF_close` (lfunc.c:106). The write barrier `luaC_upvalbarrier` only
touches collector marks, which this state does not hold. -/
def luaF_close (m : Machine) (level : Nat) : Option Machine :=
  (luaF_close.loop m.L.stack level m.upvals m.L.openupval).map
    (fun r => { m with L := { m.L with openupval := r.2.1 }, upvals := r.1 })

/-- The addresses of the upvalues `luaF_close` unlinks, in the order in which
it handles them. -/
def luaF_close.order (m : Machine) (level : Nat) : Option (List Nat) :=
  (luaF_close.loop m.L.stack level m.upvals m.L.openupval).map (fun r => r.2.2)

/-- Reading `*uv->v`, the value a closure holding the upvalue at address `a`
observes. -/
def Machine.getupval (m : Machine) (a : Nat) : Option TValue :=
  match m.upval a with
  | none => none
  | some uv =>
    match uv.v with
    | VPtr.stack lv => m.L.stack[lv]?
    | VPtr.own =>
      match uv.u with
      | UpValU.value val => some val
      | UpValU.open_ _ => none

/-- Writing `*uv->v = val` through the upvalue at address `a`. -/
def Machine.setupval (m : Machine) (a : Nat) (val : TValue) : Option Machine :=
  match m.upval a with
  | none => none
  | some uv =>
    match uv.v with
    | VPtr.stack lv =>
      if lv < m.L.stack.length then
        some { m with L := { m.L with stack := m.L.stack.set lv val } }
      else none
    | VPtr.own =>
      match uv.u with
      | UpValU.value _ => some { m with upvals := m.upvals.set a (some { uv with u := UpValU.value val }) }
      | UpValU.open_ _ => none

/-! ## lfunc.c: closures -/

/-- Type `LClosure` (lobject.h): `p` is the prototype (`none` is `NULL`) and
`upvals` the array of pointers to upvalues (`none` is `NULL`). -/
structure LClosure where
  addr : Nat := 0
  tt : Nat := 0
  marked : Nat := 0
  nupvalues : Nat := 0
  p : Option Nat := none
  upvals : List (Option Nat) := []
  deriving DecidableEq, Repr

/-- Function `luaF_newLclosure` (lfunc.c:40), for `n >= 0`. The block
`luaC_newobj` hands out has room for `n` upvalue pointers; the loop
`while (n--) c->upvals[n] = NULL` stores `NULL` at the indices `n-1` down to 0. -/
def luaF_newLclosure (m : Machine) (n : Nat) : LClosure × Machine :=
  let (o, marked, g1) := luaC_newobj m.g
  let c : LClosure := { addr := o, tt := LUA_TLCL, marked := marked,
                        upvals := List.replicate n none }
  let c1 := { c with p := none }
  let c2 := { c1 with nupvalues := cast_byte n }
  ((List.range n).reverse.foldl (fun c i => { c with upvals := c.upvals.set i none }) c2,
   { m with g := g1 })

/-- One iteration of the loop of `luaF_initupvals`: a new block with
`refcount = 1`, `v = &uv->u.value` (closed) and the value set to nil is stored
in `cl->upvals[i]`. -/
def luaF_initupvals.step (st : LClosure × Machine) (i : Nat) : LClosure × Machine :=
  let uv := st.2.upvals.length
  let new : UpVal := { refcount := 1, v := VPtr.own, u := UpValU.value { tt_ := LUA_TNIL } }
  ({ st.1 with upvals := st.1.upvals.set i (some uv) },
   { st.2 with upvals := st.2.upvals ++ [some new] })

/-- Function `luaF_initupvals` (lfunc.c:53): `for (i = 0; i < cl->nupvalues; i++)`. -/
def luaF_initupvals (m : Machine) (cl : LClosure) : LClosure × Machine :=
  (List.range cl.nupvalues).foldl luaF_initupvals.step (cl, m)

/-! ## lfunc.c: prototypes -/

/-- Type `LocVar` (lobject.h); `varname` is a pointer, `none` is `NULL` (the
loader of lundump.c stores what `LoadString` returns). -/
structure LocVar where
  varname : Option TString := none
  startpc : Int := 0
  endpc : Int := 0
  deriving DecidableEq, Repr

/-- Type `Upvaldesc` (lobject.h); `name` is a pointer, `none` is `NULL`. -/
structure Upvaldesc where
  name : Option TString := none
  instack : Nat := 0
  idx : Nat := 0
  deriving DecidableEq, Repr

/-- Type `Proto` (lobject.h). The arrays are lists and the sizes their element
counts; `p` holds pointers to prototypes and `cache` a pointer to a closure
(`none` is `NULL`); a float constant is kept as its bit pattern. -/
structure Proto where
  addr : Nat := 0
  tt : Nat := 0
  marked : Nat := 0
  numparams : Nat := 0
  is_vararg : Nat := 0
  maxstacksize : Nat := 0
  sizeupvalues : Nat := 0
  sizek : Nat := 0
  sizecode : Nat := 0
  sizelineinfo : Nat := 0
  sizep : Nat := 0
  sizelocvars : Nat := 0
  linedefined : Int := 0
  lastlinedefined : Int := 0
  k : List TValue := []
  code : List Nat := []
  p : List (Option Nat) := []
  lineinfo : List Int := []
  locvars : List LocVar := []
  upvalues : List Upvaldesc := []
  cache : Option Nat := none
  source : Option TString := none
  deriving DecidableEq, Repr

/-- Function `luaF_newproto` (lfunc.c:122): a new prototype with every size 0
and every pointer `NULL`. -/
def luaF_newproto (g : global_State) : Proto × global_State :=
  let (o, marked, g1) := luaC_newobj g
  ({ addr := o, tt := LUA_TPROTO, marked := marked,
     k := [], sizek := 0, p := [], sizep := 0, code := [], cache := none, sizecode := 0,
     lineinfo := [], sizelineinfo := 0, upvalues := [], sizeupvalues := 0, numparams := 0,
     is_vararg := 0, maxstacksize := 0, locvars := [], sizelocvars := 0, linedefined := 0,
     lastlinedefined := 0, source := none }, g1)

/-- Macro `getstr(ts)` (lobject.h) on a pointer that may be `NULL`: the bytes
that follow the header of the string. For `NULL` C computes an address that
must not be read; it is rendered as no bytes. -/
def getstr (ts : Option TString) : List Nat := (ts.map TString.bytes).getD []

/-- The loop of `luaF_getlocalname` over the entries `locvars[i]`, `i <
sizelocvars`: it stops at the first entry with `startpc > pc`, counts down
`local_number` at every entry with `pc < endpc`, and returns the name
`getstr(varname)` when the count reaches 0. -/
def luaF_getlocalname.loop (pc : Int) : List LocVar → Int → Option (List Nat)
  | [], _ => none
  | v :: rest, local_number =>
    if v.startpc ≤ pc then
      if pc < v.endpc then
        if local_number - 1 = 0 then some (getstr v.varname)
        else luaF_getlocalname.loop pc rest (local_number - 1)
      else luaF_getlocalname.loop pc rest local_number
    else none

/-- Function `luaF_getlocalname` (lfunc.c:163); `none` is `NULL`. -/
def luaF_getlocalname (f : Proto) (local_number pc : Int) : Option (List Nat) :=
  luaF_getlocalname.loop pc (f.locvars.take f.sizelocvars) local_number

/-! ## lundump.c: the state of a load -/

/-- Modelled from the spec: `sizeof(int)` of the platform, 4 bytes. -/
def sizeof_int : Nat := 4

/-- Modelled from the spec: `sizeof(size_t)` of the platform, 8 bytes (as for
`MAX_SIZE`). -/
def sizeof_size_t : Nat := 8

/-- Modelled from the spec: `sizeof(Instruction)` (`llimits.h`, not among the
sources), 4 bytes. -/
def sizeof_Instruction : Nat := 4

/-- Modelled from the spec: `sizeof(lua_Integer)` (`luaconf.h`, not among the
sources), 8 bytes. -/
def sizeof_lua_Integer : Nat := 8

/-- Modelled from the spec: `sizeof(lua_Number)` (`luaconf.h`, not among the
sources), 8 bytes. -/
def sizeof_lua_Number : Nat := 8

/-- Modelled from the spec: `LUA_SIGNATURE` of `lua.h` (not among the
sources), the C string "\x1bLua". -/
def LUA_SIGNATURE : List Nat := [27, 76, 117, 97, 0]

/-- Modelled from the spec: `LUAC_VERSION` of `lundump.h` (not among the
sources), major version times 16 plus minor version, 0x53 for Lua 5.3. -/
def LUAC_VERSION : Nat := 5 * 16 + 3

/-- Modelled from the spec: `LUAC_FORMAT` of `lundump.h` (not among the
sources), 0 for the official format. -/
def LUAC_FORMAT : Nat := 0

/-- Modelled from the spec: `LUAC_DATA` of `lundump.h` (not among the
sources), the C string "\x19\x93\r\n\x1a\n". -/
def LUAC_DATA : List Nat := [0x19, 0x93, 13, 10, 0x1a, 10, 0]

/-- Modelled from the spec: `LUAC_INT` of `lundump.h` (not among the sources). -/
def LUAC_INT : Int := 0x5678

/-- Modelled from the spec: `LUAC_NUM` of `lundump.h` (not among the
sources), the double 370.5, as its IEEE 754 bit pattern. -/
def LUAC_NUM : Nat := 0x4077280000000000

/-- Type `LoadState` (lundump.c:32) together with what its pointers reach:
`g` is `G(S->L)`, `stack` the slots of `S->L` below `top`, `closures` and
`protos` the `LClosure` and `Proto` objects (a pointer to one is its position
in the list), `strs` the string objects `LoadString` has returned (a cell of
a constant holds the address of one), `Z` the bytes the stream `S->Z` still
delivers, and `name` is `S->name`. -/
structure LoadState where
  g : global_State := {}
  stack : List TValue := []
  closures : List LClosure := []
  protos : List Proto := []
  strs : List TString := []
  Z : List Nat := []
  name : String := ""
  deriving DecidableEq, Repr

/-- Outcome of a step of the loader: a value, an error raised through
`luaD_throw` (with the state at the throw), behaviour that C leaves undefined
(a `NULL` pointer dereferenced, an array written out of bounds), or the end
of the recursion budget of the embedding. -/
inductive LoadResult (α : Type) where
  | ok (x : α) (S : LoadState)
  | throw (e : LuaError) (S : LoadState)
  | undefined (S : LoadState)
  | fuel
  deriving DecidableEq, Repr

/-- A step of the loader, from the state before it to its outcome. -/
def Load (α : Type) : Type := LoadState → LoadResult α

/-- The step that returns `x` and leaves the state as it is. -/
def Load.pure {α : Type} (x : α) : Load α := fun S => LoadResult.ok x S

/-- Sequencing: `f` runs on the value and the state `m` ends with; an error
of `m` ends the sequence. -/
def Load.bind {α β : Type} (m : Load α) (f : α → Load β) : Load β := fun S =>
  match m S with
  | LoadResult.ok x S1 => f x S1
  | LoadResult.throw e S1 => LoadResult.throw e S1
  | LoadResult.undefined S1 => LoadResult.undefined S1
  | LoadResult.fuel => LoadResult.fuel

instance : Monad Load where
  pure := Load.pure
  bind := Load.bind

/-- A step that changes the state. -/
def Load.modify (f : LoadState → LoadState) : Load Unit := fun S => LoadResult.ok () (f S)

/-- A step whose behaviour C leaves undefined. -/
def Load.undefined {α : Type} : Load α := fun S => LoadResult.undefined S

/-- Reading the object `*f` of a pointer to a prototype. -/
def Load.getProto (f : Nat) : Load Proto := fun S =>
  match S.protos[f]? with
  | some p => LoadResult.ok p S
  | none => LoadResult.undefined S

/-- Writing fields of the object `*f` of a pointer to a prototype. -/
def Load.setProto (f : Nat) (upd : Proto → Proto) : Load Unit := fun S =>
  match S.protos[f]? with
  | some p => LoadResult.ok () { S with protos := S.protos.set f (upd p) }
  | none => LoadResult.undefined S

/-- The call `luaF_newproto(S->L)`: the new object goes to the end of
`protos`. -/
def Load.newproto : Load Nat := fun S =>
  let (p, g1) := luaF_newproto S.g
  LoadResult.ok S.protos.length { S with g := g1, protos := S.protos ++ [p] }

/-- The call `luaS_newlstr(S->L, str, l)`. -/
def Load.newlstr (str : List Nat) (l : Nat) : Load TString := fun S =>
  match luaS_newlstr S.g str l with
  | Except.ok (ts, g1) => LoadResult.ok ts { S with g := g1 }
  | Except.error e => LoadResult.throw e S

/-- The call `luaS_createlngstrobj(S->L, l)`. -/
def Load.createlngstrobj (l : Nat) : Load TString := fun S =>
  let (ts, g1) := luaS_createlngstrobj S.g l
  LoadResult.ok ts { S with g := g1 }

/-! ## lundump.c: the loader -/

/-- Function `error` (lundump.c:39). Modelled from the spec: `luaO_pushfstring`
(lobject.c) and `luaD_throw` (ldo.c) are not among the sources; the message
formatted from "%s: %s precompiled chunk" is the value the syntax error
carries, and the stack slots the formatting uses are not represented. -/
def error {α : Type} (why : String) : Load α := fun S =>
  LoadResult.throw (LuaError.malformed (S.name ++ ": " ++ why ++ " precompiled chunk")) S

/-- Modelled from the spec: `luaZ_read(z, b, n)` of lzio.c (not among the
sources): the stream delivers its next `n` bytes, or those it has left, and
the call returns the number of bytes it could not deliver. -/
def luaZ_read (n : Nat) : Load (List Nat × Nat) := fun S =>
  LoadResult.ok (S.Z.take n, n - S.Z.length) { S with Z := S.Z.drop n }

/-- Function `LoadBlock` (lundump.c:51); the value is the buffer `b`. -/
def LoadBlock (size : Nat) : Load (List Nat) := do
  let r ← luaZ_read size
  if r.2 != 0 then error "truncated" else pure r.1

/-- The unsigned value of an object whose bytes, lowest first, are `b` (the
platform is little-endian). -/
def uintLE : List Nat → Nat
  | [] => 0
  | x :: xs => x + 256 * uintLE xs

/-- The signed (two's complement) value of an object of `w` bytes. -/
def sintLE (w : Nat) (b : List Nat) : Int :=
  if uintLE b < 2 ^ (8 * w - 1) then (uintLE b : Int) else (uintLE b : Int) - 2 ^ (8 * w)

/-- The `n` elements of `w` bytes each that `LoadVector` has put in an array. -/
def decodeVector (w : Nat) : Nat → List Nat → List (List Nat)
  | 0, _ => []
  | n + 1, b => b.take w :: decodeVector w n (b.drop w)

/-- Function `LoadByte` (lundump.c:60). -/
def LoadByte : Load Nat := do
  let b ← LoadBlock 1
  pure (uintLE b)

/-- Function `LoadInt` (lundump.c:67). -/
def LoadInt : Load Int := do
  let b ← LoadBlock sizeof_int
  pure (sintLE sizeof_int b)

/-- Function `LoadNumber` (lundump.c:74); the value is the bit pattern. -/
def LoadNumber : Load Nat := do
  let b ← LoadBlock sizeof_lua_Number
  pure (uintLE b)

/-- Function `LoadInteger` (lundump.c:81). -/
def LoadInteger : Load Int := do
  let b ← LoadBlock sizeof_lua_Integer
  pure (sintLE sizeof_lua_Integer b)

/-- Function `LoadString` (lundump.c:88); `none` is `NULL`. -/
def LoadString : Load (Option TString) := do
  let b ← LoadByte
  let size ← (if b = 0xFF then do
      let v ← LoadBlock sizeof_size_t
      pure (uintLE v)
    else pure b)
  if size = 0 then pure none
  else if size - 1 ≤ LUAI_MAXSHORTLEN then do
    let buff ← LoadBlock (size - 1)
    let ts ← Load.newlstr buff (size - 1)
    Load.modify (fun S => { S with strs := ts :: S.strs })
    pure (some ts)
  else do
    let ts ← Load.createlngstrobj (size - 1)
    let v ← LoadBlock (size - 1)
    let ts1 : TString := { ts with bytes := memcpy ts.bytes v (size - 1) }
    Load.modify (fun S => { S with strs := ts1 :: S.strs })
    pure (some ts1)

/-- Modelled from the spec: `luaM_newvector(L, n, t)` of lmem.h (not among
the sources) for an `int` count `n`: the allocation succeeds for `n >= 0`; a
negative count converts to a size no allocator hands out, and the
out-of-memory error is raised. -/
def luaM_newvector (n : Int) : Load Unit := fun S =>
  if n < 0 then LoadResult.throw LuaError.memory S else LoadResult.ok () S

/-- Function `LoadCode` (lundump.c:111). -/
def LoadCode (f : Nat) : Load Unit := do
  let n ← LoadInt
  luaM_newvector n
  Load.setProto f (fun p => { p with code := List.replicate n.toNat 0 })
  Load.setProto f (fun p => { p with sizecode := n.toNat })
  let b ← LoadBlock (n.toNat * sizeof_Instruction)
  Load.setProto f (fun p =>
    { p with code := (decodeVector sizeof_Instruction n.toNat b).map uintLE })

/-- Macro `setnilvalue(obj)` (lobject.h): only the tag is written. -/
def setnilvalue (o : TValue) : TValue := { o with tt_ := LUA_TNIL }

/-- Macro `setbvalue(obj,x)` (lobject.h). -/
def setbvalue (x : Int) : TValue := { value_ := Value.b x, tt_ := LUA_TBOOLEAN }

/-- Macro `setfltvalue(obj,x)` (lobject.h). -/
def setfltvalue (x : Nat) : TValue := { value_ := Value.n x, tt_ := LUA_TNUMFLT }

/-- Macro `setivalue(obj,x)` (lobject.h). -/
def setivalue (x : Int) : TValue := { value_ := Value.i x, tt_ := LUA_TNUMINT }

/-- Macro `setsvalue(L,obj,x)` (lobject.h): `val_(io).gc = obj2gco(x_)` and
`settt_(io, ctb(x_->tt))`. -/
def setsvalue (x : TString) : TValue := { value_ := Value.gc x.addr, tt_ := ctb x.tt }

/-- Macro `setclLvalue(L,obj,x)` (lobject.h). -/
def setclLvalue (x : LClosure) : TValue := { value_ := Value.gc x.addr, tt_ := ctb LUA_TLCL }

/-- Writing the cell `f->k[i]`. -/
def Load.setk (f i : Nat) (upd : TValue → TValue) : Load Unit := fun S =>
  match S.protos[f]? with
  | some p =>
    match p.k[i]? with
    | some o => LoadResult.ok () { S with protos := S.protos.set f { p with k := p.k.set i (upd o) } }
    | none => LoadResult.undefined S
  | none => LoadResult.undefined S

/-- The second loop of `LoadConstants`, with `r` cells left from index `i`
on. In the `default` case `lua_assert(0)` is compiled out and nothing is
done; `setsvalue2n` on the `NULL` that `LoadString` returns for size 0 reads
`x_->tt` through a `NULL` pointer. -/
def LoadConstants.loop (f : Nat) : Nat → Nat → Load Unit
  | 0, _ => pure ()
  | r + 1, i => do
    let t ← LoadByte
    (if t = LUA_TNIL then
      Load.setk f i setnilvalue
    else if t = LUA_TBOOLEAN then do
      let x ← LoadByte
      Load.setk f i (fun _ => setbvalue x)
    else if t = LUA_TNUMFLT then do
      let x ← LoadNumber
      Load.setk f i (fun _ => setfltvalue x)
    else if t = LUA_TNUMINT then do
      let x ← LoadInteger
      Load.setk f i (fun _ => setivalue x)
    else if t = LUA_TSHRSTR ∨ t = LUA_TLNGSTR then do
      let s ← LoadString
      match s with
      | some ts => Load.setk f i (fun _ => setsvalue ts)
      | none => Load.undefined
    else pure ())
    LoadConstants.loop f r (i + 1)

/-- Function `LoadConstants` (lundump.c:124). -/
def LoadConstants (f : Nat) : Load Unit := do
  let n ← LoadInt
  luaM_newvector n
  Load.setProto f (fun p => { p with k := List.replicate n.toNat {} })
  Load.setProto f (fun p => { p with sizek := n.toNat })
  Load.setProto f (fun p => { p with k := p.k.map setnilvalue })
  LoadConstants.loop f n.toNat 0

/-- The second loop of `LoadProtos`, with `r` entries left from index `i` on;
`LoadFunction` is the function declared ahead of `LoadConstants`. An index
past the array `f->p` is a write out of bounds. -/
def LoadProtos.loop (LoadFunction : Nat → Option TString → Load Unit) (f : Nat) :
    Nat → Nat → Load Unit
  | 0, _ => pure ()
  | r + 1, i => do
    let c ← Load.newproto
    let pf ← Load.getProto f
    (if i < pf.p.length then Load.setProto f (fun p => { p with p := p.p.set i (some c) })
     else Load.undefined)
    let pf1 ← Load.getProto f
    LoadFunction c pf1.source
    LoadProtos.loop LoadFunction f r (i + 1)

/-- Function `LoadProtos` (lundump.c:161). -/
def LoadProtos (LoadFunction : Nat → Option TString → Load Unit) (f : Nat) : Load Unit := do
  let n ← LoadInt
  luaM_newvector n
  Load.setProto f (fun p => { p with p := List.replicate n.toNat none })
  Load.setProto f (fun p => { p with sizep := n.toNat })
  Load.setProto f (fun p => { p with p := p.p.map (fun _ => none) })
  LoadProtos.loop LoadFunction f n.toNat 0

/-- The second loop of `LoadUpvalues`, with `r` entries left from index `i` on. -/
def LoadUpvalues.loop (f : Nat) : Nat → Nat → Load Unit
  | 0, _ => pure ()
  | r + 1, i => do
    let a ← LoadByte
    let pf ← Load.getProto f
    (match pf.upvalues[i]? with
     | some u => Load.setProto f (fun p => { p with upvalues := p.upvalues.set i { u with instack := a } })
     | none => Load.undefined)
    let b ← LoadByte
    let pf1 ← Load.getProto f
    (match pf1.upvalues[i]? with
     | some u => Load.setProto f (fun p => { p with upvalues := p.upvalues.set i { u with idx := b } })
     | none => Load.undefined)
    LoadUpvalues.loop f r (i + 1)

/-- Function `LoadUpvalues` (lundump.c:177). -/
def LoadUpvalues (f : Nat) : Load Unit := do
  let n ← LoadInt
  luaM_newvector n
  Load.setProto f (fun p => { p with upvalues := List.replicate n.toNat {} })
  Load.setProto f (fun p => { p with sizeupvalues := n.toNat })
  Load.setProto f (fun p =>
    { p with upvalues := p.upvalues.map (fun u => { u with name := none }) })
  LoadUpvalues.loop f n.toNat 0

/-- The loop of `LoadDebug` over the local variables, with `r` entries left
from index `i` on. -/
def LoadDebug.locvars (f : Nat) : Nat → Nat → Load Unit
  | 0, _ => pure ()
  | r + 1, i => do
    let s ← LoadString
    let pf ← Load.getProto f
    (match pf.locvars[i]? with
     | some v => Load.setProto f (fun p => { p with locvars := p.locvars.set i { v with varname := s } })
     | none => Load.undefined)
    let a ← LoadInt
    let pf1 ← Load.getProto f
    (match pf1.locvars[i]? with
     | some v => Load.setProto f (fun p => { p with locvars := p.locvars.set i { v with startpc := a } })
     | none => Load.undefined)
    let b ← LoadInt
    let pf2 ← Load.getProto f
    (match pf2.locvars[i]? with
     | some v => Load.setProto f (fun p => { p with locvars := p.locvars.set i { v with endpc := b } })
     | none => Load.undefined)
    LoadDebug.locvars f r (i + 1)

/-- The loop of `LoadDebug` over the names of the upvalues, with `r` names
left from index `i` on. The count is not compared with `f->sizeupvalues`: an
index past the array `f->upvalues` is a write out of bounds. -/
def LoadDebug.upvalues (f : Nat) : Nat → Nat → Load Unit
  | 0, _ => pure ()
  | r + 1, i => do
    let s ← LoadString
    let pf ← Load.getProto f
    (match pf.upvalues[i]? with
     | some u => Load.setProto f (fun p => { p with upvalues := p.upvalues.set i { u with name := s } })
     | none => Load.undefined)
    LoadDebug.upvalues f r (i + 1)

/-- Function `LoadDebug` (lundump.c:191). -/
def LoadDebug (f : Nat) : Load Unit := do
  let n ← LoadInt
  luaM_newvector n
  Load.setProto f (fun p => { p with lineinfo := List.replicate n.toNat 0 })
  Load.setProto f (fun p => { p with sizelineinfo := n.toNat })
  let b ← LoadBlock (n.toNat * sizeof_int)
  Load.setProto f (fun p =>
    { p with lineinfo := (decodeVector sizeof_int n.toNat b).map (sintLE sizeof_int) })
  let n1 ← LoadInt
  luaM_newvector n1
  Load.setProto f (fun p => { p with locvars := List.replicate n1.toNat {} })
  Load.setProto f (fun p => { p with sizelocvars := n1.toNat })
  Load.setProto f (fun p =>
    { p with locvars := p.locvars.map (fun v => { v with varname := none }) })
  LoadDebug.locvars f n1.toNat 0
  let n2 ← LoadInt
  LoadDebug.upvalues f n2.toNat 0

/-- Function `LoadFunction` (lundump.c:215). The first argument bounds the
depth of nested function records; with none left the outcome is `fuel`. -/
def LoadFunction : Nat → Nat → Option TString → Load Unit
  | 0, _, _ => fun _ => LoadResult.fuel
  | fuel + 1, f, psource => do
    let s ← LoadString
    Load.setProto f (fun p => { p with source := s })
    (if s = none then Load.setProto f (fun p => { p with source := psource }) else pure ())
    let a ← LoadInt
    Load.setProto f (fun p => { p with linedefined := a })
    let b ← LoadInt
    Load.setProto f (fun p => { p with lastlinedefined := b })
    let c ← LoadByte
    Load.setProto f (fun p => { p with numparams := c })
    let d ← LoadByte
    Load.setProto f (fun p => { p with is_vararg := d })
    let e ← LoadByte
    Load.setProto f (fun p => { p with maxstacksize := e })
    LoadCode f
    LoadConstants f
    LoadUpvalues f
    LoadProtos (LoadFunction fuel) f
    LoadDebug f

/-- Function `checkliteral` (lundump.c:232). -/
def checkliteral (s : List Nat) (msg : String) : Load Unit := do
  let len := strlen s
  let buff ← LoadBlock len
  if memcmp s buff len != 0 then error msg else pure ()

/-- Function `fchecksize` (lundump.c:241); the reason is the string
`luaO_pushfstring` formats from "%s size mismatch in". -/
def fchecksize (size : Nat) (tname : String) : Load Unit := do
  let b ← LoadByte
  if b != size then error (tname ++ " size mismatch in") else pure ()

/-- Comparison `a == b` of two values of type `double`, given by their bit
patterns (IEEE 754): false when one is a NaN, true for two zeros, and the
equality of the patterns otherwise. -/
def luai_numeq (a b : Nat) : Bool :=
  let nan := fun (x : Nat) => (x / 2 ^ 52) % 2 ^ 11 == 2 ^ 11 - 1 && x % 2 ^ 52 != 0
  let zero := fun (x : Nat) => x % 2 ^ 63 == 0
  if nan a || nan b then false
  else if zero a && zero b then true
  else a == b

/-- Function `checkHeader` (lundump.c:290). -/
def checkHeader : Load Unit := do
  checkliteral (LUA_SIGNATURE.drop 1) "not a"
  let v ← LoadByte
  (if v != LUAC_VERSION then error "version mismatch in" else pure ())
  let fmt ← LoadByte
  (if fmt != LUAC_FORMAT then error "format mismatch in" else pure ())
  checkliteral LUAC_DATA "corrupted"
  fchecksize sizeof_int "int"
  fchecksize sizeof_size_t "size_t"
  fchecksize sizeof_Instruction "Instruction"
  fchecksize sizeof_lua_Integer "lua_Integer"
  fchecksize sizeof_lua_Number "lua_Number"
  let i ← LoadInteger
  (if i != LUAC_INT then error "endianness mismatch in" else pure ())
  let n ← LoadNumber
  (if !luai_numeq n LUAC_NUM then error "float format mismatch in" else pure ())

/-- The call `luaF_newLclosure(L, n)`: the new object goes to the end of
`closures`. -/
def Load.newLclosure (n : Nat) : Load Nat := fun S =>
  let r := luaF_newLclosure { g := S.g } n
  LoadResult.ok S.closures.length { S with g := r.2.g, closures := S.closures ++ [r.1] }

/-- The statements `setclLvalue(L, L->top, cl); luaD_inctop(L)`. Modelled from
the spec: `luaD_inctop` of ldo.c is not among the sources; the stack has room
for the slot. -/
def Load.pushclosure (cl : Nat) : Load Unit := fun S =>
  match S.closures[cl]? with
  | some c => LoadResult.ok () { S with stack := S.stack ++ [setclLvalue c] }
  | none => LoadResult.undefined S

/-- The assignment `cl->p = p`. -/
def Load.setclp (cl p : Nat) : Load Unit := fun S =>
  match S.closures[cl]? with
  | some c => LoadResult.ok () { S with closures := S.closures.set cl { c with p := some p } }
  | none => LoadResult.undefined S

/-- The name `S.name` that `luaU_undump` derives from the chunk name. -/
def luaU_undump.name (name : String) : String :=
  match name.data with
  | [] => name
  | c :: rest =>
    if c = '@' ∨ c = '=' then String.mk rest
    else if c.toNat = LUA_SIGNATURE.headD 0 then "binary string"
    else name

/-- The statements of `luaU_undump` from `checkHeader(&S)` on, with the bound
`fuel` on the depth of nested function records. -/
def luaU_undump.steps (fuel : Nat) : Load Nat := do
  checkHeader
  let n ← LoadByte
  let cl ← Load.newLclosure n
  Load.pushclosure cl
  let p ← Load.newproto
  Load.setclp cl p
  LoadFunction fuel p none
  pure cl

/-- Function `luaU_undump` (lundump.c:315) on the thread and stream of `S`;
the value is the pointer to the closure. The bound on the depth of nested
function records, one more than the number of bytes of the stream, is never
reached. -/
def luaU_undump (S : LoadState) (name : String) : LoadResult Nat :=
  luaU_undump.steps (S.Z.length + 1) { S with name := luaU_undump.name name }

/-! ## Well-formedness -/

/-- The bytes of a string: the first `tsslen(ts)` bytes of `getstr(ts)`. -/
def TString.contents (ts : TString) : List Nat := ts.bytes.take (tsslen ts)

/-- A long string object: tagged `LUA_TLNGSTR`, with a buffer of `lnglen + 1` bytes. -/
def IsLngStr (ts : TString) : Prop :=
  ts.tt = LUA_TLNGSTR ∧ ts.bytes.length = ts.lnglen + 1

/-- A short string object of a state: tagged `LUA_TSHRSTR`, within the
threshold, with a buffer of `shrlen + 1` bytes, and carrying the seeded hash
of its bytes. -/
def IsShrStr (g : global_State) (ts : TString) : Prop :=
  ts.tt = LUA_TSHRSTR ∧ ts.shrlen ≤ LUAI_MAXSHORTLEN ∧ ts.bytes.length = ts.shrlen + 1 ∧
    ts.hash = luaS_hash ts.bytes ts.shrlen g.seed

/-- Well-formedness of the string table of a global state: the size is a
power of two within `int`, the bucket array has that many buckets, `nuse`
counts the chained nodes, every node is a short string chained in the bucket
of its hash, no two nodes have the same bytes or the same address, and the
current white is one of the two whites. -/
structure WF (g : global_State) : Prop where
  size_pow : ∃ k, g.strt.size = 2 ^ k
  size_le : g.strt.size ≤ MAX_INT
  hash_len : g.strt.hash.length = g.strt.size
  nuse_eq : g.strt.nuse = (g.strt.hash.flatten.length : Int)
  chained : ∀ i, ∀ ts ∈ g.strt.hash.getD i [], lmod ts.hash g.strt.size = i ∧ IsShrStr g ts
  nodup_contents : (g.strt.hash.flatten.map TString.contents).Nodup
  nodup_addr : (g.strt.hash.flatten.map TString.addr).Nodup
  white : g.currentwhite = 1 ∨ g.currentwhite = 2

/-- The stack slot aliased by the block at address `a`, when that block is an
allocated open upvalue. -/
def levelOf (upvals : List (Option UpVal)) (a : Nat) : Option Nat :=
  match upvals.getD a none with
  | none => none
  | some uv =>
    match uv.v with
    | VPtr.stack lv => some lv
    | VPtr.own => none

/-- Every node of the open list is an allocated open upvalue aliasing a slot
of the stack. -/
def OpenOK (m : Machine) : Prop :=
  ∀ a ∈ m.L.openupval, ∃ lv, levelOf m.upvals a = some lv ∧ lv < m.L.stack.length

/-- The open list is strictly descending by aliased stack position. -/
def OpenSorted (m : Machine) : Prop :=
  m.L.openupval.Pairwise
    (fun a b => ∀ la lb, levelOf m.upvals a = some la → levelOf m.upvals b = some lb → lb < la)

/-- The open list is descending by aliased stack position. -/
def OpenDescending (m : Machine) : Prop :=
  m.L.openupval.Pairwise
    (fun a b => ∀ la lb, levelOf m.upvals a = some la → levelOf m.upvals b = some lb → lb ≤ la)

/-- Well-formedness of the open-upvalue list of the thread. -/
def OpenWF (m : Machine) : Prop := OpenOK m ∧ OpenSorted m

/-- The states of a thread reachable from an empty open list through
`luaF_findupval` (for a slot of the stack) and `luaF_close`, with, in between,
writes through upvalues and holders taking a reference (`refcount++`, the
closure-creation step). -/
inductive Reachable : Machine → Prop where
  | init (m : Machine) (h : m.L.openupval = []) : Reachable m
  | findupval (m : Machine) (level uv : Nat) (m1 : Machine) (h : Reachable m)
      (hlevel : level < m.L.stack.length) (hf : luaF_findupval m level = some (uv, m1)) :
      Reachable m1
  | close (m : Machine) (level : Nat) (m1 : Machine) (h : Reachable m)
      (hc : luaF_close m level = some m1) : Reachable m1
  | write (m : Machine) (a : Nat) (val : TValue) (m1 : Machine) (h : Reachable m)
      (hw : m.setupval a val = some m1) : Reachable m1
  | retain (m : Machine) (a : Nat) (o : UpVal) (h : Reachable m) (ho : m.upval a = some o) :
      Reachable { m with upvals := m.upvals.set a (some { o with refcount := o.refcount + 1 }) }

/-- One operation on the upvalues of a thread: `luaF_initupvals` on a closure,
`luaF_findupval` for a slot of the stack, `luaF_close`, a write through an
upvalue, or a holder taking a reference (`refcount++`). -/
inductive UpvalStep : Machine → Machine → Prop where
  | initupvals (m : Machine) (cl : LClosure) : UpvalStep m (luaF_initupvals m cl).2
  | findupval (m : Machine) (level uv : Nat) (m1 : Machine)
      (hlevel : level < m.L.stack.length) (hf : luaF_findupval m level = some (uv, m1)) :
      UpvalStep m m1
  | close (m : Machine) (level : Nat) (m1 : Machine) (hc : luaF_close m level = some m1) :
      UpvalStep m m1
  | write (m : Machine) (a : Nat) (val : TValue) (m1 : Machine)
      (hw : m.setupval a val = some m1) : UpvalStep m m1
  | retain (m : Machine) (a : Nat) (o : UpVal) (ho : m.upval a = some o) :
      UpvalStep m { m with upvals := m.upvals.set a (some { o with refcount := o.refcount + 1 }) }

/-- A run: a finite sequence of operations leading from one state to another. -/
inductive UpvalRun : Machine → Machine → Prop where
  | refl (m : Machine) : UpvalRun m m
  | step (m m1 m2 : Machine) (h : UpvalRun m m1) (hs : UpvalStep m1 m2) : UpvalRun m m2

/-- The link `th->twups` of the thread at address `a`, among the threads of a
global state: the running thread `L` and the other threads `others`, which
lfunc.c does not touch. `none` when there is no thread at that address. -/
def twupsLink (L : lua_State) (others : List lua_State) (a : Nat) : Option (Option Nat) :=
  if a = L.self then some L.twups
  else (others.find? (fun t => t.self == a)).map (fun t => t.twups)

/-- The process-wide list of threads with open upvalues: following the links
`twups` from `head` (`g->twups`) visits the threads `l`, in this order, and
ends at `NULL`. -/
inductive TwupsList (L : lua_State) (others : List lua_State) : Option Nat → List Nat → Prop
  | nil : TwupsList L others none []
  | cons (a : Nat) (next : Option Nat) (l : List Nat) (h : twupsLink L others a = some next)
      (hl : TwupsList L others next l) : TwupsList L others (some a) (a :: l)

/-! ## Example states -/

/-- A freshly initialised string table with a single empty bucket. -/
def g_one : global_State :=
  { strt := { hash := [[]], nuse := 0, size := 1 }, seed := 7, currentwhite := 1 }

/-- A two-bucket table holding the short strings "c", "a" (bucket 0) and "b"
(bucket 1), as interning them with seed 7 leaves it. -/
def g_abc : global_State :=
  { ud := 3,
    strt := { hash := [[{ addr := 2, tt := 4, marked := 1, shrlen := 1, hash := 290, bytes := [99, 0] },
                        { addr := 0, tt := 4, marked := 1, shrlen := 1, hash := 292, bytes := [97, 0] }],
                       [{ addr := 1, tt := 4, marked := 1, shrlen := 1, hash := 293, bytes := [98, 0] }]],
              nuse := 3, size := 2 },
    seed := 7, currentwhite := 1, allgc := [2, 1, 0] }

/-- A thread with six stack slots, no open upvalue, not registered. -/
def m_empty : Machine :=
  { L := { self := 100, stack := List.replicate 6 {}, openupval := [], twups := some 100 } }

/-- The thread `m_empty` after `luaF_findupval` for slot 4, one holder taking
a reference to that upvalue, and `luaF_findupval` for slot 2. -/
def m_two : Machine :=
  { g := { twups := some 100 },
    L := { self := 100, stack := List.replicate 6 {}, openupval := [0, 1], twups := none },
    upvals := [some { v := VPtr.stack 4, refcount := 1, u := UpValU.open_ 1 },
               some { v := VPtr.stack 2, refcount := 0, u := UpValU.open_ 1 }] }

/-- The lookup as the specification words it: the name of the `n`-th entry of
the locals table, in table order, whose range `[startpc, endpc)` contains
`pc`; not found when `n < 1` or fewer than `n` entries match. -/
def nthActiveLocal (f : Proto) (n pc : Int) : Option (List Nat) :=
  if 1 ≤ n then
    ((f.locvars.filter (fun v => decide (v.startpc ≤ pc ∧ pc < v.endpc)))[n.toNat - 1]?).map
      (fun v => getstr v.varname)
  else none

/-- A prototype whose locals table is not ordered by `startpc`: "x" is active
over `[10, 20)` and, after it in the table, "y" over `[2, 10)`. -/
def f_unordered : Proto :=
  { sizelocvars := 2,
    locvars := [{ varname := some { addr := 1, tt := 4, shrlen := 1, bytes := [120, 0] },
                  startpc := 10, endpc := 20 },
                { varname := some { addr := 2, tt := 4, shrlen := 1, bytes := [121, 0] },
                  startpc := 2, endpc := 10 }] }

/-- A prototype with the single local "x" active over `[2, 10)`. -/
def f_x : Proto :=
  { sizelocvars := 1,
    locvars := [{ varname := some { addr := 1, tt := 4, shrlen := 1, bytes := [120, 0] },
                  startpc := 2, endpc := 10 }] }

/-- Allocator invariant of a global state: every object on the collector's
lists or chained in the string table lies below the next address the
allocator hands out. -/
def AllocOK (g : global_State) : Prop :=
  (∀ a ∈ g.allgc, a < g.ud) ∧ (∀ a ∈ g.fixedgc, a < g.ud) ∧
    (∀ ts ∈ g.strt.hash.flatten, ts.addr < g.ud)

/-- Every string chained in the table has its bytes followed by the
terminating zero byte that `createstrobj` writes. -/
def Terminated (g : global_State) : Prop :=
  ∀ ts ∈ g.strt.hash.flatten, ts.bytes = ts.contents ++ [0]

/-- The thread `m_empty` after `luaF_initupvals` on a closure with one
upvalue, `luaF_findupval` for slot 4, and one holder taking a reference to
that upvalue: block 0 is closed, block 1 is open. -/
def m_run : Machine :=
  { g := { twups := some 100 },
    L := { self := 100, stack := List.replicate 6 {}, openupval := [1], twups := none },
    upvals := [some { v := VPtr.own, refcount := 1, u := UpValU.value { tt_ := LUA_TNIL } },
               some { v := VPtr.stack 4, refcount := 1, u := UpValU.open_ 1 }] }

/-- A global state whose string table `luaS_init` has not set up yet: no
bucket array, size and count zero; the objects created so far lie below the
next address of the allocator. -/
def PreInit (g : global_State) : Prop :=
  g.strt.hash = [] ∧ g.strt.size = 0 ∧ g.strt.nuse = 0 ∧
    (∀ a ∈ g.allgc, a < g.ud) ∧ (∀ a ∈ g.fixedgc, a < g.ud) ∧
    (g.currentwhite = 1 ∨ g.currentwhite = 2)

/-- The global states reachable from `luaS_init` through calls of `luaS_new`
on zero-terminated strings. -/
inductive CacheReachable : global_State → Prop
  | init (g0 g : global_State) (h0 : PreInit g0) (h : luaS_init g0 = Except.ok g) :
      CacheReachable g
  | new (g : global_State) (p : Nat) (s : List Nat) (ts : TString) (g1 : global_State)
      (hr : CacheReachable g) (hs : 0 ∈ s) (h : luaS_new g p s = Except.ok (ts, g1)) :
      CacheReachable g1

/-- What holds of an entry of the cache: its bytes are zero-terminated with
no zero byte inside, and it is either a short string chained in the table or
a long string object created earlier, of a length `luaS_newlstr` accepts. -/
def CachedOK (g : global_State) (ts : TString) : Prop :=
  ts.bytes = ts.contents ++ [0] ∧ 0 ∉ ts.contents ∧ ts.contents.length = tsslen ts ∧
    ((ts.tt = LUA_TSHRSTR ∧ ts ∈ g.strt.hash.flatten) ∨
      (ts.tt = LUA_TLNGSTR ∧ LUAI_MAXSHORTLEN < ts.lnglen ∧
        ts.lnglen < (MAX_SIZE - sizeof_TString) / 1 ∧ ts.addr < g.ud))

/-- Invariant of the states reachable from `luaS_init` through `luaS_new`: the
table is well formed, no chained string is dead, and every entry of the cache
satisfies `CachedOK`. -/
structure CacheInv (g : global_State) : Prop where
  wf : WF g
  alloc : AllocOK g
  term : Terminated g
  live : ∀ ts ∈ g.strt.hash.flatten, isdead g ts = false
  cached : ∀ row ∈ g.strcache, ∀ ts ∈ row, CachedOK g ts

/-- The string object `luaS_init` creates for `MEMERRMSG` in a fresh state
with seed 0. -/
def ts_memerrmsg : TString :=
  { addr := 0, tt := 4, marked := 1, shrlen := 17, hash := 2087882415, bytes := MEMERRMSG }

/-- The state `luaS_init` leaves from a fresh state with seed 0: 128 buckets,
the message chained in bucket 47 and filling the cache. -/
def g_init : global_State :=
  { ud := 1,
    strt := { hash := (List.replicate 128 []).set 47 [ts_memerrmsg], nuse := 1, size := 128 },
    fixedgc := [0], memerrmsg := ts_memerrmsg,
    strcache := List.replicate 53 [ts_memerrmsg, ts_memerrmsg] }

/-- A zero-terminated string of 41 bytes "a", one more than the threshold. -/
def s_long : List Nat := List.replicate 41 97 ++ [0]

/-- The long string object `luaS_new` creates for `s_long` in `g_init`. -/
def ts_long : TString :=
  { addr := 1, tt := 20, marked := 1, lnglen := 41, bytes := s_long }

/-- The state `g_init` after `luaS_new` on `s_long` at address 0: the long
string is the first entry of row 0 of the cache. -/
def g_cached : global_State :=
  { g_init with ud := 2, allgc := [1],
                strcache := (List.replicate 53 [ts_memerrmsg, ts_memerrmsg]).set 0
                  [ts_long, ts_memerrmsg] }

/-- The claim as the specification words it: on the state `g`, `luaS_new` on
the string `s` at address `p` returns the same result as
`luaS_newlstr(s, strlen(s))` would. -/
def MemoExact (g : global_State) (p : Nat) (s : List Nat) : Prop :=
  (luaS_new g p s).map Prod.fst = (luaS_newlstr g s (strlen s)).map Prod.fst

/-- A thread at address 200 that is the only one on the process-wide list of
threads with open upvalues. -/
def th_other : lua_State := { self := 200, twups := none }

/-- A thread with six stack slots and no open upvalue, not registered, in a
global state whose list of threads with open upvalues starts at thread 200. -/
def m_unreg : Machine :=
  { g := { twups := some 200 },
    L := { self := 100, stack := List.replicate 6 {}, openupval := [], twups := some 100 } }

/-- The thread of `m_unreg` after `luaF_findupval` for slot 4: it is the head
of the process-wide list and links to thread 200. -/
def m_unreg_found : Machine :=
  { g := { twups := some 100 },
    L := { self := 100, stack := List.replicate 6 {}, openupval := [0], twups := some 200 },
    upvals := [some { v := VPtr.stack 4, refcount := 0, u := UpValU.open_ 1 }] }

/-- The `w` bytes, lowest first, of an unsigned value `n`. -/
def bytesLE : Nat → Nat → List Nat
  | 0, _ => []
  | w + 1, n => n % 256 :: bytesLE w (n / 256)

/-- The bytes `checkHeader` expects: the signature after its first byte, the
version, the format, `LUAC_DATA`, the five sizes, and `LUAC_INT` and
`LUAC_NUM` in the representation of the platform. -/
def luac_header : List Nat :=
  (LUA_SIGNATURE.drop 1).take 3 ++ [LUAC_VERSION, LUAC_FORMAT] ++ LUAC_DATA.take 6 ++
    [sizeof_int, sizeof_size_t, sizeof_Instruction, sizeof_lua_Integer, sizeof_lua_Number] ++
    bytesLE sizeof_lua_Integer LUAC_INT.toNat ++ bytesLE sizeof_lua_Number LUAC_NUM

/-- What a failed step leaves as it was: the objects, the stack and the
global state of the thread. -/
def SameObjects (S S1 : LoadState) : Prop :=
  S1.g = S.g ∧ S1.stack = S.stack ∧ S1.closures = S.closures ∧ S1.protos = S.protos ∧
    S1.strs = S.strs ∧ S1.name = S.name

/-- The elements of a stream are bytes. -/
def IsBytes (b : List Nat) : Prop := ∀ x ∈ b, x < 256

instance (b : List Nat) : Decidable (IsBytes b) :=
  inferInstanceAs (Decidable (∀ x ∈ b, x < 256))

/-- A check of the header: on a stream of bytes, a step that reads `k` bytes,
goes on when they satisfy `P`, and otherwise (also when fewer than `k` bytes
are left) raises a syntax error and leaves the objects as they were. -/
def Checks (c : Load Unit) (k : Nat) (P : List Nat → Prop) : Prop :=
  ∀ S : LoadState, IsBytes S.Z →
    (k ≤ S.Z.length ∧ P (S.Z.take k) → c S = LoadResult.ok () { S with Z := S.Z.drop k }) ∧
    (¬ (k ≤ S.Z.length ∧ P (S.Z.take k)) →
      ∃ msg S1, c S = LoadResult.throw (LuaError.malformed msg) S1 ∧ SameObjects S S1)

/-- A chunk (after its first byte) with no upvalue whose function record has
no source, no instruction, no upvalue, no nested function, no debug
information, and one constant, of type code 2 (`LUA_TLIGHTUSERDATA`), which is
none of nil, boolean, float, integer, short string, long string. -/
def chunk_badconst : List Nat :=
  luac_header ++ [0] ++
    ([0] ++ bytesLE 4 0 ++ bytesLE 4 0 ++ [0, 0, 2] ++ bytesLE 4 0 ++
     (bytesLE 4 1 ++ [2]) ++ bytesLE 4 0 ++ bytesLE 4 0 ++
     (bytesLE 4 0 ++ bytesLE 4 0 ++ bytesLE 4 0))

/-- The state `luaU_undump` ends with on `chunk_badconst` and the chunk name
"=demo", from a thread with an empty stack: the closure is at address 0 and on
the stack, its prototype at address 1, and the constant is nil. -/
def S_badconst : LoadState :=
  { g := { ud := 2, allgc := [1, 0] },
    stack := [{ value_ := Value.gc 0, tt_ := 70 }],
    closures := [{ addr := 0, tt := 6, marked := 1, nupvalues := 0, p := some 0, upvals := [] }],
    protos := [{ addr := 1, tt := 9, marked := 1, maxstacksize := 2, sizek := 1,
                 k := [{ tt_ := 0 }] }],
    Z := [], name := "demo" }

/-- A chunk (after its first byte) with no upvalue whose function record has
no source, a frame of 2 registers, and nothing else: no instruction, no
constant, no upvalue, no nested function, no debug information. -/
def chunk_min : List Nat :=
  luac_header ++ [0] ++
    ([0] ++ bytesLE 4 0 ++ bytesLE 4 0 ++ [0, 0, 2] ++ bytesLE 4 0 ++
     bytesLE 4 0 ++ bytesLE 4 0 ++ bytesLE 4 0 ++
     (bytesLE 4 0 ++ bytesLE 4 0 ++ bytesLE 4 0))

/-- The state `luaU_undump` ends with on `chunk_min` and the chunk name
"=demo", from a thread with an empty stack. -/
def S_min : LoadState :=
  { g := { ud := 2, allgc := [1, 0] },
    stack := [{ value_ := Value.gc 0, tt_ := 70 }],
    closures := [{ addr := 0, tt := 6, marked := 1, nupvalues := 0, p := some 0, upvals := [] }],
    protos := [{ addr := 1, tt := 9, marked := 1, maxstacksize := 2 }],
    Z := [], name := "demo" }

/-- What the steps of `LoadFunction` leave as it was: the stack of the thread,
the closures and the name; prototypes are only added. -/
def Keep (S S1 : LoadState) : Prop :=
  S1.stack = S.stack ∧ S1.closures = S.closures ∧ S.protos.length ≤ S1.protos.length ∧
    S1.name = S.name

/-- The state an outcome carries. -/
def LoadResult.state? {α : Type} : LoadResult α → Option LoadState
  | LoadResult.ok _ S => some S
  | LoadResult.throw _ S => some S
  | LoadResult.undefined S => some S
  | LoadResult.fuel => none

/-- A step every outcome of which keeps the stack, the closures and the name. -/
def Keeps {α : Type} (m : Load α) : Prop :=
  ∀ S S1 : LoadState, (m S).state? = some S1 → Keep S S1

/-- A property of steps that the primitive steps of the loader have and that
sequencing preserves. -/
structure Closed (P : {α : Type} → Load α → Prop) : Prop where
  pure : ∀ {α : Type} (x : α), P (pure x : Load α)
  bind : ∀ {α β : Type} (m : Load α) (f : α → Load β), P m → (∀ x, P (f x)) → P (m >>= f)
  error : ∀ {α : Type} (why : String), P (error why : Load α)
  undefined : ∀ {α : Type}, P (Load.undefined : Load α)
  LoadBlock : ∀ n : Nat, P (LoadBlock n)
  getProto : ∀ f : Nat, P (Load.getProto f)
  setProto : ∀ (f : Nat) (upd : Proto → Proto), P (Load.setProto f upd)
  setk : ∀ (f i : Nat) (upd : TValue → TValue), P (Load.setk f i upd)
  newproto : P Load.newproto
  newlstr : ∀ (s : List Nat) (l : Nat), P (Load.newlstr s l)
  createlngstrobj : ∀ l : Nat, P (Load.createlngstrobj l)
  addstr : ∀ ts : TString, P (Load.modify (fun S => { S with strs := ts :: S.strs }))
  newvector : ∀ n : Int, P (luaM_newvector n)

/-- A step that does not reach the bound on the depth when fewer than `n`
bytes are left, and that leaves no more bytes than it found. -/
def Fueled (n : Nat) {α : Type} (m : Load α) : Prop :=
  ∀ S : LoadState, (S.Z.length < n → m S ≠ LoadResult.fuel) ∧
    ∀ (x : α) (S1 : LoadState), m S = LoadResult.ok x S1 → S1.Z.length ≤ S.Z.length

/-- The step `m1` does what `m` does wherever `m` does not reach the bound on
the depth. -/
def Extends {α : Type} (m m1 : Load α) : Prop :=
  ∀ S : LoadState, m S ≠ LoadResult.fuel → m1 S = m S

/-- A step that, when it succeeds, has read the first `k` bytes of the stream
and depends on the stream through these bytes only, and that raises the
"truncated" error on every stream cut before the `k`-th byte. -/
def Reads {α : Type} (m : Load α) : Prop :=
  ∀ (S : LoadState) (x : α) (S1 : LoadState), m S = LoadResult.ok x S1 →
    S1.name = S.name ∧
    ∃ k, k ≤ S.Z.length ∧ S1.Z = S.Z.drop k ∧
      (∀ Z1 : List Nat, Z1.take k = S.Z.take k → k ≤ Z1.length →
        m { S with Z := Z1 } = LoadResult.ok x { S1 with Z := Z1.drop k }) ∧
      (∀ j, j < k → ∃ S2, m { S with Z := S.Z.take j } =
        LoadResult.throw
          (LuaError.malformed (S.name ++ ": " ++ "truncated" ++ " precompiled chunk")) S2)

/-! ## The layout of a function record -/

/-- A constant of a function record: the type code and the value that
follows it. `other t` is a type code `t` that is none of the six codes
`LoadConstants` has a case for; no value follows it. -/
inductive ChunkConst where
  | nil
  | boolean (b : Nat)
  | float (bits : Nat)
  | integer (i : Int)
  | string (s : List Nat)
  | other (t : Nat)
  deriving DecidableEq, Repr

/-- A local-variable record of the debug section: name and active range. -/
structure ChunkLocVar where
  varname : Option (List Nat) := none
  startpc : Int := 0
  endpc : Int := 0
  deriving DecidableEq, Repr

/-- The fields of a function record that come before its nested function
records: the source (absent or a string), the two line numbers, the number of
parameters, the vararg flag, the number of registers, the instructions, the
constants and the upvalue descriptors (in-stack flag and index). -/
structure ChunkHead where
  source : Option (List Nat) := none
  linedefined : Int := 0
  lastlinedefined : Int := 0
  numparams : Nat := 0
  is_vararg : Nat := 0
  maxstacksize : Nat := 0
  code : List Nat := []
  k : List ChunkConst := []
  upvalues : List (Nat × Nat) := []
  deriving DecidableEq, Repr

/-- The debug section of a function record: the line of each instruction,
the local-variable records and the names of the upvalues. -/
structure ChunkDebug where
  lineinfo : List Int := []
  locvars : List ChunkLocVar := []
  upvaluenames : List (Option (List Nat)) := []
  deriving DecidableEq, Repr

/-- A function record: its fields, with the nested function records `p`. -/
inductive ChunkFunction where
  | mk (head : ChunkHead) (p : List ChunkFunction) (debug : ChunkDebug)

/-- The fields of a record before the nested function records. -/
def ChunkFunction.head : ChunkFunction → ChunkHead
  | ChunkFunction.mk h _ _ => h

/-- The nested function records of a record. -/
def ChunkFunction.p : ChunkFunction → List ChunkFunction
  | ChunkFunction.mk _ p _ => p

/-- The debug section of a record. -/
def ChunkFunction.debug : ChunkFunction → ChunkDebug
  | ChunkFunction.mk _ _ d => d

/-- The bytes of an `int`, as the platform stores it. -/
def layoutInt (n : Int) : List Nat := bytesLE sizeof_int (n % 2 ^ (8 * sizeof_int)).toNat

/-- The bytes of a `lua_Integer`, as the platform stores it. -/
def layoutInteger (n : Int) : List Nat :=
  bytesLE sizeof_lua_Integer (n % 2 ^ (8 * sizeof_lua_Integer)).toNat

/-- The bytes of a string: the size (the length plus one) in one byte when
it is below 0xFF, else the byte 0xFF and the size as a `size_t`, followed by
the bytes of the string; the single byte 0 for an absent string. -/
def layoutString : Option (List Nat) → List Nat
  | none => [0]
  | some s =>
    (if s.length + 1 < 0xFF then [s.length + 1]
     else 0xFF :: bytesLE sizeof_size_t (s.length + 1)) ++ s

/-- The bytes of a constant: the type code, then the value. -/
def layoutConst : ChunkConst → List Nat
  | ChunkConst.nil => [LUA_TNIL]
  | ChunkConst.boolean b => [LUA_TBOOLEAN, b]
  | ChunkConst.float x => LUA_TNUMFLT :: bytesLE sizeof_lua_Number x
  | ChunkConst.integer i => LUA_TNUMINT :: layoutInteger i
  | ChunkConst.string s =>
    (if s.length ≤ LUAI_MAXSHORTLEN then LUA_TSHRSTR else LUA_TLNGSTR) :: layoutString (some s)
  | ChunkConst.other t => [t]

/-- The bytes of the instructions: their number, then 4 bytes each. -/
def layoutCode (code : List Nat) : List Nat :=
  layoutInt code.length ++ (code.map (bytesLE sizeof_Instruction)).flatten

/-- The bytes of the constants: their number, then each constant. -/
def layoutConstants (k : List ChunkConst) : List Nat :=
  layoutInt k.length ++ (k.map layoutConst).flatten

/-- The bytes of the upvalue descriptors: their number, then two bytes each. -/
def layoutUpvalues (u : List (Nat × Nat)) : List Nat :=
  layoutInt u.length ++ (u.map (fun x => [x.1, x.2])).flatten

/-- The bytes of a local-variable record. -/
def layoutLocVar (v : ChunkLocVar) : List Nat :=
  layoutString v.varname ++ layoutInt v.startpc ++ layoutInt v.endpc

/-- The bytes of the debug section. -/
def layoutDebug (d : ChunkDebug) : List Nat :=
  layoutInt d.lineinfo.length ++ (d.lineinfo.map layoutInt).flatten ++
    (layoutInt d.locvars.length ++ (d.locvars.map layoutLocVar).flatten) ++
    (layoutInt d.upvaluenames.length ++ (d.upvaluenames.map layoutString).flatten)

/-- The bytes of the fields of a record up to the constants. -/
def layoutHead (h : ChunkHead) : List Nat :=
  layoutString h.source ++ layoutInt h.linedefined ++ layoutInt h.lastlinedefined ++
    [h.numparams, h.is_vararg, h.maxstacksize] ++ layoutCode h.code ++ layoutConstants h.k

mutual
/-- The bytes of a function record in the order of the statements of
`LoadFunction`: source, line numbers, number of parameters, vararg flag,
number of registers, instructions, constants, upvalue descriptors, nested
function records, debug section. -/
def layoutFunction : ChunkFunction → List Nat
  | ChunkFunction.mk h p d =>
    layoutHead h ++ layoutUpvalues h.upvalues ++ (layoutInt p.length ++ layoutProtos p) ++
      layoutDebug d
/-- The bytes of a list of function records, one after the other. -/
def layoutProtos : List ChunkFunction → List Nat
  | [] => []
  | r :: rs => layoutFunction r ++ layoutProtos rs
end

mutual
/-- Modelled from the spec: the bytes of a function record in the order of
the sentence of the specification, "instructions, constants, nested function
records, upvalue descriptors", then the debug section. -/
def specLayoutFunction : ChunkFunction → List Nat
  | ChunkFunction.mk h p d =>
    layoutHead h ++ (layoutInt p.length ++ specLayoutProtos p) ++ layoutUpvalues h.upvalues ++
      layoutDebug d
/-- Modelled from the spec: the bytes of a list of function records in the
order of the specification. -/
def specLayoutProtos : List ChunkFunction → List Nat
  | [] => []
  | r :: rs => specLayoutFunction r ++ specLayoutProtos rs
end

/-- A value that an `int` holds. -/
def IsInt (n : Int) : Prop := -2 ^ 31 ≤ n ∧ n < 2 ^ 31

/-- A string of a chunk: bytes, with a size that a `size_t` holds. -/
def ChunkString (s : List Nat) : Prop := IsBytes s ∧ s.length + 1 < 2 ^ 64

/-- An absent string, or a string of a chunk. -/
def ChunkOptString : Option (List Nat) → Prop
  | none => True
  | some s => ChunkString s

/-- A constant whose value fits its type; for `other t`, a byte that is none
of the six type codes. -/
def ChunkConst.Valid : ChunkConst → Prop
  | ChunkConst.nil => True
  | ChunkConst.boolean b => b < 256
  | ChunkConst.float x => x < 2 ^ 64
  | ChunkConst.integer i => -2 ^ 63 ≤ i ∧ i < 2 ^ 63
  | ChunkConst.string s => ChunkString s
  | ChunkConst.other t =>
    t < 256 ∧ t ≠ LUA_TNIL ∧ t ≠ LUA_TBOOLEAN ∧ t ≠ LUA_TNUMFLT ∧ t ≠ LUA_TNUMINT ∧
      t ≠ LUA_TSHRSTR ∧ t ≠ LUA_TLNGSTR

/-- The fields before the nested records fit their types: bytes, `int`
values and counts, instructions of 32 bits. -/
def ChunkHead.Valid (h : ChunkHead) : Prop :=
  ChunkOptString h.source ∧ IsInt h.linedefined ∧ IsInt h.lastlinedefined ∧
    h.numparams < 256 ∧ h.is_vararg < 256 ∧ h.maxstacksize < 256 ∧
    h.code.length < 2 ^ 31 ∧ (∀ c ∈ h.code, c < 2 ^ 32) ∧
    h.k.length < 2 ^ 31 ∧ (∀ c ∈ h.k, c.Valid) ∧
    h.upvalues.length < 2 ^ 31 ∧ (∀ u ∈ h.upvalues, u.1 < 256 ∧ u.2 < 256)

/-- The debug section fits its types, and names no more upvalues than the
record has descriptors (`nup`). -/
def ChunkDebug.Valid (nup : Nat) (d : ChunkDebug) : Prop :=
  d.lineinfo.length < 2 ^ 31 ∧ (∀ x ∈ d.lineinfo, IsInt x) ∧
    d.locvars.length < 2 ^ 31 ∧
    (∀ v ∈ d.locvars, ChunkOptString v.varname ∧ IsInt v.startpc ∧ IsInt v.endpc) ∧
    d.upvaluenames.length ≤ nup ∧ (∀ s ∈ d.upvaluenames, ChunkOptString s)

mutual
/-- A function record all of whose fields fit their types, at every depth. -/
def ChunkFunction.Valid : ChunkFunction → Prop
  | ChunkFunction.mk h p d =>
    h.Valid ∧ p.length < 2 ^ 31 ∧ ChunkFunction.ValidList p ∧ d.Valid h.upvalues.length
/-- Every record of the list is valid. -/
def ChunkFunction.ValidList : List ChunkFunction → Prop
  | [] => True
  | r :: rs => r.Valid ∧ ChunkFunction.ValidList rs
end

/-- The pointer `ots` is to a string object with the bytes `os`, or both are
absent. -/
def RepString : Option (List Nat) → Option TString → Prop
  | none, none => True
  | some s, some ts => ts.contents = s
  | _, _ => False

/-- The cell `o` of the array of constants holds the constant `c`: a cell of
a string holds the address and the tag of a string object with these bytes
that `LoadString` has returned, and the cell of a type code that is none of
the six is nil. -/
def RepConst (strs : List TString) : ChunkConst → TValue → Prop
  | ChunkConst.nil, o => o = setnilvalue {}
  | ChunkConst.boolean b, o => o = setbvalue b
  | ChunkConst.float x, o => o = setfltvalue x
  | ChunkConst.integer i, o => o = setivalue i
  | ChunkConst.string s, o => ∃ ts ∈ strs, ts.contents = s ∧ o = setsvalue ts
  | ChunkConst.other _, o => o = setnilvalue {}

/-- The prototype `p` has the fields `h` of a record; an absent source
leaves the source `psrc` of the enclosing function. -/
def RepHead (strs : List TString) (psrc : Option TString) (h : ChunkHead) (p : Proto) : Prop :=
  (match h.source with
    | some s => ∃ ts, p.source = some ts ∧ ts.contents = s
    | none => p.source = psrc) ∧
  p.linedefined = h.linedefined ∧ p.lastlinedefined = h.lastlinedefined ∧
  p.numparams = h.numparams ∧ p.is_vararg = h.is_vararg ∧ p.maxstacksize = h.maxstacksize ∧
  p.code = h.code ∧ p.sizecode = h.code.length ∧
  List.Forall₂ (RepConst strs) h.k p.k ∧ p.sizek = h.k.length ∧
  p.upvalues.map (fun u => (u.instack, u.idx)) = h.upvalues ∧
  p.sizeupvalues = h.upvalues.length

/-- The prototype `p` has the debug section `d`: the upvalues the section
does not name have no name. -/
def RepDebug (d : ChunkDebug) (p : Proto) : Prop :=
  p.lineinfo = d.lineinfo ∧ p.sizelineinfo = d.lineinfo.length ∧
  List.Forall₂ (fun v (lv : LocVar) => RepString v.varname lv.varname ∧
    lv.startpc = v.startpc ∧ lv.endpc = v.endpc) d.locvars p.locvars ∧
  p.sizelocvars = d.locvars.length ∧
  List.Forall₂ RepString
    (d.upvaluenames ++ List.replicate (p.upvalues.length - d.upvaluenames.length) none)
    (p.upvalues.map (fun u => u.name))

mutual
/-- The prototype at `f` among the prototypes `P` is the function record
`r` loaded below a function of source `psrc`, and so are, at every depth, the
prototypes its array `p` points to. -/
def Rep (P : List Proto) (strs : List TString) : Nat → Option TString → ChunkFunction → Prop
  | f, psrc, ChunkFunction.mk h cs d =>
    ∃ p, P[f]? = some p ∧ RepHead strs psrc h p ∧ RepDebug d p ∧ p.sizep = cs.length ∧
      RepList P strs f p.source p.p cs
/-- The pointers `l` are to the prototypes of the records `rs`, loaded below
the function at `f`, whose source is `src`. -/
def RepList (P : List Proto) (strs : List TString) :
    Nat → Option TString → List (Option Nat) → List ChunkFunction → Prop
  | _, _, [], [] => True
  | f, src, some c :: l, r :: rs => f < c ∧ Rep P strs c src r ∧ RepList P strs f src l rs
  | _, _, _, _ => False
end

/-- The error an outcome carries. -/
def LoadResult.error? {α : Type} : LoadResult α → Option LuaError
  | LoadResult.throw e _ => some e
  | _ => none

/-- The prototype reached from the prototype at `f` along a path of indices
into the arrays `p` of nested prototypes. -/
def protoAt (P : List Proto) : Nat → List Nat → Option Nat
  | f, [] => some f
  | f, i :: path =>
    match P[f]? with
    | some p =>
      match p.p[i]? with
      | some (some c) => protoAt P c path
      | _ => none
    | none => none

/-- The record reached from a record along a path of indices into the
nested function records. -/
def ChunkFunction.recordAt : ChunkFunction → List Nat → Option ChunkFunction
  | r, [] => some r
  | r, i :: path =>
    match r.p[i]? with
    | some c => c.recordAt path
    | none => none

/-- The source of the record reached along a path: its own source string
when it has one, else the source of the nearest record above it on the path
that has one, else `inh`, the source that comes from outside. -/
def ChunkFunction.sourceAt : ChunkFunction → Option (List Nat) → List Nat → Option (List Nat)
  | r, inh, [] => r.head.source.or inh
  | r, inh, i :: path =>
    match r.p[i]? with
    | some c => c.sourceAt (r.head.source.or inh) path
    | none => none

/-- A function record with a frame of 2 registers and one upvalue
descriptor (not in the stack, index 0), and nothing else. -/
def r_up : ChunkFunction :=
  ChunkFunction.mk { maxstacksize := 2, upvalues := [(0, 0)] } [] {}

/-- A function record with the source "@a" and two nested records without a
source, the first of which has a nested record with the source "b". -/
def r_nest : ChunkFunction :=
  ChunkFunction.mk { source := some [64, 97] }
    [ChunkFunction.mk {} [ChunkFunction.mk { source := some [98] } [] {}] {},
     ChunkFunction.mk {} [] {}] {}

/-- The state before loading the chunk of `r_nest`: a fresh string table,
and the header, the byte 0 for the number of upvalues, and the record. -/
def S_nest : LoadState :=
  { g := g_init, Z := luac_header ++ 0 :: (layoutFunction r_nest ++ []) }

/-! ## Collectable values (lobject.h) -/

/-- Modelled from the spec: basic type tag `LUA_TTABLE` of `lua.h` (not among the sources). -/
def LUA_TTABLE : Nat := 5

/-- Modelled from the spec: basic type tag `LUA_TUSERDATA` of `lua.h` (not among the sources). -/
def LUA_TUSERDATA : Nat := 7

/-- Modelled from the spec: basic type tag `LUA_TTHREAD` of `lua.h` (not among the sources). -/
def LUA_TTHREAD : Nat := 8

/-- Type `GCObject` (lobject.h): the common header of every collectable
object, `tt` and `marked`; `addr` is the address of the object (the link
`next` is the position in a list of the collector). -/
structure GCObject where
  addr : Nat := 0
  tt : Nat := 0
  marked : Nat := 0
  deriving DecidableEq, Repr

/-- Macro `obj2gco(v)` on a string: the object seen through its common header. -/
def TString.obj2gco (x : TString) : GCObject :=
  { addr := x.addr, tt := x.tt, marked := x.marked }

/-- Macro `obj2gco(v)` on a Lua closure. -/
def LClosure.obj2gco (x : LClosure) : GCObject :=
  { addr := x.addr, tt := x.tt, marked := x.marked }

/-- Macro `setuvalue(L,obj,x)` (lobject.h); `x` is the `Udata` seen through
its common header. -/
def setuvalue (x : GCObject) : TValue := { value_ := Value.gc x.addr, tt_ := ctb LUA_TUSERDATA }

/-- Macro `setthvalue(L,obj,x)` (lobject.h); `x` is the `lua_State` seen
through its common header. -/
def setthvalue (x : GCObject) : TValue := { value_ := Value.gc x.addr, tt_ := ctb LUA_TTHREAD }

/-- Macro `setclCvalue(L,obj,x)` (lobject.h); `x` is the `CClosure` seen
through its common header. -/
def setclCvalue (x : GCObject) : TValue := { value_ := Value.gc x.addr, tt_ := ctb LUA_TCCL }

/-- Macro `sethvalue(L,obj,x)` (lobject.h); `x` is the `Table` seen through
its common header. -/
def sethvalue (x : GCObject) : TValue := { value_ := Value.gc x.addr, tt_ := ctb LUA_TTABLE }

/-- Macro `setobj(L,obj1,obj2)` (lobject.h): `*io1 = *(obj2)`, payload and
tag in one assignment. -/
def setobj (obj2 : TValue) : TValue := obj2

/-- Macro `gcvalue(o)` (lobject.h): the member `gc` of the payload; `none`
when the payload holds another member of the union. -/
def gcvalue (o : TValue) : Option Nat :=
  match o.value_ with
  | Value.gc a => some a
  | _ => none

/-- Macro `righttt(obj)` (lobject.h): `ttype(obj) == gcvalue(obj)->tt`;
`heap a` is the common header of the object at address `a`. The test is
false when the payload is no pointer to an object of the heap. -/
def righttt (heap : Nat → Option GCObject) (obj : TValue) : Bool :=
  match gcvalue obj with
  | some a =>
    match heap a with
    | some x => ttype obj == x.tt
    | none => false
  | none => false

/-- A heap with six objects, one of each kind a setter of a collectable value
takes: a short string at address 0, a Lua closure at 1, a userdata at 2, a
thread at 3, a C closure at 4 and a table at 5. -/
def heap_six (a : Nat) : Option GCObject :=
  match a with
  | 0 => some { addr := 0, tt := LUA_TSHRSTR, marked := 1 }
  | 1 => some { addr := 1, tt := LUA_TLCL, marked := 1 }
  | 2 => some { addr := 2, tt := LUA_TUSERDATA, marked := 1 }
  | 3 => some { addr := 3, tt := LUA_TTHREAD, marked := 1 }
  | 4 => some { addr := 4, tt := LUA_TCCL, marked := 1 }
  | 5 => some { addr := 5, tt := LUA_TTABLE, marked := 1 }
  | _ => none

/-- A load, on a fresh string table, whose stream holds the string "hi" (size
byte 3 and two bytes) and one more byte. -/
def S_hi : LoadState := { g := g_init, Z := [3, 104, 105, 7] }

/-- A load whose stream holds the size of a string and nothing more: the
byte 0xFF and the `size_t` value `MAX_SIZE - sizeof(TString) + 1`, which
declares a string of length `MAX_SIZE - sizeof(TString)`, the least length
that `luaS_newlstr` refuses. -/
def S_big : LoadState :=
  { Z := 0xFF :: bytesLE sizeof_size_t (MAX_SIZE - sizeof_TString + 1), name := "demo" }

/-- A chunk (after its first byte) with no upvalue whose function record has
no upvalue descriptor, and a debug section with one upvalue name, absent. -/
def chunk_names : List Nat :=
  luac_header ++ [0] ++
    ([0] ++ bytesLE 4 0 ++ bytesLE 4 0 ++ [0, 0, 2] ++ bytesLE 4 0 ++
     bytesLE 4 0 ++ bytesLE 4 0 ++ bytesLE 4 0 ++
     (bytesLE 4 0 ++ bytesLE 4 0 ++ (bytesLE 4 1 ++ [0])))

/-- The state in which `luaU_undump` on `chunk_names` stores the name of the
upvalue at index 0: the whole stream is read, and the array of upvalue
descriptors of the prototype has no entry. -/
def S_names : LoadState :=
  { g := { ud := 2, allgc := [1, 0] },
    stack := [{ value_ := Value.gc 0, tt_ := 70 }],
    closures := [{ addr := 0, tt := 6, marked := 1, nupvalues := 0, p := some 0, upvals := [] }],
    protos := [{ addr := 1, tt := 9, marked := 1, maxstacksize := 2 }],
    Z := [], name := "demo" }

/-- A chunk (after its first byte) with no upvalue whose function record has
one constant, of type code 4 (`LUA_TSHRSTR`), with the size byte 0 of an
absent string. -/
def chunk_nullconst : List Nat :=
  luac_header ++ [0] ++
    ([0] ++ bytesLE 4 0 ++ bytesLE 4 0 ++ [0, 0, 2] ++ bytesLE 4 0 ++
     (bytesLE 4 1 ++ [4, 0]) ++ bytesLE 4 0 ++ bytesLE 4 0 ++
     (bytesLE 4 0 ++ bytesLE 4 0 ++ bytesLE 4 0))

/-- The state in which `luaU_undump` on `chunk_nullconst` applies
`setsvalue2n` to the `NULL` that `LoadString` has returned: the cell of the
constant holds the nil of the first loop, and the 20 bytes after the constant
are unread. -/
def S_nullconst : LoadState :=
  { g := { ud := 2, allgc := [1, 0] },
    stack := [{ value_ := Value.gc 0, tt_ := 70 }],
    closures := [{ addr := 0, tt := 6, marked := 1, nupvalues := 0, p := some 0, upvals := [] }],
    protos := [{ addr := 1, tt := 9, marked := 1, maxstacksize := 2, sizek := 1,
                 k := [{ tt_ := 0 }] }],
    Z := List.replicate 20 0, name := "demo" }

/-- A chunk (after its first byte) that declares `n` upvalues for the closure
and holds the function record `r_up`, which has one upvalue descriptor and
no upvalue name. -/
def chunk_up (n : Nat) : List Nat := luac_header ++ n :: layoutFunction r_up

/-- The state `luaU_undump` ends with on `chunk_up n`, for `n < 256`, and the
chunk name "=demo", from a thread with an empty stack: the closure has `n`
upvalue slots, all `NULL`, and its prototype one upvalue descriptor without
a name. -/
def S_up (n : Nat) : LoadState :=
  { g := { ud := 2, allgc := [1, 0] },
    stack := [{ value_ := Value.gc 0, tt_ := 70 }],
    closures := [{ addr := 0, tt := 6, marked := 1, nupvalues := n, p := some 0,
                   upvals := List.replicate n none }],
    protos := [{ addr := 1, tt := 9, marked := 1, maxstacksize := 2, sizeupvalues := 1,
                 upvalues := [{ name := none, instack := 0, idx := 0 }] }],
    Z := [], name := "demo" }

/-- The global states reachable from `luaS_init` through `internshrstr` (on at
most `LUAI_MAXSHORTLEN` bytes of a buffer that has them), `luaS_resize` to a
power of two within `int`, and `luaS_remove` of a string chained in the
table. -/
inductive StrtReachable : global_State → Prop
  | init (g0 g : global_State) (h0 : PreInit g0) (h : luaS_init g0 = Except.ok g) :
      StrtReachable g
  | intern (g : global_State) (str : List Nat) (l : Nat) (hr : StrtReachable g)
      (hl : l ≤ LUAI_MAXSHORTLEN) (hlen : l ≤ str.length) :
      StrtReachable (internshrstr g str l).2
  | resize (g : global_State) (k : Nat) (hr : StrtReachable g) (hk : 2 ^ k ≤ MAX_INT) :
      StrtReachable (luaS_resize g (2 ^ k))
  | remove (g : global_State) (ts : TString) (g1 : global_State) (hr : StrtReachable g)
      (hts : ts ∈ g.strt.hash.flatten) (h : luaS_remove g ts = some g1) :
      StrtReachable g1

/-- Invariant of the states of `StrtReachable`: the table is well formed, its
strings lie below the next address of the allocator and end with a zero byte,
and none of them is dead. -/
structure TableInv (g : global_State) : Prop where
  wf : WF g
  alloc : AllocOK g
  term : Terminated g
  live : ∀ ts ∈ g.strt.hash.flatten, isdead g ts = false

/-! ## Theorems: lstring.c -/

theorem memcmp_eq_zero_iff (a b : List Nat) (n : Nat) :
    memcmp a b n = 0 ↔ a.take n = b.take n := by
  induction n generalizing a b with
  | zero => simp [memcmp]
  | succ n ih =>
    cases a with
    | nil => cases b <;> simp [memcmp]
    | cons x as =>
      cases b with
      | nil => simp [memcmp]
      | cons y bs =>
        simp only [memcmp, List.take_succ_cons, List.cons.injEq]
        by_cases h1 : x < y
        · simp [h1]; omega
        · by_cases h2 : y < x
          · simp [h1, h2]; omega
          · have : x = y := by omega
            simp [h1, h2, this, ih]

/-- C2: on two long strings (one object per address), `luaS_eqlngstr` is
non-zero exactly when the two strings have the same length and the same bytes. -/
theorem C2_luaS_eqlngstr_iff (a b : TString) (ha : IsLngStr a) (hb : IsLngStr b)
    (hobj : a.addr = b.addr → a = b) :
    luaS_eqlngstr a b ≠ 0 ↔ (tsslen a = tsslen b ∧ a.contents = b.contents) := by
  have hta : tsslen a = a.lnglen := by
    simp [tsslen, ha.1, LUA_TLNGSTR, LUA_TSHRSTR, LUA_TSTRING]
  have htb : tsslen b = b.lnglen := by
    simp [tsslen, hb.1, LUA_TLNGSTR, LUA_TSHRSTR, LUA_TSTRING]
  simp only [luaS_eqlngstr, TString.contents, hta, htb, memcmp_eq_zero_iff]
  constructor
  · intro h
    by_cases hc : a.addr = b.addr ∨ (a.lnglen = b.lnglen ∧ a.bytes.take a.lnglen = b.bytes.take a.lnglen)
    · rcases hc with hc | ⟨h1, h2⟩
      · rw [hobj hc]; exact ⟨rfl, rfl⟩
      · exact ⟨h1, by rw [h2, h1]⟩
    · simp [hc] at h
  · rintro ⟨h1, h2⟩
    have : a.addr = b.addr ∨ (a.lnglen = b.lnglen ∧ a.bytes.take a.lnglen = b.bytes.take a.lnglen) :=
      Or.inr ⟨h1, by rw [h2, h1]⟩
    simp [this]

/-- C2 at two distinct objects holding the same 41 bytes. -/
theorem C2_luaS_eqlngstr_iff_witness :
    luaS_eqlngstr
        { addr := 1, tt := LUA_TLNGSTR, lnglen := 41, bytes := List.replicate 41 97 ++ [0] }
        { addr := 2, tt := LUA_TLNGSTR, lnglen := 41, bytes := List.replicate 41 97 ++ [0] } ≠ 0 ↔
      (tsslen { addr := 1, tt := LUA_TLNGSTR, lnglen := 41, bytes := List.replicate 41 97 ++ [0] } =
         tsslen { addr := 2, tt := LUA_TLNGSTR, lnglen := 41, bytes := List.replicate 41 97 ++ [0] } ∧
       TString.contents
           { addr := 1, tt := LUA_TLNGSTR, lnglen := 41, bytes := List.replicate 41 97 ++ [0] } =
         TString.contents
           { addr := 2, tt := LUA_TLNGSTR, lnglen := 41, bytes := List.replicate 41 97 ++ [0] }) :=
  C2_luaS_eqlngstr_iff _ _ ⟨rfl, by decide⟩ ⟨rfl, by decide⟩ (by decide)

/-! ### Bucket indices -/

theorem lmod_eq_and (s size : Nat) (h0 : 0 < size) (h1 : size ≤ MAX_INT) :
    lmod s size = s &&& (size - 1) := by
  unfold lmod
  have h2 : size + 2 ^ 32 - 1 = (size - 1) + 2 ^ 32 := by omega
  have h3 : size - 1 < 2 ^ 32 := by unfold MAX_INT at h1; omega
  rw [h2, Nat.add_mod_right, Nat.mod_eq_of_lt h3]

theorem lmod_lt (s size : Nat) (h0 : 0 < size) (h1 : size ≤ MAX_INT) : lmod s size < size := by
  rw [lmod_eq_and s size h0 h1]
  have := @Nat.and_le_right s (size - 1)
  omega

theorem lmod_pow (s k : Nat) (h1 : 2 ^ k ≤ MAX_INT) : lmod s (2 ^ k) = s % 2 ^ k := by
  rw [lmod_eq_and s _ (Nat.pos_pow_of_pos k (by decide)) h1, Nat.and_pow_two_sub_one_eq_mod]

/-! ### Length of the bucket array -/

theorem chain_length (n : Nat) (c : List TString) (H : List (List TString)) :
    (luaS_resize.chain n c H).length = H.length := by
  induction c generalizing H with
  | nil => rfl
  | cons p c ih => simp [luaS_resize.chain, ih]

theorem step_length (n : Nat) (H : List (List TString)) (i : Nat) :
    (luaS_resize.step n H i).length = H.length := by
  simp [luaS_resize.step, chain_length]

theorem foldl_step_length (n : Nat) (is : List Nat) (H : List (List TString)) :
    (is.foldl (luaS_resize.step n) H).length = H.length := by
  induction is generalizing H with
  | nil => rfl
  | cons i is ih => simp [List.foldl, ih, step_length]

theorem foldl_set_nil_length (is : List Nat) (H : List (List TString)) :
    (is.foldl (fun w i => w.set i []) H).length = H.length := by
  induction is generalizing H with
  | nil => rfl
  | cons i is ih => simp [List.foldl, ih]

theorem rehash_length (tb : stringtable) (n : Nat) (hlen : tb.hash.length = tb.size) :
    (luaS_resize.rehash tb n).length = max tb.size n := by
  unfold luaS_resize.rehash
  simp only [foldl_step_length]
  split
  · rename_i h
    simp only [foldl_set_nil_length, luaM_reallocvector, List.length_append, List.length_take,
      List.length_replicate, hlen]
    omega
  · rename_i h
    rw [hlen]; omega

theorem resize_hash_length (g : global_State) (n : Nat) (hlen : g.strt.hash.length = g.strt.size) :
    (luaS_resize g n).strt.hash.length = n := by
  unfold luaS_resize
  simp only
  split
  · rename_i h
    simp only [luaM_reallocvector, List.length_append, List.length_take, List.length_replicate,
      rehash_length _ _ hlen]
    omega
  · rename_i h
    rw [rehash_length _ _ hlen]; omega

/-! ### Colours -/

theorem white_aux (m c : Nat) (i : Nat) (hc : c.testBit i = true) (h3 : Nat.testBit 3 i = true)
    (hd : (m ^^^ 3) &&& c = 0) : (m ^^^ 3 ^^^ 3) &&& c ≠ 0 := by
  intro hc2
  have h1 : ((m ^^^ 3) &&& c).testBit i = false := by rw [hd]; exact Nat.zero_testBit i
  have h2 : ((m ^^^ 3 ^^^ 3) &&& c).testBit i = false := by rw [hc2]; exact Nat.zero_testBit i
  rw [Nat.testBit_and, Nat.testBit_xor, hc, h3] at h1
  rw [Nat.testBit_and, Nat.testBit_xor, Nat.testBit_xor, hc, h3] at h2
  revert h1 h2
  generalize m.testBit i = b
  revert b
  decide

theorem isdead_changewhite (g : global_State) (hw : g.currentwhite = 1 ∨ g.currentwhite = 2)
    (ts : TString) (hd : isdead g ts = true) : isdead g (changewhite ts) = false := by
  unfold isdead changewhite otherwhite WHITEBITS at *
  simp only [beq_iff_eq, beq_eq_false_iff_ne, ne_eq] at *
  rcases hw with hw | hw <;> rw [hw] at hd ⊢
  · exact white_aux _ _ 1 (by decide) (by decide) hd
  · exact white_aux _ _ 0 (by decide) (by decide) hd

theorem isdead_new (g : global_State) (hw : g.currentwhite = 1 ∨ g.currentwhite = 2)
    (ts : TString) (hm : ts.marked = luaC_white g) : isdead g ts = false := by
  unfold isdead otherwhite luaC_white WHITEBITS cast_byte at *
  rcases hw with hw | hw <;> rw [hw] at hm ⊢ <;> rw [hm] <;> decide

/-! ### Searching a chain -/

theorem isdead_congr (g g1 : global_State) (h : g1.currentwhite = g.currentwhite) (ts : TString) :
    isdead g1 ts = isdead g ts := by
  simp [isdead, otherwhite, h]

theorem search_congr (g g1 : global_State) (h : g1.currentwhite = g.currentwhite)
    (str : List Nat) (l : Nat) (c : List TString) :
    internshrstr.search g1 str l c = internshrstr.search g str l c := by
  induction c with
  | nil => rfl
  | cons ts c ih => simp only [internshrstr.search, ih, isdead_congr g g1 h]

theorem search_idem (g : global_State) (hw : g.currentwhite = 1 ∨ g.currentwhite = 2)
    (str : List Nat) (l : Nat) (c0 : List TString) (r : TString) (c : List TString)
    (h : internshrstr.search g str l c0 = some (r, c)) :
    internshrstr.search g str l c = some (r, c) := by
  induction c0 generalizing c with
  | nil => simp [internshrstr.search] at h
  | cons ts c0 ih =>
    rw [internshrstr.search] at h
    by_cases hm : l = ts.shrlen ∧ memcmp str ts.bytes l = 0
    · rw [if_pos hm] at h
      by_cases hd : isdead g ts = true
      · simp only [hd, if_true, Option.some.injEq, Prod.mk.injEq] at h
        obtain ⟨h1, h2⟩ := h
        subst h1; subst h2
        have hm2 : l = (changewhite ts).shrlen ∧ memcmp str (changewhite ts).bytes l = 0 := hm
        rw [internshrstr.search, if_pos hm2]
        simp only [isdead_changewhite g hw ts hd, Bool.false_eq_true, if_false]
      · have hd1 : isdead g ts = false := by simpa using hd
        simp only [hd1, Bool.false_eq_true, if_false, Option.some.injEq, Prod.mk.injEq] at h
        obtain ⟨h1, h2⟩ := h
        subst h1; subst h2
        rw [internshrstr.search, if_pos hm]
        simp only [hd1, Bool.false_eq_true, if_false]
    · rw [if_neg hm] at h
      cases hs : internshrstr.search g str l c0 with
      | none => simp [hs] at h
      | some rc =>
        obtain ⟨r1, c1⟩ := rc
        simp only [hs, Option.some.injEq, Prod.mk.injEq] at h
        obtain ⟨h1, h2⟩ := h
        subst h1; subst h2
        rw [internshrstr.search, if_neg hm, ih c1 hs]

theorem memcmp_self_memcpy (s : List Nat) (dst : List Nat) :
    memcmp s (memcpy dst s s.length) s.length = 0 := by
  rw [memcmp_eq_zero_iff]
  simp [memcpy]

theorem internshrstr_found (g : global_State) (s : List Nat) (l : Nat) (r : TString)
    (c : List TString)
    (h : internshrstr.search g s l (g.strt.hash.getD (lmod (luaS_hash s l g.seed) g.strt.size) [])
      = some (r, c)) :
    internshrstr g s l = (r, { g with strt := { g.strt with
      hash := g.strt.hash.set (lmod (luaS_hash s l g.seed) g.strt.size) c } }) := by
  simp only [internshrstr, h]

theorem internshrstr_notfound (g : global_State) (s : List Nat) (l : Nat)
    (h : internshrstr.search g s l (g.strt.hash.getD (lmod (luaS_hash s l g.seed) g.strt.size) [])
      = none) :
    internshrstr g s l = internshrstr.create (internshrstr.grow g) s l (luaS_hash s l g.seed) := by
  simp only [internshrstr, h]

theorem grow_hash_length (g : global_State) (hlen : g.strt.hash.length = g.strt.size) :
    (internshrstr.grow g).strt.hash.length = (internshrstr.grow g).strt.size := by
  unfold internshrstr.grow
  split
  · rw [resize_hash_length g _ hlen]; rfl
  · exact hlen

theorem grow_size_pos (g : global_State) (hpos : 0 < g.strt.size) :
    0 < (internshrstr.grow g).strt.size := by
  unfold internshrstr.grow
  split
  · show 0 < g.strt.size * 2
    omega
  · exact hpos

theorem grow_size_le (g : global_State) (hle : g.strt.size ≤ MAX_INT) :
    (internshrstr.grow g).strt.size ≤ MAX_INT := by
  unfold internshrstr.grow
  split
  · rename_i h
    show g.strt.size * 2 ≤ MAX_INT
    have := h.2
    unfold MAX_INT at *
    omega
  · exact hle

theorem grow_seed (g : global_State) : (internshrstr.grow g).seed = g.seed := by
  unfold internshrstr.grow
  split <;> rfl

theorem grow_currentwhite (g : global_State) :
    (internshrstr.grow g).currentwhite = g.currentwhite := by
  unfold internshrstr.grow
  split <;> rfl

theorem create_snd (g : global_State) (s : List Nat) (l h : Nat) :
    (internshrstr.create g s l h).2 =
      { g with ud := g.ud + 1, allgc := g.ud :: g.allgc,
               strt := { g.strt with
                 hash := g.strt.hash.set (lmod h g.strt.size)
                   ((internshrstr.create g s l h).1 :: g.strt.hash.getD (lmod h g.strt.size) []),
                 nuse := g.strt.nuse + 1 } } := rfl

theorem create_fst (g : global_State) (s : List Nat) (l h : Nat) :
    (internshrstr.create g s l h).1 =
      { addr := g.ud, tt := LUA_TSHRSTR, marked := luaC_white g, hash := h, extra := 0,
        bytes := memcpy ((List.replicate (l + 1) 0).set l 0) s l, shrlen := cast_byte l } := rfl

/-- After the creation step, interning the same bytes finds the new node and
changes nothing. -/
theorem create_then_intern (g : global_State) (hlen : g.strt.hash.length = g.strt.size)
    (hpos : 0 < g.strt.size) (hle : g.strt.size ≤ MAX_INT)
    (hw : g.currentwhite = 1 ∨ g.currentwhite = 2)
    (s : List Nat) (hs : s.length ≤ LUAI_MAXSHORTLEN) :
    internshrstr (internshrstr.create g s s.length (luaS_hash s s.length g.seed)).2 s s.length =
      internshrstr.create g s s.length (luaS_hash s s.length g.seed) := by
  have hidx : lmod (luaS_hash s s.length g.seed) g.strt.size < g.strt.hash.length := by
    rw [hlen]; exact lmod_lt _ _ hpos hle
  have hcb : cast_byte s.length = s.length := by
    unfold cast_byte LUAI_MAXSHORTLEN at *
    omega
  have hm : s.length = (internshrstr.create g s s.length (luaS_hash s s.length g.seed)).1.shrlen ∧
      memcmp s (internshrstr.create g s s.length (luaS_hash s s.length g.seed)).1.bytes s.length
        = 0 :=
    ⟨hcb.symm, memcmp_self_memcpy s _⟩
  have hnd : isdead g (internshrstr.create g s s.length (luaS_hash s s.length g.seed)).1 = false :=
    isdead_new g hw _ rfl
  rw [internshrstr_found _ s s.length
    (internshrstr.create g s s.length (luaS_hash s s.length g.seed)).1
    ((internshrstr.create g s s.length (luaS_hash s s.length g.seed)).1 ::
      g.strt.hash.getD (lmod (luaS_hash s s.length g.seed) g.strt.size) [])]
  · apply Prod.ext
    · rfl
    · simp only [create_snd, List.set_set]
  · rw [search_congr g]
    · simp only [create_snd, List.getD_eq_getElem?_getD, List.getElem?_set, hidx, if_true,
        Option.getD_some]
      rw [internshrstr.search, if_pos hm]
      simp only [hnd, Bool.false_eq_true, if_false]
    · rfl

/-- Interning twice: the second call returns the result of the first and
leaves the state of the first. -/
theorem internshrstr_twice (g : global_State) (hlen : g.strt.hash.length = g.strt.size)
    (hpos : 0 < g.strt.size) (hle : g.strt.size ≤ MAX_INT)
    (hw : g.currentwhite = 1 ∨ g.currentwhite = 2)
    (s : List Nat) (hs : s.length ≤ LUAI_MAXSHORTLEN) :
    internshrstr (internshrstr g s s.length).2 s s.length = internshrstr g s s.length := by
  have hidx : lmod (luaS_hash s s.length g.seed) g.strt.size < g.strt.hash.length := by
    rw [hlen]; exact lmod_lt _ _ hpos hle
  cases hsearch : internshrstr.search g s s.length
      (g.strt.hash.getD (lmod (luaS_hash s s.length g.seed) g.strt.size) []) with
  | some rc =>
    obtain ⟨r, c⟩ := rc
    rw [internshrstr_found g s s.length r c hsearch]
    have hs2 := search_idem g hw s s.length _ r c hsearch
    rw [internshrstr_found _ s s.length r c]
    · simp only [List.set_set]
    · simp only [List.getD_eq_getElem?_getD, List.getElem?_set, hidx, if_true, Option.getD_some]
      rw [search_congr g]
      · exact hs2
      · rfl
  | none =>
    rw [internshrstr_notfound g s s.length hsearch]
    have h := create_then_intern (internshrstr.grow g) (grow_hash_length g hlen)
      (grow_size_pos g hpos) (grow_size_le g hle) (by rw [grow_currentwhite]; exact hw) s hs
    rw [grow_seed] at h
    exact h

theorem WF.size_pos {g : global_State} (h : WF g) : 0 < g.strt.size := by
  obtain ⟨k, hk⟩ := h.size_pow
  rw [hk]
  exact Nat.pos_pow_of_pos k (by decide)

theorem g_one_WF : WF g_one where
  size_pow := ⟨0, rfl⟩
  size_le := by decide
  hash_len := rfl
  nuse_eq := rfl
  chained := by
    intro i ts h
    cases i <;> simp [g_one] at h
  nodup_contents := by simp [g_one]
  nodup_addr := by simp [g_one]
  white := Or.inl rfl

/-- C1: on a well-formed string table, for bytes `s` within the short-string
threshold, two consecutive calls `luaS_newlstr(s, len)` both succeed, the
second returns the identical object (same address, same record) and leaves
the state as the first call left it: no entry is added, `nuse` and every chain
are unchanged. -/
theorem C1_newlstr_twice_same_object (g : global_State) (hwf : WF g) (s : List Nat)
    (hs : s.length ≤ LUAI_MAXSHORTLEN) :
    ∃ ts g1 ts2 g2,
      luaS_newlstr g s s.length = Except.ok (ts, g1) ∧
      luaS_newlstr g1 s s.length = Except.ok (ts2, g2) ∧
      ts2.addr = ts.addr ∧ ts2 = ts ∧
      g2.strt.nuse = g1.strt.nuse ∧ g2.strt.hash = g1.strt.hash ∧ g2 = g1 := by
  have h := internshrstr_twice g hwf.hash_len hwf.size_pos hwf.size_le hwf.white s hs
  refine ⟨(internshrstr g s s.length).1, (internshrstr g s s.length).2,
    (internshrstr g s s.length).1, (internshrstr g s s.length).2, ?_, ?_, rfl, rfl, rfl, rfl, rfl⟩
  · simp only [luaS_newlstr, hs, if_true]
  · simp only [luaS_newlstr, hs, if_true, h]

/-- C1 at the one-bucket table and the two bytes "hi". -/
theorem C1_newlstr_twice_same_object_witness :
    WF g_one ∧ [104, 105].length ≤ LUAI_MAXSHORTLEN ∧
    ∃ ts g1 ts2 g2,
      luaS_newlstr g_one [104, 105] [104, 105].length = Except.ok (ts, g1) ∧
      luaS_newlstr g1 [104, 105] [104, 105].length = Except.ok (ts2, g2) ∧
      ts2.addr = ts.addr ∧ ts2 = ts ∧
      g2.strt.nuse = g1.strt.nuse ∧ g2.strt.hash = g1.strt.hash ∧ g2 = g1 :=
  ⟨g_one_WF, by decide, C1_newlstr_twice_same_object g_one g_one_WF [104, 105] (by decide)⟩

/-! ### The rehash loop of `luaS_resize` -/

theorem flatten_set_cons (H : List (List TString)) (h : Nat) (p : TString) (hh : h < H.length) :
    (H.set h (p :: H.getD h [])).flatten.Perm (p :: H.flatten) := by
  induction H generalizing h with
  | nil => simp at hh
  | cons b H ih =>
    cases h with
    | zero => simp
    | succ h =>
      have hh1 : h < H.length := by simpa using hh
      have := ih h hh1
      simp only [List.set_cons_succ, List.flatten_cons, List.getD_cons_succ]
      exact (List.Perm.append_left b this).trans List.perm_middle

theorem flatten_set_nil (H : List (List TString)) (i : Nat) :
    H.flatten.Perm (H.getD i [] ++ (H.set i []).flatten) := by
  induction H generalizing i with
  | nil => simp
  | cons b H ih =>
    cases i with
    | zero => simp
    | succ i =>
      simp only [List.set_cons_succ, List.flatten_cons, List.getD_cons_succ]
      have := ih i
      exact (List.Perm.append_left b this).trans
        ((List.perm_append_comm_assoc b (H.getD i []) _))

theorem getD_set_self (H : List (List TString)) (h j : Nat) (c : List TString)
    (hh : h < H.length) :
    (H.set h c).getD j [] = if j = h then c else H.getD j [] := by
  simp only [List.getD_eq_getElem?_getD, List.getElem?_set]
  by_cases e : h = j
  · subst e; simp [hh]
  · have e2 : ¬ j = h := fun x => e x.symm
    simp [e, e2]

theorem chain_getD (n : Nat) (c : List TString) (H : List (List TString))
    (ht : ∀ p ∈ c, lmod p.hash n < H.length) (j : Nat) :
    (luaS_resize.chain n c H).getD j [] =
      (c.filter (fun p => lmod p.hash n = j)).reverse ++ H.getD j [] := by
  induction c generalizing H with
  | nil => simp [luaS_resize.chain]
  | cons p c ih =>
    have hp : lmod p.hash n < H.length := ht p (List.mem_cons_self _ _)
    have hc : ∀ q ∈ c, lmod q.hash n < (H.set (lmod p.hash n) (p :: H.getD (lmod p.hash n) [])).length := by
      intro q hq
      rw [List.length_set]
      exact ht q (List.mem_cons_of_mem _ hq)
    simp only [luaS_resize.chain]
    rw [ih _ hc, getD_set_self _ _ _ _ hp]
    by_cases e : lmod p.hash n = j
    · subst e
      simp [List.filter_cons]
    · have e2 : ¬ j = lmod p.hash n := fun x => e x.symm
      simp [List.filter_cons, e, e2]

theorem chain_perm (n : Nat) (c : List TString) (H : List (List TString))
    (ht : ∀ p ∈ c, lmod p.hash n < H.length) :
    (luaS_resize.chain n c H).flatten.Perm (c ++ H.flatten) := by
  induction c generalizing H with
  | nil => simp [luaS_resize.chain]
  | cons p c ih =>
    have hp : lmod p.hash n < H.length := ht p (List.mem_cons_self _ _)
    have hc : ∀ q ∈ c, lmod q.hash n < (H.set (lmod p.hash n) (p :: H.getD (lmod p.hash n) [])).length := by
      intro q hq
      rw [List.length_set]
      exact ht q (List.mem_cons_of_mem _ hq)
    simp only [luaS_resize.chain]
    refine (ih _ hc).trans ?_
    refine (List.Perm.append_left c (flatten_set_cons H _ p hp)).trans ?_
    simp

theorem step_perm (n : Nat) (H : List (List TString)) (i : Nat)
    (ht : ∀ p ∈ H.getD i [], lmod p.hash n < H.length) :
    (luaS_resize.step n H i).flatten.Perm H.flatten := by
  unfold luaS_resize.step
  refine (chain_perm n _ _ ?_).trans (flatten_set_nil H i).symm
  intro p hp
  rw [List.length_set]
  exact ht p hp

theorem step_getD (n : Nat) (H : List (List TString)) (i : Nat)
    (ht : ∀ p ∈ H.getD i [], lmod p.hash n < H.length) (j : Nat) :
    (luaS_resize.step n H i).getD j [] =
      ((H.getD i []).filter (fun p => lmod p.hash n = j)).reverse ++
        (if j = i then [] else H.getD j []) := by
  unfold luaS_resize.step
  rw [chain_getD]
  · by_cases hi : i < H.length
    · rw [getD_set_self _ _ _ _ hi]
    · have hi2 : H.length ≤ i := by omega
      rw [List.set_eq_of_length_le hi2]
      by_cases e : j = i
      · subst e
        simp [List.getD_eq_getElem?_getD, List.getElem?_eq_none hi2]
      · simp [e]
  · intro p hp
    rw [List.length_set]
    exact ht p hp

/-- Invariant of the outer rehash loop after `i` iterations: buckets `i ..
size-1` are untouched, every node of another bucket is in the bucket of its
hash for the new size, and the nodes are those of the start. -/
theorem rehash_inv (n size : Nat) (orig : List (List TString))
    (hnew : ∀ j, size ≤ j → orig.getD j [] = [])
    (htarget : ∀ j, j < size → ∀ p ∈ orig.getD j [],
      lmod p.hash n < orig.length ∧ (lmod p.hash n ≤ j ∨ size ≤ lmod p.hash n))
    (i : Nat) (hi : i ≤ size) :
    ((List.range i).foldl (luaS_resize.step n) orig).length = orig.length ∧
    (∀ j, i ≤ j → j < size →
      ((List.range i).foldl (luaS_resize.step n) orig).getD j [] = orig.getD j []) ∧
    (∀ j, (j < i ∨ size ≤ j) →
      ∀ p ∈ ((List.range i).foldl (luaS_resize.step n) orig).getD j [], lmod p.hash n = j) ∧
    ((List.range i).foldl (luaS_resize.step n) orig).flatten.Perm orig.flatten := by
  induction i with
  | zero =>
    refine ⟨rfl, fun j _ _ => rfl, ?_, List.Perm.refl _⟩
    intro j hj p hp
    rcases hj with hj | hj
    · omega
    · simp only [List.range_zero, List.foldl_nil] at hp
      rw [hnew j hj] at hp
      simp at hp
  | succ i ih =>
    obtain ⟨h1, h2, h3, h4⟩ := ih (by omega)
    have hisz : i < size := by omega
    rw [List.range_succ, List.foldl_append]
    simp only [List.foldl_cons, List.foldl_nil]
    generalize hH : (List.range i).foldl (luaS_resize.step n) orig = H at h1 h2 h3 h4 ⊢
    have hbi : H.getD i [] = orig.getD i [] := h2 i (le_refl _) hisz
    have ht : ∀ p ∈ H.getD i [], lmod p.hash n < H.length := by
      intro p hp
      rw [hbi] at hp
      rw [h1]
      exact (htarget i hisz p hp).1
    refine ⟨by rw [step_length, h1], ?_, ?_, (step_perm n H i ht).trans h4⟩
    · intro j hj1 hj2
      rw [step_getD n H i ht j]
      have hne : ¬ j = i := by omega
      have hf : (H.getD i []).filter (fun p => lmod p.hash n = j) = [] := by
        rw [List.filter_eq_nil_iff]
        intro p hp
        rw [hbi] at hp
        have := (htarget i hisz p hp).2
        simp only [decide_eq_true_eq]
        omega
      rw [hf, if_neg hne]
      simp only [List.reverse_nil, List.nil_append]
      exact h2 j (by omega) hj2
    · intro j hj p hp
      rw [step_getD n H i ht j] at hp
      rcases List.mem_append.1 hp with hp | hp
      · rw [List.mem_reverse, List.mem_filter] at hp
        simpa using hp.2
      · by_cases e : j = i
        · simp [e] at hp
        · rw [if_neg e] at hp
          exact h3 j (by omega) p hp

theorem target_fact (a b h : Nat) (ha : 2 ^ a ≤ MAX_INT) (hb : 2 ^ b ≤ MAX_INT) :
    lmod h (2 ^ b) < max (2 ^ a) (2 ^ b) ∧
      (lmod h (2 ^ b) ≤ lmod h (2 ^ a) ∨ 2 ^ a ≤ lmod h (2 ^ b)) := by
  rw [lmod_pow h a ha, lmod_pow h b hb]
  have hpb : 0 < 2 ^ b := Nat.pos_pow_of_pos b (by decide)
  have hpa : 0 < 2 ^ a := Nat.pos_pow_of_pos a (by decide)
  have hlt : h % 2 ^ b < 2 ^ b := Nat.mod_lt _ hpb
  refine ⟨lt_of_lt_of_le hlt (le_max_right _ _), ?_⟩
  by_cases hab : b ≤ a
  · left
    have hd : 2 ^ b ∣ 2 ^ a := pow_dvd_pow 2 hab
    have := Nat.mod_mod_of_dvd h hd
    rw [← this]
    exact Nat.mod_le _ _
  · have hd : 2 ^ a ∣ 2 ^ b := pow_dvd_pow 2 (by omega)
    have hm := Nat.mod_mod_of_dvd h hd
    by_cases hs : h % 2 ^ b < 2 ^ a
    · left
      rw [Nat.mod_eq_of_lt hs] at hm
      omega
    · right
      omega

theorem set_nil_id (H : List (List TString)) (i : Nat) (h : H.getD i [] = []) :
    H.set i [] = H := by
  apply List.ext_getElem?
  intro j
  rw [List.getElem?_set]
  by_cases e : i = j
  · subst e
    by_cases hl : i < H.length
    · rw [List.getD_eq_getElem _ _ hl] at h
      simp [hl, h.symm]
    · simp [hl]
      omega
  · simp [e]

theorem foldl_set_nil_id (is : List Nat) (H : List (List TString))
    (h : ∀ i ∈ is, H.getD i [] = []) :
    is.foldl (fun w i => w.set i []) H = H := by
  induction is with
  | nil => rfl
  | cons i is ih =>
    rw [List.foldl_cons, set_nil_id H i (h i (List.mem_cons_self _ _))]
    exact ih (fun j hj => h j (List.mem_cons_of_mem _ hj))

theorem getD_append_replicate (H : List (List TString)) (k j : Nat) :
    (H ++ List.replicate k []).getD j [] = H.getD j [] := by
  simp only [List.getD_eq_getElem?_getD]
  by_cases hj : j < H.length
  · rw [List.getElem?_append_left hj]
  · have hj2 : H.length ≤ j := by omega
    rw [List.getElem?_append_right hj2, List.getElem?_eq_none hj2]
    by_cases hk : j - H.length < k
    · rw [List.getElem?_replicate_of_lt hk]; rfl
    · rw [List.getElem?_eq_none (by simpa using hk)]

theorem rehash_eq (tb : stringtable) (n : Nat) (hlen : tb.hash.length = tb.size) :
    luaS_resize.rehash tb n =
      (List.range tb.size).foldl (luaS_resize.step n)
        (tb.hash ++ List.replicate (n - tb.size) []) := by
  unfold luaS_resize.rehash
  simp only
  split
  · rename_i h
    congr 1
    have e : luaM_reallocvector tb.hash n = tb.hash ++ List.replicate (n - tb.size) [] := by
      unfold luaM_reallocvector
      rw [List.take_of_length_le (by omega), hlen]
    rw [e]
    apply foldl_set_nil_id
    intro i hi
    rw [getD_append_replicate]
    rw [List.mem_range'_1] at hi
    exact List.getD_eq_default _ _ (by omega)
  · rename_i h
    have : n - tb.size = 0 := by omega
    rw [this]
    simp

/-- The bucket array after the rehash loop, for power-of-two sizes: it has
`max size newsize` buckets, every node is in the bucket of its hash for the
new size, and the nodes are exactly those of the table. -/
theorem rehash_spec (tb : stringtable) (a b : Nat) (hsz : tb.size = 2 ^ a)
    (ha : 2 ^ a ≤ MAX_INT) (hb : 2 ^ b ≤ MAX_INT) (hlen : tb.hash.length = tb.size)
    (hch : ∀ i, ∀ ts ∈ tb.hash.getD i [], lmod ts.hash tb.size = i) :
    (luaS_resize.rehash tb (2 ^ b)).length = max (2 ^ a) (2 ^ b) ∧
    (∀ j, ∀ p ∈ (luaS_resize.rehash tb (2 ^ b)).getD j [], lmod p.hash (2 ^ b) = j) ∧
    (luaS_resize.rehash tb (2 ^ b)).flatten.Perm tb.hash.flatten := by
  have hL := rehash_length tb (2 ^ b) hlen
  rw [hsz] at hL
  refine ⟨hL, ?_⟩
  rw [rehash_eq tb _ hlen]
  have hinv := rehash_inv (2 ^ b) tb.size (tb.hash ++ List.replicate (2 ^ b - tb.size) [])
    (by
      intro j hj
      rw [getD_append_replicate]
      exact List.getD_eq_default _ _ (by omega))
    (by
      intro j hj p hp
      rw [getD_append_replicate] at hp
      have hj2 := hch j p hp
      have := target_fact a b p.hash ha hb
      rw [hsz] at hj2 ⊢
      rw [hj2] at this
      refine ⟨?_, this.2⟩
      have h1 := this.1
      simp only [List.length_append, List.length_replicate, hlen, hsz]
      omega)
    tb.size (le_refl _)
  obtain ⟨_, _, h3, h4⟩ := hinv
  refine ⟨?_, ?_⟩
  · intro j p hp
    by_cases hj : j < tb.size
    · exact h3 j (Or.inl hj) p hp
    · exact h3 j (Or.inr (by omega)) p hp
  · refine h4.trans ?_
    simp

theorem mem_flatten_iff_getD (H : List (List TString)) (ts : TString) :
    ts ∈ H.flatten ↔ ∃ i, ts ∈ H.getD i [] := by
  rw [List.mem_flatten]
  constructor
  · rintro ⟨c, hc, hts⟩
    obtain ⟨i, hi⟩ := List.mem_iff_getElem?.1 hc
    exact ⟨i, by simp [List.getD_eq_getElem?_getD, hi, hts]⟩
  · rintro ⟨i, hi⟩
    rw [List.getD_eq_getElem?_getD] at hi
    cases hc : H[i]? with
    | none => simp [hc] at hi
    | some c =>
      rw [hc] at hi
      exact ⟨c, List.mem_iff_getElem?.2 ⟨i, hc⟩, hi⟩

theorem take_flatten (H : List (List TString)) (n : Nat)
    (h : ∀ j, n ≤ j → H.getD j [] = []) : (H.take n).flatten = H.flatten := by
  have e : H.flatten = (H.take n).flatten ++ (H.drop n).flatten := by
    rw [← List.flatten_append, List.take_append_drop]
  have e2 : (H.drop n).flatten = [] := by
    rw [List.flatten_eq_nil_iff]
    intro c hc
    obtain ⟨k, hk⟩ := List.mem_iff_getElem?.1 hc
    rw [List.getElem?_drop] at hk
    have := h (n + k) (by omega)
    rw [List.getD_eq_getElem?_getD, hk] at this
    exact this
  rw [e, e2, List.append_nil]

theorem take_getD (H : List (List TString)) (n j : Nat) :
    (H.take n).getD j [] = if j < n then H.getD j [] else [] := by
  simp only [List.getD_eq_getElem?_getD, List.getElem?_take]
  split <;> rfl

/-- After the rehash loop towards a smaller power-of-two size, every bucket
from `newsize` on is empty. -/
theorem rehash_tail_empty (tb : stringtable) (a b : Nat) (hsz : tb.size = 2 ^ a)
    (ha : 2 ^ a ≤ MAX_INT) (hb : 2 ^ b ≤ MAX_INT) (hlen : tb.hash.length = tb.size)
    (hch : ∀ i, ∀ ts ∈ tb.hash.getD i [], lmod ts.hash tb.size = i)
    (j : Nat) (hj : 2 ^ b ≤ j) : (luaS_resize.rehash tb (2 ^ b)).getD j [] = [] := by
  obtain ⟨_, h2, _⟩ := rehash_spec tb a b hsz ha hb hlen hch
  rw [List.eq_nil_iff_forall_not_mem]
  intro p hp
  have h := h2 j p hp
  have hlt := lmod_lt p.hash (2 ^ b) (Nat.pos_pow_of_pos b (by decide)) hb
  omega

theorem resize_hash_eq (g : global_State) (n : Nat) (hlen : g.strt.hash.length = g.strt.size) :
    (luaS_resize g n).strt.hash =
      if n < g.strt.size then (luaS_resize.rehash g.strt n).take n
      else luaS_resize.rehash g.strt n := by
  unfold luaS_resize
  simp only
  split
  · rename_i h
    unfold luaM_reallocvector
    rw [rehash_length _ _ hlen]
    have : n - max g.strt.size n = 0 := by omega
    rw [this]
    simp
  · rfl

/-- What `luaS_resize` to a power-of-two size does to a well-formed table. -/
theorem resize_spec (g : global_State) (hwf : WF g) (b : Nat) (hb : 2 ^ b ≤ MAX_INT) :
    (luaS_resize g (2 ^ b)).strt.size = 2 ^ b ∧
    (luaS_resize g (2 ^ b)).strt.hash.length = 2 ^ b ∧
    (∀ j, ∀ p ∈ (luaS_resize g (2 ^ b)).strt.hash.getD j [], lmod p.hash (2 ^ b) = j) ∧
    (luaS_resize g (2 ^ b)).strt.hash.flatten.Perm g.strt.hash.flatten ∧
    (luaS_resize g (2 ^ b)).strt.nuse = g.strt.nuse := by
  obtain ⟨a, hsz⟩ := hwf.size_pow
  have ha : 2 ^ a ≤ MAX_INT := by rw [← hsz]; exact hwf.size_le
  have hch : ∀ i, ∀ ts ∈ g.strt.hash.getD i [], lmod ts.hash g.strt.size = i :=
    fun i ts hts => (hwf.chained i ts hts).1
  obtain ⟨h1, h2, h3⟩ := rehash_spec g.strt a b hsz ha hb hwf.hash_len hch
  refine ⟨rfl, resize_hash_length g _ hwf.hash_len, ?_, ?_, rfl⟩
  · intro j p hp
    rw [resize_hash_eq g _ hwf.hash_len] at hp
    split at hp
    · rw [take_getD] at hp
      split at hp
      · exact h2 j p hp
      · simp at hp
    · exact h2 j p hp
  · rw [resize_hash_eq g _ hwf.hash_len]
    split
    · rw [take_flatten _ _ (rehash_tail_empty g.strt a b hsz ha hb hwf.hash_len hch)]
      exact h3
    · exact h3

theorem resize_WF (g : global_State) (hwf : WF g) (b : Nat) (hb : 2 ^ b ≤ MAX_INT) :
    WF (luaS_resize g (2 ^ b)) := by
  obtain ⟨h1, h2, h3, h4, h5⟩ := resize_spec g hwf b hb
  refine ⟨⟨b, h1⟩, by rw [h1]; exact hb, by rw [h2, h1], ?_, ?_, ?_, ?_, hwf.white⟩
  · rw [h5, hwf.nuse_eq, h4.length_eq]
  · intro i ts hts
    rw [h1]
    refine ⟨h3 i ts hts, ?_⟩
    have hm : ts ∈ (luaS_resize g (2 ^ b)).strt.hash.flatten :=
      (mem_flatten_iff_getD _ _).2 ⟨i, hts⟩
    obtain ⟨i0, hi0⟩ := (mem_flatten_iff_getD _ _).1 (h4.mem_iff.1 hm)
    exact (hwf.chained i0 ts hi0).2
  · exact ((h4.map TString.contents).nodup_iff).2 hwf.nodup_contents
  · exact ((h4.map TString.addr).nodup_iff).2 hwf.nodup_addr

/-! ### The hash reads only the first `l` bytes -/

theorem hash_loop_congr (str str1 : List Nat) (step : Nat) (hstep : 0 < step) (l h : Nat)
    (hc : ∀ i, i < l → str.getD i 0 = str1.getD i 0) :
    luaS_hash.loop str step hstep l h = luaS_hash.loop str1 step hstep l h := by
  induction l using Nat.strong_induction_on generalizing h with
  | _ l ih =>
    conv_lhs => rw [luaS_hash.loop]
    conv_rhs => rw [luaS_hash.loop]
    by_cases hl : l ≥ step
    · rw [dif_pos hl, dif_pos hl, hc (l - 1) (by omega)]
      exact ih (l - step) (by omega) _ (fun i hi => hc i (by omega))
    · rw [dif_neg hl, dif_neg hl]

theorem luaS_hash_take (str : List Nat) (l seed : Nat) :
    luaS_hash (str.take l) l seed = luaS_hash str l seed := by
  unfold luaS_hash
  apply hash_loop_congr
  intro i hi
  simp [List.getD_eq_getElem?_getD, List.getElem?_take, hi]

/-! ### Interning a string that is in the table -/

theorem search_present (g : global_State) (str : List Nat) (l : Nat) (c : List TString)
    (ts : TString) (hts : ts ∈ c) (hm : l = ts.shrlen ∧ memcmp str ts.bytes l = 0)
    (huniq : ∀ m ∈ c, (l = m.shrlen ∧ memcmp str m.bytes l = 0) → m = ts) :
    ∃ c1, internshrstr.search g str l c = some (if isdead g ts then changewhite ts else ts, c1) ∧
      c1.length = c.length := by
  induction c with
  | nil => simp at hts
  | cons m c ih =>
    rw [internshrstr.search]
    by_cases hmm : l = m.shrlen ∧ memcmp str m.bytes l = 0
    · rw [if_pos hmm]
      have := huniq m (List.mem_cons_self _ _) hmm
      subst this
      exact ⟨_, rfl, rfl⟩
    · rw [if_neg hmm]
      have hts2 : ts ∈ c := by
        rcases List.mem_cons.1 hts with e | e
        · subst e; exact absurd hm hmm
        · exact e
      obtain ⟨c1, h1, h2⟩ := ih hts2 (fun x hx => huniq x (List.mem_cons_of_mem _ hx))
      rw [h1]
      exact ⟨m :: c1, rfl, by simp [h2]⟩

theorem contents_shr (g : global_State) (ts : TString) (h : IsShrStr g ts) :
    ts.contents = ts.bytes.take ts.shrlen := by
  unfold TString.contents tsslen
  rw [if_pos h.1]

/-- Interning the bytes of a node of a well-formed table returns that node
(resurrected if it was dead). -/
theorem intern_present (g : global_State) (hwf : WF g) (ts : TString)
    (hts : ts ∈ g.strt.hash.flatten) :
    (internshrstr g ts.contents ts.shrlen).1 = if isdead g ts then changewhite ts else ts := by
  obtain ⟨i, hi⟩ := (mem_flatten_iff_getD _ _).1 hts
  obtain ⟨hidx, hshr⟩ := hwf.chained i ts hi
  have hcont := contents_shr g ts hshr
  have hhash : luaS_hash ts.contents ts.shrlen g.seed = ts.hash := by
    rw [hcont, luaS_hash_take, ← hshr.2.2.2]
  have hm : ts.shrlen = ts.shrlen ∧ memcmp ts.contents ts.bytes ts.shrlen = 0 := by
    refine ⟨rfl, ?_⟩
    rw [memcmp_eq_zero_iff, hcont, List.take_take, Nat.min_self]
  have huniq : ∀ m ∈ g.strt.hash.getD i [],
      (ts.shrlen = m.shrlen ∧ memcmp ts.contents m.bytes ts.shrlen = 0) → m = ts := by
    intro m hmem hmm
    have hms := (hwf.chained i m hmem).2
    have hmc := contents_shr g m hms
    apply List.inj_on_of_nodup_map hwf.nodup_contents
      ((mem_flatten_iff_getD _ _).2 ⟨i, hmem⟩) hts
    rw [hmc, ← hmm.1]
    have := (memcmp_eq_zero_iff _ _ _).1 hmm.2
    rw [← this, hcont, List.take_take, Nat.min_self]
  obtain ⟨c1, hs, _⟩ := search_present g ts.contents ts.shrlen _ ts hi hm huniq
  rw [← hidx, ← hhash] at hs
  rw [internshrstr_found g _ _ _ c1 hs]

theorem g_abc_WF : WF g_abc where
  size_pow := ⟨1, rfl⟩
  size_le := by decide
  hash_len := rfl
  nuse_eq := rfl
  chained := by
    intro i ts h
    rcases i with _ | _ | i
    · simp only [g_abc, List.getD_cons_zero, List.mem_cons, List.mem_singleton, List.not_mem_nil,
        or_false] at h
      rcases h with h | h <;> subst h <;>
        refine ⟨by decide, by decide, by decide, by decide, ?_⟩ <;>
        simp [g_abc, luaS_hash, luaS_hash.loop, LUAI_HASHLIMIT, cast_uint, cast_byte]
    · simp only [g_abc, List.getD_cons_succ, List.getD_cons_zero, List.mem_singleton] at h
      subst h
      refine ⟨by decide, by decide, by decide, by decide, ?_⟩
      simp [g_abc, luaS_hash, luaS_hash.loop, LUAI_HASHLIMIT, cast_uint, cast_byte]
    · simp [g_abc] at h
  nodup_contents := by decide
  nodup_addr := by decide
  white := Or.inl rfl

theorem newlstr_present (g : global_State) (hwf : WF g) (ts : TString)
    (hts : ts ∈ g.strt.hash.flatten) :
    ∃ r g2, luaS_newlstr g ts.contents ts.shrlen = Except.ok (r, g2) ∧
      r = (if isdead g ts then changewhite ts else ts) ∧
      r.addr = ts.addr ∧ r.contents = ts.contents := by
  obtain ⟨i, hi⟩ := (mem_flatten_iff_getD _ _).1 hts
  have hshr := (hwf.chained i ts hi).2
  have h := intern_present g hwf ts hts
  refine ⟨(internshrstr g ts.contents ts.shrlen).1, (internshrstr g ts.contents ts.shrlen).2,
    ?_, h, ?_, ?_⟩
  · simp only [luaS_newlstr, hshr.2.1, if_true]
  · rw [h]; split <;> rfl
  · rw [h]; split <;> rfl

/-- C3: `luaS_resize` of a well-formed table to a power-of-two size keeps
exactly the same entry objects (the chained nodes are a permutation of the
former ones, so none is lost or duplicated and their contents are the same),
keeps `nuse`, sets `size = newsize`, and chains every entry in bucket
`hash mod newsize`; a second resize (in particular back down to the former
size) again keeps the full set; and after either, interning the bytes of any
entry returns that entry's object. -/
theorem C3_resize_keeps_entries (g : global_State) (hwf : WF g) (b : Nat)
    (hb : 2 ^ b ≤ MAX_INT) :
    ((luaS_resize g (2 ^ b)).strt.size = 2 ^ b ∧
     (luaS_resize g (2 ^ b)).strt.hash.length = 2 ^ b ∧
     (luaS_resize g (2 ^ b)).strt.hash.flatten.Perm g.strt.hash.flatten ∧
     (luaS_resize g (2 ^ b)).strt.nuse = g.strt.nuse ∧
     (∀ j, ∀ p ∈ (luaS_resize g (2 ^ b)).strt.hash.getD j [], p.hash % 2 ^ b = j) ∧
     (∀ ts ∈ g.strt.hash.flatten, ∃ r g2,
        luaS_newlstr (luaS_resize g (2 ^ b)) ts.contents ts.shrlen = Except.ok (r, g2) ∧
        r.addr = ts.addr ∧ r.contents = ts.contents)) ∧
    (∀ c, 2 ^ c ≤ MAX_INT →
     (luaS_resize (luaS_resize g (2 ^ b)) (2 ^ c)).strt.size = 2 ^ c ∧
     (luaS_resize (luaS_resize g (2 ^ b)) (2 ^ c)).strt.hash.flatten.Perm g.strt.hash.flatten ∧
     (luaS_resize (luaS_resize g (2 ^ b)) (2 ^ c)).strt.nuse = g.strt.nuse ∧
     (∀ j, ∀ p ∈ (luaS_resize (luaS_resize g (2 ^ b)) (2 ^ c)).strt.hash.getD j [],
        p.hash % 2 ^ c = j) ∧
     (∀ ts ∈ g.strt.hash.flatten, ∃ r g2,
        luaS_newlstr (luaS_resize (luaS_resize g (2 ^ b)) (2 ^ c)) ts.contents ts.shrlen
          = Except.ok (r, g2) ∧
        r.addr = ts.addr ∧ r.contents = ts.contents)) := by
  obtain ⟨h1, h2, h3, h4, h5⟩ := resize_spec g hwf b hb
  have hwf1 := resize_WF g hwf b hb
  refine ⟨⟨h1, h2, h4, h5, ?_, ?_⟩, ?_⟩
  · intro j p hp
    rw [← lmod_pow p.hash b hb]
    exact h3 j p hp
  · intro ts hts
    obtain ⟨r, g2, e1, _, e3, e4⟩ := newlstr_present _ hwf1 ts (h4.mem_iff.2 hts)
    exact ⟨r, g2, e1, e3, e4⟩
  · intro c hc
    obtain ⟨k1, k2, k3, k4, k5⟩ := resize_spec _ hwf1 c hc
    have hwf2 := resize_WF _ hwf1 c hc
    refine ⟨k1, k4.trans h4, k5.trans h5, ?_, ?_⟩
    · intro j p hp
      rw [← lmod_pow p.hash c hc]
      exact k3 j p hp
    · intro ts hts
      obtain ⟨r, g2, e1, _, e3, e4⟩ :=
        newlstr_present _ hwf2 ts (k4.mem_iff.2 (h4.mem_iff.2 hts))
      exact ⟨r, g2, e1, e3, e4⟩

/-- C3 at the two-bucket table holding "c", "a", "b", resized up to 4 buckets
(and then to any power of two, such as back down to 2). -/
theorem C3_resize_keeps_entries_witness :
    WF g_abc ∧ 2 ^ 2 ≤ MAX_INT ∧
    ((luaS_resize g_abc (2 ^ 2)).strt.size = 2 ^ 2 ∧
     (luaS_resize g_abc (2 ^ 2)).strt.hash.length = 2 ^ 2 ∧
     (luaS_resize g_abc (2 ^ 2)).strt.hash.flatten.Perm g_abc.strt.hash.flatten ∧
     (luaS_resize g_abc (2 ^ 2)).strt.nuse = g_abc.strt.nuse ∧
     (∀ j, ∀ p ∈ (luaS_resize g_abc (2 ^ 2)).strt.hash.getD j [], p.hash % 2 ^ 2 = j) ∧
     (∀ ts ∈ g_abc.strt.hash.flatten, ∃ r g2,
        luaS_newlstr (luaS_resize g_abc (2 ^ 2)) ts.contents ts.shrlen = Except.ok (r, g2) ∧
        r.addr = ts.addr ∧ r.contents = ts.contents)) ∧
    (∀ c, 2 ^ c ≤ MAX_INT →
     (luaS_resize (luaS_resize g_abc (2 ^ 2)) (2 ^ c)).strt.size = 2 ^ c ∧
     (luaS_resize (luaS_resize g_abc (2 ^ 2)) (2 ^ c)).strt.hash.flatten.Perm
        g_abc.strt.hash.flatten ∧
     (luaS_resize (luaS_resize g_abc (2 ^ 2)) (2 ^ c)).strt.nuse = g_abc.strt.nuse ∧
     (∀ j, ∀ p ∈ (luaS_resize (luaS_resize g_abc (2 ^ 2)) (2 ^ c)).strt.hash.getD j [],
        p.hash % 2 ^ c = j) ∧
     (∀ ts ∈ g_abc.strt.hash.flatten, ∃ r g2,
        luaS_newlstr (luaS_resize (luaS_resize g_abc (2 ^ 2)) (2 ^ c)) ts.contents ts.shrlen
          = Except.ok (r, g2) ∧
        r.addr = ts.addr ∧ r.contents = ts.contents)) :=
  ⟨g_abc_WF, by decide, C3_resize_keeps_entries g_abc g_abc_WF 2 (by decide)⟩

/-- C4: for a well-formed table and a power-of-two `newsize` smaller than the
current size, after the rehash loop of `luaS_resize` every bucket with index
`>= newsize` is empty; hence the planted assertion (buckets `newsize` and
`size - 1` are empty) holds, and the truncation to `newsize` buckets discards
no entry: the nodes after it are the nodes before it, which are those of the
table. -/
theorem C4_shrink_tail_empty (g : global_State) (hwf : WF g) (b : Nat)
    (hlt : 2 ^ b < g.strt.size) :
    (∀ j, 2 ^ b ≤ j → (luaS_resize.rehash g.strt (2 ^ b)).getD j [] = []) ∧
    luaS_resize.vanishing g.strt (2 ^ b) = true ∧
    (luaS_resize g (2 ^ b)).strt.hash = (luaS_resize.rehash g.strt (2 ^ b)).take (2 ^ b) ∧
    (luaS_resize g (2 ^ b)).strt.hash.flatten = (luaS_resize.rehash g.strt (2 ^ b)).flatten ∧
    (luaS_resize g (2 ^ b)).strt.hash.flatten.Perm g.strt.hash.flatten := by
  obtain ⟨a, hsz⟩ := hwf.size_pow
  have ha : 2 ^ a ≤ MAX_INT := by rw [← hsz]; exact hwf.size_le
  have hb : 2 ^ b ≤ MAX_INT := le_trans (le_of_lt hlt) hwf.size_le
  have hch : ∀ i, ∀ ts ∈ g.strt.hash.getD i [], lmod ts.hash g.strt.size = i :=
    fun i ts hts => (hwf.chained i ts hts).1
  have htail := rehash_tail_empty g.strt a b hsz ha hb hwf.hash_len hch
  have heq : (luaS_resize g (2 ^ b)).strt.hash = (luaS_resize.rehash g.strt (2 ^ b)).take (2 ^ b) := by
    rw [resize_hash_eq g _ hwf.hash_len, if_pos hlt]
  refine ⟨htail, ?_, heq, ?_, (resize_spec g hwf b hb).2.2.2.1⟩
  · unfold luaS_resize.vanishing
    simp only [htail (2 ^ b) (le_refl _), htail (g.strt.size - 1) (by omega), beq_self_eq_true,
      Bool.and_self]
  · rw [heq, take_flatten _ _ htail]

/-- C4 at the two-bucket table holding "c", "a", "b", shrunk to one bucket. -/
theorem C4_shrink_tail_empty_witness :
    WF g_abc ∧ 2 ^ 0 < g_abc.strt.size ∧
    (∀ j, 2 ^ 0 ≤ j → (luaS_resize.rehash g_abc.strt (2 ^ 0)).getD j [] = []) ∧
    luaS_resize.vanishing g_abc.strt (2 ^ 0) = true ∧
    (luaS_resize g_abc (2 ^ 0)).strt.hash = (luaS_resize.rehash g_abc.strt (2 ^ 0)).take (2 ^ 0) ∧
    (luaS_resize g_abc (2 ^ 0)).strt.hash.flatten = (luaS_resize.rehash g_abc.strt (2 ^ 0)).flatten ∧
    (luaS_resize g_abc (2 ^ 0)).strt.hash.flatten.Perm g_abc.strt.hash.flatten :=
  ⟨g_abc_WF, by decide, C4_shrink_tail_empty g_abc g_abc_WF 0 (by decide)⟩

/-! ## Theorems: lfunc.c -/

theorem levelOf_some {upvals : List (Option UpVal)} {a lv : Nat}
    (h : levelOf upvals a = some lv) :
    ∃ uv, upvals.getD a none = some uv ∧ uv.v = VPtr.stack lv := by
  unfold levelOf at h
  generalize upvals.getD a none = o at h
  cases o with
  | none => exact Option.noConfusion h
  | some uv =>
    simp only at h
    cases hv : uv.v with
    | own => rw [hv] at h; exact Option.noConfusion h
    | stack l =>
      rw [hv] at h
      simp only [Option.some.injEq] at h
      subst h
      exact ⟨uv, rfl, hv⟩

theorem levelOf_lt {upvals : List (Option UpVal)} {a lv : Nat}
    (h : levelOf upvals a = some lv) : a < upvals.length := by
  obtain ⟨uv, hu, _⟩ := levelOf_some h
  by_contra hc
  rw [List.getD_eq_default _ _ (by omega)] at hu
  exact Option.noConfusion hu

theorem levelOf_append {upvals : List (Option UpVal)} {a lv : Nat} (x : List (Option UpVal))
    (h : levelOf upvals a = some lv) : levelOf (upvals ++ x) a = some lv := by
  have hlt := levelOf_lt h
  unfold levelOf at *
  rw [List.getD_eq_getElem?_getD, List.getElem?_append_left hlt, ← List.getD_eq_getElem?_getD]
  exact h

theorem scan_cons (upvals : List (Option UpVal)) (level p : Nat) (next : List Nat) (k lv : Nat)
    (h : levelOf upvals p = some lv) :
    luaF_findupval.scan upvals level (p :: next) k =
      if lv ≥ level then
        if lv = level then some (Scan.found p)
        else luaF_findupval.scan upvals level next (k + 1)
      else some (Scan.notfound k) := by
  obtain ⟨uv, hu, hv⟩ := levelOf_some h
  simp only [luaF_findupval.scan, hu, hv]

/-- Shape of the scan over a list of open upvalues: it passes a prefix of
nodes above `level`, then either finds the node at `level` or stops at the
end of the list or in front of a node below `level`. -/
theorem scan_spec (upvals : List (Option UpVal)) (level : Nat) (ps : List Nat) (k : Nat)
    (hopen : ∀ a ∈ ps, ∃ lv, levelOf upvals a = some lv) :
    ∃ l1 l2, ps = l1 ++ l2 ∧
      (∀ a ∈ l1, ∃ lv, levelOf upvals a = some lv ∧ level < lv) ∧
      ((luaF_findupval.scan upvals level ps k = some (Scan.notfound (k + l1.length)) ∧
          (∀ p ∈ l2.head?, ∃ lv, levelOf upvals p = some lv ∧ lv < level)) ∨
       (∃ p l3, l2 = p :: l3 ∧ levelOf upvals p = some level ∧
          luaF_findupval.scan upvals level ps k = some (Scan.found p))) := by
  induction ps generalizing k with
  | nil =>
    exact ⟨[], [], rfl, by simp, Or.inl ⟨by simp [luaF_findupval.scan], by simp⟩⟩
  | cons p ps ih =>
    obtain ⟨lv, hlv⟩ := hopen p (List.mem_cons_self _ _)
    rw [scan_cons upvals level p ps k lv hlv]
    by_cases h1 : lv ≥ level
    · by_cases h2 : lv = level
      · subst h2
        exact ⟨[], p :: ps, rfl, by simp, Or.inr ⟨p, ps, rfl, hlv, by simp⟩⟩
      · obtain ⟨l1, l2, e, hl1, hres⟩ := ih (k + 1) (fun a ha => hopen a (List.mem_cons_of_mem _ ha))
        refine ⟨p :: l1, l2, by rw [e]; rfl, ?_, ?_⟩
        · intro a ha
          rcases List.mem_cons.1 ha with e1 | e1
          · subst e1; exact ⟨lv, hlv, by omega⟩
          · exact hl1 a e1
        · rw [if_pos h1, if_neg h2]
          rcases hres with ⟨r1, r2⟩ | ⟨q, l3, r1, r2, r3⟩
          · left
            refine ⟨?_, r2⟩
            rw [r1, List.length_cons]
            congr 2
            omega
          · right
            exact ⟨q, l3, r1, r2, r3⟩
    · refine ⟨[], p :: ps, rfl, by simp, Or.inl ⟨by simp [h1], ?_⟩⟩
      intro q hq
      simp only [List.head?_cons, Option.mem_def, Option.some.injEq] at hq
      subst hq
      exact ⟨lv, hlv, by omega⟩

theorem scan_pass (upvals : List (Option UpVal)) (level : Nat) (l1 rest : List Nat) (k : Nat)
    (h : ∀ a ∈ l1, ∃ lv, levelOf upvals a = some lv ∧ level < lv) :
    luaF_findupval.scan upvals level (l1 ++ rest) k =
      luaF_findupval.scan upvals level rest (k + l1.length) := by
  induction l1 generalizing k with
  | nil => rfl
  | cons p l1 ih =>
    obtain ⟨lv, hlv, hgt⟩ := h p (List.mem_cons_self _ _)
    rw [List.cons_append, scan_cons upvals level p _ k lv hlv, if_pos (by omega), if_neg (by omega),
      ih (k + 1) (fun a ha => h a (List.mem_cons_of_mem _ ha)), List.length_cons]
    congr 1
    omega

theorem levelOf_new (upvals : List (Option UpVal)) (uv : UpVal) (lv : Nat)
    (h : uv.v = VPtr.stack lv) : levelOf (upvals ++ [some uv]) upvals.length = some lv := by
  unfold levelOf
  rw [List.getD_eq_getElem?_getD, List.getElem?_append_right (le_refl _)]
  simp [h]

theorem findupval_found (m : Machine) (level p : Nat)
    (h : luaF_findupval.scan m.upvals level m.L.openupval 0 = some (Scan.found p)) :
    luaF_findupval m level = some (p, m) := by
  simp only [luaF_findupval, h]

theorem findupval_notfound (m : Machine) (level pp : Nat)
    (h : luaF_findupval.scan m.upvals level m.L.openupval 0 = some (Scan.notfound pp)) :
    ∃ m1, luaF_findupval m level = some (m.upvals.length, m1) ∧
      m1.upvals = m.upvals ++ [some { refcount := 0, u := UpValU.open_ 1, v := VPtr.stack level }] ∧
      m1.L.openupval = m.L.openupval.take pp ++ m.upvals.length :: m.L.openupval.drop pp ∧
      m1.L.stack = m.L.stack ∧ m1.L.self = m.L.self := by
  simp only [luaF_findupval, h]
  split <;> exact ⟨_, rfl, rfl, rfl, rfl, rfl⟩

/-- What `luaF_findupval` does on a list of open upvalues: either it returns a
node of the list that aliases `level` and changes nothing, or it allocates a
new block and links it after a prefix of nodes above `level`, in front of the
end of the list or of a node below `level`. -/
theorem findupval_spec (m : Machine) (hok : OpenOK m) (level : Nat) :
    (∃ p, p ∈ m.L.openupval ∧ levelOf m.upvals p = some level ∧
        luaF_findupval.scan m.upvals level m.L.openupval 0 = some (Scan.found p) ∧
        luaF_findupval m level = some (p, m)) ∨
    (∃ l1 l2 m1, m.L.openupval = l1 ++ l2 ∧
        (∀ a ∈ l1, ∃ lv, levelOf m.upvals a = some lv ∧ level < lv) ∧
        (∀ p ∈ l2.head?, ∃ lv, levelOf m.upvals p = some lv ∧ lv < level) ∧
        luaF_findupval m level = some (m.upvals.length, m1) ∧
        m1.upvals = m.upvals ++
          [some { refcount := 0, u := UpValU.open_ 1, v := VPtr.stack level }] ∧
        m1.L.openupval = l1 ++ m.upvals.length :: l2 ∧
        m1.L.stack = m.L.stack ∧ m1.L.self = m.L.self) := by
  obtain ⟨l1, l2, e, hl1, hres⟩ := scan_spec m.upvals level m.L.openupval 0
    (fun a ha => (hok a ha).imp (fun _ h => h.1))
  rcases hres with ⟨r1, r2⟩ | ⟨p, l3, r1, r2, r3⟩
  · right
    obtain ⟨m1, f1, f2, f3, f4, f5⟩ := findupval_notfound m level _ r1
    refine ⟨l1, l2, m1, e, hl1, r2, f1, f2, ?_, f4, f5⟩
    rw [f3, e]
    simp
  · left
    refine ⟨p, ?_, r2, r3, findupval_found m level p r3⟩
    rw [e, r1]
    simp

theorem scan_new (m m1 : Machine) (level : Nat) (l1 l2 : List Nat)
    (hl1 : ∀ a ∈ l1, ∃ lv, levelOf m.upvals a = some lv ∧ level < lv)
    (f2 : m1.upvals = m.upvals ++
      [some { refcount := 0, u := UpValU.open_ 1, v := VPtr.stack level }])
    (f3 : m1.L.openupval = l1 ++ m.upvals.length :: l2) :
    luaF_findupval.scan m1.upvals level m1.L.openupval 0 = some (Scan.found m.upvals.length) := by
  rw [f3, scan_pass]
  · rw [scan_cons m1.upvals level _ _ _ level (by rw [f2]; exact levelOf_new _ _ _ rfl)]
    simp
  · intro a ha
    obtain ⟨lv, h1, h2⟩ := hl1 a ha
    exact ⟨lv, by rw [f2]; exact levelOf_append _ h1, h2⟩

theorem setupval_open (m : Machine) (uv level : Nat) (val : TValue)
    (h : levelOf m.upvals uv = some level) (hlevel : level < m.L.stack.length) :
    m.setupval uv val = some { m with L := { m.L with stack := m.L.stack.set level val } } := by
  obtain ⟨u, hu, hv⟩ := levelOf_some h
  simp only [Machine.setupval, Machine.upval, hu, hv, hlevel, if_true]

theorem getupval_open (m : Machine) (uv level : Nat)
    (h : levelOf m.upvals uv = some level) :
    m.getupval uv = m.L.stack[level]? := by
  obtain ⟨u, hu, hv⟩ := levelOf_some h
  simp only [Machine.getupval, Machine.upval, hu, hv]

/-- C5: on a thread whose open list holds open upvalues, `luaF_findupval`
called twice with the same stack slot returns the same upvalue both times and
the second call changes nothing (in particular not the open list); the
upvalue is on the open list and aliases the slot, so a value written through
it is the value of the slot, the value read through it by any holder, and a
later `luaF_findupval` for the slot still returns this upvalue. -/
theorem C5_findupval_twice_shared (m : Machine) (hok : OpenOK m) (level : Nat)
    (hlevel : level < m.L.stack.length) :
    ∃ uv m1, luaF_findupval m level = some (uv, m1) ∧
      luaF_findupval m1 level = some (uv, m1) ∧
      uv ∈ m1.L.openupval ∧ levelOf m1.upvals uv = some level ∧
      ∀ val, ∃ m2, m1.setupval uv val = some m2 ∧
        m2.L.stack[level]? = some val ∧ m2.getupval uv = some val ∧
        m2.L.openupval = m1.L.openupval ∧
        luaF_findupval m2 level = some (uv, m2) := by
  have key : ∃ uv m1, luaF_findupval m level = some (uv, m1) ∧
      luaF_findupval.scan m1.upvals level m1.L.openupval 0 = some (Scan.found uv) ∧
      uv ∈ m1.L.openupval ∧ levelOf m1.upvals uv = some level ∧
      m1.L.stack.length = m.L.stack.length := by
    rcases findupval_spec m hok level with ⟨p, h1, h2, h3, h4⟩ | ⟨l1, l2, m1, e, hl1, _, f1, f2, f3, f4, _⟩
    · exact ⟨p, m, h4, h3, h1, h2, rfl⟩
    · refine ⟨m.upvals.length, m1, f1, scan_new m m1 level l1 l2 hl1 f2 f3, ?_, ?_, by rw [f4]⟩
      · rw [f3]; simp
      · rw [f2]; exact levelOf_new _ _ _ rfl
  obtain ⟨uv, m1, h1, h2, h3, h4, h5⟩ := key
  refine ⟨uv, m1, h1, findupval_found m1 level uv h2, h3, h4, ?_⟩
  intro val
  have hl : level < m1.L.stack.length := by omega
  refine ⟨_, setupval_open m1 uv level val h4 hl, ?_, ?_, rfl, ?_⟩
  · simp [List.getElem?_set, hl]
  · rw [getupval_open { m1 with L := { m1.L with stack := m1.L.stack.set level val } } uv level h4]
    simp [List.getElem?_set, hl]
  · exact findupval_found _ level uv h2

/-! ### `luaF_close` -/

theorem getD_set_ne (upvals : List (Option UpVal)) (uv a : Nat) (x : Option UpVal) (h : a ≠ uv) :
    (upvals.set uv x).getD a none = upvals.getD a none := by
  simp only [List.getD_eq_getElem?_getD, List.getElem?_set]
  rw [if_neg (fun e => h e.symm)]

theorem getD_set_eq (upvals : List (Option UpVal)) (uv : Nat) (x : Option UpVal)
    (h : uv < upvals.length) : (upvals.set uv x).getD uv none = x := by
  simp [List.getD_eq_getElem?_getD, List.getElem?_set, h]

theorem levelOf_set_ne (upvals : List (Option UpVal)) (uv a : Nat) (x : Option UpVal)
    (h : a ≠ uv) : levelOf (upvals.set uv x) a = levelOf upvals a := by
  unfold levelOf
  rw [getD_set_ne upvals uv a x h]

theorem close_loop_cons (stack : List TValue) (level : Nat) (upvals : List (Option UpVal))
    (uv : Nat) (next : List Nat) (o : UpVal) (lv : Nat) (val : TValue)
    (ho : upvals.getD uv none = some o) (hv : o.v = VPtr.stack lv) (hval : stack[lv]? = some val) :
    luaF_close.loop stack level upvals (uv :: next) =
      if lv ≥ level then
        (luaF_close.loop stack level
          (upvals.set uv (if o.refcount = 0 then none
            else some { o with u := UpValU.value val, v := VPtr.own })) next).map
          (fun r => (r.1, r.2.1, uv :: r.2.2))
      else some (upvals, uv :: next, []) := by
  simp only [luaF_close.loop, ho, hv, hval]
  by_cases h1 : lv ≥ level
  · by_cases h2 : o.refcount = 0
    · simp only [h1, h2, if_true]
    · simp only [h1, h2, if_true, if_false]
  · simp only [h1, if_false]

/-- What the loop of `luaF_close` does to a list of distinct open upvalues:
it unlinks a prefix `l1` of nodes at or above `level`, stops at the end of the
list or in front of a node below `level`, frees or closes exactly the nodes of
`l1`, and reports them in list order. -/
theorem close_loop_spec (stack : List TValue) (level : Nat) (ps : List Nat)
    (upvals : List (Option UpVal))
    (hok : ∀ a ∈ ps, ∃ lv, levelOf upvals a = some lv ∧ lv < stack.length)
    (hnd : ps.Nodup) :
    ∃ upvals1 l1 l2, luaF_close.loop stack level upvals ps = some (upvals1, l2, l1) ∧
      ps = l1 ++ l2 ∧
      (∀ p ∈ l2.head?, ∃ lv, levelOf upvals p = some lv ∧ lv < level) ∧
      upvals1.length = upvals.length ∧
      (∀ a, a ∉ l1 → upvals1.getD a none = upvals.getD a none) ∧
      (∀ a ∈ l1, ∃ o lv val, upvals.getD a none = some o ∧ o.v = VPtr.stack lv ∧ level ≤ lv ∧
        stack[lv]? = some val ∧
        upvals1.getD a none =
          if o.refcount = 0 then none else some { o with u := UpValU.value val, v := VPtr.own }) := by
  induction ps generalizing upvals with
  | nil =>
    exact ⟨upvals, [], [], rfl, rfl, by simp, rfl, fun _ _ => rfl, by simp⟩
  | cons uv next ih =>
    obtain ⟨lv, hlv, hlt⟩ := hok uv (List.mem_cons_self _ _)
    obtain ⟨o, ho, hv⟩ := levelOf_some hlv
    have huvlt := levelOf_lt hlv
    obtain ⟨val, hval⟩ : ∃ val, stack[lv]? = some val :=
      ⟨stack[lv], List.getElem?_eq_getElem hlt⟩
    rw [close_loop_cons stack level upvals uv next o lv val ho hv hval]
    have hnd2 := List.nodup_cons.1 hnd
    by_cases h1 : lv ≥ level
    · rw [if_pos h1]
      generalize hx : (if o.refcount = 0 then none
        else some { o with u := UpValU.value val, v := VPtr.own } : Option UpVal) = x
      have hne : ∀ a ∈ next, a ≠ uv := fun a ha e => hnd2.1 (e ▸ ha)
      obtain ⟨upvals1, l1, l2, r1, r2, r3, r4, r5, r6⟩ := ih (upvals.set uv x)
        (fun a ha => by
          rw [levelOf_set_ne _ _ _ _ (hne a ha)]
          exact hok a (List.mem_cons_of_mem _ ha))
        hnd2.2
      have hl1 : ∀ a ∈ l1, a ≠ uv := fun a ha => hne a (by rw [r2]; simp [ha])
      refine ⟨upvals1, uv :: l1, l2, by rw [r1]; rfl, by rw [r2]; rfl, ?_, ?_, ?_, ?_⟩
      · intro p hp
        obtain ⟨lp, e1, e2⟩ := r3 p hp
        have hpn : p ∈ next := by
          rw [r2]
          cases l2 with
          | nil => simp at hp
          | cons q l2 =>
            simp only [List.head?_cons, Option.mem_def, Option.some.injEq] at hp
            subst hp; simp
        rw [levelOf_set_ne _ _ _ _ (hne p hpn)] at e1
        exact ⟨lp, e1, e2⟩
      · rw [r4, List.length_set]
      · intro a ha
        have ha1 : a ≠ uv := fun e => ha (by rw [e]; simp)
        have ha2 : a ∉ l1 := fun e => ha (List.mem_cons_of_mem _ e)
        rw [r5 a ha2, getD_set_ne _ _ _ _ ha1]
      · intro a ha
        rcases List.mem_cons.1 ha with e | e
        · subst e
          have hnot : a ∉ l1 := fun e => hl1 a e rfl
          refine ⟨o, lv, val, ho, hv, h1, hval, ?_⟩
          rw [r5 a hnot, getD_set_eq _ _ _ huvlt, hx]
        · obtain ⟨o1, lv1, val1, k1, k2, k3, k4, k5⟩ := r6 a e
          rw [getD_set_ne _ _ _ _ (hl1 a e)] at k1
          exact ⟨o1, lv1, val1, k1, k2, k3, k4, k5⟩
    · rw [if_neg h1]
      refine ⟨upvals, [], uv :: next, rfl, rfl, ?_, rfl, fun _ _ => rfl, by simp⟩
      intro p hp
      simp only [List.head?_cons, Option.mem_def, Option.some.injEq] at hp
      subst hp
      exact ⟨lv, hlv, by omega⟩

theorem sorted_nodup (upvals : List (Option UpVal)) (ps : List Nat)
    (hopen : ∀ a ∈ ps, ∃ lv, levelOf upvals a = some lv)
    (hs : ps.Pairwise
      (fun a b => ∀ la lb, levelOf upvals a = some la → levelOf upvals b = some lb → lb < la)) :
    ps.Nodup := by
  refine List.Pairwise.imp_of_mem ?_ hs
  intro a b ha _ hr e
  subst e
  obtain ⟨lv, hlv⟩ := hopen a ha
  exact absurd (hr lv lv hlv hlv) (lt_irrefl _)

theorem sorted_below_le (upvals : List (Option UpVal)) (level : Nat) (l2 : List Nat)
    (hopen : ∀ a ∈ l2, ∃ lv, levelOf upvals a = some lv)
    (hs : l2.Pairwise
      (fun a b => ∀ la lb, levelOf upvals a = some la → levelOf upvals b = some lb → lb ≤ la))
    (hhead : ∀ p ∈ l2.head?, ∃ lv, levelOf upvals p = some lv ∧ lv < level) :
    ∀ a ∈ l2, ∃ lv, levelOf upvals a = some lv ∧ lv < level := by
  cases l2 with
  | nil => simp
  | cons q l2 =>
    obtain ⟨lq, hq1, hq2⟩ := hhead q (by simp)
    intro a ha
    rcases List.mem_cons.1 ha with e | e
    · subst e; exact ⟨lq, hq1, hq2⟩
    · obtain ⟨la, hla⟩ := hopen a ha
      have := (List.pairwise_cons.1 hs).1 a e lq la hq1 hla
      exact ⟨la, hla, by omega⟩

theorem sorted_below (upvals : List (Option UpVal)) (level : Nat) (l2 : List Nat)
    (hopen : ∀ a ∈ l2, ∃ lv, levelOf upvals a = some lv)
    (hs : l2.Pairwise
      (fun a b => ∀ la lb, levelOf upvals a = some la → levelOf upvals b = some lb → lb < la))
    (hhead : ∀ p ∈ l2.head?, ∃ lv, levelOf upvals p = some lv ∧ lv < level) :
    ∀ a ∈ l2, ∃ lv, levelOf upvals a = some lv ∧ lv < level :=
  sorted_below_le upvals level l2 hopen
    (hs.imp (fun h la lb h1 h2 => le_of_lt (h la lb h1 h2))) hhead

theorem OpenWF.descending {m : Machine} (hwf : OpenWF m) : OpenDescending m :=
  List.Pairwise.imp (fun h la lb h1 h2 => le_of_lt (h la lb h1 h2)) hwf.2

theorem OpenWF.nodup {m : Machine} (hwf : OpenWF m) : m.L.openupval.Nodup :=
  sorted_nodup m.upvals _ (fun a ha => (hwf.1 a ha).imp (fun _ h => h.1)) hwf.2

/-- What `luaF_close` does on a descending open list of distinct open
upvalues. -/
theorem close_spec (m : Machine) (hok : OpenOK m) (hnd : m.L.openupval.Nodup)
    (hdesc : OpenDescending m) (level : Nat) :
    ∃ m1 l1 l2, luaF_close m level = some m1 ∧ luaF_close.order m level = some l1 ∧
      m.L.openupval = l1 ++ l2 ∧ m1.L.openupval = l2 ∧ m1.L.stack = m.L.stack ∧
      m1.upvals.length = m.upvals.length ∧
      (∀ a ∈ l2, ∃ lv, levelOf m.upvals a = some lv ∧ lv < level) ∧
      (∀ a, a ∉ l1 → m1.upvals.getD a none = m.upvals.getD a none) ∧
      (∀ a ∈ l1, ∃ o lv val, m.upvals.getD a none = some o ∧ o.v = VPtr.stack lv ∧ level ≤ lv ∧
        m.L.stack[lv]? = some val ∧
        m1.upvals.getD a none =
          if o.refcount = 0 then none else some { o with u := UpValU.value val, v := VPtr.own }) := by
  have hopen : ∀ a ∈ m.L.openupval, ∃ lv, levelOf m.upvals a = some lv :=
    fun a ha => (hok a ha).imp (fun _ h => h.1)
  obtain ⟨upvals1, l1, l2, r1, r2, r3, r4, r5, r6⟩ :=
    close_loop_spec m.L.stack level m.L.openupval m.upvals hok hnd
  have hs : (l1 ++ l2).Pairwise
      (fun a b => ∀ la lb, levelOf m.upvals a = some la → levelOf m.upvals b = some lb → lb ≤ la) := by
    rw [← r2]; exact hdesc
  have hl2 := sorted_below_le m.upvals level l2
    (fun a ha => hopen a (by rw [r2]; simp [ha])) (List.pairwise_append.1 hs).2.1 r3
  refine ⟨{ m with L := { m.L with openupval := l2 }, upvals := upvals1 }, l1, l2,
    ?_, ?_, r2, rfl, rfl, r4, hl2, r5, r6⟩
  · simp only [luaF_close, r1, Option.map_some']
  · simp only [luaF_close.order, r1, Option.map_some']

theorem open_disjoint (m : Machine) (hnd : m.L.openupval.Nodup) (l1 l2 : List Nat)
    (e : m.L.openupval = l1 ++ l2) : ∀ a ∈ l2, a ∉ l1 := by
  rw [e] at hnd
  intro a h2 h1
  exact (List.nodup_append.1 hnd).2.2 h1 h2

/-- C6: `luaF_close(L, level)` on an open list of distinct open upvalues in
descending order of stack position succeeds and handles each open upvalue at
or above `level` as follows: with reference count zero
its block is freed; otherwise it becomes closed, its own storage holding a
copy of the value the aliased slot held at the moment of closing and its
value pointer referring to that storage, so that whatever the stack holds
afterwards the value observed through the upvalue is that copy. -/
theorem C6_close_frees_or_closes (m : Machine) (hok : OpenOK m)
    (hnd : m.L.openupval.Nodup) (hdesc : OpenDescending m) (level : Nat) :
    ∃ m1, luaF_close m level = some m1 ∧
      ∀ a ∈ m.L.openupval, ∀ lv, levelOf m.upvals a = some lv → level ≤ lv →
        ∃ o val, m.upval a = some o ∧ o.v = VPtr.stack lv ∧ m.L.stack[lv]? = some val ∧
          (o.refcount = 0 → m1.upval a = none) ∧
          (o.refcount ≠ 0 →
            m1.upval a = some { o with u := UpValU.value val, v := VPtr.own } ∧
            ∀ stack1 : List TValue,
              Machine.getupval { m1 with L := { m1.L with stack := stack1 } } a = some val) := by
  obtain ⟨m1, l1, l2, h1, _, h3, _, _, _, h7, _, h9⟩ := close_spec m hok hnd hdesc level
  refine ⟨m1, h1, ?_⟩
  intro a ha lv hlv hle
  have ha1 : a ∈ l1 := by
    rw [h3] at ha
    rcases List.mem_append.1 ha with e | e
    · exact e
    · obtain ⟨lv2, k1, k2⟩ := h7 a e
      rw [hlv] at k1
      simp only [Option.some.injEq] at k1
      omega
  obtain ⟨o, lv1, val, k1, k2, _, k4, k5⟩ := h9 a ha1
  obtain ⟨o2, j1, j2⟩ := levelOf_some hlv
  rw [k1] at j1
  simp only [Option.some.injEq] at j1
  subst j1
  rw [k2] at j2
  simp only [VPtr.stack.injEq] at j2
  subst j2
  refine ⟨o, val, k1, k2, k4, ?_, ?_⟩
  · intro h0
    rw [if_pos h0] at k5
    exact k5
  · intro h0
    rw [if_neg h0] at k5
    refine ⟨k5, ?_⟩
    intro stack1
    simp only [Machine.getupval, Machine.upval, k5]

/-- C7: after `luaF_close(L, level)` on an open list of distinct open upvalues
in descending order of stack position, the open list consists of exactly the former entries whose stack
position is below `level`, in their former order (it is the rest of the list
after the unlinked nodes), each with its block unmodified; no upvalue at or
above `level` remains on the list. -/
theorem C7_close_keeps_entries_below (m : Machine) (hok : OpenOK m)
    (hnd : m.L.openupval.Nodup) (hdesc : OpenDescending m) (level : Nat) :
    ∃ m1, luaF_close m level = some m1 ∧
      m1.L.openupval =
        m.L.openupval.filter (fun a => (levelOf m.upvals a).any (fun lv => decide (lv < level))) ∧
      (∃ l1, m.L.openupval = l1 ++ m1.L.openupval) ∧
      (∀ a ∈ m1.L.openupval, m1.upval a = m.upval a ∧
        ∃ lv, levelOf m1.upvals a = some lv ∧ lv < level) ∧
      (∀ a ∈ m.L.openupval, ∀ lv, levelOf m.upvals a = some lv → level ≤ lv →
        a ∉ m1.L.openupval) := by
  obtain ⟨m1, l1, l2, h1, _, h3, h4, _, _, h7, h8, h9⟩ := close_spec m hok hnd hdesc level
  have hdis := open_disjoint m hnd l1 l2 h3
  refine ⟨m1, h1, ?_, ⟨l1, by rw [h4]; exact h3⟩, ?_, ?_⟩
  · rw [h4, h3, List.filter_append]
    have e1 : l1.filter (fun a => (levelOf m.upvals a).any (fun lv => decide (lv < level))) = [] := by
      rw [List.filter_eq_nil_iff]
      intro a ha
      obtain ⟨o, lv, val, k1, k2, k3, _, _⟩ := h9 a ha
      have : levelOf m.upvals a = some lv := by
        unfold levelOf
        rw [k1]
        simp only [k2]
      rw [this]
      simp only [Option.any_some, decide_eq_true_eq]
      omega
    have e2 : l2.filter (fun a => (levelOf m.upvals a).any (fun lv => decide (lv < level))) = l2 := by
      rw [List.filter_eq_self]
      intro a ha
      obtain ⟨lv, k1, k2⟩ := h7 a ha
      rw [k1]
      simp only [Option.any_some, decide_eq_true_eq]
      exact k2
    rw [e1, e2, List.nil_append]
  · intro a ha
    rw [h4] at ha
    have hfr := h8 a (hdis a ha)
    refine ⟨hfr, ?_⟩
    obtain ⟨lv, k1, k2⟩ := h7 a ha
    refine ⟨lv, ?_, k2⟩
    unfold levelOf at k1 ⊢
    rw [hfr]
    exact k1
  · intro a _ lv hlv hle ha1
    rw [h4] at ha1
    obtain ⟨lv2, k1, k2⟩ := h7 a ha1
    rw [hlv] at k1
    simp only [Option.some.injEq] at k1
    omega

/-- C8: `luaF_close(L, level)` on a well-formed open list handles exactly the
upvalues at or above `level`, in strictly descending order of stack position:
whenever upvalue `B` aliases a higher slot than upvalue `A` and both are at or
above `level`, `B` is unlinked and closed (or freed) before `A`. -/
theorem C8_close_order_descending (m : Machine) (hwf : OpenWF m) (level : Nat) :
    ∃ order, luaF_close.order m level = some order ∧
      (∀ a, a ∈ order ↔
        (a ∈ m.L.openupval ∧ ∃ lv, levelOf m.upvals a = some lv ∧ level ≤ lv)) ∧
      order.Pairwise (fun b a => ∀ lb la,
        levelOf m.upvals b = some lb → levelOf m.upvals a = some la → la < lb) ∧
      (∀ A B la lb, A ∈ m.L.openupval → B ∈ m.L.openupval →
        levelOf m.upvals A = some la → levelOf m.upvals B = some lb →
        level ≤ la → la < lb → order.indexOf B < order.indexOf A) := by
  obtain ⟨m1, l1, l2, _, h2, h3, _, _, _, h7, _, h9⟩ :=
    close_spec m hwf.1 hwf.nodup hwf.descending level
  have hmem : ∀ a, a ∈ l1 ↔
      (a ∈ m.L.openupval ∧ ∃ lv, levelOf m.upvals a = some lv ∧ level ≤ lv) := by
    intro a
    constructor
    · intro ha
      obtain ⟨o, lv, val, k1, k2, k3, _, _⟩ := h9 a ha
      refine ⟨by rw [h3]; simp [ha], lv, ?_, k3⟩
      unfold levelOf
      rw [k1]
      simp only [k2]
    · rintro ⟨ha, lv, k1, k2⟩
      rw [h3] at ha
      rcases List.mem_append.1 ha with e | e
      · exact e
      · obtain ⟨lv2, j1, j2⟩ := h7 a e
        rw [k1] at j1
        simp only [Option.some.injEq] at j1
        omega
  have hpw : l1.Pairwise (fun b a => ∀ lb la,
      levelOf m.upvals b = some lb → levelOf m.upvals a = some la → la < lb) := by
    have := hwf.2
    unfold OpenSorted at this
    rw [h3] at this
    exact (List.pairwise_append.1 this).1
  refine ⟨l1, h2, hmem, hpw, ?_⟩
  intro A B la lb hA hB hla hlb hle hlt
  have hA1 : A ∈ l1 := (hmem A).2 ⟨hA, la, hla, hle⟩
  have hB1 : B ∈ l1 := (hmem B).2 ⟨hB, lb, hlb, by omega⟩
  have iA := List.indexOf_lt_length.2 hA1
  have iB := List.indexOf_lt_length.2 hB1
  by_contra hc
  have hle2 : List.indexOf A l1 ≤ List.indexOf B l1 := by omega
  rcases Nat.lt_or_ge (List.indexOf A l1) (List.indexOf B l1) with h | h
  · have := List.pairwise_iff_getElem.1 hpw _ _ iA iB h
    rw [List.getElem_indexOf iA, List.getElem_indexOf iB] at this
    have := this la lb hla hlb
    omega
  · have e : List.indexOf A l1 = List.indexOf B l1 := by omega
    have e1 := List.getElem_indexOf iA
    have e2 := List.getElem_indexOf iB
    have : A = B := by
      rw [← e1, ← e2]
      congr 1
    subst this
    rw [hla] at hlb
    simp only [Option.some.injEq] at hlb
    omega

/-! ### The open list stays well-formed -/

theorem levelOf_append_eq (upvals x : List (Option UpVal)) (a : Nat) (h : a < upvals.length) :
    levelOf (upvals ++ x) a = levelOf upvals a := by
  unfold levelOf
  rw [List.getD_eq_getElem?_getD, List.getElem?_append_left h, ← List.getD_eq_getElem?_getD]

theorem levelOf_set_same_v (upvals : List (Option UpVal)) (a : Nat) (o o1 : UpVal)
    (ho : upvals.getD a none = some o) (hv : o1.v = o.v) (b : Nat) :
    levelOf (upvals.set a (some o1)) b = levelOf upvals b := by
  by_cases e : b = a
  · subst e
    have hlt : b < upvals.length := by
      by_contra hc
      rw [List.getD_eq_default _ _ (by omega)] at ho
      exact Option.noConfusion ho
    unfold levelOf
    rw [getD_set_eq _ _ _ hlt, ho]
    simp only [hv]
  · exact levelOf_set_ne _ _ _ _ e

theorem OpenWF_congr (m m1 : Machine) (hwf : OpenWF m)
    (hlist : m1.L.openupval = m.L.openupval)
    (hlv : ∀ b ∈ m.L.openupval, levelOf m1.upvals b = levelOf m.upvals b)
    (hst : m1.L.stack.length = m.L.stack.length) : OpenWF m1 := by
  constructor
  · intro a ha
    rw [hlist] at ha
    rw [hlv a ha, hst]
    exact hwf.1 a ha
  · unfold OpenSorted
    rw [hlist]
    refine List.Pairwise.imp_of_mem ?_ hwf.2
    intro a b ha hb hr la lb h1 h2
    rw [hlv a ha] at h1
    rw [hlv b hb] at h2
    exact hr la lb h1 h2

theorem findupval_OpenWF (m : Machine) (hwf : OpenWF m) (level uv : Nat) (m1 : Machine)
    (hlevel : level < m.L.stack.length) (hf : luaF_findupval m level = some (uv, m1)) :
    OpenWF m1 := by
  have hopen : ∀ a ∈ m.L.openupval, ∃ lv, levelOf m.upvals a = some lv :=
    fun a ha => (hwf.1 a ha).imp (fun _ h => h.1)
  rcases findupval_spec m hwf.1 level with ⟨p, _, _, _, h4⟩ | ⟨l1, l2, m2, e, hl1, hl2, f1, f2, f3, f4, _⟩
  · rw [hf] at h4
    simp only [Option.some.injEq, Prod.mk.injEq] at h4
    rw [h4.2]
    exact hwf
  · rw [hf] at f1
    simp only [Option.some.injEq, Prod.mk.injEq] at f1
    obtain ⟨f0, f1⟩ := f1
    subst f1
    have hs : (l1 ++ l2).Pairwise (fun a b => ∀ la lb,
        levelOf m.upvals a = some la → levelOf m.upvals b = some lb → lb < la) := by
      rw [← e]; exact hwf.2
    obtain ⟨s1, s2, s3⟩ := List.pairwise_append.1 hs
    have hl2all := sorted_below m.upvals level l2
      (fun a ha => hopen a (by rw [e]; simp [ha])) s2 hl2
    have hnew : levelOf m1.upvals m.upvals.length = some level := by
      rw [f2]; exact levelOf_new _ _ _ rfl
    have hold : ∀ a ∈ m.L.openupval, levelOf m1.upvals a = levelOf m.upvals a := by
      intro a ha
      obtain ⟨lv, hlv⟩ := hopen a ha
      rw [f2]
      exact levelOf_append_eq _ _ _ (levelOf_lt hlv)
    have hm1 : ∀ a ∈ l1, a ∈ m.L.openupval := fun a ha => by rw [e]; simp [ha]
    have hm2 : ∀ a ∈ l2, a ∈ m.L.openupval := fun a ha => by rw [e]; simp [ha]
    constructor
    · intro a ha
      rw [f3] at ha
      rw [f4]
      rcases List.mem_append.1 ha with h | h
      · rw [hold a (hm1 a h)]; exact hwf.1 a (hm1 a h)
      · rcases List.mem_cons.1 h with h | h
        · subst h; exact ⟨level, hnew, hlevel⟩
        · rw [hold a (hm2 a h)]; exact hwf.1 a (hm2 a h)
    · unfold OpenSorted
      rw [f3, List.pairwise_append]
      refine ⟨?_, ?_, ?_⟩
      · refine List.Pairwise.imp_of_mem ?_ s1
        intro a b ha hb hr la lb h1 h2
        rw [hold a (hm1 a ha)] at h1
        rw [hold b (hm1 b hb)] at h2
        exact hr la lb h1 h2
      · rw [List.pairwise_cons]
        refine ⟨?_, ?_⟩
        · intro b hb la lb h1 h2
          rw [hnew] at h1
          rw [hold b (hm2 b hb)] at h2
          obtain ⟨lv, k1, k2⟩ := hl2all b hb
          rw [k1] at h2
          simp only [Option.some.injEq] at h1 h2
          omega
        · refine List.Pairwise.imp_of_mem ?_ s2
          intro a b ha hb hr la lb h1 h2
          rw [hold a (hm2 a ha)] at h1
          rw [hold b (hm2 b hb)] at h2
          exact hr la lb h1 h2
      · intro a ha b hb la lb h1 h2
        rw [hold a (hm1 a ha)] at h1
        rcases List.mem_cons.1 hb with h | h
        · subst h
          rw [hnew] at h2
          obtain ⟨lv, k1, k2⟩ := hl1 a ha
          rw [k1] at h1
          simp only [Option.some.injEq] at h1 h2
          omega
        · rw [hold b (hm2 b h)] at h2
          exact s3 a ha b h la lb h1 h2

theorem close_OpenWF (m : Machine) (hwf : OpenWF m) (level : Nat) (m1 : Machine)
    (hc : luaF_close m level = some m1) : OpenWF m1 := by
  obtain ⟨m2, l1, l2, h1, _, h3, h4, h5, _, h7, h8, _⟩ :=
    close_spec m hwf.1 hwf.nodup hwf.descending level
  rw [hc] at h1
  simp only [Option.some.injEq] at h1
  subst h1
  have hdis := open_disjoint m hwf.nodup l1 l2 h3
  have hlv : ∀ b ∈ l2, levelOf m1.upvals b = levelOf m.upvals b := by
    intro b hb
    unfold levelOf
    rw [h8 b (hdis b hb)]
  have hs : (l1 ++ l2).Pairwise (fun a b => ∀ la lb,
      levelOf m.upvals a = some la → levelOf m.upvals b = some lb → lb < la) := by
    rw [← h3]; exact hwf.2
  constructor
  · intro a ha
    rw [h4] at ha
    rw [hlv a ha, h5]
    exact hwf.1 a (by rw [h3]; simp [ha])
  · unfold OpenSorted
    rw [h4]
    refine List.Pairwise.imp_of_mem ?_ (List.pairwise_append.1 hs).2.1
    intro a b ha hb hr la lb k1 k2
    rw [hlv a ha] at k1
    rw [hlv b hb] at k2
    exact hr la lb k1 k2

theorem setupval_OpenWF (m : Machine) (hwf : OpenWF m) (a : Nat) (val : TValue) (m1 : Machine)
    (hw : m.setupval a val = some m1) : OpenWF m1 := by
  unfold Machine.setupval Machine.upval at hw
  cases ho : m.upvals.getD a none with
  | none => rw [ho] at hw; exact Option.noConfusion hw
  | some uv =>
    rw [ho] at hw
    simp only at hw
    cases hv : uv.v with
    | stack lv =>
      rw [hv] at hw
      simp only at hw
      split at hw
      · simp only [Option.some.injEq] at hw
        subst hw
        exact OpenWF_congr m _ hwf rfl (fun _ _ => rfl) (by simp)
      · exact Option.noConfusion hw
    | own =>
      rw [hv] at hw
      simp only at hw
      cases hu : uv.u with
      | open_ t => rw [hu] at hw; exact Option.noConfusion hw
      | value x =>
        rw [hu] at hw
        simp only [Option.some.injEq] at hw
        subst hw
        exact OpenWF_congr m _ hwf rfl
          (fun b _ => levelOf_set_same_v m.upvals a uv _ ho hv.symm b) rfl

theorem Reachable.openWF {m : Machine} (h : Reachable m) : OpenWF m := by
  induction h with
  | init m h =>
    constructor
    · intro a ha; rw [h] at ha; simp at ha
    · unfold OpenSorted; rw [h]; exact List.Pairwise.nil
  | findupval m level uv m1 _ hlevel hf ih => exact findupval_OpenWF m ih level uv m1 hlevel hf
  | close m level m1 _ hc ih => exact close_OpenWF m ih level m1 hc
  | write m a val m1 _ hw ih => exact setupval_OpenWF m ih a val m1 hw
  | retain m a o _ ho ih =>
    exact OpenWF_congr m _ ih rfl
      (fun b _ => levelOf_set_same_v m.upvals a o { o with refcount := o.refcount + 1 } ho rfl b) rfl

theorem m_two_reachable : Reachable m_two :=
  Reachable.findupval _ 2 1 m_two
    (Reachable.retain _ 0 { v := VPtr.stack 4, refcount := 0, u := UpValU.open_ 1 }
      (Reachable.findupval m_empty 4 0 _ (Reachable.init m_empty rfl) (by decide) rfl) rfl)
    (by decide) rfl

theorem m_two_OpenWF : OpenWF m_two := m_two_reachable.openWF

/-- C9: in every state reachable from an empty open list through
`luaF_findupval` and `luaF_close` (with writes through upvalues and reference
counting in between), the open list is strictly descending by aliased stack
position, hence has no repeated node and at most one upvalue per stack slot;
and `luaF_findupval` either returns a node of the list, changing nothing, or
links the new upvalue after all entries above the slot and before all entries
below it. -/
theorem C9_open_list_descending (m : Machine) (h : Reachable m) :
    OpenSorted m ∧ OpenOK m ∧ m.L.openupval.Nodup ∧
    (∀ a ∈ m.L.openupval, ∀ b ∈ m.L.openupval,
      levelOf m.upvals a = levelOf m.upvals b → a = b) ∧
    (∀ level uv m1, luaF_findupval m level = some (uv, m1) →
      (uv ∈ m.L.openupval ∧ m1 = m) ∨
      (uv ∉ m.L.openupval ∧ ∃ l1 l2, m.L.openupval = l1 ++ l2 ∧
        m1.L.openupval = l1 ++ uv :: l2 ∧
        (∀ a ∈ l1, ∃ lv, levelOf m.upvals a = some lv ∧ level < lv) ∧
        (∀ a ∈ l2, ∃ lv, levelOf m.upvals a = some lv ∧ lv < level))) := by
  have hwf := h.openWF
  have hopen : ∀ a ∈ m.L.openupval, ∃ lv, levelOf m.upvals a = some lv :=
    fun a ha => (hwf.1 a ha).imp (fun _ h => h.1)
  refine ⟨hwf.2, hwf.1, sorted_nodup m.upvals _ hopen hwf.2, ?_, ?_⟩
  · intro a ha b hb hab
    by_contra hne
    have hp : m.L.openupval.Pairwise (fun a b => levelOf m.upvals a ≠ levelOf m.upvals b) := by
      refine List.Pairwise.imp_of_mem ?_ hwf.2
      intro x y hx hy hr e
      obtain ⟨lx, hlx⟩ := hopen x hx
      obtain ⟨ly, hly⟩ := hopen y hy
      have := hr lx ly hlx hly
      rw [hlx, hly] at e
      simp only [Option.some.injEq] at e
      omega
    exact List.Pairwise.forall (fun _ _ hxy => hxy.symm) hp ha hb hne hab
  · intro level uv m1 hf
    rcases findupval_spec m hwf.1 level with ⟨p, h1, _, _, h4⟩ | ⟨l1, l2, m2, e, hl1, hl2, f1, _, f3, _, _⟩
    · rw [hf] at h4
      simp only [Option.some.injEq, Prod.mk.injEq] at h4
      left
      rw [h4.1, h4.2]
      exact ⟨h1, rfl⟩
    · rw [hf] at f1
      simp only [Option.some.injEq, Prod.mk.injEq] at f1
      obtain ⟨f0, f1⟩ := f1
      subst f1
      right
      have hs : (l1 ++ l2).Pairwise (fun a b => ∀ la lb,
          levelOf m.upvals a = some la → levelOf m.upvals b = some lb → lb < la) := by
        rw [← e]; exact hwf.2
      refine ⟨?_, l1, l2, e, by rw [f3, f0], hl1, ?_⟩
      · intro hmem
        obtain ⟨lv, hlv⟩ := hopen uv hmem
        have := levelOf_lt hlv
        omega
      · exact sorted_below m.upvals level l2
          (fun a ha => hopen a (by rw [e]; simp [ha])) (List.pairwise_append.1 hs).2.1 hl2

/-- C10: on a well-formed open list `luaF_findupval` succeeds; when no open
upvalue aliases the slot, the upvalue it returns is a newly allocated block
(at an address no block had before), open, aliasing exactly the requested
slot, with reference count 0, on the open list, and every block that existed
before is unchanged; when one does, it returns that upvalue and the whole
state, so its reference count and every other field, is unchanged. -/
theorem C10_findupval_new_or_same (m : Machine) (hwf : OpenWF m) (level : Nat) :
    ∃ uv m1, luaF_findupval m level = some (uv, m1) ∧
      ((¬ ∃ a ∈ m.L.openupval, levelOf m.upvals a = some level) →
        m.upval uv = none ∧ m.upvals.length ≤ uv ∧
        m1.upval uv = some { v := VPtr.stack level, refcount := 0, u := UpValU.open_ 1 } ∧
        uv ∈ m1.L.openupval ∧
        (∀ a, a < m.upvals.length → m1.upval a = m.upval a)) ∧
      ((∃ a ∈ m.L.openupval, levelOf m.upvals a = some level) →
        uv ∈ m.L.openupval ∧ levelOf m.upvals uv = some level ∧ m1 = m ∧
        m1.upval uv = m.upval uv) := by
  have hopen : ∀ a ∈ m.L.openupval, ∃ lv, levelOf m.upvals a = some lv :=
    fun a ha => (hwf.1 a ha).imp (fun _ h => h.1)
  rcases findupval_spec m hwf.1 level with ⟨p, h1, h2, _, h4⟩ | ⟨l1, l2, m1, e, hl1, hl2, f1, f2, f3, _, _⟩
  · refine ⟨p, m, h4, ?_, ?_⟩
    · intro hno
      exact absurd ⟨p, h1, h2⟩ hno
    · intro _
      exact ⟨h1, h2, rfl, rfl⟩
  · refine ⟨m.upvals.length, m1, f1, ?_, ?_⟩
    · intro _
      refine ⟨?_, le_refl _, ?_, ?_, ?_⟩
      · unfold Machine.upval
        exact List.getD_eq_default _ _ (le_refl _)
      · unfold Machine.upval
        rw [f2, List.getD_eq_getElem?_getD, List.getElem?_append_right (le_refl _)]
        simp
      · rw [f3]; simp
      · intro a ha
        unfold Machine.upval
        rw [f2, List.getD_eq_getElem?_getD, List.getElem?_append_left ha,
          ← List.getD_eq_getElem?_getD]
    · rintro ⟨a, ha, hla⟩
      exfalso
      have hs : (l1 ++ l2).Pairwise (fun a b => ∀ la lb,
          levelOf m.upvals a = some la → levelOf m.upvals b = some lb → lb < la) := by
        rw [← e]; exact hwf.2
      have hl2all := sorted_below m.upvals level l2
        (fun a ha => hopen a (by rw [e]; simp [ha])) (List.pairwise_append.1 hs).2.1 hl2
      rw [e] at ha
      rcases List.mem_append.1 ha with h | h
      · obtain ⟨lv, k1, k2⟩ := hl1 a h
        rw [hla] at k1
        simp only [Option.some.injEq] at k1
        omega
      · obtain ⟨lv, k1, k2⟩ := hl2all a h
        rw [hla] at k1
        simp only [Option.some.injEq] at k1
        omega

/-! ### The theorems at the thread `m_two` -/

/-- C5 at `m_two` and slot 3, which lies between the two open upvalues. -/
theorem C5_findupval_twice_shared_witness :
    OpenOK m_two ∧ 3 < m_two.L.stack.length ∧
    ∃ uv m1, luaF_findupval m_two 3 = some (uv, m1) ∧
      luaF_findupval m1 3 = some (uv, m1) ∧
      uv ∈ m1.L.openupval ∧ levelOf m1.upvals uv = some 3 ∧
      ∀ val, ∃ m2, m1.setupval uv val = some m2 ∧
        m2.L.stack[3]? = some val ∧ m2.getupval uv = some val ∧
        m2.L.openupval = m1.L.openupval ∧
        luaF_findupval m2 3 = some (uv, m2) :=
  ⟨m_two_OpenWF.1, by decide, C5_findupval_twice_shared m_two m_two_OpenWF.1 3 (by decide)⟩

/-- C6 at `m_two` closed at level 2: one upvalue is closed, the other freed. -/
theorem C6_close_frees_or_closes_witness :
    OpenOK m_two ∧ m_two.L.openupval.Nodup ∧ OpenDescending m_two ∧
    ∃ m1, luaF_close m_two 2 = some m1 ∧
      ∀ a ∈ m_two.L.openupval, ∀ lv, levelOf m_two.upvals a = some lv → 2 ≤ lv →
        ∃ o val, m_two.upval a = some o ∧ o.v = VPtr.stack lv ∧ m_two.L.stack[lv]? = some val ∧
          (o.refcount = 0 → m1.upval a = none) ∧
          (o.refcount ≠ 0 →
            m1.upval a = some { o with u := UpValU.value val, v := VPtr.own } ∧
            ∀ stack1 : List TValue,
              Machine.getupval { m1 with L := { m1.L with stack := stack1 } } a = some val) :=
  ⟨m_two_OpenWF.1, by decide, m_two_OpenWF.descending,
    C6_close_frees_or_closes m_two m_two_OpenWF.1 (by decide) m_two_OpenWF.descending 2⟩

/-- C7 at `m_two` closed at level 3: the upvalue of slot 2 stays. -/
theorem C7_close_keeps_entries_below_witness :
    OpenOK m_two ∧ m_two.L.openupval.Nodup ∧ OpenDescending m_two ∧
    ∃ m1, luaF_close m_two 3 = some m1 ∧
      m1.L.openupval =
        m_two.L.openupval.filter
          (fun a => (levelOf m_two.upvals a).any (fun lv => decide (lv < 3))) ∧
      (∃ l1, m_two.L.openupval = l1 ++ m1.L.openupval) ∧
      (∀ a ∈ m1.L.openupval, m1.upval a = m_two.upval a ∧
        ∃ lv, levelOf m1.upvals a = some lv ∧ lv < 3) ∧
      (∀ a ∈ m_two.L.openupval, ∀ lv, levelOf m_two.upvals a = some lv → 3 ≤ lv →
        a ∉ m1.L.openupval) :=
  ⟨m_two_OpenWF.1, by decide, m_two_OpenWF.descending,
    C7_close_keeps_entries_below m_two m_two_OpenWF.1 (by decide) m_two_OpenWF.descending 3⟩

/-- C8 at `m_two` closed at level 0: slot 4 is handled before slot 2. -/
theorem C8_close_order_descending_witness :
    OpenWF m_two ∧
    ∃ order, luaF_close.order m_two 0 = some order ∧
      (∀ a, a ∈ order ↔
        (a ∈ m_two.L.openupval ∧ ∃ lv, levelOf m_two.upvals a = some lv ∧ 0 ≤ lv)) ∧
      order.Pairwise (fun b a => ∀ lb la,
        levelOf m_two.upvals b = some lb → levelOf m_two.upvals a = some la → la < lb) ∧
      (∀ A B la lb, A ∈ m_two.L.openupval → B ∈ m_two.L.openupval →
        levelOf m_two.upvals A = some la → levelOf m_two.upvals B = some lb →
        0 ≤ la → la < lb → order.indexOf B < order.indexOf A) :=
  ⟨m_two_OpenWF, C8_close_order_descending m_two m_two_OpenWF 0⟩

/-- C9 at `m_two`, reached by two calls of `luaF_findupval`. -/
theorem C9_open_list_descending_witness :
    Reachable m_two ∧
    (OpenSorted m_two ∧ OpenOK m_two ∧ m_two.L.openupval.Nodup ∧
    (∀ a ∈ m_two.L.openupval, ∀ b ∈ m_two.L.openupval,
      levelOf m_two.upvals a = levelOf m_two.upvals b → a = b) ∧
    (∀ level uv m1, luaF_findupval m_two level = some (uv, m1) →
      (uv ∈ m_two.L.openupval ∧ m1 = m_two) ∨
      (uv ∉ m_two.L.openupval ∧ ∃ l1 l2, m_two.L.openupval = l1 ++ l2 ∧
        m1.L.openupval = l1 ++ uv :: l2 ∧
        (∀ a ∈ l1, ∃ lv, levelOf m_two.upvals a = some lv ∧ level < lv) ∧
        (∀ a ∈ l2, ∃ lv, levelOf m_two.upvals a = some lv ∧ lv < level)))) :=
  ⟨m_two_reachable, C9_open_list_descending m_two m_two_reachable⟩

/-- C10 at `m_two` and slot 3, for which a new upvalue is created. -/
theorem C10_findupval_new_or_same_witness :
    OpenWF m_two ∧
    ∃ uv m1, luaF_findupval m_two 3 = some (uv, m1) ∧
      ((¬ ∃ a ∈ m_two.L.openupval, levelOf m_two.upvals a = some 3) →
        m_two.upval uv = none ∧ m_two.upvals.length ≤ uv ∧
        m1.upval uv = some { v := VPtr.stack 3, refcount := 0, u := UpValU.open_ 1 } ∧
        uv ∈ m1.L.openupval ∧
        (∀ a, a < m_two.upvals.length → m1.upval a = m_two.upval a)) ∧
      ((∃ a ∈ m_two.L.openupval, levelOf m_two.upvals a = some 3) →
        uv ∈ m_two.L.openupval ∧ levelOf m_two.upvals uv = some 3 ∧ m1 = m_two ∧
        m1.upval uv = m_two.upval uv) :=
  ⟨m_two_OpenWF, C10_findupval_new_or_same m_two m_two_OpenWF 3⟩

/-! ## Theorems: `luaF_getlocalname` -/

theorem getlocalname_loop_sorted (pc : Int) (vs : List LocVar)
    (hs : vs.Pairwise (fun a b => a.startpc ≤ b.startpc)) (n : Int) (hn : 1 ≤ n) :
    luaF_getlocalname.loop pc vs n =
      ((vs.filter (fun v => decide (v.startpc ≤ pc ∧ pc < v.endpc)))[n.toNat - 1]?).map
        (fun v => getstr v.varname) := by
  induction vs generalizing n with
  | nil => simp [luaF_getlocalname.loop]
  | cons v rest ih =>
    obtain ⟨h1, h2⟩ := List.pairwise_cons.1 hs
    rw [luaF_getlocalname.loop]
    by_cases hstart : v.startpc ≤ pc
    · rw [if_pos hstart]
      by_cases hend : pc < v.endpc
      · rw [if_pos hend, List.filter_cons_of_pos (by simp [hstart, hend])]
        by_cases hone : n - 1 = 0
        · have : n.toNat - 1 = 0 := by omega
          rw [if_pos hone, this]
          simp
        · rw [if_neg hone, ih h2 (n - 1) (by omega)]
          have : n.toNat - 1 = ((n - 1).toNat - 1) + 1 := by omega
          rw [this, List.getElem?_cons_succ]
      · rw [if_neg hend, List.filter_cons_of_neg (by simp [hend]), ih h2 n hn]
    · rw [if_neg hstart]
      have : (v :: rest).filter (fun v => decide (v.startpc ≤ pc ∧ pc < v.endpc)) = [] := by
        rw [List.filter_eq_nil_iff]
        intro w hw
        simp only [decide_eq_true_eq, not_and, not_lt]
        intro hw1
        rcases List.mem_cons.1 hw with e | e
        · subst e; exact absurd hw1 hstart
        · have := h1 w e
          omega
      rw [this]
      rfl

/-- C12 fails when the locals table is not ordered by `startpc`: at
`f_unordered`, index 1 and pc 5 the entry "y" is the first one whose range
contains 5, and `luaF_getlocalname` returns not-found, because its loop
stops at the entry "x" with `startpc = 10 > 5`. -/
theorem C12_getlocalname_counterexample :
    nthActiveLocal f_unordered 1 5 = some [121, 0] ∧
    luaF_getlocalname f_unordered 1 5 = none ∧
    luaF_getlocalname f_unordered 1 5 ≠ nthActiveLocal f_unordered 1 5 := by
  decide

/-- C12, amended: for every prototype whose locals table is ordered by
non-decreasing `startpc`, every index `n >= 1` and every `pc`,
`luaF_getlocalname(f, n, pc)` returns the name of the `n`-th entry of the
table, in table order, with `startpc <= pc < endpc`, and not-found when fewer
than `n` entries match. -/
theorem C12_getlocalname_sorted (f : Proto) (hsz : f.sizelocvars = f.locvars.length)
    (hs : f.locvars.Pairwise (fun a b => a.startpc ≤ b.startpc))
    (n pc : Int) (hn : 1 ≤ n) :
    luaF_getlocalname f n pc = nthActiveLocal f n pc ∧
    luaF_getlocalname f n pc =
      ((f.locvars.filter (fun v => decide (v.startpc ≤ pc ∧ pc < v.endpc)))[n.toNat - 1]?).map
        (fun v => getstr v.varname) := by
  have h : luaF_getlocalname f n pc =
      ((f.locvars.filter (fun v => decide (v.startpc ≤ pc ∧ pc < v.endpc)))[n.toNat - 1]?).map
        (fun v => getstr v.varname) := by
    unfold luaF_getlocalname
    rw [hsz, List.take_length]
    exact getlocalname_loop_sorted pc f.locvars hs n hn
  refine ⟨?_, h⟩
  rw [h, nthActiveLocal, if_pos hn]

/-- C12, amended, at the prototype with the local "x" over `[2, 10)`, index 1
and pc 5. -/
theorem C12_getlocalname_sorted_witness :
    f_x.sizelocvars = f_x.locvars.length ∧
    f_x.locvars.Pairwise (fun a b => a.startpc ≤ b.startpc) ∧ (1 : Int) ≤ 1 ∧
    (luaF_getlocalname f_x 1 5 = nthActiveLocal f_x 1 5 ∧
     luaF_getlocalname f_x 1 5 =
      ((f_x.locvars.filter (fun v => decide (v.startpc ≤ 5 ∧ 5 < v.endpc)))[(1 : Int).toNat - 1]?).map
        (fun v => getstr v.varname)) :=
  ⟨rfl, by decide, by decide, C12_getlocalname_sorted f_x rfl (by decide) 1 5 (by decide)⟩

/-! ## Theorems: `luaS_hash` -/

theorem hash_loop_eq_foldl (str : List Nat) (step : Nat) (hstep : 0 < step) (l h : Nat) :
    luaS_hash.loop str step hstep l h =
      (luaS_hash.reads step hstep l).foldl
        (fun h i => h ^^^ cast_uint (cast_uint (h <<< 5) + (h >>> 2) + cast_byte (str.getD i 0))) h := by
  induction l using Nat.strong_induction_on generalizing h with
  | _ l ih =>
    rw [luaS_hash.loop, luaS_hash.reads]
    by_cases hl : l ≥ step
    · rw [dif_pos hl, dif_pos hl, List.foldl_cons]
      exact ih (l - step) (by omega) _
    · rw [dif_neg hl, dif_neg hl]
      rfl

theorem hash_reads_eq (step : Nat) (hstep : 0 < step) (l : Nat) :
    luaS_hash.reads step hstep l = (List.range (l / step)).map (fun k => l - 1 - k * step) := by
  induction l using Nat.strong_induction_on with
  | _ l ih =>
    rw [luaS_hash.reads]
    by_cases hl : l ≥ step
    · rw [dif_pos hl, ih (l - step) (by omega)]
      have hd : l / step = (l - step) / step + 1 := by
        rw [Nat.div_eq_sub_div hstep hl]
      rw [hd, List.range_succ_eq_map, List.map_cons, List.map_map]
      congr 1
      · simp
      · apply List.map_congr_left
        intro k _
        simp only [Function.comp, Nat.succ_eq_add_one, Nat.add_mul, Nat.one_mul]
        omega
    · rw [dif_neg hl]
      have : l / step = 0 := Nat.div_eq_of_lt (by omega)
      rw [this]
      rfl

/-- C13: `luaS_hash` is total, and with `step = (l >> 5) + 1` it reads exactly
`l / step` bytes, at the positions `l - 1, l - 1 - step, ...` in that order,
mixing each into the running hash that starts from `seed ^ l`; for `l < 32`
these are all the positions `l - 1, ..., 0`, for every `l` they are at most
32, and the result is the same for two buffers that agree at those positions. -/
theorem C13_luaS_hash_reads (str : List Nat) (l seed : Nat) :
    luaS_hash str l seed =
      (luaS_hash.reads ((l >>> LUAI_HASHLIMIT) + 1) (Nat.succ_pos _) l).foldl
        (fun h i => h ^^^ cast_uint (cast_uint (h <<< 5) + (h >>> 2) + cast_byte (str.getD i 0)))
        (seed ^^^ cast_uint l) ∧
    luaS_hash.reads ((l >>> LUAI_HASHLIMIT) + 1) (Nat.succ_pos _) l =
      (List.range (l / ((l >>> 5) + 1))).map (fun k => l - 1 - k * ((l >>> 5) + 1)) ∧
    (luaS_hash.reads ((l >>> LUAI_HASHLIMIT) + 1) (Nat.succ_pos _) l).length = l / ((l >>> 5) + 1) ∧
    (l < 32 → luaS_hash.reads ((l >>> LUAI_HASHLIMIT) + 1) (Nat.succ_pos _) l =
      (List.range l).map (fun k => l - 1 - k)) ∧
    (luaS_hash.reads ((l >>> LUAI_HASHLIMIT) + 1) (Nat.succ_pos _) l).length ≤ 32 ∧
    (∀ str1 : List Nat,
      (∀ i ∈ luaS_hash.reads ((l >>> LUAI_HASHLIMIT) + 1) (Nat.succ_pos _) l,
        str.getD i 0 = str1.getD i 0) →
      luaS_hash str l seed = luaS_hash str1 l seed) := by
  have hfold : ∀ s : List Nat, luaS_hash s l seed =
      (luaS_hash.reads ((l >>> LUAI_HASHLIMIT) + 1) (Nat.succ_pos _) l).foldl
        (fun h i => h ^^^ cast_uint (cast_uint (h <<< 5) + (h >>> 2) + cast_byte (s.getD i 0)))
        (seed ^^^ cast_uint l) := by
    intro s
    unfold luaS_hash
    exact hash_loop_eq_foldl s _ _ l _
  have hreads := hash_reads_eq ((l >>> LUAI_HASHLIMIT) + 1) (Nat.succ_pos _) l
  have hshift : l >>> 5 = l / 32 := by rw [Nat.shiftRight_eq_div_pow]
  have hlen : (luaS_hash.reads ((l >>> LUAI_HASHLIMIT) + 1) (Nat.succ_pos _) l).length
      = l / ((l >>> 5) + 1) := by
    rw [hreads]
    simp [LUAI_HASHLIMIT]
  refine ⟨hfold str, hreads, hlen, ?_, ?_, ?_⟩
  · intro h32
    rw [hreads]
    have h0 : l >>> LUAI_HASHLIMIT = 0 := by
      unfold LUAI_HASHLIMIT
      rw [hshift]
      omega
    simp [h0]
  · rw [hlen, hshift]
    have : l / (l / 32 + 1) < 32 := by
      rw [Nat.div_lt_iff_lt_mul (Nat.succ_pos _)]
      omega
    omega
  · intro str1 hagree
    rw [hfold str, hfold str1]
    generalize (seed ^^^ cast_uint l) = h0
    revert hagree
    generalize luaS_hash.reads ((l >>> LUAI_HASHLIMIT) + 1) (Nat.succ_pos _) l = rs
    intro hagree
    induction rs generalizing h0 with
    | nil => rfl
    | cons r rs ih =>
      rw [List.foldl_cons, List.foldl_cons, hagree r (List.mem_cons_self _ _)]
      exact ih _ (fun i hi => hagree i (List.mem_cons_of_mem _ hi))

/-! ## Theorems: `luaS_newlstr`, long strings -/

theorem newlstr_long (g : global_State) (s : List Nat) (l : Nat)
    (h1 : LUAI_MAXSHORTLEN < l) (h2 : l < (MAX_SIZE - sizeof_TString) / 1) :
    luaS_newlstr g s l = Except.ok
      ({ addr := g.ud, tt := LUA_TLNGSTR, marked := luaC_white g, hash := g.seed, extra := 0,
         lnglen := l, bytes := memcpy ((List.replicate (l + 1) 0).set l 0) s l },
       { g with ud := g.ud + 1, allgc := g.ud :: g.allgc }) := by
  have h3 : ¬ l ≤ LUAI_MAXSHORTLEN := by omega
  have h4 : ¬ l ≥ (MAX_SIZE - sizeof_TString) / 1 := by omega
  simp only [luaS_newlstr, h3, if_false, h4]
  rfl

/-- C16: for bytes longer than `LUAI_MAXSHORTLEN` and below the size limit,
`luaS_newlstr` returns a long string at a new address, distinct from the
address of every object on the collector's lists and in the string table,
and leaves the string table (buckets, `nuse`, `size`) unchanged; a second
call with the same bytes returns another object with the same bytes. -/
theorem C16_newlstr_long_fresh (g : global_State) (hal : AllocOK g) (s : List Nat) (l : Nat)
    (h1 : LUAI_MAXSHORTLEN < l) (h2 : l < (MAX_SIZE - sizeof_TString) / 1) :
    ∃ ts g1, luaS_newlstr g s l = Except.ok (ts, g1) ∧
      ts.tt = LUA_TLNGSTR ∧
      ts.addr ∉ g.allgc ∧ ts.addr ∉ g.fixedgc ∧ (∀ t ∈ g.strt.hash.flatten, t.addr ≠ ts.addr) ∧
      ts.addr ∈ g1.allgc ∧ g1.strt = g.strt ∧ AllocOK g1 ∧
      ∃ ts2 g2, luaS_newlstr g1 s l = Except.ok (ts2, g2) ∧
        ts2.addr ≠ ts.addr ∧ ts2.tt = LUA_TLNGSTR ∧ ts2.contents = ts.contents ∧
        tsslen ts2 = tsslen ts ∧ g2.strt = g.strt := by
  refine ⟨_, _, newlstr_long g s l h1 h2, rfl, ?_, ?_, ?_, ?_, rfl, ?_, ?_⟩
  · intro h; exact absurd (hal.1 _ h) (lt_irrefl _)
  · intro h; exact absurd (hal.2.1 _ h) (lt_irrefl _)
  · intro t ht e
    have := hal.2.2 t ht
    simp only at e
    omega
  · simp
  · refine ⟨?_, ?_, ?_⟩
    · intro a ha
      simp only [List.mem_cons] at ha
      rcases ha with e | e
      · subst e; simp
      · have := hal.1 a e
        simp only
        omega
    · intro a ha
      have := hal.2.1 a ha
      simp only
      omega
    · intro t ht
      have := hal.2.2 t ht
      simp only
      omega
  · refine ⟨_, _, newlstr_long _ s l h1 h2, ?_, rfl, rfl, rfl, rfl⟩
    simp

/-- C16 at the one-bucket table and 41 bytes. -/
theorem C16_newlstr_long_fresh_witness :
    AllocOK g_one ∧ LUAI_MAXSHORTLEN < 41 ∧ 41 < (MAX_SIZE - sizeof_TString) / 1 ∧
    ∃ ts g1, luaS_newlstr g_one (List.replicate 41 97) 41 = Except.ok (ts, g1) ∧
      ts.tt = LUA_TLNGSTR ∧
      ts.addr ∉ g_one.allgc ∧ ts.addr ∉ g_one.fixedgc ∧
      (∀ t ∈ g_one.strt.hash.flatten, t.addr ≠ ts.addr) ∧
      ts.addr ∈ g1.allgc ∧ g1.strt = g_one.strt ∧ AllocOK g1 ∧
      ∃ ts2 g2, luaS_newlstr g1 (List.replicate 41 97) 41 = Except.ok (ts2, g2) ∧
        ts2.addr ≠ ts.addr ∧ ts2.tt = LUA_TLNGSTR ∧ ts2.contents = ts.contents ∧
        tsslen ts2 = tsslen ts ∧ g2.strt = g_one.strt :=
  ⟨⟨by simp [g_one], by simp [g_one], by simp [g_one]⟩, by decide, by decide,
    C16_newlstr_long_fresh g_one ⟨by simp [g_one], by simp [g_one], by simp [g_one]⟩
      (List.replicate 41 97) 41 (by decide) (by decide)⟩

/-- C19: for the long string that `luaS_createlngstrobj` creates (`extra = 0`,
the hash field holding the global seed) with `l` bytes copied in, the first
`luaS_hashlongstr` returns `luaS_hash` of its bytes and length under the seed
(the hash of the bytes copied in), stores it in the hash field and sets
`extra` to 1; a later call returns the same value and changes nothing. -/
theorem C19_hashlongstr_cached (g : global_State) (s : List Nat) (l : Nat) :
    ({ (luaS_createlngstrobj g l).1 with
        bytes := memcpy (luaS_createlngstrobj g l).1.bytes s l } : TString).extra = 0 ∧
    ({ (luaS_createlngstrobj g l).1 with
        bytes := memcpy (luaS_createlngstrobj g l).1.bytes s l } : TString).hash = g.seed ∧
    luaS_hashlongstr { (luaS_createlngstrobj g l).1 with
        bytes := memcpy (luaS_createlngstrobj g l).1.bytes s l } =
      (luaS_hash (memcpy (luaS_createlngstrobj g l).1.bytes s l) l g.seed,
       { (luaS_createlngstrobj g l).1 with
          bytes := memcpy (luaS_createlngstrobj g l).1.bytes s l,
          hash := luaS_hash (memcpy (luaS_createlngstrobj g l).1.bytes s l) l g.seed,
          extra := 1 }) ∧
    (l ≤ s.length →
      luaS_hash (memcpy (luaS_createlngstrobj g l).1.bytes s l) l g.seed = luaS_hash s l g.seed) ∧
    luaS_hashlongstr (luaS_hashlongstr { (luaS_createlngstrobj g l).1 with
        bytes := memcpy (luaS_createlngstrobj g l).1.bytes s l }).2 =
      luaS_hashlongstr { (luaS_createlngstrobj g l).1 with
        bytes := memcpy (luaS_createlngstrobj g l).1.bytes s l } := by
  refine ⟨rfl, rfl, rfl, ?_, rfl⟩
  intro hl
  unfold luaS_hash
  apply hash_loop_congr
  intro i hi
  simp only [memcpy, List.getD_eq_getElem?_getD]
  rw [List.getElem?_append_left (by simp; omega), List.getElem?_take_of_lt hi]

/-! ## Theorems: `luaS_remove` -/

theorem unlink_spec (ts : TString) (c : List TString) (hts : ts ∈ c) (hnd : c.Nodup)
    (hinj : ∀ p ∈ c, p.addr = ts.addr → p = ts) :
    ∃ l1 l2, c = l1 ++ ts :: l2 ∧ luaS_remove.unlink ts c = some (l1 ++ l2) ∧
      ts ∉ l1 ∧ ts ∉ l2 := by
  induction c with
  | nil => simp at hts
  | cons p c ih =>
    obtain ⟨hp, hc⟩ := List.nodup_cons.1 hnd
    rw [luaS_remove.unlink]
    by_cases e : p.addr = ts.addr
    · have hpe := hinj p (List.mem_cons_self _ _) e
      subst hpe
      exact ⟨[], c, rfl, by simp, by simp, hp⟩
    · rw [if_neg e]
      have hne : p ≠ ts := fun h => e (by rw [h])
      have hts2 : ts ∈ c := by
        rcases List.mem_cons.1 hts with h | h
        · exact absurd h.symm hne
        · exact h
      obtain ⟨l1, l2, e1, e2, e3, e4⟩ := ih hts2 hc (fun q hq => hinj q (List.mem_cons_of_mem _ hq))
      refine ⟨p :: l1, l2, by rw [e1]; rfl, by rw [e2]; rfl, ?_, e4⟩
      intro h
      rcases List.mem_cons.1 h with h | h
      · exact hne h.symm
      · exact e3 h

theorem mem_bucket_unique (g : global_State) (hwf : WF g) (ts : TString) (i j : Nat)
    (hi : ts ∈ g.strt.hash.getD i []) (hj : ts ∈ g.strt.hash.getD j []) : i = j := by
  rw [← (hwf.chained i ts hi).1, ← (hwf.chained j ts hj).1]

theorem bucket_nodup (g : global_State) (hwf : WF g) (i : Nat) :
    (g.strt.hash.getD i []).Nodup := by
  have hnd : g.strt.hash.flatten.Nodup := List.Nodup.of_map _ hwf.nodup_addr
  by_cases hi : i < g.strt.hash.length
  · rw [List.getD_eq_getElem _ _ hi]
    exact (List.nodup_flatten.1 hnd).1 _ (List.getElem_mem _)
  · rw [List.getD_eq_default _ _ (by omega)]
    exact List.nodup_nil

theorem flatten_set_perm (H : List (List TString)) (i : Nat) (c : List TString)
    (hi : i < H.length) : (H.set i c).flatten.Perm (c ++ (H.set i []).flatten) := by
  have h := flatten_set_nil (H.set i c) i
  rw [getD_set_self _ _ _ _ hi, if_pos rfl, List.set_set] at h
  exact h

/-- C18: for a well-formed string table and a short string `ts` present in
it, `luaS_remove(ts)` returns (its walk finds `ts`), unlinks exactly `ts`
from the chain of bucket `ts.hash mod size`, keeping the nodes before and
after it in their order, leaves every other bucket as it was, and decrements
`nuse` by exactly one. -/
theorem C18_remove_unlinks (g : global_State) (hwf : WF g) (ts : TString)
    (hts : ts ∈ g.strt.hash.flatten) :
    ∃ g1 l1 l2, luaS_remove g ts = some g1 ∧
      lmod ts.hash g.strt.size = ts.hash % g.strt.size ∧
      g.strt.hash.getD (ts.hash % g.strt.size) [] = l1 ++ ts :: l2 ∧
      g1.strt.hash.getD (ts.hash % g.strt.size) [] = l1 ++ l2 ∧
      ts ∉ l1 ∧ ts ∉ l2 ∧
      (∀ j, j ≠ ts.hash % g.strt.size → g1.strt.hash.getD j [] = g.strt.hash.getD j []) ∧
      g1.strt.nuse = g.strt.nuse - 1 ∧ g1.strt.size = g.strt.size ∧
      ts ∉ g1.strt.hash.flatten ∧
      g.strt.hash.flatten.Perm (ts :: g1.strt.hash.flatten) := by
  obtain ⟨i, hi⟩ := (mem_flatten_iff_getD _ _).1 hts
  have hidx := (hwf.chained i ts hi).1
  obtain ⟨k, hk⟩ := hwf.size_pow
  have hmod : lmod ts.hash g.strt.size = ts.hash % g.strt.size := by
    rw [hk]
    exact lmod_pow _ _ (by rw [← hk]; exact hwf.size_le)
  have hilt : i < g.strt.hash.length := by
    rw [hwf.hash_len, ← hidx]
    exact lmod_lt _ _ hwf.size_pos hwf.size_le
  obtain ⟨l1, l2, e1, e2, e3, e4⟩ := unlink_spec ts (g.strt.hash.getD i []) hi
    (bucket_nodup g hwf i)
    (fun p hp e => List.inj_on_of_nodup_map hwf.nodup_addr
      ((mem_flatten_iff_getD _ _).2 ⟨i, hp⟩) hts e)
  have hrem : luaS_remove g ts = some { g with strt := { g.strt with
      hash := g.strt.hash.set i (l1 ++ l2), nuse := g.strt.nuse - 1 } } := by
    simp only [luaS_remove, hidx, e2]
  rw [← hmod, hidx]
  refine ⟨_, l1, l2, hrem, rfl, e1, ?_, e3, e4, ?_, rfl, rfl, ?_, ?_⟩
  · simp only [getD_set_self _ _ _ _ hilt, if_true]
  · intro j hj
    simp only [getD_set_self _ _ _ _ hilt, if_neg hj]
  · intro hmem
    obtain ⟨j, hj⟩ := (mem_flatten_iff_getD _ _).1 hmem
    simp only [getD_set_self _ _ _ _ hilt] at hj
    by_cases e : j = i
    · rw [if_pos e] at hj
      rcases List.mem_append.1 hj with h | h
      · exact e3 h
      · exact e4 h
    · rw [if_neg e] at hj
      exact e (mem_bucket_unique g hwf ts j i hj hi)
  · have h1 := flatten_set_nil g.strt.hash i
    have h2 := flatten_set_perm g.strt.hash i (l1 ++ l2) hilt
    rw [e1] at h1
    refine h1.trans ?_
    refine List.Perm.trans ?_ (List.Perm.cons ts h2.symm)
    simp only [List.append_assoc, List.cons_append]
    exact List.perm_middle

/-- C18 at the two-bucket table holding "c", "a", "b", removing "a". -/
theorem C18_remove_unlinks_witness :
    WF g_abc ∧
    ({ addr := 0, tt := 4, marked := 1, shrlen := 1, hash := 292, bytes := [97, 0] } : TString)
      ∈ g_abc.strt.hash.flatten ∧
    ∃ g1 l1 l2,
      luaS_remove g_abc { addr := 0, tt := 4, marked := 1, shrlen := 1, hash := 292, bytes := [97, 0] }
        = some g1 ∧
      lmod 292 g_abc.strt.size = 292 % g_abc.strt.size ∧
      g_abc.strt.hash.getD (292 % g_abc.strt.size) [] =
        l1 ++ { addr := 0, tt := 4, marked := 1, shrlen := 1, hash := 292, bytes := [97, 0] } :: l2 ∧
      g1.strt.hash.getD (292 % g_abc.strt.size) [] = l1 ++ l2 ∧
      ({ addr := 0, tt := 4, marked := 1, shrlen := 1, hash := 292, bytes := [97, 0] } : TString) ∉ l1 ∧
      ({ addr := 0, tt := 4, marked := 1, shrlen := 1, hash := 292, bytes := [97, 0] } : TString) ∉ l2 ∧
      (∀ j, j ≠ 292 % g_abc.strt.size → g1.strt.hash.getD j [] = g_abc.strt.hash.getD j []) ∧
      g1.strt.nuse = g_abc.strt.nuse - 1 ∧ g1.strt.size = g_abc.strt.size ∧
      ({ addr := 0, tt := 4, marked := 1, shrlen := 1, hash := 292, bytes := [97, 0] } : TString)
        ∉ g1.strt.hash.flatten ∧
      g_abc.strt.hash.flatten.Perm
        ({ addr := 0, tt := 4, marked := 1, shrlen := 1, hash := 292, bytes := [97, 0] } ::
          g1.strt.hash.flatten) :=
  ⟨g_abc_WF, by decide,
    C18_remove_unlinks g_abc g_abc_WF
      { addr := 0, tt := 4, marked := 1, shrlen := 1, hash := 292, bytes := [97, 0] } (by decide)⟩

/-! ## Theorems: `internshrstr`, the outcome of the search -/

theorem search_none (g : global_State) (s : List Nat) (l : Nat) (c : List TString)
    (h : ∀ ts ∈ c, ¬ (l = ts.shrlen ∧ memcmp s ts.bytes l = 0)) :
    internshrstr.search g s l c = none := by
  induction c with
  | nil => rfl
  | cons ts c ih =>
    rw [internshrstr.search, if_neg (h ts (List.mem_cons_self _ _)),
      ih (fun x hx => h x (List.mem_cons_of_mem _ hx))]

theorem search_some_spec (g : global_State) (s : List Nat) (l : Nat) (c : List TString)
    (r : TString) (c1 : List TString) (h : internshrstr.search g s l c = some (r, c1)) :
    ∃ ts ∈ c, (l = ts.shrlen ∧ memcmp s ts.bytes l = 0) ∧
      r = (if isdead g ts then changewhite ts else ts) := by
  induction c generalizing c1 with
  | nil => simp [internshrstr.search] at h
  | cons ts c ih =>
    rw [internshrstr.search] at h
    by_cases hm : l = ts.shrlen ∧ memcmp s ts.bytes l = 0
    · rw [if_pos hm] at h
      simp only [Option.some.injEq, Prod.mk.injEq] at h
      exact ⟨ts, List.mem_cons_self _ _, hm, h.1.symm⟩
    · rw [if_neg hm] at h
      cases hs : internshrstr.search g s l c with
      | none => simp [hs] at h
      | some rc =>
        obtain ⟨r1, c2⟩ := rc
        simp only [hs, Option.some.injEq, Prod.mk.injEq] at h
        rw [h.1] at hs
        obtain ⟨x, hx, h1, h2⟩ := ih c2 hs
        exact ⟨x, List.mem_cons_of_mem _ hx, h1, h2⟩

theorem match_iff_contents (g : global_State) (ts : TString) (hshr : IsShrStr g ts)
    (s : List Nat) :
    (s.length = ts.shrlen ∧ memcmp s ts.bytes s.length = 0) ↔ ts.contents = s := by
  rw [contents_shr g ts hshr, memcmp_eq_zero_iff]
  constructor
  · rintro ⟨h1, h2⟩
    rw [← h1, ← h2, List.take_length]
  · intro h
    have hl : s.length = ts.shrlen := by
      rw [← h, List.length_take, hshr.2.2.1]
      omega
    refine ⟨hl, ?_⟩
    rw [hl, h, ← hl, List.take_length]

theorem search_absent (g : global_State) (hwf : WF g) (s : List Nat)
    (hnew : ∀ ts ∈ g.strt.hash.flatten, ts.contents ≠ s) (i : Nat) :
    internshrstr.search g s s.length (g.strt.hash.getD i []) = none := by
  apply search_none
  intro ts hts hm
  have hshr := (hwf.chained i ts hts).2
  exact hnew ts ((mem_flatten_iff_getD _ _).2 ⟨i, hts⟩) ((match_iff_contents g ts hshr s).1 hm)

theorem memcpy_new (s : List Nat) :
    memcpy ((List.replicate (s.length + 1) 0).set s.length 0) s s.length = s ++ [0] := by
  unfold memcpy
  rw [List.take_length]
  congr 1
  apply List.ext_getElem
  · simp
  · intro n h1 h2
    simp [List.getElem_set]

theorem grow_WF (g : global_State) (hwf : WF g) : WF (internshrstr.grow g) := by
  unfold internshrstr.grow
  split
  · rename_i h
    obtain ⟨k, hk⟩ := hwf.size_pow
    have e : g.strt.size * 2 = 2 ^ (k + 1) := by rw [hk, pow_succ]
    rw [e]
    apply resize_WF g hwf
    rw [← e]
    have := h.2
    unfold MAX_INT at *
    omega
  · exact hwf

theorem grow_perm (g : global_State) (hwf : WF g) :
    (internshrstr.grow g).strt.hash.flatten.Perm g.strt.hash.flatten ∧
    (internshrstr.grow g).strt.nuse = g.strt.nuse := by
  unfold internshrstr.grow
  split
  · rename_i h
    obtain ⟨k, hk⟩ := hwf.size_pow
    have e : g.strt.size * 2 = 2 ^ (k + 1) := by rw [hk, pow_succ]
    rw [e]
    have hb : 2 ^ (k + 1) ≤ MAX_INT := by
      rw [← e]
      have := h.2
      unfold MAX_INT at *
      omega
    obtain ⟨_, _, _, h4, h5⟩ := resize_spec g hwf (k + 1) hb
    exact ⟨h4, h5⟩
  · exact ⟨List.Perm.refl _, rfl⟩

theorem grow_size (g : global_State) :
    (internshrstr.grow g).strt.size =
      if g.strt.nuse + 1 > (g.strt.size : Int) ∧ g.strt.size ≤ MAX_INT / 2 then 2 * g.strt.size
      else g.strt.size := by
  unfold internshrstr.grow
  by_cases h : g.strt.nuse ≥ (g.strt.size : Int) ∧ g.strt.size ≤ MAX_INT / 2
  · have h2 : g.strt.nuse + 1 > (g.strt.size : Int) ∧ g.strt.size ≤ MAX_INT / 2 :=
      ⟨by omega, h.2⟩
    rw [if_pos h, if_pos h2]
    show g.strt.size * 2 = 2 * g.strt.size
    omega
  · have h2 : ¬ (g.strt.nuse + 1 > (g.strt.size : Int) ∧ g.strt.size ≤ MAX_INT / 2) := by
      intro hc
      exact h ⟨by omega, hc.2⟩
    rw [if_neg h, if_neg h2]

/-- C17: interning bytes `s` (within the threshold) that no entry of a
well-formed table with `S` buckets and `N = nuse` entries holds, `internshrstr`
ends with the new entry, carrying the hash of `s`, at the head of the chain of
bucket `hash mod size`, with the former entries kept and `nuse = N + 1`; the
bucket count is `2 * S` if `N + 1 > S` and `S <= MAX_INT / 2`, and `S`
otherwise. -/
theorem C17_intern_new_entry (g : global_State) (hwf : WF g) (s : List Nat)
    (hs : s.length ≤ LUAI_MAXSHORTLEN)
    (hnew : ∀ ts ∈ g.strt.hash.flatten, ts.contents ≠ s) :
    (internshrstr g s s.length).2.strt.size =
      (if g.strt.nuse + 1 > (g.strt.size : Int) ∧ g.strt.size ≤ MAX_INT / 2
        then 2 * g.strt.size else g.strt.size) ∧
    (internshrstr g s s.length).2.strt.hash.length = (internshrstr g s s.length).2.strt.size ∧
    (internshrstr g s s.length).2.strt.nuse = g.strt.nuse + 1 ∧
    (internshrstr g s s.length).1.hash = luaS_hash s s.length g.seed ∧
    (internshrstr g s s.length).1.contents = s ∧
    (∃ rest, (internshrstr g s s.length).2.strt.hash.getD
        (luaS_hash s s.length g.seed % (internshrstr g s s.length).2.strt.size) [] =
      (internshrstr g s s.length).1 :: rest) ∧
    (internshrstr g s s.length).2.strt.hash.flatten.Perm
      ((internshrstr g s s.length).1 :: g.strt.hash.flatten) := by
  have hnone := search_absent g hwf s hnew (lmod (luaS_hash s s.length g.seed) g.strt.size)
  rw [internshrstr_notfound g s s.length hnone]
  have hg := grow_WF g hwf
  have hcb : cast_byte s.length = s.length := by
    unfold cast_byte LUAI_MAXSHORTLEN at *
    omega
  have hidx : lmod (luaS_hash s s.length g.seed) (internshrstr.grow g).strt.size <
      (internshrstr.grow g).strt.hash.length := by
    rw [hg.hash_len]
    exact lmod_lt _ _ hg.size_pos hg.size_le
  have hmod : lmod (luaS_hash s s.length g.seed) (internshrstr.grow g).strt.size =
      luaS_hash s s.length g.seed % (internshrstr.grow g).strt.size := by
    obtain ⟨k, hk⟩ := hg.size_pow
    rw [hk]
    exact lmod_pow _ _ (by rw [← hk]; exact hg.size_le)
  refine ⟨?_, ?_, ?_, rfl, ?_, ?_, ?_⟩
  · rw [create_snd]
    exact grow_size g
  · rw [create_snd]
    simp only [List.length_set]
    exact hg.hash_len
  · rw [create_snd]
    simp only
    rw [(grow_perm g hwf).2]
  · rw [create_fst]
    simp only [TString.contents, tsslen, if_true, hcb, memcpy_new]
    simp
  · refine ⟨(internshrstr.grow g).strt.hash.getD
      (lmod (luaS_hash s s.length g.seed) (internshrstr.grow g).strt.size) [], ?_⟩
    rw [create_snd]
    simp only
    rw [← hmod, getD_set_self _ _ _ _ hidx, if_pos rfl]
  · rw [create_snd]
    simp only
    exact (flatten_set_cons _ _ _ hidx).trans (List.Perm.cons _ (grow_perm g hwf).1)

/-- C17 at the two-bucket table holding "c", "a", "b" and the new bytes "d":
the table grows to four buckets. -/
theorem C17_intern_new_entry_witness :
    WF g_abc ∧ [100].length ≤ LUAI_MAXSHORTLEN ∧
    (∀ ts ∈ g_abc.strt.hash.flatten, ts.contents ≠ [100]) ∧
    ((internshrstr g_abc [100] [100].length).2.strt.size =
      (if g_abc.strt.nuse + 1 > (g_abc.strt.size : Int) ∧ g_abc.strt.size ≤ MAX_INT / 2
        then 2 * g_abc.strt.size else g_abc.strt.size) ∧
    (internshrstr g_abc [100] [100].length).2.strt.hash.length =
      (internshrstr g_abc [100] [100].length).2.strt.size ∧
    (internshrstr g_abc [100] [100].length).2.strt.nuse = g_abc.strt.nuse + 1 ∧
    (internshrstr g_abc [100] [100].length).1.hash = luaS_hash [100] [100].length g_abc.seed ∧
    (internshrstr g_abc [100] [100].length).1.contents = [100] ∧
    (∃ rest, (internshrstr g_abc [100] [100].length).2.strt.hash.getD
        (luaS_hash [100] [100].length g_abc.seed %
          (internshrstr g_abc [100] [100].length).2.strt.size) [] =
      (internshrstr g_abc [100] [100].length).1 :: rest) ∧
    (internshrstr g_abc [100] [100].length).2.strt.hash.flatten.Perm
      ((internshrstr g_abc [100] [100].length).1 :: g_abc.strt.hash.flatten)) :=
  ⟨g_abc_WF, by decide, by decide,
    C17_intern_new_entry g_abc g_abc_WF [100] (by decide) (by decide)⟩

theorem resurrect_fields (g : global_State) (ts : TString) :
    (if isdead g ts then changewhite ts else ts).bytes = ts.bytes ∧
    (if isdead g ts then changewhite ts else ts).tt = ts.tt ∧
    (if isdead g ts then changewhite ts else ts).shrlen = ts.shrlen ∧
    (if isdead g ts then changewhite ts else ts).addr = ts.addr ∧
    (if isdead g ts then changewhite ts else ts).contents = ts.contents ∧
    tsslen (if isdead g ts then changewhite ts else ts) = tsslen ts := by
  split <;> exact ⟨rfl, rfl, rfl, rfl, rfl, rfl⟩

/-- The string `internshrstr` returns on a well-formed table whose entries
are terminated: a short string of the length and the bytes of `s`, followed
by a zero byte. -/
theorem intern_result (g : global_State) (hwf : WF g) (hterm : Terminated g) (s : List Nat)
    (hs : s.length ≤ LUAI_MAXSHORTLEN) :
    (internshrstr g s s.length).1.tt = LUA_TSHRSTR ∧
    (internshrstr g s s.length).1.shrlen = s.length ∧
    (internshrstr g s s.length).1.contents = s ∧
    (internshrstr g s s.length).1.bytes = s ++ [0] := by
  have hcb : cast_byte s.length = s.length := by
    unfold cast_byte LUAI_MAXSHORTLEN at *
    omega
  cases hsearch : internshrstr.search g s s.length
      (g.strt.hash.getD (lmod (luaS_hash s s.length g.seed) g.strt.size) []) with
  | some rc =>
    obtain ⟨r, c⟩ := rc
    rw [internshrstr_found g s s.length r c hsearch]
    obtain ⟨ts, hts, hm, hr⟩ := search_some_spec g s s.length _ r c hsearch
    have hshr := (hwf.chained _ ts hts).2
    have hmem : ts ∈ g.strt.hash.flatten := (mem_flatten_iff_getD _ _).2 ⟨_, hts⟩
    have hc := (match_iff_contents g ts hshr s).1 hm
    obtain ⟨f1, f2, f3, _, f5, _⟩ := resurrect_fields g ts
    simp only
    rw [hr, f1, f2, f3, f5]
    refine ⟨hshr.1, hm.1.symm, hc, ?_⟩
    rw [hterm ts hmem, hc]
  | none =>
    rw [internshrstr_notfound g s s.length hsearch, create_fst]
    refine ⟨rfl, hcb, ?_, memcpy_new s⟩
    simp only [TString.contents, tsslen, if_true, hcb, memcpy_new]
    simp

/-- C15: on a well-formed table with terminated entries, for bytes `s` of a
length `l` below the size limit, `luaS_newlstr(s, l)` returns a string whose
length `tsslen` is `l` and whose bytes are `s` followed by a terminating zero
byte; it is a short string if `l <= LUAI_MAXSHORTLEN` and a long string
otherwise. -/
theorem C15_newlstr_result (g : global_State) (hwf : WF g) (hterm : Terminated g)
    (s : List Nat) (hlim : s.length < (MAX_SIZE - sizeof_TString) / 1) :
    ∃ ts g1, luaS_newlstr g s s.length = Except.ok (ts, g1) ∧
      tsslen ts = s.length ∧ ts.contents = s ∧ ts.bytes = s ++ [0] ∧
      (s.length ≤ LUAI_MAXSHORTLEN → ts.tt = LUA_TSHRSTR) ∧
      (LUAI_MAXSHORTLEN < s.length → ts.tt = LUA_TLNGSTR) := by
  by_cases hs : s.length ≤ LUAI_MAXSHORTLEN
  · obtain ⟨h1, h2, h3, h4⟩ := intern_result g hwf hterm s hs
    refine ⟨(internshrstr g s s.length).1, (internshrstr g s s.length).2, ?_, ?_, h3, h4,
      fun _ => h1, fun h => absurd hs (by omega)⟩
    · simp only [luaS_newlstr, hs, if_true]
    · simp only [tsslen, h1, if_true, h2]
  · have hs1 : LUAI_MAXSHORTLEN < s.length := by omega
    refine ⟨_, _, newlstr_long g s s.length hs1 hlim, ?_, ?_, memcpy_new s,
      fun h => absurd h hs, fun _ => rfl⟩
    · simp [tsslen, LUA_TLNGSTR, LUA_TSHRSTR, LUA_TSTRING]
    · simp only [TString.contents, tsslen, memcpy_new]
      simp [LUA_TLNGSTR, LUA_TSHRSTR, LUA_TSTRING]

theorem g_abc_Terminated : Terminated g_abc := by
  intro ts hts
  simp only [g_abc, List.flatten_cons, List.flatten_nil, List.cons_append, List.nil_append,
    List.append_nil, List.mem_cons, List.mem_singleton, List.not_mem_nil, or_false] at hts
  rcases hts with h | h | h <;> subst h <;> decide

/-- C15 at the two-bucket table holding "c", "a", "b" and the bytes "a". -/
theorem C15_newlstr_result_witness :
    WF g_abc ∧ Terminated g_abc ∧ [97].length < (MAX_SIZE - sizeof_TString) / 1 ∧
    ∃ ts g1, luaS_newlstr g_abc [97] [97].length = Except.ok (ts, g1) ∧
      tsslen ts = [97].length ∧ ts.contents = [97] ∧ ts.bytes = [97] ++ [0] ∧
      ([97].length ≤ LUAI_MAXSHORTLEN → ts.tt = LUA_TSHRSTR) ∧
      (LUAI_MAXSHORTLEN < [97].length → ts.tt = LUA_TLNGSTR) :=
  ⟨g_abc_WF, g_abc_Terminated, by decide,
    C15_newlstr_result g_abc g_abc_WF g_abc_Terminated [97] (by decide)⟩

/-! ## Theorems: open and closed upvalues along a run -/

theorem initupvals_foldl (is : List Nat) (cl : LClosure) (m : Machine) :
    (is.foldl luaF_initupvals.step (cl, m)).2.upvals =
      m.upvals ++ List.replicate is.length
        (some { refcount := 1, v := VPtr.own, u := UpValU.value { tt_ := LUA_TNIL } }) ∧
    (is.foldl luaF_initupvals.step (cl, m)).2.L = m.L ∧
    (is.foldl luaF_initupvals.step (cl, m)).2.g = m.g := by
  induction is generalizing cl m with
  | nil => simp
  | cons i is ih =>
    rw [List.foldl_cons]
    obtain ⟨h1, h2, h3⟩ := ih (luaF_initupvals.step (cl, m) i).1 (luaF_initupvals.step (cl, m) i).2
    refine ⟨?_, h2, h3⟩
    rw [h1]
    simp only [luaF_initupvals.step, List.length_cons, List.replicate_succ, List.append_assoc,
      List.singleton_append]

theorem initupvals_spec (m : Machine) (cl : LClosure) :
    (luaF_initupvals m cl).2.upvals =
      m.upvals ++ List.replicate cl.nupvalues
        (some { refcount := 1, v := VPtr.own, u := UpValU.value { tt_ := LUA_TNIL } }) ∧
    (luaF_initupvals m cl).2.L = m.L ∧ (luaF_initupvals m cl).2.g = m.g := by
  have h := initupvals_foldl (List.range cl.nupvalues) cl m
  rw [List.length_range] at h
  exact h

theorem step_OpenWF (m m1 : Machine) (hs : UpvalStep m m1) (hwf : OpenWF m) : OpenWF m1 := by
  cases hs with
  | initupvals cl =>
    obtain ⟨h1, h2, _⟩ := initupvals_spec m cl
    refine OpenWF_congr m _ hwf (by rw [h2]) ?_ (by rw [h2])
    intro b hb
    obtain ⟨lv, hlv, _⟩ := hwf.1 b hb
    rw [h1]
    exact levelOf_append_eq _ _ _ (levelOf_lt hlv)
  | findupval level uv _ hlevel hf => exact findupval_OpenWF m hwf level uv m1 hlevel hf
  | close level _ hc => exact close_OpenWF m hwf level m1 hc
  | write a val _ hw => exact setupval_OpenWF m hwf a val m1 hw
  | retain a o ho =>
    exact OpenWF_congr m _ hwf rfl
      (fun b _ => levelOf_set_same_v m.upvals a o { o with refcount := o.refcount + 1 } ho rfl b) rfl

theorem run_OpenWF (m m1 : Machine) (hr : UpvalRun m m1) (hwf : OpenWF m) : OpenWF m1 := by
  induction hr with
  | refl => exact hwf
  | step m1 m2 _ hs ih => exact step_OpenWF m1 m2 hs ih

theorem upval_append (m : Machine) (x : List (Option UpVal)) (a : Nat) (o : UpVal)
    (h : m.upval a = some o) : (m.upvals ++ x).getD a none = some o := by
  unfold Machine.upval at h
  have hlt : a < m.upvals.length := by
    by_contra hc
    rw [List.getD_eq_default _ _ (by omega)] at h
    exact Option.noConfusion h
  rw [List.getD_eq_getElem?_getD, List.getElem?_append_left hlt, ← List.getD_eq_getElem?_getD]
  exact h

theorem closed_set (upvals : List (Option UpVal)) (a b : Nat) (o o1 ob : UpVal)
    (ho : upvals.getD a none = some o) (hv : o1.v = o.v)
    (hb : upvals.getD b none = some ob) (hbv : ob.v = VPtr.own) :
    ∃ o2, (upvals.set a (some o1)).getD b none = some o2 ∧ o2.v = VPtr.own := by
  by_cases e : b = a
  · subst e
    have hlt : b < upvals.length := by
      by_contra hc
      rw [List.getD_eq_default _ _ (by omega)] at ho
      exact Option.noConfusion ho
    rw [getD_set_eq _ _ _ hlt]
    rw [hb] at ho
    simp only [Option.some.injEq] at ho
    exact ⟨o1, rfl, by rw [hv, ← ho, hbv]⟩
  · rw [getD_set_ne _ _ _ _ e]
    exact ⟨ob, hb, hbv⟩

/-- A closed upvalue stays closed under every operation. -/
theorem step_closed (m m1 : Machine) (hs : UpvalStep m m1) (hwf : OpenWF m) (a : Nat) (o : UpVal)
    (ho : m.upval a = some o) (hv : o.v = VPtr.own) :
    ∃ o1, m1.upval a = some o1 ∧ o1.v = VPtr.own := by
  cases hs with
  | initupvals cl =>
    obtain ⟨h1, _, _⟩ := initupvals_spec m cl
    refine ⟨o, ?_, hv⟩
    unfold Machine.upval
    rw [h1]
    exact upval_append m _ a o ho
  | findupval level uv _ hlevel hf =>
    rcases findupval_spec m hwf.1 level with ⟨p, _, _, _, h4⟩ | ⟨l1, l2, m2, _, _, _, f1, f2, _, _, _⟩
    · rw [hf] at h4
      simp only [Option.some.injEq, Prod.mk.injEq] at h4
      rw [h4.2]
      exact ⟨o, ho, hv⟩
    · rw [hf] at f1
      simp only [Option.some.injEq, Prod.mk.injEq] at f1
      refine ⟨o, ?_, hv⟩
      unfold Machine.upval
      rw [f1.2, f2]
      exact upval_append m _ a o ho
  | close level _ hc =>
    obtain ⟨m2, l1, l2, h1, _, _, _, _, _, _, h8, h9⟩ :=
      close_spec m hwf.1 hwf.nodup hwf.descending level
    rw [hc] at h1
    simp only [Option.some.injEq] at h1
    subst h1
    have hnot : a ∉ l1 := by
      intro hmem
      obtain ⟨o2, lv, _, k1, k2, _, _, _⟩ := h9 a hmem
      unfold Machine.upval at ho
      rw [ho] at k1
      simp only [Option.some.injEq] at k1
      rw [← k1, hv] at k2
      exact VPtr.noConfusion k2
    refine ⟨o, ?_, hv⟩
    unfold Machine.upval at ho ⊢
    rw [h8 a hnot]
    exact ho
  | write b val _ hw =>
    unfold Machine.setupval Machine.upval at hw
    cases hb : m.upvals.getD b none with
    | none => rw [hb] at hw; exact Option.noConfusion hw
    | some uv =>
      rw [hb] at hw
      simp only at hw
      cases hbv : uv.v with
      | stack lv =>
        rw [hbv] at hw
        simp only at hw
        split at hw
        · simp only [Option.some.injEq] at hw
          subst hw
          exact ⟨o, ho, hv⟩
        · exact Option.noConfusion hw
      | own =>
        rw [hbv] at hw
        simp only at hw
        cases hu : uv.u with
        | open_ t => rw [hu] at hw; exact Option.noConfusion hw
        | value x =>
          rw [hu] at hw
          simp only [Option.some.injEq] at hw
          subst hw
          exact closed_set m.upvals b a uv _ o hb hbv.symm ho hv
  | retain b ob hb =>
    exact closed_set m.upvals b a ob { ob with refcount := ob.refcount + 1 } o hb rfl ho hv

theorem run_closed (m m1 : Machine) (hr : UpvalRun m m1) (hwf : OpenWF m) (a : Nat) (o : UpVal)
    (ho : m.upval a = some o) (hv : o.v = VPtr.own) :
    ∃ o1, m1.upval a = some o1 ∧ o1.v = VPtr.own := by
  induction hr with
  | refl => exact ⟨o, ho, hv⟩
  | step m1 m2 hr1 hs ih =>
    obtain ⟨o1, h1, h2⟩ := ih
    exact step_closed m1 m2 hs (run_OpenWF _ _ hr1 hwf) a o1 h1 h2

theorem closed_not_on_list (m : Machine) (hwf : OpenWF m) (a : Nat) (o : UpVal)
    (ho : m.upval a = some o) (hv : o.v = VPtr.own) : a ∉ m.L.openupval := by
  intro hmem
  obtain ⟨lv, hlv, _⟩ := hwf.1 a hmem
  obtain ⟨o2, k1, k2⟩ := levelOf_some hlv
  unfold Machine.upval at ho
  rw [ho] at k1
  simp only [Option.some.injEq] at k1
  rw [← k1, hv] at k2
  exact VPtr.noConfusion k2

theorem upisopen_false_iff (o : UpVal) : upisopen o = false ↔ o.v = VPtr.own := by
  unfold upisopen
  simp

/-- C11: in every state reached from an empty open list by `luaF_initupvals`,
`luaF_findupval` and `luaF_close` (with writes through upvalues and reference
counting in between), every upvalue on the open list is open, its value
pointer aliasing a stack slot, and every closed upvalue is on no open list;
and from such a state on, along every further run, an upvalue that is closed
stays closed, stays off the open list, and is never among the upvalues a
`luaF_close` handles, so it is not closed a second time. -/
theorem C11_closed_stays_closed (m0 m : Machine) (h0 : m0.L.openupval = [])
    (hrun : UpvalRun m0 m) :
    (∀ a ∈ m.L.openupval, ∃ o lv, m.upval a = some o ∧ o.v = VPtr.stack lv ∧
      upisopen o = true) ∧
    (∀ a o, m.upval a = some o → upisopen o = false → a ∉ m.L.openupval) ∧
    (∀ m2, UpvalRun m m2 → ∀ a o, m.upval a = some o → upisopen o = false →
      (∃ o2, m2.upval a = some o2 ∧ upisopen o2 = false) ∧
      a ∉ m2.L.openupval ∧
      (∀ level order, luaF_close.order m2 level = some order → a ∉ order)) := by
  have hwf0 : OpenWF m0 := by
    constructor
    · intro a ha; rw [h0] at ha; simp at ha
    · unfold OpenSorted; rw [h0]; exact List.Pairwise.nil
  have hwf := run_OpenWF m0 m hrun hwf0
  refine ⟨?_, ?_, ?_⟩
  · intro a ha
    obtain ⟨lv, hlv, _⟩ := hwf.1 a ha
    obtain ⟨o, k1, k2⟩ := levelOf_some hlv
    exact ⟨o, lv, k1, k2, by simp [upisopen, k2]⟩
  · intro a o ho hc
    exact closed_not_on_list m hwf a o ho ((upisopen_false_iff o).1 hc)
  · intro m2 hr2 a o ho hc
    have hwf2 := run_OpenWF m m2 hr2 hwf
    obtain ⟨o2, k1, k2⟩ := run_closed m m2 hr2 hwf a o ho ((upisopen_false_iff o).1 hc)
    have hoff := closed_not_on_list m2 hwf2 a o2 k1 k2
    refine ⟨⟨o2, k1, (upisopen_false_iff o2).2 k2⟩, hoff, ?_⟩
    intro level order hord hmem
    obtain ⟨_, l1, l2, _, j2, j3, _, _, _, _, _, _⟩ :=
      close_spec m2 hwf2.1 hwf2.nodup hwf2.descending level
    rw [hord] at j2
    simp only [Option.some.injEq] at j2
    subst j2
    exact hoff (by rw [j3]; simp [hmem])

theorem m_run_run : UpvalRun m_empty m_run :=
  UpvalRun.step _ _ m_run
    (UpvalRun.step _ _ _
      (UpvalRun.step _ _ _ (UpvalRun.refl m_empty)
        (UpvalStep.initupvals m_empty { nupvalues := 1, upvals := [none] }))
      (UpvalStep.findupval _ 4 1 _ (by decide) rfl))
    (UpvalStep.retain _ 1 { v := VPtr.stack 4, refcount := 0, u := UpValU.open_ 1 } rfl)

/-- C11 at the run from `m_empty` to `m_run`. -/
theorem C11_closed_stays_closed_witness :
    m_empty.L.openupval = [] ∧ UpvalRun m_empty m_run ∧
    ((∀ a ∈ m_run.L.openupval, ∃ o lv, m_run.upval a = some o ∧ o.v = VPtr.stack lv ∧
      upisopen o = true) ∧
    (∀ a o, m_run.upval a = some o → upisopen o = false → a ∉ m_run.L.openupval) ∧
    (∀ m2, UpvalRun m_run m2 → ∀ a o, m_run.upval a = some o → upisopen o = false →
      (∃ o2, m2.upval a = some o2 ∧ upisopen o2 = false) ∧
      a ∉ m2.L.openupval ∧
      (∀ level order, luaF_close.order m2 level = some order → a ∉ order))) :=
  ⟨rfl, m_run_run, C11_closed_stays_closed m_empty m_run rfl m_run_run⟩

/-! ## Theorems: the cache of `luaS_new` -/

theorem hash_memerrmsg : luaS_hash MEMERRMSG 17 0 = 2087882415 := by
  simp [luaS_hash, luaS_hash.loop, LUAI_HASHLIMIT, cast_uint, cast_byte, MEMERRMSG]

set_option maxRecDepth 100000 in
theorem init_fresh : luaS_init {} = Except.ok g_init := by
  have e1 : (luaS_resize ({} : global_State) MINSTRTABSIZE).seed = 0 := rfl
  have e2 : MEMERRMSG.length - 1 = 17 := rfl
  simp only [luaS_init, luaS_newliteral, luaS_newlstr, internshrstr, e1, e2, hash_memerrmsg]
  rfl

theorem new_long_first : luaS_new g_init 0 s_long = Except.ok (ts_long, g_cached) := by
  rfl

theorem new_long_hit : luaS_new g_cached 0 s_long = Except.ok (ts_long, g_cached) := by
  rfl

theorem newlstr_long_again :
    luaS_newlstr g_cached s_long (strlen s_long) =
      Except.ok ({ ts_long with addr := 2 }, { g_cached with ud := 3, allgc := [2, 1] }) := by
  rfl

theorem strlen_le (s : List Nat) : strlen s ≤ s.length := by
  induction s with
  | nil => simp [strlen]
  | cons c s ih =>
    unfold strlen
    split
    · simp
    · simp only [List.length_cons]
      omega

theorem strlen_take_no_zero (s : List Nat) : 0 ∉ s.take (strlen s) := by
  induction s with
  | nil => simp [strlen]
  | cons c s ih =>
    unfold strlen
    split
    · simp
    · rename_i h
      rw [List.take_succ_cons, List.mem_cons]
      intro hc
      rcases hc with hc | hc
      · exact h hc.symm
      · exact ih hc

theorem strlen_take_length (s : List Nat) : (s.take (strlen s)).length = strlen s := by
  rw [List.length_take]
  have := strlen_le s
  omega

theorem strlen_append_zero (c r : List Nat) (h : 0 ∉ c) : strlen (c ++ 0 :: r) = c.length := by
  induction c with
  | nil => simp [strlen]
  | cons x c ih =>
    have hx : x ≠ 0 := fun e => h (by simp [e])
    have hc : 0 ∉ c := fun e => h (by simp [e])
    simp [strlen, hx, ih hc]

theorem strcmp_zero (a b : List Nat) (h : strcmp a b = 0) :
    a.take (strlen a) = b.take (strlen b) := by
  induction a generalizing b with
  | nil =>
    cases b with
    | nil => rfl
    | cons y b =>
      unfold strcmp at h
      split at h
      · rename_i hy
        simp [strlen, hy]
      · simp at h
  | cons x a ih =>
    cases b with
    | nil =>
      unfold strcmp at h
      split at h
      · rename_i hx
        simp [strlen, hx]
      · simp at h
    | cons y b =>
      unfold strcmp at h
      split at h
      · rename_i hxy
        subst hxy
        split at h
        · rename_i hx
          simp [strlen, hx]
        · rename_i hx
          simp only [strlen, if_neg hx, List.take_succ_cons]
          rw [ih b h]
      · split at h <;> simp at h

theorem hit_spec (s : List Nat) (p : List TString) (ts : TString)
    (h : luaS_new.hit s p = some ts) : ts ∈ p ∧ strcmp s ts.bytes = 0 := by
  unfold luaS_new.hit at h
  obtain ⟨j, _, hf⟩ := List.exists_of_findSome?_eq_some h
  split at hf
  · rename_i t ht
    split at hf
    · rename_i hc
      simp only [Option.some.injEq] at hf
      subst hf
      exact ⟨(List.mem_iff_getElem?.2 ⟨j, ht⟩), hc⟩
    · simp at hf
  · simp at hf

theorem cached_hit (g : global_State) (ts : TString) (hok : CachedOK g ts) (s : List Nat)
    (h : strcmp s ts.bytes = 0) :
    ts.contents = s.take (strlen s) ∧ tsslen ts = strlen s := by
  obtain ⟨hb, hz, hl, _⟩ := hok
  have h1 := strcmp_zero s ts.bytes h
  rw [hb, strlen_append_zero _ _ hz, List.take_left] at h1
  refine ⟨h1.symm, ?_⟩
  rw [← hl, ← h1, strlen_take_length]

theorem memcmp_take (a b : List Nat) (n : Nat) : memcmp (a.take n) b n = memcmp a b n := by
  induction n generalizing a b with
  | zero => simp [memcmp]
  | succ n ih =>
    cases a with
    | nil => simp
    | cons x a =>
      cases b with
      | nil => simp [memcmp]
      | cons y b => simp [memcmp, ih]

theorem search_take (g : global_State) (s : List Nat) (l : Nat) (c : List TString) :
    internshrstr.search g (s.take l) l c = internshrstr.search g s l c := by
  induction c with
  | nil => rfl
  | cons ts c ih =>
    unfold internshrstr.search
    rw [memcmp_take, ih]

theorem internshrstr_take (g : global_State) (s : List Nat) (l : Nat) :
    internshrstr g (s.take l) l = internshrstr g s l := by
  unfold internshrstr
  simp only [luaS_hash_take, search_take]
  have hc : ∀ g1 h, internshrstr.create g1 (s.take l) l h = internshrstr.create g1 s l h := by
    intro g1 h
    simp [internshrstr.create, memcpy, List.take_take]
  rw [hc]

theorem newlstr_take (g : global_State) (s : List Nat) (l : Nat) :
    luaS_newlstr g (s.take l) l = luaS_newlstr g s l := by
  unfold luaS_newlstr
  rw [internshrstr_take]
  simp [memcpy, List.take_take]

theorem WF_congr (g g1 : global_State) (h1 : g1.strt = g.strt) (h2 : g1.seed = g.seed)
    (h3 : g1.currentwhite = g.currentwhite) (hwf : WF g) : WF g1 := by
  obtain ⟨a, b, c, d, e, f, k, w⟩ := hwf
  refine ⟨by rw [h1]; exact a, by rw [h1]; exact b, by rw [h1]; exact c, by rw [h1]; exact d,
    ?_, by rw [h1]; exact f, by rw [h1]; exact k, by rw [h3]; exact w⟩
  intro i ts hts
  rw [h1] at hts ⊢
  obtain ⟨x, y⟩ := e i ts hts
  refine ⟨x, ?_⟩
  unfold IsShrStr at *
  rw [h2]
  exact y

theorem CachedOK_mono (g g1 : global_State)
    (hsub : ∀ t ∈ g.strt.hash.flatten, t ∈ g1.strt.hash.flatten) (hud : g.ud ≤ g1.ud)
    (ts : TString) (h : CachedOK g ts) : CachedOK g1 ts := by
  obtain ⟨a, b, c, d⟩ := h
  refine ⟨a, b, c, ?_⟩
  rcases d with ⟨d1, d2⟩ | ⟨d1, d2, d3, d4⟩
  · exact Or.inl ⟨d1, hsub ts d2⟩
  · exact Or.inr ⟨d1, d2, d3, by omega⟩

theorem set_getD_self (H : List (List TString)) (i : Nat) : H.set i (H.getD i []) = H := by
  apply List.ext_getElem?
  intro j
  rw [List.getElem?_set]
  split
  · rename_i h
    subst h
    split
    · rename_i hi
      rw [List.getD_eq_getElem _ _ hi, List.getElem?_eq_getElem hi]
    · rename_i hi
      rw [List.getElem?_eq_none (by omega)]
  · rfl

theorem search_live (g : global_State) (s : List Nat) (l : Nat) (c : List TString)
    (hl : ∀ t ∈ c, isdead g t = false) (r : TString) (c1 : List TString)
    (h : internshrstr.search g s l c = some (r, c1)) : c1 = c ∧ r ∈ c := by
  induction c generalizing c1 with
  | nil => simp [internshrstr.search] at h
  | cons t c ih =>
    rw [internshrstr.search] at h
    split at h
    · have hd := hl t (List.mem_cons_self _ _)
      simp only [hd, Bool.false_eq_true, if_false, Option.some.injEq, Prod.mk.injEq] at h
      obtain ⟨h1, h2⟩ := h
      subst h1
      subst h2
      exact ⟨rfl, List.mem_cons_self _ _⟩
    · split at h
      · simp at h
      · rename_i r0 c0 hs
        simp only [Option.some.injEq, Prod.mk.injEq] at h
        obtain ⟨h1, h2⟩ := h
        subst h1
        subst h2
        obtain ⟨e1, e2⟩ := ih (fun x hx => hl x (List.mem_cons_of_mem _ hx)) c0 hs
        exact ⟨by rw [e1], List.mem_cons_of_mem _ e2⟩

theorem search_none_conv (g : global_State) (s : List Nat) (l : Nat) (c : List TString)
    (h : internshrstr.search g s l c = none) :
    ∀ t ∈ c, ¬ (l = t.shrlen ∧ memcmp s t.bytes l = 0) := by
  induction c with
  | nil => simp
  | cons t c ih =>
    rw [internshrstr.search] at h
    split at h
    · simp at h
    · rename_i hn
      split at h
      · rename_i hs
        intro x hx
        rcases List.mem_cons.1 hx with e | e
        · subst e
          exact hn
        · exact ih hs x e
      · simp at h

theorem absent_of_search_none (g : global_State) (hwf : WF g) (s : List Nat)
    (h : internshrstr.search g s s.length
      (g.strt.hash.getD (lmod (luaS_hash s s.length g.seed) g.strt.size) []) = none) :
    ∀ ts ∈ g.strt.hash.flatten, ts.contents ≠ s := by
  intro ts hts hc
  obtain ⟨i, hi⟩ := (mem_flatten_iff_getD _ _).1 hts
  obtain ⟨hidx, hshr⟩ := hwf.chained i ts hi
  have hm := (match_iff_contents g ts hshr s).2 hc
  have hhash : luaS_hash s s.length g.seed = ts.hash := by
    rw [hm.1, ← hc, contents_shr g ts hshr, luaS_hash_take]
    exact hshr.2.2.2.symm
  rw [hhash, hidx] at h
  exact search_none_conv g s s.length _ h ts hi hm

theorem intern_live (g : global_State) (hl : ∀ t ∈ g.strt.hash.flatten, isdead g t = false)
    (s : List Nat) (l : Nat) (r : TString) (c : List TString)
    (h : internshrstr.search g s l
      (g.strt.hash.getD (lmod (luaS_hash s l g.seed) g.strt.size) []) = some (r, c)) :
    internshrstr g s l = (r, g) ∧ r ∈ g.strt.hash.flatten := by
  have hl2 : ∀ t ∈ g.strt.hash.getD (lmod (luaS_hash s l g.seed) g.strt.size) [],
      isdead g t = false :=
    fun t ht => hl t ((mem_flatten_iff_getD _ _).2 ⟨_, ht⟩)
  obtain ⟨e1, e2⟩ := search_live g s l _ hl2 r c h
  refine ⟨?_, (mem_flatten_iff_getD _ _).2 ⟨_, e2⟩⟩
  rw [internshrstr_found g s l r c h, e1, set_getD_self]

theorem grow_other (g : global_State) :
    (internshrstr.grow g).ud = g.ud ∧ (internshrstr.grow g).allgc = g.allgc ∧
    (internshrstr.grow g).fixedgc = g.fixedgc ∧ (internshrstr.grow g).strcache = g.strcache := by
  unfold internshrstr.grow
  split <;> exact ⟨rfl, rfl, rfl, rfl⟩

theorem grow_inv (g : global_State) (hinv : CacheInv g) :
    CacheInv (internshrstr.grow g) ∧
    (∀ t, t ∈ (internshrstr.grow g).strt.hash.flatten ↔ t ∈ g.strt.hash.flatten) := by
  obtain ⟨hp, _⟩ := grow_perm g hinv.wf
  obtain ⟨o1, o2, o3, o4⟩ := grow_other g
  have hmem : ∀ t, t ∈ (internshrstr.grow g).strt.hash.flatten ↔ t ∈ g.strt.hash.flatten :=
    fun t => hp.mem_iff
  refine ⟨⟨grow_WF g hinv.wf, ?_, ?_, ?_, ?_⟩, hmem⟩
  · unfold AllocOK
    rw [o1, o2, o3]
    exact ⟨hinv.alloc.1, hinv.alloc.2.1, fun ts hts => hinv.alloc.2.2 ts ((hmem ts).1 hts)⟩
  · intro ts hts
    exact hinv.term ts ((hmem ts).1 hts)
  · intro ts hts
    rw [isdead_congr g _ (grow_currentwhite g)]
    exact hinv.live ts ((hmem ts).1 hts)
  · intro row hrow ts hts
    rw [o4] at hrow
    exact CachedOK_mono g _ (fun t ht => (hmem t).2 ht) (by rw [o1]) ts
      (hinv.cached row hrow ts hts)

theorem create_inv (g : global_State) (hinv : CacheInv g) (s : List Nat)
    (hs : s.length ≤ LUAI_MAXSHORTLEN)
    (hnew : ∀ ts ∈ g.strt.hash.flatten, ts.contents ≠ s) (h : Nat)
    (hh : h = luaS_hash s s.length g.seed) :
    CacheInv (internshrstr.create g s s.length h).2 ∧
    (internshrstr.create g s s.length h).1 ∈
      (internshrstr.create g s s.length h).2.strt.hash.flatten ∧
    (∀ t ∈ g.strt.hash.flatten, t ∈ (internshrstr.create g s s.length h).2.strt.hash.flatten) ∧
    (internshrstr.create g s s.length h).2.ud = g.ud + 1 ∧
    (internshrstr.create g s s.length h).2.strcache = g.strcache := by
  have hwf := hinv.wf
  have hcb : cast_byte s.length = s.length := by
    unfold cast_byte LUAI_MAXSHORTLEN at *
    omega
  have hidx : lmod h g.strt.size < g.strt.hash.length := by
    rw [hwf.hash_len]
    exact lmod_lt _ _ hwf.size_pos hwf.size_le
  have hn_tt : (internshrstr.create g s s.length h).1.tt = LUA_TSHRSTR := rfl
  have hn_shrlen : (internshrstr.create g s s.length h).1.shrlen = s.length := hcb
  have hn_hash : (internshrstr.create g s s.length h).1.hash = h := rfl
  have hn_addr : (internshrstr.create g s s.length h).1.addr = g.ud := rfl
  have hn_marked : (internshrstr.create g s s.length h).1.marked = luaC_white g := rfl
  have hn_bytes : (internshrstr.create g s s.length h).1.bytes = s ++ [0] := memcpy_new s
  have hn_contents : (internshrstr.create g s s.length h).1.contents = s := by
    unfold TString.contents tsslen
    rw [if_pos hn_tt, hn_shrlen, hn_bytes]
    simp
  have hhash2 : (internshrstr.create g s s.length h).2.strt.hash =
      g.strt.hash.set (lmod h g.strt.size)
        ((internshrstr.create g s s.length h).1 :: g.strt.hash.getD (lmod h g.strt.size) []) := rfl
  have hperm : (internshrstr.create g s s.length h).2.strt.hash.flatten.Perm
      ((internshrstr.create g s s.length h).1 :: g.strt.hash.flatten) := by
    rw [hhash2]
    exact flatten_set_cons _ _ _ hidx
  have hmem : ∀ t, t ∈ (internshrstr.create g s s.length h).2.strt.hash.flatten ↔
      t = (internshrstr.create g s s.length h).1 ∨ t ∈ g.strt.hash.flatten := by
    intro t
    rw [hperm.mem_iff, List.mem_cons]
  refine ⟨⟨⟨hwf.size_pow, hwf.size_le, ?_, ?_, ?_, ?_, ?_, hwf.white⟩, ?_, ?_, ?_, ?_⟩,
    (hmem _).2 (Or.inl rfl), fun t ht => (hmem t).2 (Or.inr ht), rfl, rfl⟩
  · rw [hhash2, List.length_set]
    exact hwf.hash_len
  · show g.strt.nuse + 1 = _
    rw [hperm.length_eq, hwf.nuse_eq]
    simp
  · intro i ts hts
    rw [hhash2, getD_set_self _ _ _ _ hidx] at hts
    show lmod ts.hash g.strt.size = i ∧ _
    split at hts
    · rename_i hi
      rcases List.mem_cons.1 hts with e | e
      · subst e
        refine ⟨by rw [hn_hash, hi], hn_tt, by rw [hn_shrlen]; exact hs,
          by rw [hn_bytes, hn_shrlen]; simp, ?_⟩
        rw [hn_hash, hn_bytes, hn_shrlen, hh]
        show luaS_hash s s.length g.seed = luaS_hash (s ++ [0]) s.length g.seed
        rw [← luaS_hash_take (s ++ [0])]
        simp
      · rw [hi]
        exact hwf.chained _ ts e
    · exact hwf.chained i ts hts
  · refine ((hperm.map TString.contents).nodup_iff).2 ?_
    rw [List.map_cons, List.nodup_cons]
    refine ⟨?_, hwf.nodup_contents⟩
    intro hc
    obtain ⟨t, ht, hte⟩ := List.mem_map.1 hc
    exact hnew t ht (hte.trans hn_contents)
  · refine ((hperm.map TString.addr).nodup_iff).2 ?_
    rw [List.map_cons, List.nodup_cons]
    refine ⟨?_, hwf.nodup_addr⟩
    intro hc
    obtain ⟨t, ht, hte⟩ := List.mem_map.1 hc
    have := hinv.alloc.2.2 t ht
    rw [hte, hn_addr] at this
    omega
  · refine ⟨?_, ?_, ?_⟩
    · intro a ha
      show a < g.ud + 1
      rcases List.mem_cons.1 ha with e | e
      · omega
      · have := hinv.alloc.1 a e
        omega
    · intro a ha
      show a < g.ud + 1
      have := hinv.alloc.2.1 a ha
      omega
    · intro ts hts
      show ts.addr < g.ud + 1
      rcases (hmem ts).1 hts with e | e
      · rw [e, hn_addr]
        omega
      · have := hinv.alloc.2.2 ts e
        omega
  · intro ts hts
    rcases (hmem ts).1 hts with e | e
    · rw [e, hn_contents, hn_bytes]
    · exact hinv.term ts e
  · intro ts hts
    rw [isdead_congr g (internshrstr.create g s s.length h).2 rfl]
    rcases (hmem ts).1 hts with e | e
    · rw [e]
      exact isdead_new g hwf.white _ hn_marked
    · exact hinv.live ts e
  · intro row hrow ts hts
    exact CachedOK_mono g _ (fun t ht => (hmem t).2 (Or.inr ht))
      (Nat.le_succ _) ts (hinv.cached row hrow ts hts)

theorem intern_inv (g : global_State) (hinv : CacheInv g) (s : List Nat)
    (hs : s.length ≤ LUAI_MAXSHORTLEN) :
    CacheInv (internshrstr g s s.length).2 ∧
    (internshrstr g s s.length).1 ∈ (internshrstr g s s.length).2.strt.hash.flatten ∧
    (∀ t ∈ g.strt.hash.flatten, t ∈ (internshrstr g s s.length).2.strt.hash.flatten) ∧
    g.ud ≤ (internshrstr g s s.length).2.ud ∧
    (internshrstr g s s.length).2.strcache = g.strcache := by
  cases hsr : internshrstr.search g s s.length
      (g.strt.hash.getD (lmod (luaS_hash s s.length g.seed) g.strt.size) []) with
  | some rc =>
    obtain ⟨r, c⟩ := rc
    obtain ⟨e, hr⟩ := intern_live g hinv.live s s.length r c hsr
    rw [e]
    exact ⟨hinv, hr, fun t ht => ht, Nat.le_refl _, rfl⟩
  | none =>
    rw [internshrstr_notfound g s s.length hsr]
    have hnew := absent_of_search_none g hinv.wf s hsr
    obtain ⟨hg, hgm⟩ := grow_inv g hinv
    obtain ⟨o1, o2, o3, o4⟩ := grow_other g
    have hnew2 : ∀ ts ∈ (internshrstr.grow g).strt.hash.flatten, ts.contents ≠ s :=
      fun ts hts => hnew ts ((hgm ts).1 hts)
    obtain ⟨c1, c2, c3, c4, c5⟩ := create_inv (internshrstr.grow g) hg s hs hnew2
      (luaS_hash s s.length g.seed) (by rw [grow_seed])
    exact ⟨c1, c2, fun t ht => c3 t ((hgm t).2 ht), by rw [c4, o1]; omega, by rw [c5, o4]⟩

theorem newlstr_inv (g : global_State) (hinv : CacheInv g) (s : List Nat) (ts : TString)
    (g1 : global_State) (h : luaS_newlstr g s s.length = Except.ok (ts, g1)) :
    CacheInv g1 ∧ g1.strcache = g.strcache ∧ g.ud ≤ g1.ud ∧
    (∀ t ∈ g.strt.hash.flatten, t ∈ g1.strt.hash.flatten) ∧
    ts.bytes = s ++ [0] ∧ ts.contents = s ∧ tsslen ts = s.length ∧
    ((ts.tt = LUA_TSHRSTR ∧ ts ∈ g1.strt.hash.flatten) ∨
      (ts.tt = LUA_TLNGSTR ∧ LUAI_MAXSHORTLEN < ts.lnglen ∧
        ts.lnglen < (MAX_SIZE - sizeof_TString) / 1 ∧ ts.addr < g1.ud)) := by
  by_cases hs : s.length ≤ LUAI_MAXSHORTLEN
  · have e : luaS_newlstr g s s.length = Except.ok (internshrstr g s s.length) := by
      simp only [luaS_newlstr, hs, if_true]
    rw [e] at h
    simp only [Except.ok.injEq] at h
    obtain ⟨i1, i2, i3, i4, i5⟩ := intern_inv g hinv s hs
    obtain ⟨r1, r2, r3, r4⟩ := intern_result g hinv.wf hinv.term s hs
    rw [h] at i1 i2 i3 i4 i5 r1 r2 r3 r4
    simp only at i1 i2 i3 i4 i5 r1 r2 r3 r4
    exact ⟨i1, i5, i4, i3, r4, r3, by simp only [tsslen, r1, if_true, r2], Or.inl ⟨r1, i2⟩⟩
  · have h1 : LUAI_MAXSHORTLEN < s.length := by omega
    by_cases h2 : s.length < (MAX_SIZE - sizeof_TString) / 1
    · rw [newlstr_long g s s.length h1 h2] at h
      simp only [Except.ok.injEq, Prod.mk.injEq] at h
      obtain ⟨e1, e2⟩ := h
      subst e1
      subst e2
      refine ⟨⟨WF_congr g _ rfl rfl rfl hinv.wf, ⟨?_, ?_, ?_⟩, hinv.term, ?_, ?_⟩, rfl,
        Nat.le_succ _, fun t ht => ht, memcpy_new s, ?_, ?_,
        Or.inr ⟨rfl, h1, h2, Nat.lt_succ_self _⟩⟩
      · intro a ha
        show a < g.ud + 1
        rcases List.mem_cons.1 ha with e | e
        · omega
        · have := hinv.alloc.1 a e
          omega
      · intro a ha
        show a < g.ud + 1
        have := hinv.alloc.2.1 a ha
        omega
      · intro t ht
        show t.addr < g.ud + 1
        have := hinv.alloc.2.2 t ht
        omega
      · intro t ht
        rw [isdead_congr g { g with ud := g.ud + 1, allgc := g.ud :: g.allgc } rfl]
        exact hinv.live t ht
      · intro row hrow t ht
        exact CachedOK_mono g { g with ud := g.ud + 1, allgc := g.ud :: g.allgc }
          (fun x hx => hx) (Nat.le_succ _) t (hinv.cached row hrow t ht)
      · simp only [TString.contents, tsslen, memcpy_new]
        simp [LUA_TLNGSTR, LUA_TSHRSTR, LUA_TSTRING]
      · simp [tsslen, LUA_TLNGSTR, LUA_TSHRSTR, LUA_TSTRING]
    · exfalso
      have e : luaS_newlstr g s s.length = Except.error LuaError.toobig := by
        simp only [luaS_newlstr, hs, if_false]
        rw [if_pos (by omega)]
      rw [e] at h
      simp at h

theorem grow_cache (g : global_State) (x : List (List TString)) :
    internshrstr.grow { g with strcache := x } = { internshrstr.grow g with strcache := x } := by
  unfold internshrstr.grow
  split <;> rfl

theorem intern_cache (g : global_State) (x : List (List TString)) (s : List Nat) (l : Nat) :
    internshrstr { g with strcache := x } s l =
      ((internshrstr g s l).1, { (internshrstr g s l).2 with strcache := x }) := by
  unfold internshrstr
  simp only
  rw [search_congr g { g with strcache := x } rfl]
  split
  · rfl
  · rw [grow_cache]
    rfl

theorem newlstr_cache (g : global_State) (x : List (List TString)) (s : List Nat) (l : Nat) :
    luaS_newlstr { g with strcache := x } s l =
      (luaS_newlstr g s l).map (fun r => (r.1, { r.2 with strcache := x })) := by
  unfold luaS_newlstr
  split
  · rw [intern_cache]
    rfl
  · split <;> rfl

theorem resize_preinit (g0 : global_State) (h0 : PreInit g0) (n : Nat) :
    (luaS_resize g0 n).strt = { hash := List.replicate n [], nuse := 0, size := n } := by
  obtain ⟨a, b, c, _⟩ := h0
  have hlen : g0.strt.hash.length = g0.strt.size := by rw [a, b]; rfl
  unfold luaS_resize
  simp only [rehash_eq _ _ hlen, a, b, c]
  simp

theorem empty_table_inv (g : global_State) (k : Nat) (hk : 2 ^ k ≤ MAX_INT)
    (hs : g.strt = { hash := List.replicate (2 ^ k) [], nuse := 0, size := 2 ^ k })
    (h1 : ∀ a ∈ g.allgc, a < g.ud) (h2 : ∀ a ∈ g.fixedgc, a < g.ud)
    (hw : g.currentwhite = 1 ∨ g.currentwhite = 2) (hc : g.strcache = []) : CacheInv g := by
  have hfl : g.strt.hash.flatten = [] := by
    rw [hs, List.flatten_eq_nil_iff]
    intro l hl
    exact List.eq_of_mem_replicate hl
  have hget : ∀ i, g.strt.hash.getD i [] = [] := by
    intro i
    by_contra hne
    obtain ⟨t, ht⟩ := List.exists_mem_of_ne_nil _ hne
    have := (mem_flatten_iff_getD _ _).2 ⟨i, ht⟩
    rw [hfl] at this
    simp at this
  refine ⟨⟨⟨k, by rw [hs]⟩, by rw [hs]; exact hk, by rw [hs]; simp, by rw [hfl, hs]; rfl, ?_,
    by rw [hfl]; exact List.nodup_nil, by rw [hfl]; exact List.nodup_nil, hw⟩,
    ⟨h1, h2, ?_⟩, ?_, ?_, ?_⟩
  · intro i ts hts
    rw [hget i] at hts
    simp at hts
  · intro ts hts
    rw [hfl] at hts
    simp at hts
  · intro ts hts
    rw [hfl] at hts
    simp at hts
  · intro ts hts
    rw [hfl] at hts
    simp at hts
  · intro row hrow
    rw [hc] at hrow
    simp at hrow

theorem shift_mem (p : List TString) (t : TString) (h : t ∈ luaS_new.shift p) : t ∈ p := by
  have e : luaS_new.shift p = (match p[0]? with
      | some ts => p.set 1 ts
      | none => p) := rfl
  rw [e] at h
  split at h
  · rename_i ts hts
    rcases List.mem_or_eq_of_mem_set h with h1 | h1
    · exact h1
    · rw [h1]
      exact List.mem_iff_getElem?.2 ⟨0, hts⟩
  · exact h

theorem mem_getD_row (C : List (List TString)) (i : Nat) (t : TString)
    (h : t ∈ C.getD i []) : ∃ row ∈ C, t ∈ row := by
  by_cases hi : i < C.length
  · rw [List.getD_eq_getElem _ _ hi] at h
    exact ⟨C[i], List.getElem_mem _, h⟩
  · rw [List.getD_eq_default _ _ (by omega)] at h
    simp at h

theorem init_inv (g0 g : global_State) (h0 : PreInit g0) (h : luaS_init g0 = Except.ok g) :
    CacheInv g := by
  have hpre : CacheInv { luaS_resize g0 MINSTRTABSIZE with strcache := [] } :=
    empty_table_inv _ 7 (by decide) (resize_preinit g0 h0 MINSTRTABSIZE) h0.2.2.2.1
      h0.2.2.2.2.1 h0.2.2.2.2.2 rfl
  have hlen : (MEMERRMSG.take 17).length = 17 := rfl
  have e0 : luaS_newlstr (luaS_resize g0 MINSTRTABSIZE) MEMERRMSG (MEMERRMSG.length - 1) =
      (luaS_newlstr { luaS_resize g0 MINSTRTABSIZE with strcache := [] } (MEMERRMSG.take 17)
        (MEMERRMSG.take 17).length).map
        (fun r => (r.1, { r.2 with strcache := (luaS_resize g0 MINSTRTABSIZE).strcache })) := by
    rw [hlen, newlstr_take]
    exact newlstr_cache { luaS_resize g0 MINSTRTABSIZE with strcache := [] }
      (luaS_resize g0 MINSTRTABSIZE).strcache MEMERRMSG 17
  unfold luaS_init luaS_newliteral at h
  simp only [e0] at h
  cases hr : luaS_newlstr { luaS_resize g0 MINSTRTABSIZE with strcache := [] }
      (MEMERRMSG.take 17) (MEMERRMSG.take 17).length with
  | error e =>
    rw [hr] at h
    simp [Except.map] at h
  | ok r =>
    obtain ⟨ts, g2⟩ := r
    rw [hr] at h
    simp only [Except.map, Except.ok.injEq] at h
    obtain ⟨i1, _, _, _, i5, i6, i7, i8⟩ := newlstr_inv _ hpre _ ts g2 hr
    have hshort : ts.tt = LUA_TSHRSTR ∧ ts ∈ g2.strt.hash.flatten := by
      rcases i8 with hh | ⟨a, b, _⟩
      · exact hh
      · exfalso
        simp [tsslen, a, LUA_TLNGSTR, LUA_TSHRSTR, LUA_TSTRING, hlen] at i7
        unfold LUAI_MAXSHORTLEN at b
        omega
    subst h
    refine ⟨WF_congr g2 _ rfl rfl rfl i1.wf, ⟨?_, ?_, ?_⟩, i1.term, ?_, ?_⟩
    · intro a ha
      exact i1.alloc.1 a (List.mem_of_mem_erase ha)
    · intro a ha
      rcases List.mem_cons.1 ha with e | e
      · rw [e]
        exact i1.alloc.2.2 ts hshort.2
      · exact i1.alloc.2.1 a e
    · exact i1.alloc.2.2
    · intro t ht
      exact i1.live t ht
    · intro row hrow t ht
      obtain ⟨_, _, e1⟩ := List.mem_map.1 hrow
      subst e1
      obtain ⟨_, _, e2⟩ := List.mem_map.1 ht
      have e3 : t = ts := e2.symm
      rw [e3]
      exact ⟨by rw [i5, i6], by rw [i6]; decide, by rw [i6, i7], Or.inl hshort⟩

theorem newlstr_inv_take (g : global_State) (hinv : CacheInv g) (s : List Nat) (l : Nat)
    (hl : l ≤ s.length) (ts : TString) (g1 : global_State)
    (h : luaS_newlstr g s l = Except.ok (ts, g1)) :
    CacheInv g1 ∧ g1.strcache = g.strcache ∧ g.ud ≤ g1.ud ∧
    (∀ t ∈ g.strt.hash.flatten, t ∈ g1.strt.hash.flatten) ∧
    ts.bytes = s.take l ++ [0] ∧ ts.contents = s.take l ∧ tsslen ts = l ∧
    ((ts.tt = LUA_TSHRSTR ∧ ts ∈ g1.strt.hash.flatten) ∨
      (ts.tt = LUA_TLNGSTR ∧ LUAI_MAXSHORTLEN < ts.lnglen ∧
        ts.lnglen < (MAX_SIZE - sizeof_TString) / 1 ∧ ts.addr < g1.ud)) := by
  have hlen : (s.take l).length = l := by
    rw [List.length_take]
    omega
  have e : luaS_newlstr g (s.take l) (s.take l).length = Except.ok (ts, g1) := by
    rw [hlen, newlstr_take]
    exact h
  have r := newlstr_inv g hinv (s.take l) ts g1 e
  rw [hlen] at r
  exact r

theorem cache_update_inv (g : global_State) (hinv : CacheInv g) (C : List (List TString))
    (hC : ∀ row ∈ C, ∀ t ∈ row, CachedOK g t) : CacheInv { g with strcache := C } :=
  ⟨WF_congr g _ rfl rfl rfl hinv.wf, hinv.alloc, hinv.term, hinv.live, hC⟩

theorem shifted_cached (g : global_State) (hinv : CacheInv g) (i : Nat) :
    ∀ row ∈ g.strcache.set i (luaS_new.shift (g.strcache.getD i [])), ∀ t ∈ row,
      CachedOK g t := by
  intro row hrow t ht
  rcases List.mem_or_eq_of_mem_set hrow with e | e
  · exact hinv.cached row e t ht
  · rw [e] at ht
    obtain ⟨row0, hr0, ht0⟩ := mem_getD_row _ _ _ (shift_mem _ _ ht)
    exact hinv.cached row0 hr0 t ht0

theorem new_inv (g : global_State) (hinv : CacheInv g) (p : Nat) (s : List Nat)
    (ts : TString) (g1 : global_State) (h : luaS_new g p s = Except.ok (ts, g1)) :
    CacheInv g1 := by
  unfold luaS_new at h
  simp only at h
  split at h
  · simp only [Except.ok.injEq, Prod.mk.injEq] at h
    rw [← h.2]
    exact hinv
  · split at h
    · simp at h
    · rename_i ts2 g2 hn
      simp only [Except.ok.injEq, Prod.mk.injEq] at h
      obtain ⟨h1, h2⟩ := h
      subst h1
      subst h2
      obtain ⟨i1, _, _, _, i5, i6, i7, i8⟩ := newlstr_inv_take _
        (cache_update_inv g hinv _ (shifted_cached g hinv _)) s (strlen s) (strlen_le s) ts2 g2 hn
      refine ⟨WF_congr g2 _ rfl rfl rfl i1.wf, i1.alloc, i1.term, i1.live, ?_⟩
      intro row hrow t ht
      rcases List.mem_or_eq_of_mem_set hrow with e1 | e1
      · exact i1.cached row e1 t ht
      · rw [e1] at ht
        rcases List.mem_or_eq_of_mem_set ht with e2 | e2
        · obtain ⟨row0, hr0, ht0⟩ := mem_getD_row _ _ _ e2
          exact i1.cached row0 hr0 t ht0
        · rw [e2]
          exact ⟨by rw [i5, i6], by rw [i6]; exact strlen_take_no_zero s,
            by rw [i6, i7, strlen_take_length], i8⟩

theorem reachable_inv (g : global_State) (hr : CacheReachable g) : CacheInv g := by
  induction hr with
  | init g0 g h0 h => exact init_inv g0 g h0 h
  | new g p s ts g1 _ _ h ih => exact new_inv g ih p s ts g1 h

theorem intern_present_live (g : global_State) (hinv : CacheInv g) (c : TString)
    (hc : c ∈ g.strt.hash.flatten) :
    c.contents.length = c.shrlen ∧ c.shrlen ≤ LUAI_MAXSHORTLEN ∧ tsslen c = c.shrlen ∧
    internshrstr g c.contents c.shrlen = (c, g) := by
  obtain ⟨i, hi⟩ := (mem_flatten_iff_getD _ _).1 hc
  obtain ⟨_, hshr⟩ := hinv.wf.chained i c hi
  have hlen : c.contents.length = c.shrlen := by
    rw [contents_shr g c hshr, List.length_take, hshr.2.2.1]
    omega
  refine ⟨hlen, hshr.2.1, by simp only [tsslen, hshr.1, if_true], ?_⟩
  cases hsr : internshrstr.search g c.contents c.contents.length
      (g.strt.hash.getD (lmod (luaS_hash c.contents c.contents.length g.seed) g.strt.size) []) with
  | none => exact absurd rfl (absent_of_search_none g hinv.wf c.contents hsr c hc)
  | some rc =>
    obtain ⟨r, cc⟩ := rc
    rw [hlen] at hsr
    obtain ⟨e, _⟩ := intern_live g hinv.live _ _ r cc hsr
    have h1 := intern_present g hinv.wf c hc
    rw [e, hinv.live c hc] at h1
    simp only [Bool.false_eq_true, if_false] at h1
    rw [e, h1]

theorem hit_newlstr (g : global_State) (hinv : CacheInv g) (s : List Nat) (c : TString)
    (hc : CachedOK g c) (hcmp : strcmp s c.bytes = 0) :
    ∃ ts g1, luaS_newlstr g s (strlen s) = Except.ok (ts, g1) ∧
      c.tt = ts.tt ∧ tsslen c = tsslen ts ∧ c.bytes = ts.bytes ∧ g1.strt = g.strt ∧
      (strlen s ≤ LUAI_MAXSHORTLEN → c = ts ∧ g1 = g) ∧
      (LUAI_MAXSHORTLEN < strlen s →
        c.addr < g.ud ∧ ts.addr = g.ud ∧
        g1 = { g with ud := g.ud + 1, allgc := g.ud :: g.allgc }) := by
  obtain ⟨hcont, hlen⟩ := cached_hit g c hc s hcmp
  obtain ⟨hb, hz, hl, hk⟩ := hc
  rcases hk with ⟨k1, k2⟩ | ⟨k1, k2, k3, k4⟩
  · obtain ⟨p1, p2, p3, p4⟩ := intern_present_live g hinv c k2
    have hle : strlen s ≤ LUAI_MAXSHORTLEN := by
      rw [← hlen, p3]
      exact p2
    have e : luaS_newlstr g s (strlen s) = Except.ok (c, g) := by
      have e1 : luaS_newlstr g s (strlen s) = Except.ok (internshrstr g s (strlen s)) := by
        simp only [luaS_newlstr, hle, if_true]
      rw [e1, ← internshrstr_take, ← hcont, ← hlen, p3, p4]
    exact ⟨c, g, e, rfl, rfl, rfl, rfl, fun _ => ⟨rfl, rfl⟩, fun h => absurd hle (by omega)⟩
  · have ht : tsslen c = c.lnglen := by
      simp [tsslen, k1, LUA_TLNGSTR, LUA_TSHRSTR, LUA_TSTRING]
    have h1 : LUAI_MAXSHORTLEN < strlen s := by
      rw [← hlen, ht]
      exact k2
    have h2 : strlen s < (MAX_SIZE - sizeof_TString) / 1 := by
      rw [← hlen, ht]
      exact k3
    have e := newlstr_long g (s.take (strlen s)) (strlen s) h1 h2
    rw [newlstr_take] at e
    refine ⟨_, _, e, k1, ?_, ?_, rfl, fun h => absurd h (by omega), fun _ => ⟨k4, rfl, rfl⟩⟩
    · rw [hlen]
      simp [tsslen, LUA_TLNGSTR, LUA_TSHRSTR, LUA_TSTRING]
    · rw [hb, hcont]
      have hm := memcpy_new (s.take (strlen s))
      rw [strlen_take_length] at hm
      exact hm.symm

theorem g_cached_reachable : CacheReachable g_cached :=
  CacheReachable.new g_init 0 s_long ts_long g_cached
    (CacheReachable.init {} g_init
      ⟨rfl, rfl, rfl, by simp, by simp, Or.inl rfl⟩ init_fresh)
    (by decide) new_long_first

theorem new_miss (g : global_State) (p : Nat) (s : List Nat)
    (hh : luaS_new.hit s (g.strcache.getD (point2uint p % STRCACHE_N) []) = none) :
    (∀ e, luaS_newlstr g s (strlen s) = Except.error e → luaS_new g p s = Except.error e) ∧
    (∀ ts g1, luaS_newlstr g s (strlen s) = Except.ok (ts, g1) →
      ∃ g2, luaS_new g p s = Except.ok (ts, g2) ∧ g2.strt = g1.strt ∧
        { g2 with strcache := g1.strcache } = g1) := by
  constructor
  · intro e he
    unfold luaS_new
    simp only [hh, newlstr_cache, he, Except.map]
  · intro ts g1 he
    unfold luaS_new
    simp only [hh, newlstr_cache, he, Except.map]
    exact ⟨_, rfl, rfl, rfl⟩

/-- C20, counterexample: in the state reached from a fresh state by
`luaS_init` and one `luaS_new` on a 41-byte string at address 0, a second
`luaS_new` on that string returns the cached object (address 1) and leaves the
state as it is, while `luaS_newlstr` on that state returns a new object
(address 2): the results are not the same. -/
theorem C20_new_counterexample :
    CacheReachable g_cached ∧ 0 ∈ s_long ∧
    luaS_new g_cached 0 s_long = Except.ok (ts_long, g_cached) ∧
    luaS_newlstr g_cached s_long (strlen s_long) =
      Except.ok ({ ts_long with addr := 2 }, { g_cached with ud := 3, allgc := [2, 1] }) ∧
    ¬ MemoExact g_cached 0 s_long := by
  refine ⟨g_cached_reachable, by decide, new_long_hit, newlstr_long_again, ?_⟩
  unfold MemoExact
  rw [new_long_hit, newlstr_long_again]
  simp only [Except.map, Except.ok.injEq]
  decide

/-- C20 (amended): in every state reachable from `luaS_init` through
`luaS_new` calls and for every zero-terminated string `s`, `luaS_new(s)` fails
when `luaS_newlstr(s, strlen(s))` fails, and otherwise returns a string of the
same kind, length and bytes and leaves the same string table. When
`strlen(s) <= LUAI_MAXSHORTLEN`, or when the cache misses, the returned object
is the very one `luaS_newlstr` returns and the state differs in the cache
only. On a cache hit for a longer string `luaS_new` returns the cached object,
created earlier, and changes nothing, where `luaS_newlstr` allocates a new
object. -/
theorem C20_new_refines_newlstr (g : global_State) (hr : CacheReachable g) (p : Nat)
    (s : List Nat) (_hs : 0 ∈ s) :
    (∀ e, luaS_newlstr g s (strlen s) = Except.error e → luaS_new g p s = Except.error e) ∧
    (∀ ts g1, luaS_newlstr g s (strlen s) = Except.ok (ts, g1) →
      ∃ r g2, luaS_new g p s = Except.ok (r, g2) ∧
        r.tt = ts.tt ∧ tsslen r = tsslen ts ∧ r.bytes = ts.bytes ∧ g2.strt = g1.strt ∧
        (strlen s ≤ LUAI_MAXSHORTLEN ∨
            luaS_new.hit s (g.strcache.getD (point2uint p % STRCACHE_N) []) = none →
          r = ts ∧ { g2 with strcache := g1.strcache } = g1) ∧
        (LUAI_MAXSHORTLEN < strlen s →
          ∀ c, luaS_new.hit s (g.strcache.getD (point2uint p % STRCACHE_N) []) = some c →
            r = c ∧ g2 = g ∧ c.addr < g.ud ∧ ts.addr = g.ud ∧
            g1 = { g with ud := g.ud + 1, allgc := g.ud :: g.allgc })) ∧
    (strlen s ≤ LUAI_MAXSHORTLEN → MemoExact g p s) := by
  have hinv := reachable_inv g hr
  cases hh : luaS_new.hit s (g.strcache.getD (point2uint p % STRCACHE_N) []) with
  | some c =>
    have hnew : luaS_new g p s = Except.ok (c, g) := by
      unfold luaS_new
      simp only [hh]
    obtain ⟨hcm, hcmp⟩ := hit_spec _ _ _ hh
    obtain ⟨row, hrow, hcr⟩ := mem_getD_row _ _ _ hcm
    obtain ⟨ts, g1, e, a1, a2, a3, a4, a5, a6⟩ :=
      hit_newlstr g hinv s c (hinv.cached row hrow c hcr) hcmp
    refine ⟨?_, ?_, ?_⟩
    · intro er he
      rw [e] at he
      simp at he
    · intro ts0 g0 he
      rw [e] at he
      simp only [Except.ok.injEq, Prod.mk.injEq] at he
      obtain ⟨x, y⟩ := he
      subst x
      subst y
      refine ⟨c, g, hnew, a1, a2, a3, a4.symm, ?_, ?_⟩
      · intro hor
        rcases hor with h1 | h1
        · obtain ⟨b1, b2⟩ := a5 h1
          exact ⟨b1, by rw [b2]⟩
        · simp at h1
      · intro h1 c0 hc0
        simp only [Option.some.injEq] at hc0
        subst hc0
        obtain ⟨b1, b2, b3⟩ := a6 h1
        exact ⟨rfl, rfl, b1, b2, b3⟩
    · intro h1
      obtain ⟨b1, _⟩ := a5 h1
      unfold MemoExact
      rw [hnew, e, b1]
      rfl
  | none =>
    obtain ⟨m1, m2⟩ := new_miss g p s hh
    refine ⟨m1, ?_, ?_⟩
    · intro ts g1 he
      obtain ⟨g2, n1, n2, n3⟩ := m2 ts g1 he
      refine ⟨ts, g2, n1, rfl, rfl, rfl, n2, fun _ => ⟨rfl, n3⟩, ?_⟩
      intro _ c hc
      simp at hc
    · intro _
      unfold MemoExact
      cases he : luaS_newlstr g s (strlen s) with
      | error er =>
        rw [m1 er he]
      | ok r =>
        obtain ⟨ts, g1⟩ := r
        obtain ⟨g2, n1, _⟩ := m2 ts g1 he
        rw [n1]
        rfl

/-- C20 (amended) at the state reached by `luaS_init` and one `luaS_new` on
the 41-byte string `s_long`, for that string at the same address: a cache hit
on a long string. -/
theorem C20_new_refines_newlstr_witness :
    CacheReachable g_cached ∧ 0 ∈ s_long ∧
    ((∀ e, luaS_newlstr g_cached s_long (strlen s_long) = Except.error e →
        luaS_new g_cached 0 s_long = Except.error e) ∧
    (∀ ts g1, luaS_newlstr g_cached s_long (strlen s_long) = Except.ok (ts, g1) →
      ∃ r g2, luaS_new g_cached 0 s_long = Except.ok (r, g2) ∧
        r.tt = ts.tt ∧ tsslen r = tsslen ts ∧ r.bytes = ts.bytes ∧ g2.strt = g1.strt ∧
        (strlen s_long ≤ LUAI_MAXSHORTLEN ∨
            luaS_new.hit s_long (g_cached.strcache.getD (point2uint 0 % STRCACHE_N) []) = none →
          r = ts ∧ { g2 with strcache := g1.strcache } = g1) ∧
        (LUAI_MAXSHORTLEN < strlen s_long →
          ∀ c, luaS_new.hit s_long (g_cached.strcache.getD (point2uint 0 % STRCACHE_N) []) =
              some c →
            r = c ∧ g2 = g_cached ∧ c.addr < g_cached.ud ∧ ts.addr = g_cached.ud ∧
            g1 = { g_cached with ud := g_cached.ud + 1,
                                 allgc := g_cached.ud :: g_cached.allgc })) ∧
    (strlen s_long ≤ LUAI_MAXSHORTLEN → MemoExact g_cached 0 s_long)) :=
  ⟨g_cached_reachable, by decide,
    C20_new_refines_newlstr g_cached g_cached_reachable 0 s_long (by decide)⟩

/-! ## Theorems: type tags -/

/-- C30: for every base type `b` in 0..15, variant `v` in 0..3 and
collectible flag `c`, the raw tag `t = b | (v << 4) | (c << 6)` has
`novariant(t) = b` and `ttype = t & 0x3F = b | (v << 4)`, and
`iscollectable` is non-zero iff `c = 1`; `ctb` sets bit 6 and nothing else;
the variant tags of strings, numbers and functions keep the base type of
their family, and `ttisstring`, `ttisnumber`, `ttisfunction` hold exactly for
the tags whose base type is that of the family. -/
theorem C30_tag_layout (b v c : Nat) (hb : b < 16) (hv : v < 4) (hc : c < 2) :
    novariant (b ||| (v <<< 4) ||| (c <<< 6)) = b ∧
    ttnov { tt_ := b ||| (v <<< 4) ||| (c <<< 6) } = b ∧
    ttype { tt_ := b ||| (v <<< 4) ||| (c <<< 6) } = b ||| (v <<< 4) ∧
    (iscollectable { tt_ := b ||| (v <<< 4) ||| (c <<< 6) } ≠ 0 ↔ c = 1) ∧
    ctb (b ||| (v <<< 4) ||| (c <<< 6)) = b ||| (v <<< 4) ||| (1 <<< 6) ∧
    (ttisstring { tt_ := b ||| (v <<< 4) ||| (c <<< 6) } = true ↔ b = LUA_TSTRING) ∧
    (ttisnumber { tt_ := b ||| (v <<< 4) ||| (c <<< 6) } = true ↔ b = LUA_TNUMBER) ∧
    (ttisfunction { tt_ := b ||| (v <<< 4) ||| (c <<< 6) } = true ↔ b = LUA_TFUNCTION) ∧
    novariant LUA_TSHRSTR = LUA_TSTRING ∧ novariant LUA_TLNGSTR = LUA_TSTRING ∧
    novariant LUA_TNUMFLT = LUA_TNUMBER ∧ novariant LUA_TNUMINT = LUA_TNUMBER ∧
    novariant LUA_TLCL = LUA_TFUNCTION ∧ novariant LUA_TLCF = LUA_TFUNCTION ∧
    novariant LUA_TCCL = LUA_TFUNCTION := by
  interval_cases b <;> interval_cases v <;> interval_cases c <;> decide

/-- C30 at the tag of a collectable long string: base type 4, variant 1. -/
theorem C30_tag_layout_witness :
    4 < 16 ∧ 1 < 4 ∧ 1 < 2 ∧
    (novariant (4 ||| (1 <<< 4) ||| (1 <<< 6)) = 4 ∧
    ttnov { tt_ := 4 ||| (1 <<< 4) ||| (1 <<< 6) } = 4 ∧
    ttype { tt_ := 4 ||| (1 <<< 4) ||| (1 <<< 6) } = 4 ||| (1 <<< 4) ∧
    (iscollectable { tt_ := 4 ||| (1 <<< 4) ||| (1 <<< 6) } ≠ 0 ↔ 1 = 1) ∧
    ctb (4 ||| (1 <<< 4) ||| (1 <<< 6)) = 4 ||| (1 <<< 4) ||| (1 <<< 6) ∧
    (ttisstring { tt_ := 4 ||| (1 <<< 4) ||| (1 <<< 6) } = true ↔ 4 = LUA_TSTRING) ∧
    (ttisnumber { tt_ := 4 ||| (1 <<< 4) ||| (1 <<< 6) } = true ↔ 4 = LUA_TNUMBER) ∧
    (ttisfunction { tt_ := 4 ||| (1 <<< 4) ||| (1 <<< 6) } = true ↔ 4 = LUA_TFUNCTION) ∧
    novariant LUA_TSHRSTR = LUA_TSTRING ∧ novariant LUA_TLNGSTR = LUA_TSTRING ∧
    novariant LUA_TNUMFLT = LUA_TNUMBER ∧ novariant LUA_TNUMINT = LUA_TNUMBER ∧
    novariant LUA_TLCL = LUA_TFUNCTION ∧ novariant LUA_TLCF = LUA_TFUNCTION ∧
    novariant LUA_TCCL = LUA_TFUNCTION) :=
  ⟨by decide, by decide, by decide, C30_tag_layout 4 1 1 (by decide) (by decide) (by decide)⟩

/-! ## Theorems: `luaF_newLclosure` and `luaF_initupvals` -/

theorem foldl_set_none (is : List Nat) (c : LClosure) :
    (is.foldl (fun c i => { c with upvals := c.upvals.set i none }) c).nupvalues = c.nupvalues ∧
    (is.foldl (fun c i => { c with upvals := c.upvals.set i none }) c).p = c.p ∧
    (is.foldl (fun c i => { c with upvals := c.upvals.set i none }) c).addr = c.addr ∧
    (is.foldl (fun c i => { c with upvals := c.upvals.set i none }) c).tt = c.tt ∧
    (is.foldl (fun c i => { c with upvals := c.upvals.set i none }) c).upvals.length =
      c.upvals.length ∧
    (∀ j, (c.upvals[j]? = some none ∨ j ∈ is) → j < c.upvals.length →
      (is.foldl (fun c i => { c with upvals := c.upvals.set i none }) c).upvals[j]? =
        some none) := by
  induction is generalizing c with
  | nil =>
    refine ⟨rfl, rfl, rfl, rfl, rfl, ?_⟩
    intro j hj _
    rcases hj with hj | hj
    · exact hj
    · simp at hj
  | cons i is ih =>
    rw [List.foldl_cons]
    obtain ⟨h1, h2, h3, h4, h5, h6⟩ := ih { c with upvals := c.upvals.set i none }
    refine ⟨h1, h2, h3, h4, by rw [h5]; simp, ?_⟩
    intro j hj hlt
    apply h6 j _ (by simp only [List.length_set]; exact hlt)
    by_cases e : i = j
    · left
      subst e
      simp only [List.getElem?_set, if_true]
      rw [if_pos hlt]
    · rcases hj with hj | hj
      · left
        simp only [List.getElem?_set, if_neg e]
        exact hj
      · right
        rcases List.mem_cons.1 hj with hj | hj
        · exact absurd hj.symm e
        · exact hj

theorem newLclosure_spec (m : Machine) (n : Nat) :
    (luaF_newLclosure m n).1.nupvalues = cast_byte n ∧ (luaF_newLclosure m n).1.p = none ∧
    (luaF_newLclosure m n).1.addr = m.g.ud ∧ (luaF_newLclosure m n).1.tt = LUA_TLCL ∧
    (luaF_newLclosure m n).1.upvals = List.replicate n none ∧
    (luaF_newLclosure m n).2 = { m with g := (luaC_newobj m.g).2.2 } := by
  have e1 : (luaF_newLclosure m n).1 =
      (List.range n).reverse.foldl (fun c i => { c with upvals := c.upvals.set i none })
        { addr := (luaC_newobj m.g).1, tt := LUA_TLCL, marked := (luaC_newobj m.g).2.1,
          upvals := List.replicate n none, p := none, nupvalues := cast_byte n } := rfl
  obtain ⟨h1, h2, h3, h4, h5, h6⟩ := foldl_set_none (List.range n).reverse
    { addr := (luaC_newobj m.g).1, tt := LUA_TLCL, marked := (luaC_newobj m.g).2.1,
      upvals := List.replicate n none, p := none, nupvalues := cast_byte n }
  rw [e1]
  refine ⟨h1, h2, h3, h4, ?_, rfl⟩
  apply List.ext_getElem?
  intro j
  by_cases hj : j < n
  · rw [h6 j (Or.inr (by simp [hj])) (by simp [hj])]
    simp [List.getElem?_replicate, hj]
  · rw [List.getElem?_eq_none (by rw [h5]; simp; omega), List.getElem?_eq_none (by simp; omega)]

theorem initupvals_closure (m : Machine) (cl : LClosure) (k : Nat) (hk : k ≤ cl.upvals.length) :
    ((List.range k).foldl luaF_initupvals.step (cl, m)).1.nupvalues = cl.nupvalues ∧
    ((List.range k).foldl luaF_initupvals.step (cl, m)).1.p = cl.p ∧
    ((List.range k).foldl luaF_initupvals.step (cl, m)).1.upvals.length = cl.upvals.length ∧
    (∀ j, ((List.range k).foldl luaF_initupvals.step (cl, m)).1.upvals[j]? =
      if j < k then some (some (m.upvals.length + j)) else cl.upvals[j]?) := by
  induction k with
  | zero => simp
  | succ k ih =>
    obtain ⟨h1, h2, h3, h4⟩ := ih (by omega)
    have hlen := (initupvals_foldl (List.range k) cl m).1
    rw [List.range_succ, List.foldl_append, List.foldl_cons, List.foldl_nil]
    refine ⟨h1, h2, by simp only [luaF_initupvals.step, List.length_set]; exact h3, ?_⟩
    intro j
    simp only [luaF_initupvals.step, List.getElem?_set, hlen, List.length_append,
      List.length_replicate, List.length_range, h3, h4]
    by_cases e : k = j
    · subst e
      simp
      omega
    · simp only [if_neg e]
      by_cases hj : j < k
      · rw [if_pos hj, if_pos (by omega)]
      · rw [if_neg hj, if_neg (by omega)]

/-- C22: for every `0 <= n <= 255`, `luaF_newLclosure(n)` returns a closure
with `nupvalues = n`, no prototype and `n` upvalue slots, all `NULL`, and
allocates no upvalue; `luaF_initupvals` then stores in slot `i` the block at
the `i`-th address after the blocks that existed, which was not allocated
before and is closed (`v` at its own storage), holds nil and has reference
count 1, so the `n` upvalues are pairwise distinct; the count and the
prototype of the closure are kept. -/
theorem C22_newLclosure_initupvals (m : Machine) (n : Nat) (hn : n ≤ 255) :
    (luaF_newLclosure m n).1.nupvalues = n ∧ (luaF_newLclosure m n).1.p = none ∧
    (luaF_newLclosure m n).1.upvals.length = n ∧
    (∀ i < n, (luaF_newLclosure m n).1.upvals[i]? = some none) ∧
    (luaF_newLclosure m n).2.upvals = m.upvals ∧
    (luaF_initupvals (luaF_newLclosure m n).2 (luaF_newLclosure m n).1).1.nupvalues = n ∧
    (luaF_initupvals (luaF_newLclosure m n).2 (luaF_newLclosure m n).1).1.p = none ∧
    (luaF_initupvals (luaF_newLclosure m n).2 (luaF_newLclosure m n).1).1.upvals =
      (List.range n).map (fun i => some (m.upvals.length + i)) ∧
    (luaF_initupvals (luaF_newLclosure m n).2 (luaF_newLclosure m n).1).1.upvals.Nodup ∧
    (∀ i < n, m.upval (m.upvals.length + i) = none ∧
      (luaF_initupvals (luaF_newLclosure m n).2 (luaF_newLclosure m n).1).2.upval
          (m.upvals.length + i) =
        some { refcount := 1, v := VPtr.own, u := UpValU.value { tt_ := LUA_TNIL } }) := by
  obtain ⟨a1, a2, _, _, a5, a6⟩ := newLclosure_spec m n
  have hcb : cast_byte n = n := by
    unfold cast_byte
    omega
  rw [hcb] at a1
  have hlen : (luaF_newLclosure m n).1.upvals.length = n := by
    rw [a5, List.length_replicate]
  have hup : (luaF_newLclosure m n).2.upvals = m.upvals := by rw [a6]
  obtain ⟨b1, b2, b3, b4⟩ := initupvals_closure (luaF_newLclosure m n).2
    (luaF_newLclosure m n).1 (luaF_newLclosure m n).1.nupvalues (by rw [a1, hlen])
  have hfold : luaF_initupvals (luaF_newLclosure m n).2 (luaF_newLclosure m n).1 =
      (List.range (luaF_newLclosure m n).1.nupvalues).foldl luaF_initupvals.step
        ((luaF_newLclosure m n).1, (luaF_newLclosure m n).2) := rfl
  rw [← hfold] at b1 b2 b3 b4
  have hmap : (luaF_initupvals (luaF_newLclosure m n).2 (luaF_newLclosure m n).1).1.upvals =
      (List.range n).map (fun i => some (m.upvals.length + i)) := by
    apply List.ext_getElem?
    intro j
    rw [b4 j, a1, hup]
    by_cases hj : j < n
    · rw [if_pos hj]
      simp [List.getElem?_range, hj]
    · rw [if_neg hj, List.getElem?_eq_none (by omega), List.getElem?_eq_none (by simp; omega)]
  obtain ⟨c1, _, _⟩ := initupvals_spec (luaF_newLclosure m n).2 (luaF_newLclosure m n).1
  refine ⟨a1, a2, hlen, ?_, hup, by rw [b1, a1], by rw [b2, a2], hmap, ?_, ?_⟩
  · intro i hi
    rw [a5]
    simp [List.getElem?_replicate, hi]
  · rw [hmap]
    apply List.Nodup.map _ (List.nodup_range n)
    intro x y hxy
    simp only [Option.some.injEq] at hxy
    omega
  · intro i hi
    constructor
    · unfold Machine.upval
      exact List.getD_eq_default _ _ (by omega)
    · unfold Machine.upval
      rw [c1, hup, a1, List.getD_eq_getElem?_getD,
        List.getElem?_append_right (by omega)]
      simp [List.getElem?_replicate, hi]

/-- C22 at the thread `m_empty` and `n = 2`. -/
theorem C22_newLclosure_initupvals_witness :
    2 ≤ 255 ∧
    ((luaF_newLclosure m_empty 2).1.nupvalues = 2 ∧ (luaF_newLclosure m_empty 2).1.p = none ∧
    (luaF_newLclosure m_empty 2).1.upvals.length = 2 ∧
    (∀ i < 2, (luaF_newLclosure m_empty 2).1.upvals[i]? = some none) ∧
    (luaF_newLclosure m_empty 2).2.upvals = m_empty.upvals ∧
    (luaF_initupvals (luaF_newLclosure m_empty 2).2 (luaF_newLclosure m_empty 2).1).1.nupvalues
      = 2 ∧
    (luaF_initupvals (luaF_newLclosure m_empty 2).2 (luaF_newLclosure m_empty 2).1).1.p = none ∧
    (luaF_initupvals (luaF_newLclosure m_empty 2).2 (luaF_newLclosure m_empty 2).1).1.upvals =
      (List.range 2).map (fun i => some (m_empty.upvals.length + i)) ∧
    (luaF_initupvals (luaF_newLclosure m_empty 2).2 (luaF_newLclosure m_empty 2).1).1.upvals.Nodup ∧
    (∀ i < 2, m_empty.upval (m_empty.upvals.length + i) = none ∧
      (luaF_initupvals (luaF_newLclosure m_empty 2).2 (luaF_newLclosure m_empty 2).1).2.upval
          (m_empty.upvals.length + i) =
        some { refcount := 1, v := VPtr.own, u := UpValU.value { tt_ := LUA_TNIL } })) :=
  ⟨by decide, C22_newLclosure_initupvals m_empty 2 (by decide)⟩

/-! ## Theorems: the list of threads with open upvalues -/

theorem scan_found_lt (upvals : List (Option UpVal)) (level : Nat) (l : List Nat) (k p : Nat)
    (h : luaF_findupval.scan upvals level l k = some (Scan.found p)) : p < upvals.length := by
  induction l generalizing k with
  | nil => simp [luaF_findupval.scan] at h
  | cons a l ih =>
    rw [luaF_findupval.scan] at h
    split at h
    · simp at h
    · rename_i uv huv
      split at h
      · simp at h
      · split at h
        · split at h
          · simp only [Option.some.injEq, Scan.found.injEq] at h
            subst h
            by_contra hge
            rw [List.getD_eq_default _ _ (by omega)] at huv
            simp at huv
          · exact ih _ h
        · simp at h

theorem TwupsList_congr (L L1 : lua_State) (others : List lua_State) (head : Option Nat)
    (l : List Nat) (hl : TwupsList L others head l)
    (hsame : ∀ a ∈ l, twupsLink L1 others a = twupsLink L others a) :
    TwupsList L1 others head l := by
  induction hl with
  | nil => exact TwupsList.nil
  | cons a next l h _ ih =>
    refine TwupsList.cons a next l ?_ (ih (fun b hb => hsame b (List.mem_cons_of_mem _ hb)))
    rw [hsame a (List.mem_cons_self _ _)]
    exact h

/-- C21: let the process-wide list of threads with open upvalues hold the
threads `l`, each once and each registered (`th->twups != th`), and the
running thread whenever it is registered. When `luaF_findupval` returns an
existing upvalue the state, so the list, is unchanged. When it creates a new
upvalue: a thread that was registered keeps its link and the list is
unchanged; a thread that was not registered becomes the head of the list,
followed by the former list, and is registered. In both cases the thread
is on the list afterwards, and the list holds no thread twice. -/
theorem C21_findupval_registers (m : Machine) (others : List lua_State) (l : List Nat)
    (hl : TwupsList m.L others m.g.twups l)
    (hreg : ∀ a ∈ l, twupsLink m.L others a ≠ some (some a)) (hnd : l.Nodup)
    (hon : isintwups m.L = true → m.L.self ∈ l)
    (level uv : Nat) (m1 : Machine) (h : luaF_findupval m level = some (uv, m1)) :
    (uv < m.upvals.length → m1 = m) ∧
    (uv = m.upvals.length →
      (isintwups m.L = true →
        m1.g = m.g ∧ m1.L.twups = m.L.twups ∧ TwupsList m1.L others m1.g.twups l) ∧
      (isintwups m.L = false →
        m1.g.twups = some m.L.self ∧ m1.L.twups = m.g.twups ∧ m.L.self ∉ l ∧
        TwupsList m1.L others m1.g.twups (m.L.self :: l) ∧ isintwups m1.L = true) ∧
      ∃ l1, TwupsList m1.L others m1.g.twups l1 ∧ m.L.self ∈ l1 ∧ l1.Nodup ∧
        (∀ a ∈ l1, twupsLink m1.L others a ≠ some (some a))) := by
  unfold luaF_findupval at h
  split at h
  · simp at h
  · rename_i p hp
    simp only [Option.some.injEq, Prod.mk.injEq] at h
    obtain ⟨e1, e2⟩ := h
    subst e1
    subst e2
    have hlt := scan_found_lt _ _ _ _ _ hp
    exact ⟨fun _ => rfl, fun e => absurd e (by omega)⟩
  · rename_i pp hp
    simp only at h
    have hself : ∀ a ∈ l, ∀ o t, a ≠ m.L.self →
        twupsLink { m.L with openupval := o, twups := t } others a = twupsLink m.L others a := by
      intro a _ o t hne
      simp only [twupsLink, if_neg hne]
    by_cases hin : isintwups m.L = true
    · have hin1 : (!isintwups { m.L with
          openupval := m.L.openupval.take pp ++ m.upvals.length :: m.L.openupval.drop pp })
          = false := by
        have : isintwups { m.L with
          openupval := m.L.openupval.take pp ++ m.upvals.length :: m.L.openupval.drop pp }
          = isintwups m.L := rfl
        rw [this, hin]
        rfl
      rw [hin1] at h
      simp only [Bool.false_eq_true, if_false, Option.some.injEq, Prod.mk.injEq] at h
      obtain ⟨e1, e2⟩ := h
      subst e1
      subst e2
      have hl1 : TwupsList { m.L with
          openupval := m.L.openupval.take pp ++ m.upvals.length :: m.L.openupval.drop pp }
          others m.g.twups l :=
        TwupsList_congr m.L _ others _ l hl (fun a _ => rfl)
      refine ⟨fun hlt => absurd hlt (by omega), fun _ => ⟨fun _ => ⟨rfl, rfl, hl1⟩,
        fun hf => absurd hin (by rw [hf]; simp), l, hl1, hon hin, hnd, ?_⟩⟩
      intro a ha
      exact hreg a ha
    · have hin0 : isintwups m.L = false := by
        cases hb : isintwups m.L
        · rfl
        · exact absurd hb hin
      have htw : m.L.twups = some m.L.self := by
        unfold isintwups at hin0
        simpa using hin0
      have hnot : m.L.self ∉ l := by
        intro hmem
        apply hreg _ hmem
        simp only [twupsLink, if_true, htw]
      have hhead : m.g.twups ≠ some m.L.self := by
        intro e
        rw [e] at hl
        cases hl with
        | cons _ _ l0 _ _ => exact hnot (List.mem_cons_self _ _)
      have hin1 : (!isintwups { m.L with
          openupval := m.L.openupval.take pp ++ m.upvals.length :: m.L.openupval.drop pp })
          = true := by
        have : isintwups { m.L with
          openupval := m.L.openupval.take pp ++ m.upvals.length :: m.L.openupval.drop pp }
          = isintwups m.L := rfl
        rw [this, hin0]
        rfl
      rw [hin1] at h
      simp only [if_true, Option.some.injEq, Prod.mk.injEq] at h
      obtain ⟨e1, e2⟩ := h
      subst e1
      subst e2
      have hl1 : TwupsList { m.L with
          openupval := m.L.openupval.take pp ++ m.upvals.length :: m.L.openupval.drop pp,
          twups := m.g.twups } others (some m.L.self) (m.L.self :: l) := by
        refine TwupsList.cons m.L.self m.g.twups l ?_ ?_
        · simp only [twupsLink, if_true]
        · exact TwupsList_congr m.L _ others _ l hl
            (fun a ha => hself a ha _ _ (fun e => hnot (e ▸ ha)))
      have hreg1 : isintwups { m.L with
          openupval := m.L.openupval.take pp ++ m.upvals.length :: m.L.openupval.drop pp,
          twups := m.g.twups } = true := by
        unfold isintwups
        simpa using hhead
      refine ⟨fun hlt => absurd hlt (by omega), fun _ => ⟨fun hf => absurd hf hin,
        fun _ => ⟨rfl, rfl, hnot, hl1, hreg1⟩, m.L.self :: l, hl1,
        List.mem_cons_self _ _, List.nodup_cons.2 ⟨hnot, hnd⟩, ?_⟩⟩
      intro a ha
      rcases List.mem_cons.1 ha with e | e
      · rw [e]
        simp only [twupsLink, if_true]
        intro hc
        simp only [Option.some.injEq] at hc
        exact hhead hc
      · rw [hself a e _ _ (fun e2 => hnot (e2 ▸ e))]
        exact hreg a e

theorem m_unreg_list : TwupsList m_unreg.L [th_other] m_unreg.g.twups [200] :=
  TwupsList.cons 200 none [] (by decide) TwupsList.nil

/-- C21 at the unregistered thread `m_unreg`, with thread 200 on the list, and
slot 4. -/
theorem C21_findupval_registers_witness :
    TwupsList m_unreg.L [th_other] m_unreg.g.twups [200] ∧
    (∀ a ∈ [200], twupsLink m_unreg.L [th_other] a ≠ some (some a)) ∧ [200].Nodup ∧
    (isintwups m_unreg.L = true → m_unreg.L.self ∈ [200]) ∧
    luaF_findupval m_unreg 4 = some (0, m_unreg_found) ∧
    ((0 < m_unreg.upvals.length → m_unreg_found = m_unreg) ∧
    (0 = m_unreg.upvals.length →
      (isintwups m_unreg.L = true →
        m_unreg_found.g = m_unreg.g ∧ m_unreg_found.L.twups = m_unreg.L.twups ∧
        TwupsList m_unreg_found.L [th_other] m_unreg_found.g.twups [200]) ∧
      (isintwups m_unreg.L = false →
        m_unreg_found.g.twups = some m_unreg.L.self ∧
        m_unreg_found.L.twups = m_unreg.g.twups ∧ m_unreg.L.self ∉ [200] ∧
        TwupsList m_unreg_found.L [th_other] m_unreg_found.g.twups (m_unreg.L.self :: [200]) ∧
        isintwups m_unreg_found.L = true) ∧
      ∃ l1, TwupsList m_unreg_found.L [th_other] m_unreg_found.g.twups l1 ∧
        m_unreg.L.self ∈ l1 ∧ l1.Nodup ∧
        (∀ a ∈ l1, twupsLink m_unreg_found.L [th_other] a ≠ some (some a)))) :=
  ⟨m_unreg_list, by decide, by decide, by decide, by decide,
    C21_findupval_registers m_unreg [th_other] [200] m_unreg_list (by decide) (by decide)
      (by decide) 4 0 m_unreg_found (by decide)⟩

/-! ## Theorems: lundump.c, the header -/

theorem bind_ok {α β : Type} (m : Load α) (f : α → Load β) (S S1 : LoadState) (x : α)
    (h : m S = LoadResult.ok x S1) : (m >>= f) S = f x S1 := by
  show Load.bind m f S = _
  unfold Load.bind
  rw [h]

theorem bind_throw {α β : Type} (m : Load α) (f : α → Load β) (S S1 : LoadState) (e : LuaError)
    (h : m S = LoadResult.throw e S1) : (m >>= f) S = LoadResult.throw e S1 := by
  show Load.bind m f S = _
  unfold Load.bind
  rw [h]

theorem bind_undefined {α β : Type} (m : Load α) (f : α → Load β) (S S1 : LoadState)
    (h : m S = LoadResult.undefined S1) : (m >>= f) S = LoadResult.undefined S1 := by
  show Load.bind m f S = _
  unfold Load.bind
  rw [h]

theorem bind_fuel {α β : Type} (m : Load α) (f : α → Load β) (S : LoadState)
    (h : m S = LoadResult.fuel) : (m >>= f) S = LoadResult.fuel := by
  show Load.bind m f S = _
  unfold Load.bind
  rw [h]

theorem LoadBlock_ok (n : Nat) (S : LoadState) (h : n ≤ S.Z.length) :
    LoadBlock n S = LoadResult.ok (S.Z.take n) { S with Z := S.Z.drop n } := by
  have e : n - S.Z.length = 0 := by omega
  simp only [LoadBlock, bind, Load.bind, luaZ_read, e, pure, Load.pure]
  rfl

theorem LoadBlock_truncated (n : Nat) (S : LoadState) (h : S.Z.length < n) :
    LoadBlock n S = LoadResult.throw
      (LuaError.malformed (S.name ++ ": " ++ "truncated" ++ " precompiled chunk"))
      { S with Z := S.Z.drop n } := by
  have e : (n - S.Z.length != 0) = true := by
    simp only [bne_iff_ne, ne_eq]
    omega
  simp only [LoadBlock, bind, Load.bind, luaZ_read, e, if_true, error]

theorem Load.bind_assoc {α β γ : Type} (m : Load α) (f : α → Load β) (g : β → Load γ) :
    (m >>= f) >>= g = m >>= fun x => f x >>= g := by
  funext S
  show Load.bind (Load.bind m f) g S = Load.bind m (fun x => Load.bind (f x) g) S
  unfold Load.bind
  cases m S <;> rfl

theorem IsBytes.take {b : List Nat} (h : IsBytes b) (k : Nat) : IsBytes (b.take k) :=
  fun x hx => h x (List.mem_of_mem_take hx)

theorem IsBytes.drop {b : List Nat} (h : IsBytes b) (k : Nat) : IsBytes (b.drop k) :=
  fun x hx => h x (List.mem_of_mem_drop hx)

theorem Checks_bind (c1 c2 : Load Unit) (k1 k2 : Nat) (P1 P2 : List Nat → Prop)
    (h1 : Checks c1 k1 P1) (h2 : Checks c2 k2 P2) :
    Checks (c1 >>= fun _ => c2) (k1 + k2) (fun b => P1 (b.take k1) ∧ P2 (b.drop k1)) := by
  intro S hS
  have ht1 : (S.Z.take (k1 + k2)).take k1 = S.Z.take k1 := by
    rw [List.take_take, Nat.min_eq_left (Nat.le_add_right _ _)]
  have ht2 : (S.Z.take (k1 + k2)).drop k1 = (S.Z.drop k1).take k2 := by
    rw [List.drop_take]
    simp
  have hS2 : IsBytes ({ S with Z := S.Z.drop k1 } : LoadState).Z := hS.drop k1
  by_cases a1 : k1 ≤ S.Z.length ∧ P1 (S.Z.take k1)
  · have e1 := (h1 S hS).1 a1
    rw [bind_ok _ _ _ _ _ e1]
    have hlen : ({ S with Z := S.Z.drop k1 } : LoadState).Z.length = S.Z.length - k1 := by
      simp
    constructor
    · intro ⟨b1, b2, b3⟩
      rw [ht2] at b3
      have e2 := (h2 { S with Z := S.Z.drop k1 } hS2).1 ⟨by rw [hlen]; omega, b3⟩
      rw [e2]
      simp [List.drop_drop, Nat.add_comm]
    · intro hn
      have hn2 : ¬ (k2 ≤ ({ S with Z := S.Z.drop k1 } : LoadState).Z.length ∧
          P2 (({ S with Z := S.Z.drop k1 } : LoadState).Z.take k2)) := by
        intro ⟨c1, c2⟩
        apply hn
        rw [hlen] at c1
        refine ⟨by omega, ?_, ?_⟩
        · rw [ht1]
          exact a1.2
        · rw [ht2]
          exact c2
      obtain ⟨msg, S1, e2, f1, f2, f3, f4, f5, f6⟩ :=
        (h2 { S with Z := S.Z.drop k1 } hS2).2 hn2
      exact ⟨msg, S1, e2, f1, f2, f3, f4, f5, f6⟩
  · obtain ⟨msg, S1, e1, hs⟩ := (h1 S hS).2 a1
    rw [bind_throw _ _ _ _ _ e1]
    constructor
    · intro ⟨b1, b2, _⟩
      exfalso
      apply a1
      rw [ht1] at b2
      exact ⟨by omega, b2⟩
    · intro _
      exact ⟨msg, S1, rfl, hs⟩

theorem Load.pure_bind {α β : Type} (x : α) (f : α → Load β) : (pure x >>= f) = f x := rfl

theorem Checks_block (k : Nat) (bad : List Nat → Bool) (msg : String) :
    Checks (LoadBlock k >>= fun b => if bad b then error msg else pure ()) k
      (fun b => bad b = false) := by
  intro S _
  by_cases hl : k ≤ S.Z.length
  · rw [bind_ok _ _ _ _ _ (LoadBlock_ok k S hl)]
    constructor
    · intro ⟨_, hb⟩
      simp only [hb, Bool.false_eq_true, if_false]
      rfl
    · intro hn
      have hb : bad (S.Z.take k) = true := by
        cases h : bad (S.Z.take k)
        · exact absurd ⟨hl, h⟩ hn
        · rfl
      simp only [hb, if_true]
      exact ⟨_, _, rfl, rfl, rfl, rfl, rfl, rfl, rfl⟩
  · rw [bind_throw _ _ _ _ _ (LoadBlock_truncated k S (by omega))]
    constructor
    · intro ⟨h, _⟩
      exact absurd h hl
    · intro _
      exact ⟨_, _, rfl, rfl, rfl, rfl, rfl, rfl, rfl⟩

theorem Checks_congr (c : Load Unit) (k : Nat) (P Q : List Nat → Prop)
    (h : Checks c k P) (hpq : ∀ b, IsBytes b → b.length = k → (P b ↔ Q b)) : Checks c k Q := by
  intro S hS
  by_cases hl : k ≤ S.Z.length
  · have e := hpq (S.Z.take k) (hS.take k) (by rw [List.length_take]; omega)
    rw [← e]
    exact h S hS
  · constructor
    · intro ⟨a, _⟩
      exact absurd a hl
    · intro _
      exact (h S hS).2 (fun ⟨a, _⟩ => hl a)

theorem Checks_bind_eq (c1 c2 : Load Unit) (k1 k2 : Nat) (h1 h2 : List Nat)
    (a1 : Checks c1 k1 (fun b => b = h1)) (a2 : Checks c2 k2 (fun b => b = h2))
    (hk : h1.length = k1) :
    Checks (c1 >>= fun _ => c2) (k1 + k2) (fun b => b = h1 ++ h2) := by
  apply Checks_congr _ _ _ _ (Checks_bind c1 c2 k1 k2 _ _ a1 a2)
  intro b _ _
  constructor
  · intro ⟨e1, e2⟩
    rw [← List.take_append_drop k1 b, e1, e2]
  · intro e
    rw [e, ← hk]
    simp

theorem uintLE_singleton (b : List Nat) (h : b.length = 1) : b = [uintLE b] := by
  match b, h with
  | [x], _ => simp [uintLE]

theorem Checks_literal (s : List Nat) (msg : String) :
    Checks (checkliteral s msg) (strlen s) (fun b => b = s.take (strlen s)) := by
  have e : checkliteral s msg =
      (LoadBlock (strlen s) >>= fun b =>
        if memcmp s b (strlen s) != 0 then error msg else pure ()) := rfl
  rw [e]
  apply Checks_congr _ _ _ _ (Checks_block _ _ _)
  intro b _ hb
  simp only [bne_eq_false_iff_eq, memcmp_eq_zero_iff]
  rw [← hb, List.take_length, hb]
  exact eq_comm

theorem Checks_byte (X : Nat) (msg : String) :
    Checks (LoadByte >>= fun v => if v != X then error msg else pure ()) 1
      (fun b => b = [X]) := by
  have e : (LoadByte >>= fun v => if v != X then error msg else pure ()) =
      (LoadBlock 1 >>= fun b => if uintLE b != X then error msg else pure ()) := by
    unfold LoadByte
    rw [Load.bind_assoc]
    rfl
  rw [e]
  apply Checks_congr _ _ _ _ (Checks_block _ _ _)
  intro b _ hb
  simp only [bne_eq_false_iff_eq]
  constructor
  · intro h
    rw [uintLE_singleton b hb, h]
  · intro h
    rw [h]
    simp [uintLE]

theorem Checks_size (size : Nat) (tname : String) :
    Checks (fchecksize size tname) 1 (fun b => b = [size]) :=
  Checks_byte size (tname ++ " size mismatch in")

theorem uintLE_bytesLE (b : List Nat) (h : IsBytes b) : bytesLE b.length (uintLE b) = b := by
  induction b with
  | nil => rfl
  | cons x xs ih =>
    have hx : x < 256 := h x (List.mem_cons_self _ _)
    have hxs : IsBytes xs := fun y hy => h y (List.mem_cons_of_mem _ hy)
    simp only [List.length_cons, uintLE, bytesLE]
    have e1 : (x + 256 * uintLE xs) % 256 = x := by omega
    have e2 : (x + 256 * uintLE xs) / 256 = uintLE xs := by omega
    rw [e1, e2, ih hxs]

theorem uintLE_lt (b : List Nat) (h : IsBytes b) : uintLE b < 256 ^ b.length := by
  induction b with
  | nil => simp [uintLE]
  | cons x xs ih =>
    have hx : x < 256 := h x (List.mem_cons_self _ _)
    have hxs : IsBytes xs := fun y hy => h y (List.mem_cons_of_mem _ hy)
    have := ih hxs
    simp only [List.length_cons, uintLE, pow_succ]
    omega

theorem Checks_integer (msg : String) :
    Checks (LoadInteger >>= fun i => if i != LUAC_INT then error msg else pure ())
      sizeof_lua_Integer (fun b => b = bytesLE sizeof_lua_Integer LUAC_INT.toNat) := by
  have e : (LoadInteger >>= fun i => if i != LUAC_INT then error msg else pure ()) =
      (LoadBlock sizeof_lua_Integer >>= fun b =>
        if sintLE sizeof_lua_Integer b != LUAC_INT then error msg else pure ()) := by
    unfold LoadInteger
    rw [Load.bind_assoc]
    rfl
  rw [e]
  apply Checks_congr _ _ _ _ (Checks_block _ _ _)
  intro b hb hlen
  simp only [bne_eq_false_iff_eq]
  constructor
  · intro h
    have hu : uintLE b = LUAC_INT.toNat := by
      unfold sintLE sizeof_lua_Integer LUAC_INT at *
      have hlt := uintLE_lt b hb
      rw [hlen] at hlt
      norm_num at hlt
      split at h
      · show uintLE b = 22136
        omega
      · exfalso
        norm_num at h
        omega
    rw [← hu, ← hlen]
    exact (uintLE_bytesLE b hb).symm
  · intro h
    rw [h]
    decide

theorem Checks_number (msg : String) :
    Checks (LoadNumber >>= fun n => if !luai_numeq n LUAC_NUM then error msg else pure ())
      sizeof_lua_Number (fun b => b = bytesLE sizeof_lua_Number LUAC_NUM) := by
  have e : (LoadNumber >>= fun n => if !luai_numeq n LUAC_NUM then error msg else pure ()) =
      (LoadBlock sizeof_lua_Number >>= fun b =>
        if !luai_numeq (uintLE b) LUAC_NUM then error msg else pure ()) := by
    unfold LoadNumber
    rw [Load.bind_assoc]
    rfl
  rw [e]
  apply Checks_congr _ _ _ _ (Checks_block _ _ _)
  intro b hb hlen
  simp only [Bool.not_eq_false_eq_eq_true]
  constructor
  · intro h
    have hu : uintLE b = LUAC_NUM := by
      unfold luai_numeq at h
      simp only at h
      split at h
      · simp at h
      · split at h
        · rename_i hz
          simp only [Bool.and_eq_true, beq_iff_eq] at hz
          exact absurd hz.2 (by decide)
        · simpa using h
    rw [← hu, ← hlen]
    exact (uintLE_bytesLE b hb).symm
  · intro h
    rw [h]
    decide

theorem checkHeader_grouped :
    checkHeader =
      (checkliteral (LUA_SIGNATURE.drop 1) "not a" >>= fun _ =>
       (LoadByte >>= fun v =>
          if v != LUAC_VERSION then error "version mismatch in" else pure ()) >>= fun _ =>
       (LoadByte >>= fun v =>
          if v != LUAC_FORMAT then error "format mismatch in" else pure ()) >>= fun _ =>
       checkliteral LUAC_DATA "corrupted" >>= fun _ =>
       fchecksize sizeof_int "int" >>= fun _ =>
       fchecksize sizeof_size_t "size_t" >>= fun _ =>
       fchecksize sizeof_Instruction "Instruction" >>= fun _ =>
       fchecksize sizeof_lua_Integer "lua_Integer" >>= fun _ =>
       fchecksize sizeof_lua_Number "lua_Number" >>= fun _ =>
       (LoadInteger >>= fun i =>
          if i != LUAC_INT then error "endianness mismatch in" else pure ()) >>= fun _ =>
       (LoadNumber >>= fun n =>
          if !luai_numeq n LUAC_NUM then error "float format mismatch in" else pure ())) := by
  unfold checkHeader
  simp only [Load.bind_assoc]

theorem checkHeader_checks : Checks checkHeader 32 (fun b => b = luac_header) := by
  rw [checkHeader_grouped]
  have c11 := Checks_number "float format mismatch in"
  have c10 := Checks_bind_eq _ _ _ _ _ _ (Checks_integer "endianness mismatch in") c11 rfl
  have c9 := Checks_bind_eq _ _ _ _ _ _ (Checks_size sizeof_lua_Number "lua_Number") c10 rfl
  have c8 := Checks_bind_eq _ _ _ _ _ _ (Checks_size sizeof_lua_Integer "lua_Integer") c9 rfl
  have c7 := Checks_bind_eq _ _ _ _ _ _ (Checks_size sizeof_Instruction "Instruction") c8 rfl
  have c6 := Checks_bind_eq _ _ _ _ _ _ (Checks_size sizeof_size_t "size_t") c7 rfl
  have c5 := Checks_bind_eq _ _ _ _ _ _ (Checks_size sizeof_int "int") c6 rfl
  have c4 := Checks_bind_eq _ _ _ _ _ _ (Checks_literal LUAC_DATA "corrupted") c5 rfl
  have c3 := Checks_bind_eq _ _ _ _ _ _ (Checks_byte LUAC_FORMAT "format mismatch in") c4 rfl
  have c2 := Checks_bind_eq _ _ _ _ _ _ (Checks_byte LUAC_VERSION "version mismatch in") c3 rfl
  have c1 := Checks_bind_eq _ _ _ _ _ _ (Checks_literal (LUA_SIGNATURE.drop 1) "not a") c2 rfl
  exact c1

theorem prefix_iff_take (Z h : List Nat) :
    (h.length ≤ Z.length ∧ Z.take h.length = h) ↔ ∃ rest, Z = h ++ rest := by
  constructor
  · intro ⟨_, e⟩
    refine ⟨Z.drop h.length, ?_⟩
    conv_lhs => rw [← List.take_append_drop h.length Z, e]
  · intro ⟨rest, e⟩
    rw [e]
    simp

theorem undump_header_throw (S : LoadState) (name : String) (e : LuaError) (S1 : LoadState)
    (h : checkHeader { S with name := luaU_undump.name name } = LoadResult.throw e S1) :
    luaU_undump S name = LoadResult.throw e S1 := by
  unfold luaU_undump luaU_undump.steps
  exact bind_throw _ _ _ _ _ h

/-- C24: on a stream of bytes, `checkHeader` succeeds if and only if the
stream begins with exactly the 32 bytes of `luac_header` (the signature after
its first byte, the version, the format, `LUAC_DATA`, the five sizes, and
`LUAC_INT` and `LUAC_NUM` as the platform stores them), and then it has read
exactly these bytes; on every other stream it raises a syntax error, the
objects are as they were, and `luaU_undump` fails with that error. -/
theorem C24_checkHeader_iff (S : LoadState) (hS : IsBytes S.Z) :
    (∀ S1, checkHeader S = LoadResult.ok () S1 ↔
      (∃ rest, S.Z = luac_header ++ rest) ∧ S1 = { S with Z := S.Z.drop 32 }) ∧
    (¬ (∃ rest, S.Z = luac_header ++ rest) →
      (∃ msg S1, checkHeader S = LoadResult.throw (LuaError.malformed msg) S1 ∧ SameObjects S S1) ∧
      ∀ name, ∃ msg S1, luaU_undump S name = LoadResult.throw (LuaError.malformed msg) S1) ∧
    luac_header =
      [76, 117, 97, 0x53, 0, 0x19, 0x93, 13, 10, 0x1a, 10, 4, 8, 4, 8, 8,
       0x78, 0x56, 0, 0, 0, 0, 0, 0, 0, 0, 0, 0, 0, 0x28, 0x77, 0x40] := by
  have hlen : luac_header.length = 32 := rfl
  have hc := checkHeader_checks S hS
  have hp := prefix_iff_take S.Z luac_header
  rw [hlen] at hp
  refine ⟨?_, ?_, by decide⟩
  · intro S1
    constructor
    · intro h
      by_cases a : 32 ≤ S.Z.length ∧ S.Z.take 32 = luac_header
      · have e := hc.1 a
        rw [e] at h
        simp only [LoadResult.ok.injEq, true_and] at h
        exact ⟨hp.1 a, h.symm⟩
      · obtain ⟨msg, S2, e, _⟩ := hc.2 a
        rw [e] at h
        simp at h
    · intro ⟨a, e⟩
      rw [e]
      exact hc.1 (hp.2 a)
  · intro hn
    have a : ¬ (32 ≤ S.Z.length ∧ S.Z.take 32 = luac_header) := fun h => hn (hp.1 h)
    refine ⟨hc.2 a, ?_⟩
    intro name
    have hc2 := checkHeader_checks { S with name := luaU_undump.name name } hS
    obtain ⟨msg, S2, e, _⟩ := hc2.2 a
    exact ⟨msg, S2, undump_header_throw S name _ _ e⟩

/-- C24 at the stream that holds the header and one more byte. -/
theorem C24_checkHeader_iff_witness :
    IsBytes ({ Z := luac_header ++ [0] } : LoadState).Z ∧
    ((∀ S1, checkHeader { Z := luac_header ++ [0] } = LoadResult.ok () S1 ↔
      (∃ rest, ({ Z := luac_header ++ [0] } : LoadState).Z = luac_header ++ rest) ∧
      S1 = { ({ Z := luac_header ++ [0] } : LoadState) with
        Z := ({ Z := luac_header ++ [0] } : LoadState).Z.drop 32 }) ∧
    (¬ (∃ rest, ({ Z := luac_header ++ [0] } : LoadState).Z = luac_header ++ rest) →
      (∃ msg S1, checkHeader { Z := luac_header ++ [0] } =
        LoadResult.throw (LuaError.malformed msg) S1 ∧ SameObjects { Z := luac_header ++ [0] } S1) ∧
      ∀ name, ∃ msg S1, luaU_undump { Z := luac_header ++ [0] } name =
        LoadResult.throw (LuaError.malformed msg) S1) ∧
    luac_header =
      [76, 117, 97, 0x53, 0, 0x19, 0x93, 13, 10, 0x1a, 10, 4, 8, 4, 8, 8,
       0x78, 0x56, 0, 0, 0, 0, 0, 0, 0, 0, 0, 0, 0, 0x28, 0x77, 0x40]) :=
  ⟨by decide, C24_checkHeader_iff { Z := luac_header ++ [0] } (by decide)⟩

set_option linter.unusedTactic false
set_option linter.unreachableTactic false

theorem Closed.at_LoadByte {P : {α : Type} → Load α → Prop} (h : Closed P) :
    P (LoadByte) := by
  unfold LuaStudy.LoadByte
  repeat' first
    | apply h.pure | apply h.error | apply h.undefined | apply h.LoadBlock | apply h.getProto
    | apply h.setProto | apply h.setk | apply h.newproto | apply h.newlstr
    | apply h.createlngstrobj | apply h.addstr | apply h.newvector
    | refine h.bind _ _ ?_ (fun _ => ?_) | split

theorem Closed.at_LoadInt {P : {α : Type} → Load α → Prop} (h : Closed P) :
    P (LoadInt) := by
  unfold LuaStudy.LoadInt
  repeat' first
    | apply Closed.at_LoadByte h | apply h.pure | apply h.error | apply h.undefined
    | apply h.LoadBlock | apply h.getProto | apply h.setProto | apply h.setk | apply h.newproto
    | apply h.newlstr | apply h.createlngstrobj | apply h.addstr | apply h.newvector
    | refine h.bind _ _ ?_ (fun _ => ?_) | split

theorem Closed.at_LoadNumber {P : {α : Type} → Load α → Prop} (h : Closed P) :
    P (LoadNumber) := by
  unfold LuaStudy.LoadNumber
  repeat' first
    | apply Closed.at_LoadInt h | apply Closed.at_LoadByte h | apply h.pure | apply h.error
    | apply h.undefined | apply h.LoadBlock | apply h.getProto | apply h.setProto | apply h.setk
    | apply h.newproto | apply h.newlstr | apply h.createlngstrobj | apply h.addstr
    | apply h.newvector
    | refine h.bind _ _ ?_ (fun _ => ?_) | split

theorem Closed.at_LoadInteger {P : {α : Type} → Load α → Prop} (h : Closed P) :
    P (LoadInteger) := by
  unfold LuaStudy.LoadInteger
  repeat' first
    | apply Closed.at_LoadNumber h | apply Closed.at_LoadInt h | apply Closed.at_LoadByte h
    | apply h.pure | apply h.error | apply h.undefined | apply h.LoadBlock | apply h.getProto
    | apply h.setProto | apply h.setk | apply h.newproto | apply h.newlstr
    | apply h.createlngstrobj | apply h.addstr | apply h.newvector
    | refine h.bind _ _ ?_ (fun _ => ?_) | split

theorem Closed.at_LoadString {P : {α : Type} → Load α → Prop} (h : Closed P) :
    P (LoadString) := by
  unfold LuaStudy.LoadString
  repeat' first
    | apply Closed.at_LoadInteger h | apply Closed.at_LoadNumber h | apply Closed.at_LoadInt h
    | apply Closed.at_LoadByte h | apply h.pure | apply h.error | apply h.undefined
    | apply h.LoadBlock | apply h.getProto | apply h.setProto | apply h.setk | apply h.newproto
    | apply h.newlstr | apply h.createlngstrobj | apply h.addstr | apply h.newvector
    | refine h.bind _ _ ?_ (fun _ => ?_) | split

theorem Closed.at_LoadCode {P : {α : Type} → Load α → Prop} (h : Closed P) (f : Nat) :
    P (LoadCode f) := by
  unfold LuaStudy.LoadCode
  repeat' first
    | apply Closed.at_LoadString h | apply Closed.at_LoadInteger h
    | apply Closed.at_LoadNumber h | apply Closed.at_LoadInt h | apply Closed.at_LoadByte h
    | apply h.pure | apply h.error | apply h.undefined | apply h.LoadBlock | apply h.getProto
    | apply h.setProto | apply h.setk | apply h.newproto | apply h.newlstr
    | apply h.createlngstrobj | apply h.addstr | apply h.newvector
    | refine h.bind _ _ ?_ (fun _ => ?_) | split

theorem Closed.at_LoadConstants_loop {P : {α : Type} → Load α → Prop} (h : Closed P)
    (f r i : Nat) : P (LoadConstants.loop f r i) := by
  induction r generalizing i with
  | zero => exact h.pure ()
  | succ r ih =>
    unfold LuaStudy.LoadConstants.loop
    repeat' first
      | apply ih | apply Closed.at_LoadCode h | apply Closed.at_LoadString h
      | apply Closed.at_LoadInteger h | apply Closed.at_LoadNumber h | apply Closed.at_LoadInt h
      | apply Closed.at_LoadByte h | apply h.pure | apply h.error | apply h.undefined
      | apply h.LoadBlock | apply h.getProto | apply h.setProto | apply h.setk
      | apply h.newproto | apply h.newlstr | apply h.createlngstrobj | apply h.addstr
      | apply h.newvector
      | refine h.bind _ _ ?_ (fun _ => ?_) | split

theorem Closed.at_LoadConstants {P : {α : Type} → Load α → Prop} (h : Closed P) (f : Nat) :
    P (LoadConstants f) := by
  unfold LuaStudy.LoadConstants
  repeat' first
    | apply Closed.at_LoadConstants_loop h | apply Closed.at_LoadCode h
    | apply Closed.at_LoadString h | apply Closed.at_LoadInteger h
    | apply Closed.at_LoadNumber h | apply Closed.at_LoadInt h | apply Closed.at_LoadByte h
    | apply h.pure | apply h.error | apply h.undefined | apply h.LoadBlock | apply h.getProto
    | apply h.setProto | apply h.setk | apply h.newproto | apply h.newlstr
    | apply h.createlngstrobj | apply h.addstr | apply h.newvector
    | refine h.bind _ _ ?_ (fun _ => ?_) | split

theorem Closed.at_LoadUpvalues_loop {P : {α : Type} → Load α → Prop} (h : Closed P)
    (f r i : Nat) : P (LoadUpvalues.loop f r i) := by
  induction r generalizing i with
  | zero => exact h.pure ()
  | succ r ih =>
    unfold LuaStudy.LoadUpvalues.loop
    repeat' first
      | apply ih | apply Closed.at_LoadConstants h | apply Closed.at_LoadConstants_loop h
      | apply Closed.at_LoadCode h | apply Closed.at_LoadString h
      | apply Closed.at_LoadInteger h | apply Closed.at_LoadNumber h | apply Closed.at_LoadInt h
      | apply Closed.at_LoadByte h | apply h.pure | apply h.error | apply h.undefined
      | apply h.LoadBlock | apply h.getProto | apply h.setProto | apply h.setk
      | apply h.newproto | apply h.newlstr | apply h.createlngstrobj | apply h.addstr
      | apply h.newvector
      | refine h.bind _ _ ?_ (fun _ => ?_) | split

theorem Closed.at_LoadUpvalues {P : {α : Type} → Load α → Prop} (h : Closed P) (f : Nat) :
    P (LoadUpvalues f) := by
  unfold LuaStudy.LoadUpvalues
  repeat' first
    | apply Closed.at_LoadUpvalues_loop h | apply Closed.at_LoadConstants h
    | apply Closed.at_LoadConstants_loop h | apply Closed.at_LoadCode h
    | apply Closed.at_LoadString h | apply Closed.at_LoadInteger h
    | apply Closed.at_LoadNumber h | apply Closed.at_LoadInt h | apply Closed.at_LoadByte h
    | apply h.pure | apply h.error | apply h.undefined | apply h.LoadBlock | apply h.getProto
    | apply h.setProto | apply h.setk | apply h.newproto | apply h.newlstr
    | apply h.createlngstrobj | apply h.addstr | apply h.newvector
    | refine h.bind _ _ ?_ (fun _ => ?_) | split

theorem Closed.at_LoadDebug_locvars {P : {α : Type} → Load α → Prop} (h : Closed P)
    (f r i : Nat) : P (LoadDebug.locvars f r i) := by
  induction r generalizing i with
  | zero => exact h.pure ()
  | succ r ih =>
    unfold LuaStudy.LoadDebug.locvars
    repeat' first
      | apply ih | apply Closed.at_LoadUpvalues h | apply Closed.at_LoadUpvalues_loop h
      | apply Closed.at_LoadConstants h | apply Closed.at_LoadConstants_loop h
      | apply Closed.at_LoadCode h | apply Closed.at_LoadString h
      | apply Closed.at_LoadInteger h | apply Closed.at_LoadNumber h | apply Closed.at_LoadInt h
      | apply Closed.at_LoadByte h | apply h.pure | apply h.error | apply h.undefined
      | apply h.LoadBlock | apply h.getProto | apply h.setProto | apply h.setk
      | apply h.newproto | apply h.newlstr | apply h.createlngstrobj | apply h.addstr
      | apply h.newvector
      | refine h.bind _ _ ?_ (fun _ => ?_) | split

theorem Closed.at_LoadDebug_upvalues {P : {α : Type} → Load α → Prop} (h : Closed P)
    (f r i : Nat) : P (LoadDebug.upvalues f r i) := by
  induction r generalizing i with
  | zero => exact h.pure ()
  | succ r ih =>
    unfold LuaStudy.LoadDebug.upvalues
    repeat' first
      | apply ih | apply Closed.at_LoadDebug_locvars h | apply Closed.at_LoadUpvalues h
      | apply Closed.at_LoadUpvalues_loop h | apply Closed.at_LoadConstants h
      | apply Closed.at_LoadConstants_loop h | apply Closed.at_LoadCode h
      | apply Closed.at_LoadString h | apply Closed.at_LoadInteger h
      | apply Closed.at_LoadNumber h | apply Closed.at_LoadInt h | apply Closed.at_LoadByte h
      | apply h.pure | apply h.error | apply h.undefined | apply h.LoadBlock | apply h.getProto
      | apply h.setProto | apply h.setk | apply h.newproto | apply h.newlstr
      | apply h.createlngstrobj | apply h.addstr | apply h.newvector
      | refine h.bind _ _ ?_ (fun _ => ?_) | split

theorem Closed.at_LoadDebug {P : {α : Type} → Load α → Prop} (h : Closed P) (f : Nat) :
    P (LoadDebug f) := by
  unfold LuaStudy.LoadDebug
  repeat' first
    | apply Closed.at_LoadDebug_upvalues h | apply Closed.at_LoadDebug_locvars h
    | apply Closed.at_LoadUpvalues h | apply Closed.at_LoadUpvalues_loop h
    | apply Closed.at_LoadConstants h | apply Closed.at_LoadConstants_loop h
    | apply Closed.at_LoadCode h | apply Closed.at_LoadString h | apply Closed.at_LoadInteger h
    | apply Closed.at_LoadNumber h | apply Closed.at_LoadInt h | apply Closed.at_LoadByte h
    | apply h.pure | apply h.error | apply h.undefined | apply h.LoadBlock | apply h.getProto
    | apply h.setProto | apply h.setk | apply h.newproto | apply h.newlstr
    | apply h.createlngstrobj | apply h.addstr | apply h.newvector
    | refine h.bind _ _ ?_ (fun _ => ?_) | split

theorem Closed.at_LoadProtos_loop {P : {α : Type} → Load α → Prop} (h : Closed P)
    (rec : Nat → Option TString → Load Unit) (f r i : Nat)
    (hrec : ∀ c s, P (rec c s)) : P (LoadProtos.loop rec f r i) := by
  induction r generalizing i with
  | zero => exact h.pure ()
  | succ r ih =>
    unfold LuaStudy.LoadProtos.loop
    repeat' first
      | apply ih | apply hrec | apply Closed.at_LoadDebug h
      | apply Closed.at_LoadDebug_upvalues h | apply Closed.at_LoadDebug_locvars h
      | apply Closed.at_LoadUpvalues h | apply Closed.at_LoadUpvalues_loop h
      | apply Closed.at_LoadConstants h | apply Closed.at_LoadConstants_loop h
      | apply Closed.at_LoadCode h | apply Closed.at_LoadString h
      | apply Closed.at_LoadInteger h | apply Closed.at_LoadNumber h | apply Closed.at_LoadInt h
      | apply Closed.at_LoadByte h | apply h.pure | apply h.error | apply h.undefined
      | apply h.LoadBlock | apply h.getProto | apply h.setProto | apply h.setk
      | apply h.newproto | apply h.newlstr | apply h.createlngstrobj | apply h.addstr
      | apply h.newvector
      | refine h.bind _ _ ?_ (fun _ => ?_) | split

theorem Closed.at_LoadProtos {P : {α : Type} → Load α → Prop} (h : Closed P)
    (rec : Nat → Option TString → Load Unit) (f : Nat) (hrec : ∀ c s, P (rec c s)) :
    P (LoadProtos rec f) := by
  unfold LuaStudy.LoadProtos
  repeat' first
    | exact Closed.at_LoadProtos_loop h rec f _ _ hrec | apply Closed.at_LoadDebug h
    | apply Closed.at_LoadDebug_upvalues h | apply Closed.at_LoadDebug_locvars h
    | apply Closed.at_LoadUpvalues h | apply Closed.at_LoadUpvalues_loop h
    | apply Closed.at_LoadConstants h | apply Closed.at_LoadConstants_loop h
    | apply Closed.at_LoadCode h | apply Closed.at_LoadString h | apply Closed.at_LoadInteger h
    | apply Closed.at_LoadNumber h | apply Closed.at_LoadInt h | apply Closed.at_LoadByte h
    | apply h.pure | apply h.error | apply h.undefined | apply h.LoadBlock | apply h.getProto
    | apply h.setProto | apply h.setk | apply h.newproto | apply h.newlstr
    | apply h.createlngstrobj | apply h.addstr | apply h.newvector
    | refine h.bind _ _ ?_ (fun _ => ?_) | split

theorem Closed.at_LoadFunction {P : {α : Type} → Load α → Prop} (h : Closed P)
    (h0 : P (fun _ => LoadResult.fuel : Load Unit)) (n f : Nat) (ps : Option TString) :
    P (LoadFunction n f ps) := by
  induction n generalizing f ps with
  | zero => exact h0
  | succ n ih =>
    unfold LuaStudy.LoadFunction
    repeat' first
      | exact Closed.at_LoadProtos h _ _ (fun c s => ih c s) | apply Closed.at_LoadDebug h
      | apply Closed.at_LoadDebug_upvalues h | apply Closed.at_LoadDebug_locvars h
      | apply Closed.at_LoadUpvalues h | apply Closed.at_LoadUpvalues_loop h
      | apply Closed.at_LoadConstants h | apply Closed.at_LoadConstants_loop h
      | apply Closed.at_LoadCode h | apply Closed.at_LoadString h
      | apply Closed.at_LoadInteger h | apply Closed.at_LoadNumber h | apply Closed.at_LoadInt h
      | apply Closed.at_LoadByte h | apply h.pure | apply h.error | apply h.undefined
      | apply h.LoadBlock | apply h.getProto | apply h.setProto | apply h.setk
      | apply h.newproto | apply h.newlstr | apply h.createlngstrobj | apply h.addstr
      | apply h.newvector
      | refine h.bind _ _ ?_ (fun _ => ?_) | split

theorem Closed.at_checkliteral {P : {α : Type} → Load α → Prop} (h : Closed P) (s : List Nat) (msg : String) :
    P (checkliteral s msg) := by
  unfold LuaStudy.checkliteral
  repeat' first
    | apply Closed.at_LoadDebug h | apply Closed.at_LoadDebug_upvalues h
    | apply Closed.at_LoadDebug_locvars h | apply Closed.at_LoadUpvalues h
    | apply Closed.at_LoadUpvalues_loop h | apply Closed.at_LoadConstants h
    | apply Closed.at_LoadConstants_loop h | apply Closed.at_LoadCode h
    | apply Closed.at_LoadString h | apply Closed.at_LoadInteger h
    | apply Closed.at_LoadNumber h | apply Closed.at_LoadInt h | apply Closed.at_LoadByte h
    | apply h.pure | apply h.error | apply h.undefined | apply h.LoadBlock | apply h.getProto
    | apply h.setProto | apply h.setk | apply h.newproto | apply h.newlstr
    | apply h.createlngstrobj | apply h.addstr | apply h.newvector
    | refine h.bind _ _ ?_ (fun _ => ?_) | split

theorem Closed.at_fchecksize {P : {α : Type} → Load α → Prop} (h : Closed P) (size : Nat) (tname : String) :
    P (fchecksize size tname) := by
  unfold LuaStudy.fchecksize
  repeat' first
    | apply Closed.at_checkliteral h | apply Closed.at_LoadDebug h
    | apply Closed.at_LoadDebug_upvalues h | apply Closed.at_LoadDebug_locvars h
    | apply Closed.at_LoadUpvalues h | apply Closed.at_LoadUpvalues_loop h
    | apply Closed.at_LoadConstants h | apply Closed.at_LoadConstants_loop h
    | apply Closed.at_LoadCode h | apply Closed.at_LoadString h | apply Closed.at_LoadInteger h
    | apply Closed.at_LoadNumber h | apply Closed.at_LoadInt h | apply Closed.at_LoadByte h
    | apply h.pure | apply h.error | apply h.undefined | apply h.LoadBlock | apply h.getProto
    | apply h.setProto | apply h.setk | apply h.newproto | apply h.newlstr
    | apply h.createlngstrobj | apply h.addstr | apply h.newvector
    | refine h.bind _ _ ?_ (fun _ => ?_) | split

theorem Closed.at_checkHeader {P : {α : Type} → Load α → Prop} (h : Closed P) :
    P (checkHeader) := by
  unfold LuaStudy.checkHeader
  repeat' first
    | apply Closed.at_fchecksize h | apply Closed.at_checkliteral h
    | apply Closed.at_LoadDebug h | apply Closed.at_LoadDebug_upvalues h
    | apply Closed.at_LoadDebug_locvars h | apply Closed.at_LoadUpvalues h
    | apply Closed.at_LoadUpvalues_loop h | apply Closed.at_LoadConstants h
    | apply Closed.at_LoadConstants_loop h | apply Closed.at_LoadCode h
    | apply Closed.at_LoadString h | apply Closed.at_LoadInteger h
    | apply Closed.at_LoadNumber h | apply Closed.at_LoadInt h | apply Closed.at_LoadByte h
    | apply h.pure | apply h.error | apply h.undefined | apply h.LoadBlock | apply h.getProto
    | apply h.setProto | apply h.setk | apply h.newproto | apply h.newlstr
    | apply h.createlngstrobj | apply h.addstr | apply h.newvector
    | refine h.bind _ _ ?_ (fun _ => ?_) | split

theorem Keeps_ite {α : Type} {c : Prop} [Decidable c] {a b : Load α} (ha : Keeps a)
    (hb : Keeps b) : Keeps (if c then a else b) := by
  split
  · exact ha
  · exact hb

theorem Reads_pure {α : Type} (x : α) : Reads (pure x : Load α) := by
  intro S y S1 h
  cases h
  refine ⟨rfl, 0, Nat.zero_le _, rfl, ?_, ?_⟩
  · intro Z1 _ _
    rfl
  · intro j hj
    omega

theorem Reads_bind {α β : Type} {m : Load α} {f : α → Load β} (hm : Reads m)
    (hf : ∀ x, Reads (f x)) : Reads (m >>= f) := by
  intro S y S2 h
  cases e : m S with
  | ok x S1 =>
    rw [bind_ok _ _ _ _ _ e] at h
    obtain ⟨n1, k1, hk1, hZ1, ha1, hb1⟩ := hm S x S1 e
    obtain ⟨n2, k2, hk2, hZ2, ha2, hb2⟩ := hf x S1 y S2 h
    have hk : k1 + k2 ≤ S.Z.length := by
      rw [hZ1, List.length_drop] at hk2
      omega
    refine ⟨n2.trans n1, k1 + k2, hk, ?_, ?_, ?_⟩
    · rw [hZ2, hZ1, List.drop_drop, Nat.add_comm]
    · intro Z1 ht hl
      have t1 : Z1.take k1 = S.Z.take k1 := by
        have := congrArg (List.take k1) ht
        rwa [List.take_take, List.take_take, min_eq_left (by omega)] at this
      rw [bind_ok _ _ _ _ _ (ha1 Z1 t1 (by omega))]
      have t2 : (Z1.drop k1).take k2 = S1.Z.take k2 := by
        rw [hZ1, List.take_drop, List.take_drop, ht]
      have h2 := ha2 (Z1.drop k1) t2 (by rw [List.length_drop]; omega)
      rw [List.drop_drop] at h2
      exact h2
    · intro j hj
      by_cases hjk : j < k1
      · obtain ⟨S3, h3⟩ := hb1 j hjk
        exact ⟨S3, bind_throw _ _ _ _ _ h3⟩
      · have t1 : (S.Z.take j).take k1 = S.Z.take k1 := by
          rw [List.take_take, min_eq_left (by omega)]
        have l1 : k1 ≤ (S.Z.take j).length := by
          rw [List.length_take]
          omega
        rw [bind_ok _ _ _ _ _ (ha1 _ t1 l1)]
        obtain ⟨S3, h3⟩ := hb2 (j - k1) (by omega)
        refine ⟨S3, ?_⟩
        have e2 : (S.Z.take j).drop k1 = S1.Z.take (j - k1) := by
          rw [hZ1, List.drop_take]
        rw [e2, ← n1]
        exact h3
  | throw x S1 =>
    rw [bind_throw _ _ _ _ _ e] at h
    cases h
  | undefined S1 =>
    rw [bind_undefined _ _ _ _ e] at h
    cases h
  | fuel =>
    rw [bind_fuel _ _ _ e] at h
    cases h

theorem Reads_ite {α : Type} {c : Prop} [Decidable c] {a b : Load α} (ha : Reads a)
    (hb : Reads b) : Reads (if c then a else b) := by
  split
  · exact ha
  · exact hb

theorem Reads_error {α : Type} (why : String) : Reads (error why : Load α) := by
  intro S x S1 h
  cases h

theorem Reads_undefined {α : Type} : Reads (Load.undefined : Load α) := by
  intro S x S1 h
  cases h

/-- A step that does not touch the stream reads none of it. -/
theorem Reads_of_state {α : Type} (m : Load α)
    (h : ∀ S x S1, m S = LoadResult.ok x S1 → S1.name = S.name ∧ S1.Z = S.Z ∧
      ∀ Z1, m { S with Z := Z1 } = LoadResult.ok x { S1 with Z := Z1 }) : Reads m := by
  intro S x S1 e
  obtain ⟨hn, hz, ha⟩ := h S x S1 e
  refine ⟨hn, 0, Nat.zero_le _, hz, ?_, ?_⟩
  · intro Z1 _ _
    exact ha Z1
  · intro j hj
    omega

theorem Reads_LoadBlock (n : Nat) : Reads (LoadBlock n) := by
  intro S x S1 h
  by_cases hl : n ≤ S.Z.length
  · rw [LoadBlock_ok n S hl] at h
    cases h
    refine ⟨rfl, n, hl, rfl, ?_, ?_⟩
    · intro Z1 ht hl1
      rw [LoadBlock_ok n { S with Z := Z1 } hl1]
      simp only [ht]
    · intro j hj
      refine ⟨_, LoadBlock_truncated n { S with Z := S.Z.take j } ?_⟩
      simp only [List.length_take]
      omega
  · rw [LoadBlock_truncated n S (by omega)] at h
    cases h

theorem Reads_getProto (f : Nat) : Reads (Load.getProto f) := by
  apply Reads_of_state
  intro S x S1 h
  unfold Load.getProto at h ⊢
  split at h <;> cases h
  rename_i p hp
  refine ⟨rfl, rfl, fun Z1 => ?_⟩
  simp only [hp]

theorem Reads_setProto (f : Nat) (upd : Proto → Proto) : Reads (Load.setProto f upd) := by
  apply Reads_of_state
  intro S x S1 h
  unfold Load.setProto at h ⊢
  split at h <;> cases h
  rename_i p hp
  refine ⟨rfl, rfl, fun Z1 => ?_⟩
  simp only [hp]

theorem Reads_setk (f i : Nat) (upd : TValue → TValue) : Reads (Load.setk f i upd) := by
  apply Reads_of_state
  intro S x S1 h
  unfold Load.setk at h ⊢
  split at h
  · rename_i p hp
    split at h <;> cases h
    rename_i o ho
    refine ⟨rfl, rfl, fun Z1 => ?_⟩
    simp only [hp, ho]
  · cases h

theorem Reads_newproto : Reads Load.newproto := by
  apply Reads_of_state
  intro S x S1 h
  cases h
  exact ⟨rfl, rfl, fun Z1 => rfl⟩

theorem Reads_newlstr (s : List Nat) (l : Nat) : Reads (Load.newlstr s l) := by
  apply Reads_of_state
  intro S x S1 h
  unfold Load.newlstr at h ⊢
  split at h <;> cases h
  rename_i ts g1 hp
  refine ⟨rfl, rfl, fun Z1 => ?_⟩
  simp only [hp]

theorem Reads_createlngstrobj (l : Nat) : Reads (Load.createlngstrobj l) := by
  apply Reads_of_state
  intro S x S1 h
  cases h
  exact ⟨rfl, rfl, fun Z1 => rfl⟩

theorem Reads_addstr (ts : TString) :
    Reads (Load.modify (fun S => { S with strs := ts :: S.strs })) := by
  apply Reads_of_state
  intro S x S1 h
  cases h
  exact ⟨rfl, rfl, fun Z1 => rfl⟩

theorem Reads_newvector (n : Int) : Reads (luaM_newvector n) := by
  apply Reads_of_state
  intro S x S1 h
  unfold luaM_newvector at h ⊢
  split at h <;> cases h
  rename_i hn
  refine ⟨rfl, rfl, fun Z1 => ?_⟩
  simp only [hn, if_false]

theorem Reads_newLclosure (n : Nat) : Reads (Load.newLclosure n) := by
  apply Reads_of_state
  intro S x S1 h
  cases h
  exact ⟨rfl, rfl, fun Z1 => rfl⟩

theorem Reads_pushclosure (cl : Nat) : Reads (Load.pushclosure cl) := by
  apply Reads_of_state
  intro S x S1 h
  unfold Load.pushclosure at h ⊢
  split at h <;> cases h
  rename_i p hp
  refine ⟨rfl, rfl, fun Z1 => ?_⟩
  simp only [hp]

theorem Reads_setclp (cl p : Nat) : Reads (Load.setclp cl p) := by
  apply Reads_of_state
  intro S x S1 h
  unfold Load.setclp at h ⊢
  split at h <;> cases h
  rename_i c hp
  refine ⟨rfl, rfl, fun Z1 => ?_⟩
  simp only [hp]

theorem Reads_closed : Closed Reads where
  pure := Reads_pure
  bind := fun _ _ hm hf => Reads_bind hm hf
  error := Reads_error
  undefined := Reads_undefined
  LoadBlock := Reads_LoadBlock
  getProto := Reads_getProto
  setProto := Reads_setProto
  setk := Reads_setk
  newproto := Reads_newproto
  newlstr := Reads_newlstr
  createlngstrobj := Reads_createlngstrobj
  addstr := Reads_addstr
  newvector := Reads_newvector

theorem Fueled_bind {n : Nat} {α β : Type} {m : Load α} {f : α → Load β} (hm : Fueled n m)
    (hf : ∀ x, Fueled n (f x)) : Fueled n (m >>= f) := by
  intro S
  cases e : m S with
  | ok x S1 =>
    rw [bind_ok _ _ _ _ _ e]
    have h1 := (hm S).2 x S1 e
    constructor
    · intro hl
      exact (hf x S1).1 (by omega)
    · intro y S2 h2
      have := (hf x S1).2 y S2 h2
      omega
  | throw x S1 =>
    rw [bind_throw _ _ _ _ _ e]
    exact ⟨fun _ h => (by cases h), fun _ _ h => by cases h⟩
  | undefined S1 =>
    rw [bind_undefined _ _ _ _ e]
    exact ⟨fun _ h => (by cases h), fun _ _ h => by cases h⟩
  | fuel =>
    rw [bind_fuel _ _ _ e]
    exact ⟨fun hl _ => (hm S).1 hl e, fun _ _ h => (by cases h)⟩

/-- A step that leaves the stream as it is and never reaches the bound. -/
theorem Fueled_of_state {α : Type} (n : Nat) (m : Load α)
    (h : ∀ S, m S ≠ LoadResult.fuel ∧ ∀ x S1, m S = LoadResult.ok x S1 → S1.Z = S.Z) :
    Fueled n m := by
  intro S
  refine ⟨fun _ => (h S).1, fun x S1 e => ?_⟩
  rw [(h S).2 x S1 e]

theorem Fueled_error {α : Type} (n : Nat) (why : String) : Fueled n (error why : Load α) :=
  Fueled_of_state n _ (fun _ => ⟨fun h => (by cases h), fun _ _ h => by cases h⟩)

theorem Fueled_undefined {α : Type} (n : Nat) : Fueled n (Load.undefined : Load α) :=
  Fueled_of_state n _ (fun _ => ⟨fun h => (by cases h), fun _ _ h => by cases h⟩)

theorem Fueled_pure {α : Type} (n : Nat) (x : α) : Fueled n (pure x : Load α) :=
  Fueled_of_state n _ (fun _ => ⟨fun h => (by cases h), fun _ _ h => by cases h; rfl⟩)

theorem Fueled_LoadBlock (n k : Nat) : Fueled n (LoadBlock k) := by
  intro S
  by_cases hl : k ≤ S.Z.length
  · rw [LoadBlock_ok k S hl]
    refine ⟨fun _ h => (by cases h), fun x S1 h => ?_⟩
    cases h
    simp only [List.length_drop]
    omega
  · rw [LoadBlock_truncated k S (by omega)]
    exact ⟨fun _ h => (by cases h), fun _ _ h => by cases h⟩

theorem Fueled_getProto (n f : Nat) : Fueled n (Load.getProto f) := by
  apply Fueled_of_state
  intro S
  unfold Load.getProto
  split
  · exact ⟨fun h => (by cases h), fun _ _ h => by cases h; rfl⟩
  · exact ⟨fun h => (by cases h), fun _ _ h => by cases h⟩

theorem Fueled_setProto (n f : Nat) (upd : Proto → Proto) : Fueled n (Load.setProto f upd) := by
  apply Fueled_of_state
  intro S
  unfold Load.setProto
  split
  · exact ⟨fun h => (by cases h), fun _ _ h => by cases h; rfl⟩
  · exact ⟨fun h => (by cases h), fun _ _ h => by cases h⟩

theorem Fueled_setk (n f i : Nat) (upd : TValue → TValue) : Fueled n (Load.setk f i upd) := by
  apply Fueled_of_state
  intro S
  unfold Load.setk
  repeat' split
  · exact ⟨fun h => (by cases h), fun _ _ h => by cases h; rfl⟩
  · exact ⟨fun h => (by cases h), fun _ _ h => by cases h⟩
  · exact ⟨fun h => (by cases h), fun _ _ h => by cases h⟩

theorem Fueled_newproto (n : Nat) : Fueled n Load.newproto :=
  Fueled_of_state n _ (fun _ => ⟨fun h => (by cases h), fun _ _ h => by cases h; rfl⟩)

theorem Fueled_newlstr (n : Nat) (s : List Nat) (l : Nat) : Fueled n (Load.newlstr s l) := by
  apply Fueled_of_state
  intro S
  unfold Load.newlstr
  split
  · exact ⟨fun h => (by cases h), fun _ _ h => by cases h; rfl⟩
  · exact ⟨fun h => (by cases h), fun _ _ h => by cases h⟩

theorem Fueled_createlngstrobj (n l : Nat) : Fueled n (Load.createlngstrobj l) :=
  Fueled_of_state n _ (fun _ => ⟨fun h => (by cases h), fun _ _ h => by cases h; rfl⟩)

theorem Fueled_addstr (n : Nat) (ts : TString) :
    Fueled n (Load.modify (fun S => { S with strs := ts :: S.strs })) :=
  Fueled_of_state n _ (fun _ => ⟨fun h => (by cases h), fun _ _ h => by cases h; rfl⟩)

theorem Fueled_newvector (n : Nat) (k : Int) : Fueled n (luaM_newvector k) := by
  apply Fueled_of_state
  intro S
  unfold luaM_newvector
  split
  · exact ⟨fun h => (by cases h), fun _ _ h => by cases h⟩
  · exact ⟨fun h => (by cases h), fun _ _ h => by cases h; rfl⟩

theorem Fueled_newLclosure (n k : Nat) : Fueled n (Load.newLclosure k) :=
  Fueled_of_state n _ (fun _ => ⟨fun h => (by cases h), fun _ _ h => by cases h; rfl⟩)

theorem Fueled_pushclosure (n cl : Nat) : Fueled n (Load.pushclosure cl) := by
  apply Fueled_of_state
  intro S
  unfold Load.pushclosure
  split
  · exact ⟨fun h => (by cases h), fun _ _ h => by cases h; rfl⟩
  · exact ⟨fun h => (by cases h), fun _ _ h => by cases h⟩

theorem Fueled_setclp (n cl p : Nat) : Fueled n (Load.setclp cl p) := by
  apply Fueled_of_state
  intro S
  unfold Load.setclp
  split
  · exact ⟨fun h => (by cases h), fun _ _ h => by cases h; rfl⟩
  · exact ⟨fun h => (by cases h), fun _ _ h => by cases h⟩

theorem Fueled_closed (n : Nat) : Closed (Fueled n) where
  pure := Fueled_pure n
  bind := fun _ _ hm hf => Fueled_bind hm hf
  error := Fueled_error n
  undefined := Fueled_undefined n
  LoadBlock := Fueled_LoadBlock n
  getProto := Fueled_getProto n
  setProto := Fueled_setProto n
  setk := Fueled_setk n
  newproto := Fueled_newproto n
  newlstr := Fueled_newlstr n
  createlngstrobj := Fueled_createlngstrobj n
  addstr := Fueled_addstr n
  newvector := Fueled_newvector n

theorem Reads_LoadFunction (n f : Nat) (ps : Option TString) : Reads (LoadFunction n f ps) :=
  Closed.at_LoadFunction Reads_closed (fun _ _ _ h => by cases h) n f ps

theorem LoadByte_ok (S : LoadState) (x : Nat) (rest : List Nat) (h : S.Z = x :: rest) :
    LoadByte S = LoadResult.ok x { S with Z := rest } := by
  unfold LoadByte
  rw [bind_ok _ _ _ _ _ (LoadBlock_ok 1 S (by rw [h]; simp))]
  simp only [h, List.take_succ_cons, List.take_zero, List.drop_succ_cons, List.drop_zero]
  show LoadResult.ok (uintLE [x]) _ = _
  simp [uintLE]

theorem LoadByte_empty (S : LoadState) (h : S.Z = []) :
    LoadByte S = LoadResult.throw
      (LuaError.malformed (S.name ++ ": " ++ "truncated" ++ " precompiled chunk")) S := by
  unfold LoadByte
  rw [bind_throw _ _ _ _ _ (LoadBlock_truncated 1 S (by rw [h]; simp))]
  simp only [h, List.drop_nil]
  cases S
  simp only at h
  subst h
  rfl

/-- A successful `LoadString` has read at least one byte. -/
theorem LoadString_strict (S : LoadState) (x : Option TString) (S1 : LoadState)
    (h : LoadString S = LoadResult.ok x S1) : S1.Z.length < S.Z.length := by
  unfold LoadString at h
  cases hz : S.Z with
  | nil =>
    rw [bind_throw _ _ _ _ _ (LoadByte_empty S hz)] at h
    cases h
  | cons b rest =>
    rw [bind_ok _ _ _ _ _ (LoadByte_ok S b rest hz)] at h
    have hr : Fueled 0 (do
        let size ← (if b = 0xFF then do
            let v ← LoadBlock sizeof_size_t
            pure (uintLE v)
          else pure b : Load Nat)
        if size = 0 then pure none
        else if size - 1 ≤ LUAI_MAXSHORTLEN then do
          let buff ← LoadBlock (size - 1)
          let ts ← Load.newlstr buff (size - 1)
          Load.modify (fun S => { S with strs := ts :: S.strs })
          pure (some ts)
        else do
          let ts ← Load.createlngstrobj (size - 1)
          let v ← LoadBlock (size - 1)
          let ts1 : TString := { ts with bytes := memcpy ts.bytes v (size - 1) }
          Load.modify (fun S => { S with strs := ts1 :: S.strs })
          pure (some ts1) : Load (Option TString)) := by
      have h := Fueled_closed 0
      repeat' first
        | apply h.pure | apply h.LoadBlock | apply h.newlstr | apply h.createlngstrobj
        | apply h.addstr | refine h.bind _ _ ?_ (fun _ => ?_) | split
    have := (hr { S with Z := rest }).2 x S1 h
    simp only [List.length_cons] at this ⊢
    omega

theorem Fueled_LoadFunction (n f : Nat) (ps : Option TString) :
    Fueled n (LoadFunction n f ps) := by
  induction n generalizing f ps with
  | zero =>
    intro S
    exact ⟨fun hl => absurd hl (Nat.not_lt_zero _), fun _ _ h => (by cases h)⟩
  | succ n ih =>
    have h := Fueled_closed n
    have hs := Closed.at_LoadString (Fueled_closed (n + 1))
    unfold LoadFunction
    intro S
    cases e : LoadString S with
    | ok s S1 =>
      rw [bind_ok _ _ _ _ _ e]
      have hlt := LoadString_strict S s S1 e
      have hr : Fueled n (do
          Load.setProto f (fun p => { p with source := s })
          (if s = none then Load.setProto f (fun p => { p with source := ps }) else pure ())
          let a ← LoadInt
          Load.setProto f (fun p => { p with linedefined := a })
          let b ← LoadInt
          Load.setProto f (fun p => { p with lastlinedefined := b })
          let c ← LoadByte
          Load.setProto f (fun p => { p with numparams := c })
          let d ← LoadByte
          Load.setProto f (fun p => { p with is_vararg := d })
          let e ← LoadByte
          Load.setProto f (fun p => { p with maxstacksize := e })
          LoadCode f
          LoadConstants f
          LoadUpvalues f
          LoadProtos (LoadFunction n) f
          LoadDebug f : Load Unit) := by
        repeat' first
          | exact Closed.at_LoadProtos h _ _ (fun c s => ih c s)
          | apply Closed.at_LoadDebug h | apply Closed.at_LoadUpvalues h
          | apply Closed.at_LoadConstants h | apply Closed.at_LoadCode h
          | apply Closed.at_LoadInt h | apply Closed.at_LoadByte h
          | apply h.pure | apply h.setProto
          | refine h.bind _ _ ?_ (fun _ => ?_) | split
      constructor
      · intro hl
        exact (hr S1).1 (by omega)
      · intro y S2 h2
        have := (hr S1).2 y S2 h2
        omega
    | throw x S1 =>
      rw [bind_throw _ _ _ _ _ e]
      exact ⟨fun _ h => (by cases h), fun _ _ h => (by cases h)⟩
    | undefined S1 =>
      rw [bind_undefined _ _ _ _ e]
      exact ⟨fun _ h => (by cases h), fun _ _ h => (by cases h)⟩
    | fuel =>
      rw [bind_fuel _ _ _ e]
      exact ⟨fun hl _ => (hs S).1 hl e, fun _ _ h => (by cases h)⟩

theorem Extends_refl {α : Type} (m : Load α) : Extends m m := fun _ _ => rfl

theorem Extends_trans {α : Type} {a b c : Load α} (h1 : Extends a b) (h2 : Extends b c) :
    Extends a c := by
  intro S h
  have e1 := h1 S h
  rw [h2 S (by rw [e1]; exact h), e1]

theorem Extends_bind {α β : Type} {m m1 : Load α} {f f1 : α → Load β} (hm : Extends m m1)
    (hf : ∀ x, Extends (f x) (f1 x)) : Extends (m >>= f) (m1 >>= f1) := by
  intro S h
  cases e : m S with
  | ok x S1 =>
    have e1 : m1 S = LoadResult.ok x S1 := by
      rw [hm S (by rw [e]; exact fun h => by cases h), e]
    rw [bind_ok _ _ _ _ _ e] at h ⊢
    rw [bind_ok _ _ _ _ _ e1]
    exact hf x S1 h
  | throw x S1 =>
    have e1 : m1 S = LoadResult.throw x S1 := by
      rw [hm S (by rw [e]; exact fun h => by cases h), e]
    rw [bind_throw _ _ _ _ _ e, bind_throw _ _ _ _ _ e1]
  | undefined S1 =>
    have e1 : m1 S = LoadResult.undefined S1 := by
      rw [hm S (by rw [e]; exact fun h => by cases h), e]
    rw [bind_undefined _ _ _ _ e, bind_undefined _ _ _ _ e1]
  | fuel =>
    rw [bind_fuel _ _ _ e] at h
    exact absurd rfl h

theorem Extends_LoadProtos_loop (rec rec1 : Nat → Option TString → Load Unit)
    (h : ∀ c s, Extends (rec c s) (rec1 c s)) (f r i : Nat) :
    Extends (LoadProtos.loop rec f r i) (LoadProtos.loop rec1 f r i) := by
  induction r generalizing i with
  | zero => exact Extends_refl _
  | succ r ih =>
    unfold LoadProtos.loop
    repeat' first
      | exact ih _ | exact h _ _ | refine Extends_bind ?_ (fun _ => ?_) | exact Extends_refl _

theorem Extends_LoadProtos (rec rec1 : Nat → Option TString → Load Unit)
    (h : ∀ c s, Extends (rec c s) (rec1 c s)) (f : Nat) :
    Extends (LoadProtos rec f) (LoadProtos rec1 f) := by
  unfold LoadProtos
  repeat' first
    | exact Extends_LoadProtos_loop rec rec1 h f _ _ | refine Extends_bind ?_ (fun _ => ?_)
    | exact Extends_refl _

theorem Extends_LoadFunction_succ (n f : Nat) (ps : Option TString) :
    Extends (LoadFunction n f ps) (LoadFunction (n + 1) f ps) := by
  induction n generalizing f ps with
  | zero =>
    intro S h
    exact absurd rfl h
  | succ n ih =>
    unfold LoadFunction
    repeat' first
      | exact Extends_LoadProtos _ _ (fun c s => ih c s) f
      | refine Extends_bind ?_ (fun _ => ?_)
      | exact Extends_refl _

theorem Extends_LoadFunction (n k f : Nat) (ps : Option TString) :
    Extends (LoadFunction n f ps) (LoadFunction (n + k) f ps) := by
  induction k with
  | zero => exact Extends_refl _
  | succ k ih => exact Extends_trans ih (Extends_LoadFunction_succ (n + k) f ps)

theorem Extends_steps (n k : Nat) : Extends (luaU_undump.steps n) (luaU_undump.steps (n + k)) := by
  unfold luaU_undump.steps
  repeat' first
    | exact Extends_LoadFunction n k _ _ | refine Extends_bind ?_ (fun _ => ?_)
    | exact Extends_refl _

theorem Reads_steps (n : Nat) : Reads (luaU_undump.steps n) := by
  unfold luaU_undump.steps
  repeat' first
    | exact Closed.at_checkHeader Reads_closed | exact Closed.at_LoadByte Reads_closed
    | exact Reads_newLclosure _ | exact Reads_pushclosure _ | exact Reads_newproto
    | exact Reads_setclp _ _ | exact Reads_LoadFunction _ _ _ | exact Reads_pure _
    | refine Reads_bind ?_ (fun _ => ?_)

theorem Fueled_steps (n : Nat) : Fueled n (luaU_undump.steps n) := by
  unfold luaU_undump.steps
  repeat' first
    | exact Closed.at_checkHeader (Fueled_closed n) | exact Closed.at_LoadByte (Fueled_closed n)
    | exact Fueled_newLclosure _ _ | exact Fueled_pushclosure _ _ | exact Fueled_newproto _
    | exact Fueled_setclp _ _ _ | exact Fueled_LoadFunction _ _ _ | exact Fueled_pure _ _
    | refine Fueled_bind ?_ (fun _ => ?_)

/-- The bound on the depth of nested function records that `luaU_undump` sets
is never reached. -/
theorem undump_fuel (S : LoadState) (name : String) : luaU_undump S name ≠ LoadResult.fuel := by
  unfold luaU_undump
  exact (Fueled_steps (S.Z.length + 1) { S with name := luaU_undump.name name }).1
    (Nat.lt_succ_self _)

theorem truncated_message (nm : String) :
    nm ++ ": " ++ "truncated" ++ " precompiled chunk" = nm ++ ": truncated precompiled chunk" := by
  rw [String.append_assoc, String.append_assoc]
  rfl

theorem checkHeader_ok (S : LoadState) (rest : List Nat) (hS : IsBytes S.Z)
    (hZ : S.Z = luac_header ++ rest) :
    checkHeader S = LoadResult.ok () { S with Z := rest } := by
  have h := (checkHeader_checks S hS).1 ⟨by rw [hZ]; simp [luac_header, bytesLE, LUAC_DATA,
    LUA_SIGNATURE], by
      have h32 : luac_header.length = 32 := rfl
      rw [hZ, ← h32, List.take_left' rfl]⟩
  rw [h, hZ]
  have h32 : luac_header.length = 32 := rfl
  rw [← h32, List.drop_left' rfl]

/-- The statements of `luaU_undump` up to the call of `LoadFunction`, on a
stream that begins with the header: the closure is created with the number of
upvalues the byte after the header gives, put on the stack, and given a new
prototype. -/
theorem steps_after_header (fuel : Nat) (S : LoadState) (n : Nat) (rest : List Nat)
    (hS : IsBytes S.Z) (hZ : S.Z = luac_header ++ n :: rest) :
    luaU_undump.steps fuel S =
      (LoadFunction fuel S.protos.length none >>= fun _ => pure S.closures.length)
        { S with
          g := (luaF_newproto (luaF_newLclosure { g := S.g } n).2.g).2,
          stack := S.stack ++ [setclLvalue (luaF_newLclosure { g := S.g } n).1],
          closures := S.closures ++
            [{ (luaF_newLclosure { g := S.g } n).1 with p := some S.protos.length }],
          protos := S.protos ++ [(luaF_newproto (luaF_newLclosure { g := S.g } n).2.g).1],
          Z := rest } := by
  unfold luaU_undump.steps
  rw [bind_ok _ _ _ _ _ (checkHeader_ok S (n :: rest) hS hZ)]
  rw [bind_ok _ _ _ _ _ (LoadByte_ok _ n rest rfl)]
  have e1 : Load.newLclosure n { S with Z := rest } = LoadResult.ok S.closures.length
      { S with Z := rest, g := (luaF_newLclosure { g := S.g } n).2.g,
               closures := S.closures ++ [(luaF_newLclosure { g := S.g } n).1] } := rfl
  rw [bind_ok _ _ _ _ _ e1]
  have e2 : Load.pushclosure S.closures.length
      { S with Z := rest, g := (luaF_newLclosure { g := S.g } n).2.g,
               closures := S.closures ++ [(luaF_newLclosure { g := S.g } n).1] } =
      LoadResult.ok ()
        { S with Z := rest, g := (luaF_newLclosure { g := S.g } n).2.g,
                 closures := S.closures ++ [(luaF_newLclosure { g := S.g } n).1],
                 stack := S.stack ++ [setclLvalue (luaF_newLclosure { g := S.g } n).1] } := by
    simp [Load.pushclosure]
  rw [bind_ok _ _ _ _ _ e2]
  have e3 : Load.newproto
      { S with Z := rest, g := (luaF_newLclosure { g := S.g } n).2.g,
               closures := S.closures ++ [(luaF_newLclosure { g := S.g } n).1],
               stack := S.stack ++ [setclLvalue (luaF_newLclosure { g := S.g } n).1] } =
      LoadResult.ok S.protos.length
        { S with Z := rest, g := (luaF_newproto (luaF_newLclosure { g := S.g } n).2.g).2,
                 closures := S.closures ++ [(luaF_newLclosure { g := S.g } n).1],
                 stack := S.stack ++ [setclLvalue (luaF_newLclosure { g := S.g } n).1],
                 protos := S.protos ++ [(luaF_newproto (luaF_newLclosure { g := S.g } n).2.g).1] } :=
    rfl
  rw [bind_ok _ _ _ _ _ e3]
  have e4 : Load.setclp S.closures.length S.protos.length
      { S with Z := rest, g := (luaF_newproto (luaF_newLclosure { g := S.g } n).2.g).2,
               closures := S.closures ++ [(luaF_newLclosure { g := S.g } n).1],
               stack := S.stack ++ [setclLvalue (luaF_newLclosure { g := S.g } n).1],
               protos := S.protos ++ [(luaF_newproto (luaF_newLclosure { g := S.g } n).2.g).1] } =
      LoadResult.ok ()
        { S with Z := rest, g := (luaF_newproto (luaF_newLclosure { g := S.g } n).2.g).2,
                 closures := S.closures ++
                   [{ (luaF_newLclosure { g := S.g } n).1 with p := some S.protos.length }],
                 stack := S.stack ++ [setclLvalue (luaF_newLclosure { g := S.g } n).1],
                 protos := S.protos ++ [(luaF_newproto (luaF_newLclosure { g := S.g } n).2.g).1] } := by
    simp [Load.setclp]
  rw [bind_ok _ _ _ _ _ e4]

theorem bind_apply {α β : Type} (m : Load α) (f : α → Load β) (S : LoadState) :
    (m >>= f) S = match m S with
      | LoadResult.ok x S1 => f x S1
      | LoadResult.throw e S1 => LoadResult.throw e S1
      | LoadResult.undefined S1 => LoadResult.undefined S1
      | LoadResult.fuel => LoadResult.fuel := rfl

theorem pure_apply {α : Type} (x : α) (S : LoadState) :
    (pure x : Load α) S = LoadResult.ok x S := rfl

theorem bytesLE_length (w n : Nat) : (bytesLE w n).length = w := by
  induction w generalizing n with
  | zero => rfl
  | succ w ih => simp only [bytesLE, List.length_cons, ih]

theorem bytesLE_isBytes (w n : Nat) : IsBytes (bytesLE w n) := by
  induction w generalizing n with
  | zero =>
    intro x hx
    cases hx
  | succ w ih =>
    intro x hx
    simp only [bytesLE, List.mem_cons] at hx
    rcases hx with e | e
    · omega
    · exact ih _ x e

theorem uintLE_bytesLE_mod (w n : Nat) : uintLE (bytesLE w n) = n % 256 ^ w := by
  induction w generalizing n with
  | zero => simp [bytesLE, uintLE, Nat.mod_one]
  | succ w ih =>
    simp only [bytesLE, uintLE, ih, pow_succ]
    rw [Nat.mul_comm (256 ^ w) 256, Nat.mod_mul]

theorem layoutInt_length (n : Int) : (layoutInt n).length = sizeof_int := bytesLE_length _ _

theorem sintLE_layoutInt (n : Int) (h : IsInt n) : sintLE sizeof_int (layoutInt n) = n := by
  unfold sintLE layoutInt
  rw [uintLE_bytesLE_mod]
  unfold IsInt at h
  unfold sizeof_int
  norm_num
  split <;> omega

theorem sintLE_layoutInteger (n : Int) (h : -2 ^ 63 ≤ n ∧ n < 2 ^ 63) :
    sintLE sizeof_lua_Integer (layoutInteger n) = n := by
  unfold sintLE layoutInteger
  rw [uintLE_bytesLE_mod]
  unfold sizeof_lua_Integer
  norm_num
  split <;> omega

theorem LoadBlock_append (S : LoadState) (b rest : List Nat) (h : S.Z = b ++ rest) :
    LoadBlock b.length S = LoadResult.ok b { S with Z := rest } := by
  rw [LoadBlock_ok b.length S (by rw [h]; simp), h, List.take_left' rfl, List.drop_left' rfl]

theorem LoadInt_layout (S : LoadState) (n : Int) (rest : List Nat) (hn : IsInt n)
    (h : S.Z = layoutInt n ++ rest) : LoadInt S = LoadResult.ok n { S with Z := rest } := by
  unfold LoadInt
  have hb := LoadBlock_append S _ rest h
  rw [layoutInt_length] at hb
  rw [bind_ok _ _ _ _ _ hb]
  show LoadResult.ok (sintLE sizeof_int (layoutInt n)) _ = _
  rw [sintLE_layoutInt n hn]

theorem LoadInteger_layout (S : LoadState) (n : Int) (rest : List Nat)
    (hn : -2 ^ 63 ≤ n ∧ n < 2 ^ 63) (h : S.Z = layoutInteger n ++ rest) :
    LoadInteger S = LoadResult.ok n { S with Z := rest } := by
  unfold LoadInteger
  have hb := LoadBlock_append S _ rest h
  rw [show (layoutInteger n).length = sizeof_lua_Integer from bytesLE_length _ _] at hb
  rw [bind_ok _ _ _ _ _ hb]
  show LoadResult.ok (sintLE sizeof_lua_Integer (layoutInteger n)) _ = _
  rw [sintLE_layoutInteger n hn]

theorem LoadNumber_layout (S : LoadState) (x : Nat) (rest : List Nat) (hx : x < 2 ^ 64)
    (h : S.Z = bytesLE sizeof_lua_Number x ++ rest) :
    LoadNumber S = LoadResult.ok x { S with Z := rest } := by
  unfold LoadNumber
  have hb := LoadBlock_append S _ rest h
  rw [bytesLE_length] at hb
  rw [bind_ok _ _ _ _ _ hb]
  show LoadResult.ok (uintLE (bytesLE sizeof_lua_Number x)) _ = _
  rw [uintLE_bytesLE_mod, Nat.mod_eq_of_lt (by unfold sizeof_lua_Number; norm_num; exact hx)]

theorem flatten_map_length (w : Nat) (v : List Nat) :
    ((v.map (bytesLE w)).flatten).length = v.length * w := by
  induction v with
  | nil => simp
  | cons x v ih =>
    simp only [List.map_cons, List.flatten_cons, List.length_append, bytesLE_length, ih,
      List.length_cons]
    ring

theorem decodeVector_flatten (w : Nat) (v : List (List Nat)) (h : ∀ b ∈ v, b.length = w) :
    decodeVector w v.length v.flatten = v := by
  induction v with
  | nil => rfl
  | cons b v ih =>
    have hb : b.length = w := h b (List.mem_cons_self _ _)
    simp only [List.length_cons, decodeVector, List.flatten_cons]
    rw [List.take_left' hb, List.drop_left' hb, ih (fun c hc => h c (List.mem_cons_of_mem _ hc))]

theorem decodeVector_words (w : Nat) (v : List Nat) (h : ∀ c ∈ v, c < 256 ^ w) :
    (decodeVector w v.length (v.map (bytesLE w)).flatten).map uintLE = v := by
  have e := decodeVector_flatten w (v.map (bytesLE w)) (by
    intro b hb
    obtain ⟨c, _, rfl⟩ := List.mem_map.1 hb
    exact bytesLE_length _ _)
  rw [List.length_map] at e
  rw [e, List.map_map]
  conv_rhs => rw [← List.map_id v]
  apply List.map_congr_left
  intro c hc
  simp only [Function.comp, id, uintLE_bytesLE_mod, Nat.mod_eq_of_lt (h c hc)]

theorem decodeVector_ints (v : List Int) (h : ∀ c ∈ v, IsInt c) :
    (decodeVector sizeof_int v.length (v.map layoutInt).flatten).map (sintLE sizeof_int) = v := by
  have e := decodeVector_flatten sizeof_int (v.map layoutInt) (by
    intro b hb
    obtain ⟨c, _, rfl⟩ := List.mem_map.1 hb
    exact layoutInt_length _)
  rw [List.length_map] at e
  rw [e, List.map_map]
  conv_rhs => rw [← List.map_id v]
  apply List.map_congr_left
  intro c hc
  simp only [Function.comp, id, sintLE_layoutInt c (h c hc)]

theorem setProto_ok (S : LoadState) (f : Nat) (p : Proto) (upd : Proto → Proto)
    (h : S.protos[f]? = some p) :
    Load.setProto f upd S = LoadResult.ok () { S with protos := S.protos.set f (upd p) } := by
  unfold Load.setProto
  rw [h]

theorem getProto_ok (S : LoadState) (f : Nat) (p : Proto) (h : S.protos[f]? = some p) :
    Load.getProto f S = LoadResult.ok p S := by
  unfold Load.getProto
  rw [h]

theorem newvector_ok (S : LoadState) (n : Nat) :
    luaM_newvector (n : Int) S = LoadResult.ok () S := by
  unfold luaM_newvector
  rw [if_neg (by omega)]

theorem set_getElem? (P : List Proto) (f : Nat) (p q : Proto) (h : P[f]? = some p) :
    (P.set f q)[f]? = some q := by
  have hlt : f < P.length := by
    by_contra hc
    rw [List.getElem?_eq_none (by omega)] at h
    cases h
  rw [List.getElem?_set_self (by simpa using hlt)]

/-- An allocation through `luaC_newobj` keeps the invariant of the string
table and the cache. -/
theorem alloc_inv (g : global_State) (hinv : CacheInv g) :
    CacheInv { g with ud := g.ud + 1, allgc := g.ud :: g.allgc } := by
  refine ⟨WF_congr g _ rfl rfl rfl hinv.wf, ⟨?_, ?_, ?_⟩, hinv.term, ?_, ?_⟩
  · intro a ha
    show a < g.ud + 1
    rcases List.mem_cons.1 ha with e | e
    · omega
    · have := hinv.alloc.1 a e
      omega
  · intro a ha
    show a < g.ud + 1
    have := hinv.alloc.2.1 a ha
    omega
  · intro t ht
    show t.addr < g.ud + 1
    have := hinv.alloc.2.2 t ht
    omega
  · intro t ht
    rw [isdead_congr g { g with ud := g.ud + 1, allgc := g.ud :: g.allgc } rfl]
    exact hinv.live t ht
  · intro row hrow t ht
    exact CachedOK_mono g { g with ud := g.ud + 1, allgc := g.ud :: g.allgc }
      (fun x hx => hx) (Nat.le_succ _) t (hinv.cached row hrow t ht)

theorem newproto_inv (g : global_State) (hinv : CacheInv g) : CacheInv (luaF_newproto g).2 :=
  alloc_inv g hinv

theorem pure_bind_apply {α β : Type} (x : α) (f : α → Load β) (S : LoadState) :
    (pure x >>= f) S = f x S := rfl

theorem LoadByte_mk (g : global_State) (st : List TValue) (cls : List LClosure)
    (P : List Proto) (strs : List TString) (x : Nat) (Z : List Nat) (nm : String) :
    LoadByte { g := g, stack := st, closures := cls, protos := P, strs := strs, Z := x :: Z,
               name := nm } =
      LoadResult.ok x
        { g := g, stack := st, closures := cls, protos := P, strs := strs, Z := Z, name := nm } :=
  LoadByte_ok _ x Z rfl

theorem LoadBlock_mk (g : global_State) (st : List TValue) (cls : List LClosure)
    (P : List Proto) (strs : List TString) (b : List Nat) (Z : List Nat) (nm : String) :
    LoadBlock b.length { g := g, stack := st, closures := cls, protos := P, strs := strs,
                         Z := b ++ Z, name := nm } =
      LoadResult.ok b
        { g := g, stack := st, closures := cls, protos := P, strs := strs, Z := Z, name := nm } :=
  LoadBlock_append _ b Z rfl

theorem LoadString_absent (g : global_State) (st : List TValue) (cls : List LClosure)
    (P : List Proto) (strs : List TString) (Z : List Nat) (nm : String) :
    LoadString { g := g, stack := st, closures := cls, protos := P, strs := strs, Z := 0 :: Z,
                 name := nm } =
      LoadResult.ok none
        { g := g, stack := st, closures := cls, protos := P, strs := strs, Z := Z, name := nm } := by
  unfold LoadString
  rw [bind_ok _ _ _ _ _ (LoadByte_mk g st cls P strs 0 Z nm)]
  rfl

theorem LoadString_short (g : global_State) (s : List Nat) (hinv : CacheInv g)
    (hs : s.length ≤ LUAI_MAXSHORTLEN) :
    ∃ ts g1, CacheInv g1 ∧ ts.contents = s ∧
      ∀ (st : List TValue) (cls : List LClosure) (P : List Proto) (strs : List TString)
        (Z : List Nat) (nm : String),
        LoadString { g := g, stack := st, closures := cls, protos := P, strs := strs,
                     Z := (s.length + 1) :: (s ++ Z), name := nm } =
          LoadResult.ok (some ts)
            { g := g1, stack := st, closures := cls, protos := P, strs := ts :: strs, Z := Z,
              name := nm } := by
  have e : luaS_newlstr g s s.length = Except.ok (internshrstr g s s.length) := by
    simp only [luaS_newlstr, hs, if_true]
  obtain ⟨i1, _, _, _, _, i6, _⟩ := newlstr_inv g hinv s _ _ e
  refine ⟨(internshrstr g s s.length).1, (internshrstr g s s.length).2, i1, i6, ?_⟩
  intro st cls P strs Z nm
  unfold LoadString
  rw [bind_ok _ _ _ _ _ (LoadByte_mk g st cls P strs _ _ nm)]
  have h1 : ¬ (s.length + 1 = 0xFF) := by
    unfold LUAI_MAXSHORTLEN at hs
    omega
  simp only [h1, if_false]
  rw [pure_bind_apply, if_neg (by omega), if_pos (by simpa using hs)]
  simp only [Nat.add_sub_cancel]
  rw [bind_ok _ _ _ _ _ (LoadBlock_mk g st cls P strs s Z nm)]
  have e2 : Load.newlstr s s.length
      { g := g, stack := st, closures := cls, protos := P, strs := strs, Z := Z, name := nm } =
      LoadResult.ok (internshrstr g s s.length).1
        { g := (internshrstr g s s.length).2, stack := st, closures := cls, protos := P,
          strs := strs, Z := Z, name := nm } := by
    simp only [Load.newlstr, e]
  rw [bind_ok _ _ _ _ _ e2]
  rfl

theorem LoadString_long_tail (g : global_State) (s : List Nat) (hinv : CacheInv g) :
    ∃ ts g1, CacheInv g1 ∧ ts.contents = s ∧
      ∀ (st : List TValue) (cls : List LClosure) (P : List Proto) (strs : List TString)
        (Z : List Nat) (nm : String),
      (do
        let ts ← Load.createlngstrobj s.length
        let v ← LoadBlock s.length
        let ts1 : TString := { ts with bytes := memcpy ts.bytes v s.length }
        Load.modify (fun S => { S with strs := ts1 :: S.strs })
        pure (some ts1) : Load (Option TString))
        { g := g, stack := st, closures := cls, protos := P, strs := strs, Z := s ++ Z,
          name := nm } =
        LoadResult.ok (some ts)
          { g := g1, stack := st, closures := cls, protos := P, strs := ts :: strs, Z := Z,
            name := nm } := by
  refine ⟨{ addr := g.ud, tt := LUA_TLNGSTR, marked := luaC_white g, hash := g.seed,
            extra := 0, lnglen := s.length, bytes := s ++ [0] },
    { g with ud := g.ud + 1, allgc := g.ud :: g.allgc }, alloc_inv g hinv, ?_, ?_⟩
  · simp only [TString.contents, tsslen]
    simp [LUA_TLNGSTR, LUA_TSHRSTR, LUA_TSTRING]
  · intro st cls P strs Z nm
    have e1 : Load.createlngstrobj s.length
        { g := g, stack := st, closures := cls, protos := P, strs := strs, Z := s ++ Z,
          name := nm } = LoadResult.ok
        { addr := g.ud, tt := LUA_TLNGSTR, marked := luaC_white g, hash := g.seed,
          extra := 0, lnglen := s.length,
          bytes := (List.replicate (s.length + 1) 0).set s.length 0 }
        { g := { g with ud := g.ud + 1, allgc := g.ud :: g.allgc }, stack := st,
          closures := cls, protos := P, strs := strs, Z := s ++ Z, name := nm } := rfl
    rw [bind_ok _ _ _ _ _ e1]
    rw [bind_ok _ _ _ _ _ (LoadBlock_mk _ st cls P strs s Z nm)]
    simp only [memcpy_new]
    rfl

/-- `LoadString` on the bytes of a string: the string object and the global
state depend on the global state and the string only. -/
theorem LoadString_mk (g : global_State) (os : Option (List Nat)) (hinv : CacheInv g)
    (hv : ChunkOptString os) :
    ∃ ots g1 a, CacheInv g1 ∧ RepString os ots ∧ (∀ ts, ots = some ts → ts ∈ a) ∧
      (os = none → ots = none) ∧
      ∀ (st : List TValue) (cls : List LClosure) (P : List Proto) (strs : List TString)
        (Z : List Nat) (nm : String),
        LoadString { g := g, stack := st, closures := cls, protos := P, strs := strs,
                     Z := layoutString os ++ Z, name := nm } =
          LoadResult.ok ots
            { g := g1, stack := st, closures := cls, protos := P, strs := a ++ strs, Z := Z,
              name := nm } := by
  cases os with
  | none =>
    exact ⟨none, g, [], hinv, trivial, fun ts h => (by cases h), fun _ => rfl,
      fun st cls P strs Z nm => LoadString_absent g st cls P strs Z nm⟩
  | some s =>
    obtain ⟨hb, hl⟩ := hv
    by_cases hs : s.length ≤ LUAI_MAXSHORTLEN
    · obtain ⟨ts, g1, i1, i2, e⟩ := LoadString_short g s hinv hs
      refine ⟨some ts, g1, [ts], i1, i2, fun t h => (by cases h; exact List.mem_cons_self _ _),
        fun h => (by cases h), ?_⟩
      intro st cls P strs Z nm
      have hZ1 : layoutString (some s) ++ Z = (s.length + 1) :: (s ++ Z) := by
        simp only [layoutString]
        rw [if_pos (by unfold LUAI_MAXSHORTLEN at hs; omega)]
        rfl
      rw [hZ1]
      exact e st cls P strs Z nm
    · obtain ⟨ts, g1, i1, i2, e⟩ := LoadString_long_tail g s hinv
      refine ⟨some ts, g1, [ts], i1, i2, fun t h => (by cases h; exact List.mem_cons_self _ _),
        fun h => (by cases h), ?_⟩
      intro st cls P strs Z nm
      by_cases hn : s.length + 1 < 0xFF
      · have hZ1 : layoutString (some s) ++ Z = (s.length + 1) :: (s ++ Z) := by
          simp only [layoutString]
          rw [if_pos hn]
          rfl
        rw [hZ1]
        unfold LoadString
        rw [bind_ok _ _ _ _ _ (LoadByte_mk g st cls P strs _ _ nm)]
        have h1 : ¬ (s.length + 1 = 0xFF) := by omega
        simp only [h1, if_false]
        rw [pure_bind_apply, if_neg (by omega), if_neg (by simpa using hs)]
        simp only [Nat.add_sub_cancel]
        exact e st cls P strs Z nm
      · have hZ1 : layoutString (some s) ++ Z =
            0xFF :: (bytesLE sizeof_size_t (s.length + 1) ++ (s ++ Z)) := by
          simp only [layoutString]
          rw [if_neg hn]
          simp
        rw [hZ1]
        unfold LoadString
        rw [bind_ok _ _ _ _ _ (LoadByte_mk g st cls P strs _ _ nm)]
        simp only [if_true]
        have hb8 := LoadBlock_mk g st cls P strs (bytesLE sizeof_size_t (s.length + 1))
          (s ++ Z) nm
        rw [bytesLE_length] at hb8
        rw [Load.bind_assoc, bind_ok _ _ _ _ _ hb8, pure_bind_apply]
        have hu : uintLE (bytesLE sizeof_size_t (s.length + 1)) = s.length + 1 := by
          rw [uintLE_bytesLE_mod, Nat.mod_eq_of_lt]
          unfold sizeof_size_t
          norm_num
          exact hl
        rw [hu, if_neg (by omega), if_neg (by simpa using hs)]
        simp only [Nat.add_sub_cancel]
        exact e st cls P strs Z nm

theorem isInt_count (n : Nat) (h : n < 2 ^ 31) : IsInt (n : Int) := by
  unfold IsInt
  constructor <;> omega

theorem getElem?_lt {α : Type} (P : List α) (f : Nat) (p : α) (h : P[f]? = some p) :
    f < P.length := by
  by_contra hcon
  rw [List.getElem?_eq_none (by omega)] at h
  cases h

theorem LoadInt_mk (g : global_State) (st : List TValue) (cls : List LClosure)
    (P : List Proto) (strs : List TString) (n : Int) (Z : List Nat) (nm : String) (hn : IsInt n) :
    LoadInt { g := g, stack := st, closures := cls, protos := P, strs := strs,
              Z := layoutInt n ++ Z, name := nm } =
      LoadResult.ok n
        { g := g, stack := st, closures := cls, protos := P, strs := strs, Z := Z, name := nm } :=
  LoadInt_layout _ n Z hn rfl

theorem LoadInteger_mk (g : global_State) (st : List TValue) (cls : List LClosure)
    (P : List Proto) (strs : List TString) (n : Int) (Z : List Nat) (nm : String)
    (hn : -2 ^ 63 ≤ n ∧ n < 2 ^ 63) :
    LoadInteger { g := g, stack := st, closures := cls, protos := P, strs := strs,
                  Z := layoutInteger n ++ Z, name := nm } =
      LoadResult.ok n
        { g := g, stack := st, closures := cls, protos := P, strs := strs, Z := Z, name := nm } :=
  LoadInteger_layout _ n Z hn rfl

theorem LoadNumber_mk (g : global_State) (st : List TValue) (cls : List LClosure)
    (P : List Proto) (strs : List TString) (x : Nat) (Z : List Nat) (nm : String)
    (hx : x < 2 ^ 64) :
    LoadNumber { g := g, stack := st, closures := cls, protos := P, strs := strs,
                 Z := bytesLE sizeof_lua_Number x ++ Z, name := nm } =
      LoadResult.ok x
        { g := g, stack := st, closures := cls, protos := P, strs := strs, Z := Z, name := nm } :=
  LoadNumber_layout _ x Z hx rfl

theorem LoadBlock_words (g : global_State) (st : List TValue) (cls : List LClosure)
    (P : List Proto) (strs : List TString) (w : Nat) (v : List Nat) (Z : List Nat) (nm : String) :
    LoadBlock (v.length * w)
        { g := g, stack := st, closures := cls, protos := P, strs := strs,
          Z := (v.map (bytesLE w)).flatten ++ Z, name := nm } =
      LoadResult.ok (v.map (bytesLE w)).flatten
        { g := g, stack := st, closures := cls, protos := P, strs := strs, Z := Z, name := nm } := by
  have h := LoadBlock_mk g st cls P strs (v.map (bytesLE w)).flatten Z nm
  rw [flatten_map_length] at h
  exact h

theorem flatten_ints_length (v : List Int) :
    (v.map layoutInt).flatten.length = v.length * sizeof_int := by
  induction v with
  | nil => simp
  | cons x v ih =>
    simp only [List.map_cons, List.flatten_cons, List.length_append, layoutInt_length, ih,
      List.length_cons]
    ring

theorem LoadBlock_ints (g : global_State) (st : List TValue) (cls : List LClosure)
    (P : List Proto) (strs : List TString) (v : List Int) (Z : List Nat) (nm : String) :
    LoadBlock (v.length * sizeof_int)
        { g := g, stack := st, closures := cls, protos := P, strs := strs,
          Z := (v.map layoutInt).flatten ++ Z, name := nm } =
      LoadResult.ok (v.map layoutInt).flatten
        { g := g, stack := st, closures := cls, protos := P, strs := strs, Z := Z, name := nm } := by
  have h := LoadBlock_mk g st cls P strs (v.map layoutInt).flatten Z nm
  rw [flatten_ints_length] at h
  exact h

theorem setProto_mk (g : global_State) (st : List TValue) (cls : List LClosure)
    (P : List Proto) (strs : List TString) (Z : List Nat) (nm : String) (f : Nat) (p : Proto)
    (upd : Proto → Proto) (hp : P[f]? = some p) :
    Load.setProto f upd
        { g := g, stack := st, closures := cls, protos := P, strs := strs, Z := Z, name := nm } =
      LoadResult.ok ()
        { g := g, stack := st, closures := cls, protos := P.set f (upd p), strs := strs, Z := Z,
          name := nm } :=
  setProto_ok _ f p upd hp

theorem getProto_mk (g : global_State) (st : List TValue) (cls : List LClosure)
    (P : List Proto) (strs : List TString) (Z : List Nat) (nm : String) (f : Nat) (p : Proto)
    (hp : P[f]? = some p) :
    Load.getProto f
        { g := g, stack := st, closures := cls, protos := P, strs := strs, Z := Z, name := nm } =
      LoadResult.ok p
        { g := g, stack := st, closures := cls, protos := P, strs := strs, Z := Z, name := nm } :=
  getProto_ok _ f p hp

theorem setk_mk (g : global_State) (st : List TValue) (cls : List LClosure)
    (P : List Proto) (strs : List TString) (Z : List Nat) (nm : String) (f i : Nat) (p : Proto)
    (o : TValue) (upd : TValue → TValue) (hp : P[f]? = some p) (ho : p.k[i]? = some o) :
    Load.setk f i upd
        { g := g, stack := st, closures := cls, protos := P, strs := strs, Z := Z, name := nm } =
      LoadResult.ok ()
        { g := g, stack := st, closures := cls,
          protos := P.set f { p with k := p.k.set i (upd o) }, strs := strs, Z := Z,
          name := nm } := by
  simp only [Load.setk, hp, ho]

theorem getElem?_mid {α : Type} (pre : List α) (x : α) (l : List α) :
    (pre ++ x :: l)[pre.length]? = some x := by
  rw [List.getElem?_append_right (le_refl _)]
  simp

theorem set_mid {α : Type} (pre : List α) (x y : α) (l : List α) :
    (pre ++ x :: l).set pre.length y = pre ++ y :: l := by
  simp

theorem LoadCode_mk (g : global_State) (st : List TValue) (cls : List LClosure)
    (P : List Proto) (strs : List TString) (Z : List Nat) (nm : String)
    (f : Nat) (p : Proto) (code : List Nat)
    (hp : P[f]? = some p) (hl : code.length < 2 ^ 31) (hc : ∀ c ∈ code, c < 2 ^ 32) :
    LoadCode f { g := g, stack := st, closures := cls, protos := P, strs := strs,
                 Z := layoutCode code ++ Z, name := nm } =
      LoadResult.ok ()
        { g := g, stack := st, closures := cls,
          protos := P.set f { p with code := code, sizecode := code.length },
          strs := strs, Z := Z, name := nm } := by
  have hlt := getElem?_lt P f p hp
  have hd := decodeVector_words sizeof_Instruction code (by
    intro c h
    have := hc c h
    unfold sizeof_Instruction
    norm_num
    exact this)
  simp only [LoadCode, layoutCode, List.append_assoc, bind_apply, LoadInt_mk _ _ _ _ _ _ _ _
    (isInt_count _ hl), newvector_ok, Load.setProto, hp, Int.toNat_ofNat, List.getElem?_set_self,
    List.length_set, hlt, LoadBlock_words, List.set_set, hd]

theorem set_same (P : List Proto) (f : Nat) (p : Proto) (hp : P[f]? = some p) :
    P.set f p = P := by
  apply List.ext_getElem?
  intro j
  by_cases hj : j = f
  · rw [hj, set_getElem? P f p p hp, hp]
  · rw [List.getElem?_set_ne (fun h => hj h.symm)]

theorem LoadUpvalues_loop_mk (g : global_State) (st : List TValue) (cls : List LClosure)
    (strs : List TString) (nm : String) (f : Nat) (ups : List (Nat × Nat)) :
    ∀ (P : List Proto) (Z : List Nat) (p : Proto) (pre : List Upvaldesc),
      P[f]? = some p → p.upvalues = pre ++ List.replicate ups.length (⟨none, 0, 0⟩ : Upvaldesc) →
      LoadUpvalues.loop f ups.length pre.length
          { g := g, stack := st, closures := cls, protos := P, strs := strs,
            Z := (ups.map (fun x => [x.1, x.2])).flatten ++ Z, name := nm } =
        LoadResult.ok ()
          { g := g, stack := st, closures := cls,
            protos := P.set f
              { p with upvalues := pre ++ ups.map (fun x => (⟨none, x.1, x.2⟩ : Upvaldesc)) },
            strs := strs, Z := Z, name := nm } := by
  induction ups with
  | nil =>
    intro P Z p pre hp hu
    simp only [List.length_nil, List.replicate_zero, List.append_nil] at hu
    simp only [List.map_nil, List.append_nil, ← hu]
    rw [set_same P f p hp]
    rfl
  | cons u ups ih =>
    intro P Z p pre hp hu
    simp only [List.length_cons, List.replicate_succ] at hu
    have h1 : p.upvalues[pre.length]? = some ⟨none, 0, 0⟩ := by rw [hu, getElem?_mid]
    have hih := ih
      (P.set f { p with upvalues := pre ++ ⟨none, u.1, u.2⟩ :: List.replicate ups.length ⟨none, 0, 0⟩ })
      Z { p with upvalues := pre ++ ⟨none, u.1, u.2⟩ :: List.replicate ups.length ⟨none, 0, 0⟩ }
      (pre ++ [⟨none, u.1, u.2⟩]) (set_getElem? P f p _ hp) (by simp)
    simp only [List.length_append, List.length_singleton, List.set_set, List.append_assoc,
      List.singleton_append] at hih
    have hlt := getElem?_lt P f p hp
    simp only [List.length_cons, LoadUpvalues.loop, List.map_cons, List.flatten_cons,
      List.cons_append, List.nil_append, bind_apply, LoadByte_mk, Load.getProto, Load.setProto, hp,
      hu, getElem?_mid, set_mid, List.getElem?_set_self, hlt, List.length_set, List.set_set, hih]

theorem LoadUpvalues_mk (g : global_State) (st : List TValue) (cls : List LClosure)
    (P : List Proto) (strs : List TString) (Z : List Nat) (nm : String)
    (f : Nat) (p : Proto) (ups : List (Nat × Nat))
    (hp : P[f]? = some p) (hl : ups.length < 2 ^ 31) :
    LoadUpvalues f { g := g, stack := st, closures := cls, protos := P, strs := strs,
                     Z := layoutUpvalues ups ++ Z, name := nm } =
      LoadResult.ok ()
        { g := g, stack := st, closures := cls,
          protos := P.set f
            { p with upvalues := ups.map (fun x => (⟨none, x.1, x.2⟩ : Upvaldesc)),
                     sizeupvalues := ups.length },
          strs := strs, Z := Z, name := nm } := by
  have hlt := getElem?_lt P f p hp
  have hloop := LoadUpvalues_loop_mk g st cls strs nm f ups
    (P.set f { p with upvalues := List.replicate ups.length ⟨none, 0, 0⟩,
                      sizeupvalues := ups.length }) Z
    { p with upvalues := List.replicate ups.length ⟨none, 0, 0⟩, sizeupvalues := ups.length } []
    (set_getElem? P f p _ hp) rfl
  simp only [List.length_nil, List.nil_append, List.set_set] at hloop
  simp only [LoadUpvalues, layoutUpvalues, List.append_assoc, bind_apply, LoadInt_mk _ _ _ _ _ _ _ _
    (isInt_count _ hl), newvector_ok, Load.setProto, hp, Int.toNat_ofNat, List.getElem?_set_self,
    List.length_set, hlt, List.set_set, List.map_replicate, hloop]

theorem RepConst_mono (strs strs1 : List TString) (h : ∀ ts ∈ strs, ts ∈ strs1) (c : ChunkConst)
    (o : TValue) (hr : RepConst strs c o) : RepConst strs1 c o := by
  cases c with
  | string s =>
    obtain ⟨ts, hts, h1, h2⟩ := hr
    exact ⟨ts, h ts hts, h1, h2⟩
  | nil => exact hr
  | boolean b => exact hr
  | float x => exact hr
  | integer i => exact hr
  | other t => exact hr

/-- One turn of the second loop of `LoadConstants`: the cell is written, or
left nil for a type code that is none of the six. -/
theorem LoadConstants_step (g : global_State) (c : ChunkConst) (hinv : CacheInv g)
    (hv : c.Valid) :
    ∃ g1 a o, CacheInv g1 ∧ RepConst a c o ∧
      ∀ (st : List TValue) (cls : List LClosure) (P : List Proto) (strs : List TString)
        (Z : List Nat) (nm : String) (f r i : Nat) (p : Proto),
        P[f]? = some p → p.k[i]? = some (setnilvalue {}) →
        LoadConstants.loop f (r + 1) i
            { g := g, stack := st, closures := cls, protos := P, strs := strs,
              Z := layoutConst c ++ Z, name := nm } =
          LoadConstants.loop f r (i + 1)
            { g := g1, stack := st, closures := cls,
              protos := P.set f { p with k := p.k.set i o }, strs := a ++ strs, Z := Z,
              name := nm } := by
  cases c with
  | nil =>
    refine ⟨g, [], setnilvalue {}, hinv, rfl, ?_⟩
    intro st cls P strs Z nm f r i p hp hk
    simp only [LoadConstants.loop, layoutConst, List.cons_append, List.nil_append, bind_apply,
      LoadByte_mk, if_true, Load.setk, hp, hk]
    rfl
  | boolean b =>
    refine ⟨g, [], setbvalue b, hinv, rfl, ?_⟩
    intro st cls P strs Z nm f r i p hp hk
    simp [LoadConstants.loop, layoutConst, bind_apply, LoadByte_mk, Load.setk, hp, hk,
      LUA_TBOOLEAN, LUA_TNIL]
  | float x =>
    refine ⟨g, [], setfltvalue x, hinv, rfl, ?_⟩
    intro st cls P strs Z nm f r i p hp hk
    simp [LoadConstants.loop, layoutConst, bind_apply, LoadByte_mk,
      LoadNumber_mk _ _ _ _ _ _ _ _ hv, Load.setk, hp, hk, LUA_TBOOLEAN, LUA_TNIL, LUA_TNUMFLT,
      LUA_TNUMBER]
  | integer x =>
    refine ⟨g, [], setivalue x, hinv, rfl, ?_⟩
    intro st cls P strs Z nm f r i p hp hk
    simp [LoadConstants.loop, layoutConst, bind_apply,
      LoadByte_mk, LoadInteger_mk _ _ _ _ _ _ _ _ hv, Load.setk, hp, hk,
      LUA_TBOOLEAN, LUA_TNIL, LUA_TNUMFLT, LUA_TNUMBER, LUA_TNUMINT]
  | other t =>
    refine ⟨g, [], setnilvalue {}, hinv, rfl, ?_⟩
    intro st cls P strs Z nm f r i p hp hk
    obtain ⟨_, h0, h1, h2, h3, h4, h5⟩ := hv
    have e1 : p.k.set i (setnilvalue {}) = p.k := by
      apply List.ext_getElem?
      intro j
      by_cases hj : j = i
      · rw [hj, List.getElem?_set_self (getElem?_lt _ _ _ hk), hk]
      · rw [List.getElem?_set_ne (fun h => hj h.symm)]
    have e2 : P.set f { p with k := p.k.set i (setnilvalue {}) } = P := by
      rw [e1]
      exact set_same P f p hp
    rw [e2]
    simp only [LoadConstants.loop, layoutConst, List.cons_append, List.nil_append, bind_apply,
      LoadByte_mk, h0, h1, h2, h3, h4, h5, if_false, or_self, pure_apply]
  | string s =>
    obtain ⟨ots, g1, a, i1, i2, i3, _, e⟩ := LoadString_mk g (some s) hinv hv
    cases ots with
    | none => exact absurd i2 (by simp [RepString])
    | some ts =>
      refine ⟨g1, a, setsvalue ts, i1, ⟨ts, i3 ts rfl, i2, rfl⟩, ?_⟩
      intro st cls P strs Z nm f r i p hp hk
      by_cases hs : s.length ≤ LUAI_MAXSHORTLEN
      · simp [LoadConstants.loop, layoutConst, hs, bind_apply, LoadByte_mk, e, Load.setk, hp, hk,
          LUA_TBOOLEAN, LUA_TNIL, LUA_TNUMFLT, LUA_TNUMBER, LUA_TNUMINT, LUA_TSHRSTR, LUA_TLNGSTR,
          LUA_TSTRING]
      · simp [LoadConstants.loop, layoutConst, hs, bind_apply, LoadByte_mk, e, Load.setk, hp, hk,
          LUA_TBOOLEAN, LUA_TNIL, LUA_TNUMFLT, LUA_TNUMBER, LUA_TNUMINT, LUA_TSHRSTR, LUA_TLNGSTR,
          LUA_TSTRING]

theorem LoadConstants_loop_mk (ks : List ChunkConst) :
    ∀ g : global_State, CacheInv g → (∀ c ∈ ks, c.Valid) →
    ∃ g1 a cells, CacheInv g1 ∧ List.Forall₂ (RepConst a) ks cells ∧
      ∀ (st : List TValue) (cls : List LClosure) (P : List Proto) (strs : List TString)
        (Z : List Nat) (nm : String) (f : Nat) (p : Proto) (pre : List TValue),
        P[f]? = some p → p.k = pre ++ List.replicate ks.length (setnilvalue {}) →
        LoadConstants.loop f ks.length pre.length
            { g := g, stack := st, closures := cls, protos := P, strs := strs,
              Z := (ks.map layoutConst).flatten ++ Z, name := nm } =
          LoadResult.ok ()
            { g := g1, stack := st, closures := cls,
              protos := P.set f { p with k := pre ++ cells }, strs := a ++ strs, Z := Z,
              name := nm } := by
  induction ks with
  | nil =>
    intro g hinv _
    refine ⟨g, [], [], hinv, List.Forall₂.nil, ?_⟩
    intro st cls P strs Z nm f p pre hp hk
    simp only [List.length_nil, List.replicate_zero, List.append_nil] at hk
    simp only [List.append_nil, ← hk, List.nil_append, List.map_nil, List.flatten_nil,
      List.length_nil]
    rw [set_same P f p hp]
    rfl
  | cons c ks ih =>
    intro g hinv hv
    obtain ⟨g2, a2, o, inv2, rep2, estep⟩ :=
      LoadConstants_step g c hinv (hv c (List.mem_cons_self _ _))
    obtain ⟨g1, a1, cells, inv1, rep1, eloop⟩ :=
      ih g2 inv2 (fun x hx => hv x (List.mem_cons_of_mem _ hx))
    refine ⟨g1, a1 ++ a2, o :: cells, inv1, List.Forall₂.cons ?_ ?_, ?_⟩
    · exact RepConst_mono a2 _ (fun ts h => List.mem_append_right _ h) c o rep2
    · exact rep1.imp (fun x y h => RepConst_mono a1 _ (fun ts h => List.mem_append_left _ h) x y h)
    · intro st cls P strs Z nm f p pre hp hk
      simp only [List.length_cons, List.replicate_succ] at hk
      have hk0 : p.k[pre.length]? = some (setnilvalue {}) := by rw [hk, getElem?_mid]
      simp only [List.length_cons, List.map_cons, List.flatten_cons, List.append_assoc]
      rw [estep st cls P strs _ nm f ks.length pre.length p hp hk0]
      have h2 := eloop st cls (P.set f { p with k := p.k.set pre.length o }) (a2 ++ strs) Z nm f
        { p with k := p.k.set pre.length o } (pre ++ [o]) (set_getElem? P f p _ hp) (by
          simp only [hk, set_mid, List.append_assoc, List.singleton_append])
      simp only [List.length_append, List.length_singleton, List.set_set, List.append_assoc,
        List.singleton_append] at h2
      exact h2

theorem LoadConstants_mk (ks : List ChunkConst) (g : global_State) (hinv : CacheInv g)
    (hl : ks.length < 2 ^ 31) (hv : ∀ c ∈ ks, c.Valid) :
    ∃ g1 a cells, CacheInv g1 ∧ List.Forall₂ (RepConst a) ks cells ∧
      ∀ (st : List TValue) (cls : List LClosure) (P : List Proto) (strs : List TString)
        (Z : List Nat) (nm : String) (f : Nat) (p : Proto),
        P[f]? = some p →
        LoadConstants f
            { g := g, stack := st, closures := cls, protos := P, strs := strs,
              Z := layoutConstants ks ++ Z, name := nm } =
          LoadResult.ok ()
            { g := g1, stack := st, closures := cls,
              protos := P.set f { p with k := cells, sizek := ks.length }, strs := a ++ strs,
              Z := Z, name := nm } := by
  obtain ⟨g1, a, cells, inv1, rep1, eloop⟩ := LoadConstants_loop_mk ks g hinv hv
  refine ⟨g1, a, cells, inv1, rep1, ?_⟩
  intro st cls P strs Z nm f p hp
  have hlt := getElem?_lt P f p hp
  have hloop := eloop st cls
    (P.set f { p with k := List.replicate ks.length (setnilvalue {}), sizek := ks.length })
    strs Z nm f
    { p with k := List.replicate ks.length (setnilvalue {}), sizek := ks.length } []
    (set_getElem? P f p _ hp) rfl
  simp only [List.length_nil, List.nil_append, List.set_set] at hloop
  simp only [LoadConstants, layoutConstants, List.append_assoc, bind_apply, LoadInt_mk _ _ _ _ _ _ _ _
    (isInt_count _ hl), newvector_ok, Load.setProto, hp, Int.toNat_ofNat, List.getElem?_set_self,
    List.length_set, hlt, List.set_set, List.map_replicate, hloop]

theorem LoadDebug_locvars_mk (vs : List ChunkLocVar) :
    ∀ g : global_State, CacheInv g →
    (∀ v ∈ vs, ChunkOptString v.varname ∧ IsInt v.startpc ∧ IsInt v.endpc) →
    ∃ g1 a lvs, CacheInv g1 ∧
      List.Forall₂ (fun v (lv : LocVar) => RepString v.varname lv.varname ∧
        lv.startpc = v.startpc ∧ lv.endpc = v.endpc) vs lvs ∧
      ∀ (st : List TValue) (cls : List LClosure) (P : List Proto) (strs : List TString)
        (Z : List Nat) (nm : String) (f : Nat) (p : Proto) (pre : List LocVar),
        P[f]? = some p → p.locvars = pre ++ List.replicate vs.length (⟨none, 0, 0⟩ : LocVar) →
        LoadDebug.locvars f vs.length pre.length
            { g := g, stack := st, closures := cls, protos := P, strs := strs,
              Z := (vs.map layoutLocVar).flatten ++ Z, name := nm } =
          LoadResult.ok ()
            { g := g1, stack := st, closures := cls,
              protos := P.set f { p with locvars := pre ++ lvs }, strs := a ++ strs, Z := Z,
              name := nm } := by
  induction vs with
  | nil =>
    intro g hinv _
    refine ⟨g, [], [], hinv, List.Forall₂.nil, ?_⟩
    intro st cls P strs Z nm f p pre hp hk
    simp only [List.length_nil, List.replicate_zero, List.append_nil] at hk
    simp only [List.append_nil, ← hk, List.nil_append, List.map_nil, List.flatten_nil,
      List.length_nil]
    rw [set_same P f p hp]
    rfl
  | cons v vs ih =>
    intro g hinv hv
    obtain ⟨hv1, hv2, hv3⟩ := hv v (List.mem_cons_self _ _)
    obtain ⟨ots, g2, a2, inv2, rep2, _, _, e⟩ := LoadString_mk g v.varname hinv hv1
    obtain ⟨g1, a1, lvs, inv1, rep1, eloop⟩ :=
      ih g2 inv2 (fun x hx => hv x (List.mem_cons_of_mem _ hx))
    refine ⟨g1, a1 ++ a2, ⟨ots, v.startpc, v.endpc⟩ :: lvs, inv1,
      List.Forall₂.cons ⟨rep2, rfl, rfl⟩ rep1, ?_⟩
    intro st cls P strs Z nm f p pre hp hk
    have hlt := getElem?_lt P f p hp
    simp only [List.length_cons, List.replicate_succ] at hk
    have h2 := eloop st cls
      (P.set f
        { p with locvars := pre ++ ⟨ots, v.startpc, v.endpc⟩ :: List.replicate vs.length ⟨none, 0, 0⟩ })
      (a2 ++ strs) Z nm f
      { p with locvars := pre ++ ⟨ots, v.startpc, v.endpc⟩ :: List.replicate vs.length ⟨none, 0, 0⟩ }
      (pre ++ [⟨ots, v.startpc, v.endpc⟩]) (set_getElem? P f p _ hp) (by simp)
    simp only [List.length_append, List.length_singleton, List.set_set, List.append_assoc,
      List.singleton_append] at h2
    simp only [List.length_cons, LoadDebug.locvars, List.map_cons, List.flatten_cons,
      layoutLocVar, List.append_assoc, bind_apply, e, Load.getProto, Load.setProto, hp, hk,
      getElem?_mid, set_mid, List.getElem?_set_self, hlt, List.length_set, List.set_set,
      LoadInt_mk _ _ _ _ _ _ _ _ hv2, LoadInt_mk _ _ _ _ _ _ _ _ hv3, h2]

theorem LoadDebug_upvalues_mk (names : List (Option (List Nat))) :
    ∀ g : global_State, CacheInv g → (∀ s ∈ names, ChunkOptString s) →
    ∃ g1 a onames, CacheInv g1 ∧ List.Forall₂ RepString names onames ∧
      ∀ (st : List TValue) (cls : List LClosure) (P : List Proto) (strs : List TString)
        (Z : List Nat) (nm : String) (f : Nat) (p : Proto) (pre post : List Upvaldesc),
        P[f]? = some p → p.upvalues = pre ++ post → names.length ≤ post.length →
        LoadDebug.upvalues f names.length pre.length
            { g := g, stack := st, closures := cls, protos := P, strs := strs,
              Z := (names.map layoutString).flatten ++ Z, name := nm } =
          LoadResult.ok ()
            { g := g1, stack := st, closures := cls,
              protos := P.set f { p with upvalues := pre ++
                (List.zipWith (fun n (u : Upvaldesc) => (⟨n, u.instack, u.idx⟩ : Upvaldesc))
                  onames post ++ post.drop onames.length) },
              strs := a ++ strs, Z := Z, name := nm } := by
  induction names with
  | nil =>
    intro g hinv _
    refine ⟨g, [], [], hinv, List.Forall₂.nil, ?_⟩
    intro st cls P strs Z nm f p pre post hp hk _
    simp only [List.zipWith_nil_left, List.length_nil, List.drop_zero, List.nil_append, ← hk,
      List.map_nil, List.flatten_nil]
    rw [set_same P f p hp]
    rfl
  | cons n names ih =>
    intro g hinv hv
    obtain ⟨ots, g2, a2, inv2, rep2, _, _, e⟩ :=
      LoadString_mk g n hinv (hv n (List.mem_cons_self _ _))
    obtain ⟨g1, a1, onames, inv1, rep1, eloop⟩ :=
      ih g2 inv2 (fun x hx => hv x (List.mem_cons_of_mem _ hx))
    refine ⟨g1, a1 ++ a2, ots :: onames, inv1, List.Forall₂.cons rep2 rep1, ?_⟩
    intro st cls P strs Z nm f p pre post hp hk hle
    have hlt := getElem?_lt P f p hp
    cases post with
    | nil => simp at hle
    | cons u post =>
      simp only [List.length_cons, Nat.add_le_add_iff_right] at hle
      have h2 := eloop st cls
        (P.set f { p with upvalues := pre ++ ⟨ots, u.instack, u.idx⟩ :: post })
        (a2 ++ strs) Z nm f
        { p with upvalues := pre ++ ⟨ots, u.instack, u.idx⟩ :: post }
        (pre ++ [⟨ots, u.instack, u.idx⟩]) post (set_getElem? P f p _ hp) (by simp) hle
      simp only [List.length_append, List.length_singleton, List.set_set, List.append_assoc,
        List.singleton_append] at h2
      simp only [List.length_cons, LoadDebug.upvalues, List.map_cons, List.flatten_cons,
        List.append_assoc, bind_apply, e, Load.getProto, Load.setProto, hp, hk,
        getElem?_mid, set_mid, List.getElem?_set_self, hlt, List.length_set, List.set_set,
        h2, List.zipWith_cons_cons, List.drop_succ_cons, List.cons_append]

theorem LoadDebug_mk (d : ChunkDebug) (nup : Nat) (g : global_State) (hinv : CacheInv g)
    (hv : d.Valid nup) (hnb : nup < 2 ^ 31) :
    ∃ g1 a lvs onames, CacheInv g1 ∧
      List.Forall₂ (fun v (lv : LocVar) => RepString v.varname lv.varname ∧
        lv.startpc = v.startpc ∧ lv.endpc = v.endpc) d.locvars lvs ∧
      List.Forall₂ RepString d.upvaluenames onames ∧
      ∀ (st : List TValue) (cls : List LClosure) (P : List Proto) (strs : List TString)
        (Z : List Nat) (nm : String) (f : Nat) (p : Proto),
        P[f]? = some p → p.upvalues.length = nup →
        LoadDebug f
            { g := g, stack := st, closures := cls, protos := P, strs := strs,
              Z := layoutDebug d ++ Z, name := nm } =
          LoadResult.ok ()
            { g := g1, stack := st, closures := cls,
              protos := P.set f
                { p with
                  lineinfo := d.lineinfo, sizelineinfo := d.lineinfo.length,
                  locvars := lvs, sizelocvars := d.locvars.length,
                  upvalues :=
                    List.zipWith (fun n (u : Upvaldesc) => (⟨n, u.instack, u.idx⟩ : Upvaldesc))
                      onames p.upvalues ++ p.upvalues.drop onames.length },
              strs := a ++ strs, Z := Z, name := nm } := by
  obtain ⟨hl1, hi1, hl2, hv2, hl3, hv3⟩ := hv
  obtain ⟨g2, a2, lvs, inv2, rep2, eloc⟩ := LoadDebug_locvars_mk d.locvars g hinv hv2
  obtain ⟨g1, a1, onames, inv1, rep1, eup⟩ := LoadDebug_upvalues_mk d.upvaluenames g2 inv2 hv3
  refine ⟨g1, a1 ++ a2, lvs, onames, inv1, rep2, rep1, ?_⟩
  intro st cls P strs Z nm f p hp hnup
  have hlt := getElem?_lt P f p hp
  have hd := decodeVector_ints d.lineinfo hi1
  have hl3i : d.upvaluenames.length < 2 ^ 31 := by omega
  have h2 := eloc st cls
    (P.set f { p with lineinfo := d.lineinfo, sizelineinfo := d.lineinfo.length,
                      locvars := List.replicate d.locvars.length ⟨none, 0, 0⟩,
                      sizelocvars := d.locvars.length })
    strs (layoutInt d.upvaluenames.length ++ ((d.upvaluenames.map layoutString).flatten ++ Z)) nm f
    { p with lineinfo := d.lineinfo, sizelineinfo := d.lineinfo.length,
             locvars := List.replicate d.locvars.length ⟨none, 0, 0⟩,
             sizelocvars := d.locvars.length } []
    (set_getElem? P f p _ hp) rfl
  simp only [List.length_nil, List.nil_append, List.set_set] at h2
  have h3 := eup st cls
    (P.set f { p with lineinfo := d.lineinfo, sizelineinfo := d.lineinfo.length,
                      locvars := lvs, sizelocvars := d.locvars.length })
    (a2 ++ strs) Z nm f
    { p with lineinfo := d.lineinfo, sizelineinfo := d.lineinfo.length,
             locvars := lvs, sizelocvars := d.locvars.length } [] p.upvalues
    (set_getElem? P f p _ hp) rfl (by omega)
  simp only [List.length_nil, List.nil_append, List.set_set, List.append_assoc] at h3
  simp only [LoadDebug, layoutDebug, List.append_assoc, bind_apply,
    LoadInt_mk _ _ _ _ _ _ _ _ (isInt_count _ hl1), LoadInt_mk _ _ _ _ _ _ _ _ (isInt_count _ hl2),
    LoadInt_mk _ _ _ _ _ _ _ _ (isInt_count _ hl3i),
    newvector_ok, Load.setProto, hp, Int.toNat_ofNat, List.getElem?_set_self,
    List.length_set, hlt, List.set_set, List.map_replicate, LoadBlock_ints, hd, h2, h3]

theorem RepHead_mono (strs strs1 : List TString) (h : ∀ ts ∈ strs, ts ∈ strs1)
    (psrc : Option TString) (hd : ChunkHead) (p : Proto) (hr : RepHead strs psrc hd p) :
    RepHead strs1 psrc hd p := by
  obtain ⟨h1, h2, h3, h4, h5, h6, h7, h8, h9, h10⟩ := hr
  exact ⟨h1, h2, h3, h4, h5, h6, h7, h8,
    h9.imp (fun x y hxy => RepConst_mono strs strs1 h x y hxy), h10⟩

mutual
/-- What a prototype and the prototypes below it are does not depend on the
prototypes allocated before it, nor on strings added later. -/
theorem Rep_stable (P P1 : List Proto) (strs strs1 : List TString)
    (hs : ∀ ts ∈ strs, ts ∈ strs1) :
    ∀ (r : ChunkFunction) (f : Nat) (psrc : Option TString),
      (∀ j, f ≤ j → j < P.length → P1[j]? = P[j]?) →
      Rep P strs f psrc r → Rep P1 strs1 f psrc r
  | ChunkFunction.mk h cs d, f, psrc, hP, hr => by
    unfold Rep at hr ⊢
    obtain ⟨p, hp, h1, h2, h3, h4⟩ := hr
    refine ⟨p, ?_, RepHead_mono strs strs1 hs psrc h p h1, h2, h3, ?_⟩
    · rw [hP f (le_refl _) (getElem?_lt P f p hp), hp]
    · exact RepList_stable P P1 strs strs1 hs cs f p.source p.p
        (fun j hj hlt => hP j (le_of_lt hj) hlt) h4
/-- The same for the prototypes nested in a prototype. -/
theorem RepList_stable (P P1 : List Proto) (strs strs1 : List TString)
    (hs : ∀ ts ∈ strs, ts ∈ strs1) :
    ∀ (rs : List ChunkFunction) (f : Nat) (src : Option TString) (l : List (Option Nat)),
      (∀ j, f < j → j < P.length → P1[j]? = P[j]?) →
      RepList P strs f src l rs → RepList P1 strs1 f src l rs
  | [], f, src, l, hP, hr => by
    cases l with
    | nil => unfold RepList; trivial
    | cons x l => cases x <;> simp [RepList] at hr
  | r :: rs, f, src, l, hP, hr => by
    cases l with
    | nil => simp [RepList] at hr
    | cons x l =>
      cases x with
      | none => simp [RepList] at hr
      | some c =>
        unfold RepList at hr ⊢
        obtain ⟨hfc, h1, h2⟩ := hr
        exact ⟨hfc, Rep_stable P P1 strs strs1 hs r c src
          (fun j hj hlt => hP j (lt_of_lt_of_le hfc hj) hlt) h1,
          RepList_stable P P1 strs strs1 hs rs f src l hP h2⟩
end

theorem layoutString_pos (os : Option (List Nat)) : 0 < (layoutString os).length := by
  cases os with
  | none => simp [layoutString]
  | some s =>
    simp only [layoutString]
    split <;> simp

theorem layoutFunction_length (h : ChunkHead) (cs : List ChunkFunction) (d : ChunkDebug) :
    (layoutProtos cs).length < (layoutFunction (ChunkFunction.mk h cs d)).length := by
  have := layoutString_pos h.source
  simp only [layoutFunction, layoutHead, List.length_append]
  omega

theorem take_set_succ {α : Type} (l : List α) (i : Nat) (x : α) (h : i < l.length) :
    (l.set i x).take (i + 1) = l.take i ++ [x] := by
  induction l generalizing i with
  | nil => simp at h
  | cons y l ih =>
    cases i with
    | zero => simp
    | succ i =>
      simp only [List.length_cons, Nat.add_lt_add_iff_right] at h
      simp only [List.set_cons_succ, List.take_succ_cons, List.cons_append, ih i h]

theorem names_instack (ons : List (Option TString)) :
    ∀ U : List Upvaldesc, ons.length ≤ U.length →
      (List.zipWith (fun n (u : Upvaldesc) => (⟨n, u.instack, u.idx⟩ : Upvaldesc)) ons U ++
        U.drop ons.length).map (fun u => (u.instack, u.idx)) =
      U.map (fun u => (u.instack, u.idx)) := by
  induction ons with
  | nil =>
    intro U _
    simp
  | cons n ons ih =>
    intro U hU
    cases U with
    | nil => simp at hU
    | cons u U =>
      simp only [List.length_cons, Nat.add_le_add_iff_right] at hU
      simp only [List.zipWith_cons_cons, List.length_cons, List.drop_succ_cons, List.cons_append,
        List.map_cons, ih U hU]

theorem names_name (ons : List (Option TString)) :
    ∀ U : List Upvaldesc, ons.length ≤ U.length →
      (List.zipWith (fun n (u : Upvaldesc) => (⟨n, u.instack, u.idx⟩ : Upvaldesc)) ons U ++
        U.drop ons.length).map (fun u => u.name) =
      ons ++ (U.drop ons.length).map (fun u => u.name) := by
  induction ons with
  | nil =>
    intro U _
    simp
  | cons n ons ih =>
    intro U hU
    cases U with
    | nil => simp at hU
    | cons u U =>
      simp only [List.length_cons, Nat.add_le_add_iff_right] at hU
      simp only [List.zipWith_cons_cons, List.length_cons, List.drop_succ_cons, List.cons_append,
        List.map_cons, ih U hU]

theorem names_length (ons : List (Option TString)) (U : List Upvaldesc)
    (h : ons.length ≤ U.length) :
    (List.zipWith (fun n (u : Upvaldesc) => (⟨n, u.instack, u.idx⟩ : Upvaldesc)) ons U ++
      U.drop ons.length).length = U.length := by
  have := congrArg List.length (names_instack ons U h)
  simpa using this

theorem LoadProtos_step (rec : Nat → Option TString → Load Unit) (g : global_State)
    (st : List TValue) (cls : List LClosure) (P : List Proto) (strs : List TString)
    (Z : List Nat) (nm : String) (f r i : Nat) (pf : Proto)
    (hp : P[f]? = some pf) (hi : i < pf.p.length) :
    LoadProtos.loop rec f (r + 1) i
        { g := g, stack := st, closures := cls, protos := P, strs := strs, Z := Z, name := nm } =
      (rec P.length pf.source >>= fun _ => LoadProtos.loop rec f r (i + 1))
        { g := (luaF_newproto g).2, stack := st, closures := cls,
          protos := (P ++ [(luaF_newproto g).1]).set f { pf with p := pf.p.set i (some P.length) },
          strs := strs, Z := Z, name := nm } := by
  have hlt := getElem?_lt P f pf hp
  have h1 : (P ++ [(luaF_newproto g).1])[f]? = some pf := by
    rw [List.getElem?_append_left hlt, hp]
  have e0 : Load.newproto
      { g := g, stack := st, closures := cls, protos := P, strs := strs, Z := Z, name := nm } =
      LoadResult.ok P.length
        { g := (luaF_newproto g).2, stack := st, closures := cls,
          protos := P ++ [(luaF_newproto g).1], strs := strs, Z := Z, name := nm } := rfl
  conv_lhs => unfold LoadProtos.loop
  rw [bind_ok _ _ _ _ _ e0]
  rw [bind_ok _ _ _ _ _ (getProto_mk _ _ _ _ _ _ _ f pf h1)]
  rw [if_pos hi]
  rw [bind_ok _ _ _ _ _ (setProto_mk _ _ _ _ _ _ _ f pf _ h1)]
  rw [bind_ok _ _ _ _ _ (getProto_mk _ _ _ _ _ _ _ f _ (set_getElem? _ f pf _ h1))]

theorem LoadProtos_head (rec : Nat → Option TString → Load Unit) (g : global_State)
    (st : List TValue) (cls : List LClosure) (P : List Proto) (strs : List TString)
    (Z : List Nat) (nm : String) (f n : Nat) (p : Proto)
    (hp : P[f]? = some p) (hn : n < 2 ^ 31) :
    LoadProtos rec f
        { g := g, stack := st, closures := cls, protos := P, strs := strs,
          Z := layoutInt n ++ Z, name := nm } =
      LoadProtos.loop rec f n 0
        { g := g, stack := st, closures := cls,
          protos := P.set f { p with p := List.replicate n none, sizep := n },
          strs := strs, Z := Z, name := nm } := by
  have hlt := getElem?_lt P f p hp
  conv_lhs => unfold LoadProtos
  simp only [bind_apply, LoadInt_mk _ _ _ _ _ _ _ _ (isInt_count _ hn), newvector_ok,
    Load.setProto, hp, Int.toNat_ofNat, List.getElem?_set_self, List.length_set, hlt,
    List.set_set, List.map_replicate]

theorem LoadFunction_head (n : Nat) (g g1 g2 : global_State) (a1 a2 : List TString)
    (ots : Option TString) (cells : List TValue) (h : ChunkHead) (psrc : Option TString)
    (hv : h.Valid)
    (e1 : ∀ (st : List TValue) (cls : List LClosure) (P : List Proto) (strs : List TString)
        (Z : List Nat) (nm : String),
        LoadString { g := g, stack := st, closures := cls, protos := P, strs := strs,
                     Z := layoutString h.source ++ Z, name := nm } =
          LoadResult.ok ots
            { g := g1, stack := st, closures := cls, protos := P, strs := a1 ++ strs, Z := Z,
              name := nm })
    (e2 : ∀ (st : List TValue) (cls : List LClosure) (P : List Proto) (strs : List TString)
        (Z : List Nat) (nm : String) (f : Nat) (p : Proto),
        P[f]? = some p →
        LoadConstants f
            { g := g1, stack := st, closures := cls, protos := P, strs := strs,
              Z := layoutConstants h.k ++ Z, name := nm } =
          LoadResult.ok ()
            { g := g2, stack := st, closures := cls,
              protos := P.set f { p with k := cells, sizek := h.k.length }, strs := a2 ++ strs,
              Z := Z, name := nm })
    (st : List TValue) (cls : List LClosure) (P : List Proto) (strs : List TString)
    (Z : List Nat) (nm : String) (f : Nat) (p0 : Proto) (hp : P[f]? = some p0) :
    LoadFunction (n + 1) f psrc
        { g := g, stack := st, closures := cls, protos := P, strs := strs,
          Z := layoutHead h ++ (layoutUpvalues h.upvalues ++ Z), name := nm } =
      (LoadProtos (LoadFunction n) f >>= fun _ => LoadDebug f)
        { g := g2, stack := st, closures := cls,
          protos := P.set f
            { p0 with
              source := ots.elim psrc some,
              linedefined := h.linedefined, lastlinedefined := h.lastlinedefined,
              numparams := h.numparams, is_vararg := h.is_vararg,
              maxstacksize := h.maxstacksize, code := h.code, sizecode := h.code.length,
              k := cells, sizek := h.k.length,
              upvalues := h.upvalues.map (fun x => (⟨none, x.1, x.2⟩ : Upvaldesc)),
              sizeupvalues := h.upvalues.length },
          strs := a2 ++ (a1 ++ strs), Z := Z, name := nm } := by
  obtain ⟨_, hld, hlld, _, _, _, hcl1, hcv, _, _, hul, _⟩ := hv
  have hlt := getElem?_lt P f p0 hp
  conv_lhs => unfold LoadFunction
  simp only [layoutHead, List.append_assoc, List.cons_append, List.nil_append, bind_apply, e1,
    Load.setProto, hp, List.getElem?_set_self, hlt, List.length_set, List.set_set]
  cases ots with
  | none =>
    simp only [if_true, bind_apply, Load.setProto, hp, List.getElem?_set_self, hlt,
      List.length_set, List.set_set,
      LoadInt_mk _ _ _ _ _ _ _ _ hld, LoadInt_mk _ _ _ _ _ _ _ _ hlld, LoadByte_mk]
    rw [LoadCode_mk _ _ _ _ _ _ _ f _ h.code (set_getElem? P f p0 _ hp) hcl1 hcv]
    simp only [List.set_set]
    rw [e2 _ _ _ _ _ _ f _ (set_getElem? P f p0 _ hp)]
    simp only [List.set_set]
    rw [LoadUpvalues_mk _ _ _ _ _ _ _ f _ h.upvalues (set_getElem? P f p0 _ hp) hul]
    simp only [List.set_set, Option.elim]
  | some t =>
    simp only [reduceCtorEq, if_false, pure_apply, bind_apply, Load.setProto, hp,
      List.getElem?_set_self, hlt,
      List.length_set, List.set_set,
      LoadInt_mk _ _ _ _ _ _ _ _ hld, LoadInt_mk _ _ _ _ _ _ _ _ hlld, LoadByte_mk]
    rw [LoadCode_mk _ _ _ _ _ _ _ f _ h.code (set_getElem? P f p0 _ hp) hcl1 hcv]
    simp only [List.set_set]
    rw [e2 _ _ _ _ _ _ f _ (set_getElem? P f p0 _ hp)]
    simp only [List.set_set]
    rw [LoadUpvalues_mk _ _ _ _ _ _ _ f _ h.upvalues (set_getElem? P f p0 _ hp) hul]
    simp only [List.set_set, Option.elim]

theorem Forall₂_replicate_none (m : Nat) :
    List.Forall₂ RepString (List.replicate m none) (List.replicate m none) := by
  induction m with
  | zero => exact List.Forall₂.nil
  | succ m ih => exact List.Forall₂.cons trivial ih

theorem Forall₂_append {α β : Type} {R : α → β → Prop} {a1 a2 : List α} {b1 b2 : List β}
    (h1 : List.Forall₂ R a1 b1) (h2 : List.Forall₂ R a2 b2) :
    List.Forall₂ R (a1 ++ a2) (b1 ++ b2) := by
  induction h1 with
  | nil => exact h2
  | cons h _ ih => exact List.Forall₂.cons h ih

mutual
/-- The round trip of a function record: on the bytes of a valid record,
`LoadFunction` succeeds, reads exactly these bytes, and fills the prototype
with the fields of the record; prototypes that were there before are
untouched. -/
theorem LoadFunction_layout :
    ∀ (r : ChunkFunction) (fuel : Nat) (g : global_State) (st : List TValue)
      (cls : List LClosure) (P : List Proto) (strs : List TString) (Z : List Nat) (nm : String)
      (f : Nat) (psrc : Option TString) (p0 : Proto),
      CacheInv g → r.Valid → (layoutFunction r).length < fuel → P[f]? = some p0 →
      ∃ g1 a P1,
        LoadFunction fuel f psrc
            { g := g, stack := st, closures := cls, protos := P, strs := strs,
              Z := layoutFunction r ++ Z, name := nm } =
          LoadResult.ok ()
            { g := g1, stack := st, closures := cls, protos := P1, strs := a ++ strs, Z := Z,
              name := nm } ∧
        CacheInv g1 ∧ P.length ≤ P1.length ∧
        (∀ j, j < P.length → j ≠ f → P1[j]? = P[j]?) ∧
        Rep P1 (a ++ strs) f psrc r
  | ChunkFunction.mk h cs d, fuel, g, st, cls, P, strs, Z, nm, f, psrc, p0, hinv, hv, hfuel,
      hp => by
    obtain ⟨n, rfl⟩ : ∃ n, fuel = n + 1 := ⟨fuel - 1, by omega⟩
    unfold ChunkFunction.Valid at hv
    obtain ⟨hvh, hcl, hvl, hvd⟩ := hv
    have hlt := getElem?_lt P f p0 hp
    obtain ⟨ots, g1, a1, inv1, rep1, _, hnone, e1⟩ := LoadString_mk g h.source hinv hvh.1
    obtain ⟨g2, a2, cells, inv2, rep2, e2⟩ :=
      LoadConstants_mk h.k g1 inv1 hvh.2.2.2.2.2.2.2.2.1 hvh.2.2.2.2.2.2.2.2.2.1
    have hfl := layoutFunction_length h cs d
    have eh := LoadFunction_head n g g1 g2 a1 a2 ots cells h psrc hvh e1 e2 st cls P strs
      (layoutInt cs.length ++ (layoutProtos cs ++ (layoutDebug d ++ Z))) nm f p0 hp
    generalize hpB : ({ p0 with
              source := ots.elim psrc some,
              linedefined := h.linedefined, lastlinedefined := h.lastlinedefined,
              numparams := h.numparams, is_vararg := h.is_vararg,
              maxstacksize := h.maxstacksize, code := h.code, sizecode := h.code.length,
              k := cells, sizek := h.k.length,
              upvalues := h.upvalues.map (fun x => (⟨none, x.1, x.2⟩ : Upvaldesc)),
              sizeupvalues := h.upvalues.length } : Proto) = pB at eh
    have ep := LoadProtos_head (LoadFunction n) g2 st cls (P.set f pB) (a2 ++ (a1 ++ strs))
      (layoutProtos cs ++ (layoutDebug d ++ Z)) nm f cs.length pB (set_getElem? P f p0 pB hp) hcl
    simp only [List.set_set] at ep
    obtain ⟨g3, a3, P3, l, e3, inv3, hlen3, hfr3, hpf3, rep3⟩ :=
      LoadProtos_loop_layout cs n g2 st cls
        (P.set f { pB with p := List.replicate cs.length none, sizep := cs.length })
        (a2 ++ (a1 ++ strs)) (layoutDebug d ++ Z) nm f 0
        { pB with p := List.replicate cs.length none, sizep := cs.length }
        inv2 hvl (by omega) (set_getElem? P f p0 _ hp) (by simp)
    simp only [List.take_zero, List.nil_append] at hpf3
    obtain ⟨g4, a4, lvs, onames, inv4, repl, repn, e4⟩ :=
      LoadDebug_mk d h.upvalues.length g3 inv3 hvd hvh.2.2.2.2.2.2.2.2.2.2.1
    have hupl : pB.upvalues.length = h.upvalues.length := by
      rw [← hpB]
      simp
    have e4a := e4 st cls P3 (a3 ++ (a2 ++ (a1 ++ strs))) Z nm f _ hpf3 hupl
    have hon : onames.length ≤ pB.upvalues.length := by
      rw [hupl, ← repn.length_eq]
      exact hvd.2.2.2.2.1
    have hchain := eh.trans ((bind_ok _ _ _ _ _ (ep.trans e3)).trans e4a)
    have hZ : layoutFunction (ChunkFunction.mk h cs d) ++ Z = layoutHead h ++
        (layoutUpvalues h.upvalues ++
          (layoutInt cs.length ++ (layoutProtos cs ++ (layoutDebug d ++ Z)))) := by
      simp only [layoutFunction, List.append_assoc]
    have hs : a4 ++ (a3 ++ (a2 ++ (a1 ++ strs))) = (a4 ++ (a3 ++ (a2 ++ a1))) ++ strs := by
      simp only [List.append_assoc]
    rw [← hZ, hs] at hchain
    refine ⟨g4, _, _, hchain, inv4, ?_, ?_, ?_⟩
    · simp only [List.length_set] at hlen3 ⊢
      exact hlen3
    · intro j hj hjf
      rw [List.getElem?_set_ne (fun h => hjf h.symm),
        hfr3 j (by simpa using hj) hjf, List.getElem?_set_ne (fun h => hjf h.symm)]
    · unfold Rep
      have hUn : ∀ u ∈ pB.upvalues, u.name = none := by
        rw [← hpB]
        intro u hu
        obtain ⟨x, _, rfl⟩ := List.mem_map.1 hu
        rfl
      have hUp : pB.upvalues.map (fun u => (u.instack, u.idx)) = h.upvalues := by
        rw [← hpB]
        simp only [List.map_map]
        conv_rhs => rw [← List.map_id h.upvalues]
        apply List.map_congr_left
        intro x _
        rfl
      have hsrc : (match h.source with
          | some s => ∃ ts, pB.source = some ts ∧ ts.contents = s
          | none => pB.source = psrc) := by
        rw [← hpB]
        cases hs0 : h.source with
        | none => simp only [hnone hs0, Option.elim]
        | some s =>
          rw [hs0] at rep1
          cases ots with
          | none => simp [RepString] at rep1
          | some ts => exact ⟨ts, rfl, rep1⟩
      have hfields : pB.linedefined = h.linedefined ∧ pB.lastlinedefined = h.lastlinedefined ∧
          pB.numparams = h.numparams ∧ pB.is_vararg = h.is_vararg ∧
          pB.maxstacksize = h.maxstacksize ∧ pB.code = h.code ∧ pB.sizecode = h.code.length ∧
          pB.k = cells ∧ pB.sizek = h.k.length ∧ pB.sizeupvalues = h.upvalues.length := by
        rw [← hpB]
        exact ⟨rfl, rfl, rfl, rfl, rfl, rfl, rfl, rfl, rfl, rfl⟩
      obtain ⟨f1, f2, f3, f4, f5, f6, f7, f8, f9, f10⟩ := hfields
      refine ⟨_, set_getElem? P3 f _ _ hpf3, ?_, ?_, rfl, ?_⟩
      · refine ⟨hsrc, f1, f2, f3, f4, f5, f6, f7, ?_, f9, ?_, f10⟩
        · show List.Forall₂ _ h.k pB.k
          rw [f8]
          exact rep2.imp (fun x y hxy => RepConst_mono a2 _ (fun ts hts => by
            simp only [List.mem_append]
            exact Or.inl (Or.inr (Or.inr (Or.inl hts)))) x y hxy)
        · show (List.zipWith _ onames pB.upvalues ++ pB.upvalues.drop onames.length).map _ = _
          rw [names_instack onames pB.upvalues hon, hUp]
      · refine ⟨rfl, rfl, repl, rfl, ?_⟩
        show List.Forall₂ RepString
          (d.upvaluenames ++ List.replicate
            ((List.zipWith _ onames pB.upvalues ++ pB.upvalues.drop onames.length).length -
              d.upvaluenames.length) none)
          ((List.zipWith _ onames pB.upvalues ++ pB.upvalues.drop onames.length).map _)
        rw [names_name onames pB.upvalues hon, names_length onames pB.upvalues hon]
        refine Forall₂_append repn ?_
        have e : (pB.upvalues.drop onames.length).map (fun u => u.name) =
            List.replicate (pB.upvalues.length - d.upvaluenames.length) none := by
          rw [repn.length_eq]
          apply List.eq_replicate_iff.2
          refine ⟨by simp, ?_⟩
          intro x hx
          obtain ⟨u, hu, rfl⟩ := List.mem_map.1 hx
          exact hUn u (List.mem_of_mem_drop hu)
        rw [e]
        exact Forall₂_replicate_none _
      · have rep3a : RepList P3 (a3 ++ (a2 ++ (a1 ++ strs))) f pB.source l cs := rep3
        have hsub : ∀ ts ∈ a3 ++ (a2 ++ (a1 ++ strs)), ts ∈ a4 ++ (a3 ++ (a2 ++ a1)) ++ strs := by
          intro ts hts
          simp only [List.mem_append] at hts ⊢
          rcases hts with h | h | h | h
          · exact Or.inl (Or.inr (Or.inl h))
          · exact Or.inl (Or.inr (Or.inr (Or.inl h)))
          · exact Or.inl (Or.inr (Or.inr (Or.inr h)))
          · exact Or.inr h
        show RepList _ _ f pB.source l cs
        exact RepList_stable P3 _ _ _ hsub cs f pB.source l
          (fun j hj _ => List.getElem?_set_ne (by omega)) rep3a
/-- The round trip of the nested function records. -/
theorem LoadProtos_loop_layout :
    ∀ (cs : List ChunkFunction) (fuel : Nat) (g : global_State) (st : List TValue)
      (cls : List LClosure) (P : List Proto) (strs : List TString) (Z : List Nat) (nm : String)
      (f i : Nat) (pf : Proto),
      CacheInv g → ChunkFunction.ValidList cs → (layoutProtos cs).length < fuel →
      P[f]? = some pf → pf.p.length = i + cs.length →
      ∃ g1 a P1 l,
        LoadProtos.loop (LoadFunction fuel) f cs.length i
            { g := g, stack := st, closures := cls, protos := P, strs := strs,
              Z := layoutProtos cs ++ Z, name := nm } =
          LoadResult.ok ()
            { g := g1, stack := st, closures := cls, protos := P1, strs := a ++ strs, Z := Z,
              name := nm } ∧
        CacheInv g1 ∧ P.length ≤ P1.length ∧
        (∀ j, j < P.length → j ≠ f → P1[j]? = P[j]?) ∧
        P1[f]? = some { pf with p := pf.p.take i ++ l } ∧
        RepList P1 (a ++ strs) f pf.source l cs
  | [], fuel, g, st, cls, P, strs, Z, nm, f, i, pf, hinv, hv, hfuel, hp, hlen => by
    refine ⟨g, [], P, [], rfl, hinv, le_refl _, fun _ _ _ => rfl, ?_, ?_⟩
    · simp only [List.length_nil, Nat.add_zero] at hlen
      rw [List.append_nil, ← hlen, List.take_length, hp]
    · unfold RepList
      trivial
  | r :: rs, fuel, g, st, cls, P, strs, Z, nm, f, i, pf, hinv, hv, hfuel, hp, hlen => by
    unfold ChunkFunction.ValidList at hv
    obtain ⟨hvr, hvrs⟩ := hv
    have hlt := getElem?_lt P f pf hp
    simp only [List.length_cons] at hlen
    have hi : i < pf.p.length := by omega
    have hfr : (layoutFunction r).length < fuel ∧ (layoutProtos rs).length < fuel := by
      simp only [layoutProtos, List.length_append] at hfuel
      omega
    have estep := LoadProtos_step (LoadFunction fuel) g st cls P strs
      (layoutFunction r ++ (layoutProtos rs ++ Z)) nm f rs.length i pf hp hi
    have hpf0 : (P ++ [(luaF_newproto g).1])[f]? = some pf := by
      rw [List.getElem?_append_left hlt, hp]
    have hc : ((P ++ [(luaF_newproto g).1]).set f
        { pf with p := pf.p.set i (some P.length) })[P.length]? = some (luaF_newproto g).1 := by
      rw [List.getElem?_set_ne (by omega), List.getElem?_append_right (le_refl _)]
      simp
    obtain ⟨g1, a1, P1, e1, inv1, hlen1, hfr1, rep1⟩ :=
      LoadFunction_layout r fuel (luaF_newproto g).2 st cls _ strs (layoutProtos rs ++ Z) nm
        P.length pf.source _ (newproto_inv g hinv) hvr hfr.1 hc
    simp only [List.length_set, List.length_append, List.length_singleton] at hlen1 hfr1
    have hpf1 : P1[f]? = some { pf with p := pf.p.set i (some P.length) } := by
      rw [hfr1 f (by omega) (by omega)]
      exact set_getElem? _ f pf _ hpf0
    obtain ⟨g2, a2, P2, l2, e2, inv2, hlen2, hfr2, hpf2, rep2⟩ :=
      LoadProtos_loop_layout rs fuel g1 st cls P1 (a1 ++ strs) Z nm f (i + 1) _ inv1 hvrs hfr.2
        hpf1 (by simp only [List.length_set]; omega)
    have hs : a2 ++ (a1 ++ strs) = (a2 ++ a1) ++ strs := by simp only [List.append_assoc]
    rw [hs] at rep2
    refine ⟨g2, a2 ++ a1, P2, some P.length :: l2, ?_, inv2, by omega, ?_, ?_, ?_⟩
    · simp only [List.length_cons, layoutProtos, List.append_assoc]
      rw [estep, bind_ok _ _ _ _ _ e1]
      exact e2
    · intro j hj hjf
      rw [hfr2 j (by omega) hjf, hfr1 j (by omega) (by omega),
        List.getElem?_set_ne (fun h => hjf h.symm), List.getElem?_append_left hj]
    · rw [hpf2]
      simp only [take_set_succ pf.p i (some P.length) hi, List.append_assoc,
        List.singleton_append]
    · unfold RepList
      refine ⟨hlt, ?_, rep2⟩
      exact Rep_stable P1 P2 (a1 ++ strs) (a2 ++ a1 ++ strs)
        (fun ts h => by
          rw [List.append_assoc]
          exact List.mem_append_right _ h) r P.length pf.source
        (fun j hj hjl => hfr2 j hjl (by omega)) rep1
end

/-- The prototype of a record has the source the record names, else the
source of the enclosing function. -/
theorem Rep_head (P : List Proto) (strs : List TString) (f : Nat) (psrc : Option TString)
    (r : ChunkFunction) (hr : Rep P strs f psrc r) :
    ∃ p, P[f]? = some p ∧
      (∀ s, r.head.source = some s → ∃ ts, p.source = some ts ∧ ts.contents = s) ∧
      (r.head.source = none → p.source = psrc) ∧
      p.source.map TString.contents = r.head.source.or (psrc.map TString.contents) ∧
      RepList P strs f p.source p.p r.p := by
  cases r with
  | mk h cs d =>
    unfold Rep at hr
    obtain ⟨p, hp, h1, _, _, h4⟩ := hr
    refine ⟨p, hp, ?_, ?_, ?_, h4⟩
    · intro s hs
      have := h1.1
      simp only [ChunkFunction.head] at hs
      rw [hs] at this
      exact this
    · intro hs
      have := h1.1
      simp only [ChunkFunction.head] at hs
      rw [hs] at this
      exact this
    · have := h1.1
      simp only [ChunkFunction.head]
      cases hs : h.source with
      | none =>
        rw [hs] at this
        simp [this]
      | some s =>
        rw [hs] at this
        obtain ⟨ts, e1, e2⟩ := this
        simp [e1, e2]

/-- The nested prototypes and the nested records correspond index by index. -/
theorem RepList_child (P : List Proto) (strs : List TString) (f : Nat) (src : Option TString) :
    ∀ (rs : List ChunkFunction) (l : List (Option Nat)) (i : Nat) (rc : ChunkFunction),
      RepList P strs f src l rs → rs[i]? = some rc →
      ∃ c, l[i]? = some (some c) ∧ Rep P strs c src rc
  | [], l, i, rc, _, hi => by simp at hi
  | r :: rs, l, i, rc, hr, hi => by
    cases l with
    | nil => simp [RepList] at hr
    | cons x l =>
      cases x with
      | none => simp [RepList] at hr
      | some c =>
        unfold RepList at hr
        obtain ⟨_, h1, h2⟩ := hr
        cases i with
        | zero =>
          simp at hi
          subst hi
          exact ⟨c, by simp, h1⟩
        | succ i =>
          simp at hi
          obtain ⟨c1, e1, e2⟩ := RepList_child P strs f src rs l i rc h2 hi
          exact ⟨c1, by simpa using e1, e2⟩

/-- Every record reached along a path is loaded in the prototype reached
along the same path, below a function whose source `q` is the source of the
prototype one step up the path. -/
theorem Rep_path (P : List Proto) (strs : List TString) :
    ∀ (path : List Nat) (f : Nat) (psrc : Option TString) (r rc : ChunkFunction),
      Rep P strs f psrc r → r.recordAt path = some rc →
      ∃ c q, protoAt P f path = some c ∧ Rep P strs c q rc ∧
        rc.head.source.or (q.map TString.contents) =
          r.sourceAt (psrc.map TString.contents) path ∧
        (path = [] → q = psrc) ∧
        (∀ path0 i, path = path0 ++ [i] →
          ∃ c0 p0, protoAt P f path0 = some c0 ∧ P[c0]? = some p0 ∧ q = p0.source)
  | [], f, psrc, r, rc, hr, hi => by
    simp only [ChunkFunction.recordAt, Option.some.injEq] at hi
    subst hi
    refine ⟨f, psrc, rfl, hr, rfl, fun _ => rfl, ?_⟩
    intro path0 i h
    simp at h
  | i :: path, f, psrc, r, rc, hr, hi => by
    obtain ⟨p, hp, _, _, hsrc, hl⟩ := Rep_head P strs f psrc r hr
    simp only [ChunkFunction.recordAt] at hi
    cases hri : r.p[i]? with
    | none => rw [hri] at hi; simp at hi
    | some r1 =>
      rw [hri] at hi
      simp only at hi
      obtain ⟨c1, e1, hr1⟩ := RepList_child P strs f p.source r.p p.p i r1 hl hri
      obtain ⟨c, q, h1, h2, h3, h4, h5⟩ := Rep_path P strs path c1 p.source r1 rc hr1 hi
      have hstep : ∀ rest, protoAt P f (i :: rest) = protoAt P c1 rest := by
        intro rest
        simp only [protoAt, hp, e1]
      refine ⟨c, q, ?_, h2, ?_, ?_, ?_⟩
      · rw [hstep]; exact h1
      · rw [h3, hsrc]
        simp only [ChunkFunction.sourceAt, hri]
      · intro h; simp at h
      · intro path0 j h
        cases path0 with
        | nil =>
          simp at h
          exact ⟨f, p, rfl, hp, h4 h.2⟩
        | cons k path0 =>
          simp at h
          obtain ⟨c0, p0, e3, e4, e5⟩ := h5 path0 j h.2
          refine ⟨c0, p0, ?_, e4, e5⟩
          rw [← h.1, hstep]; exact e3

/-- The round trip of a chunk: after the header and the byte with the number
of upvalues, on the bytes of a valid record, `luaU_undump` returns the new
closure, has read exactly the record, and the new prototype is the record. -/
theorem undump_layout (S : LoadState) (name : String) (nup : Nat) (r : ChunkFunction)
    (rest : List Nat) (hinv : CacheInv S.g) (hv : r.Valid) (hS : IsBytes S.Z)
    (hZ : S.Z = luac_header ++ nup :: (layoutFunction r ++ rest)) :
    ∃ S1, luaU_undump S name = LoadResult.ok S.closures.length S1 ∧ S1.Z = rest ∧
      S1.stack = S.stack ++ [setclLvalue (luaF_newLclosure { g := S.g } nup).1] ∧
      Rep S1.protos S1.strs S.protos.length none r := by
  have hlen : (layoutFunction r).length < S.Z.length + 1 := by
    rw [hZ]
    simp only [List.length_append, List.length_cons]
    omega
  have hinv1 : CacheInv (luaF_newproto (luaF_newLclosure { g := S.g } nup).2.g).2 :=
    newproto_inv _ (alloc_inv S.g hinv)
  obtain ⟨g1, a, P1, e, _, _, _, hrep⟩ :=
    LoadFunction_layout r (S.Z.length + 1) _ (S.stack ++ [setclLvalue (luaF_newLclosure { g := S.g } nup).1])
      (S.closures ++ [{ (luaF_newLclosure { g := S.g } nup).1 with p := some S.protos.length }])
      (S.protos ++ [(luaF_newproto (luaF_newLclosure { g := S.g } nup).2.g).1]) S.strs rest
      (luaU_undump.name name) S.protos.length none
      (luaF_newproto (luaF_newLclosure { g := S.g } nup).2.g).1 hinv1 hv hlen (by simp)
  have hrun : luaU_undump S name = LoadResult.ok S.closures.length
      { g := g1, stack := S.stack ++ [setclLvalue (luaF_newLclosure { g := S.g } nup).1],
        closures := S.closures ++
          [{ (luaF_newLclosure { g := S.g } nup).1 with p := some S.protos.length }],
        protos := P1, strs := a ++ S.strs, Z := rest, name := luaU_undump.name name } := by
    unfold luaU_undump
    rw [steps_after_header _ { S with name := luaU_undump.name name } nup
      (layoutFunction r ++ rest) hS hZ]
    exact (bind_ok _ _ _ _ _ e).trans (by simp [pure_apply])
  exact ⟨_, hrun, rfl, rfl, hrep⟩

/-! ## Theorems: lundump.c, function records without nested functions -/

theorem newvector_nonneg (S : LoadState) (n : Int) (h : 0 ≤ n) :
    luaM_newvector n S = LoadResult.ok () S := by
  unfold luaM_newvector
  rw [if_neg (by omega)]

/-- `LoadConstants` on an array of no constant. -/
theorem LoadConstants_none (g : global_State) (st : List TValue) (cls : List LClosure)
    (P : List Proto) (strs : List TString) (Z : List Nat) (nm : String) (f : Nat) (p : Proto)
    (hp : P[f]? = some p) :
    LoadConstants f
        { g := g, stack := st, closures := cls, protos := P, strs := strs,
          Z := layoutInt 0 ++ Z, name := nm } =
      LoadResult.ok ()
        { g := g, stack := st, closures := cls,
          protos := P.set f { p with k := [], sizek := 0 }, strs := strs, Z := Z,
          name := nm } := by
  have hlt := getElem?_lt P f p hp
  have h0 : IsInt 0 := by unfold IsInt; constructor <;> norm_num
  simp only [LoadConstants, bind_apply, LoadInt_mk _ _ _ _ _ _ _ _ h0,
    newvector_nonneg _ 0 (le_refl _),
    Load.setProto, hp, List.getElem?_set_self, List.length_set, hlt, List.set_set,
    LoadConstants.loop, pure_apply, Int.toNat_zero, List.replicate_zero, List.map_nil]

/-- `LoadConstants` on an array of one constant whose type code `2` is none
of the six: the cell keeps the nil of the first loop. -/
theorem LoadConstants_other (g : global_State) (st : List TValue) (cls : List LClosure)
    (P : List Proto) (strs : List TString) (Z : List Nat) (nm : String) (f : Nat) (p : Proto)
    (hp : P[f]? = some p) :
    LoadConstants f
        { g := g, stack := st, closures := cls, protos := P, strs := strs,
          Z := layoutInt 1 ++ (2 :: Z), name := nm } =
      LoadResult.ok ()
        { g := g, stack := st, closures := cls,
          protos := P.set f { p with k := [{ tt_ := LUA_TNIL }], sizek := 1 }, strs := strs,
          Z := Z, name := nm } := by
  have hlt := getElem?_lt P f p hp
  have h1 : IsInt 1 := by unfold IsInt; constructor <;> norm_num
  have t1 : ¬ (2 = LUA_TNIL) := by decide
  have t2 : ¬ (2 = LUA_TBOOLEAN) := by decide
  have t3 : ¬ (2 = LUA_TNUMFLT) := by decide
  have t4 : ¬ (2 = LUA_TNUMINT) := by decide
  have t5 : ¬ (2 = LUA_TSHRSTR ∨ 2 = LUA_TLNGSTR) := by decide
  have e1 : (1 : Int).toNat = 1 := rfl
  simp only [LoadConstants, bind_apply, LoadInt_mk _ _ _ _ _ _ _ _ h1,
    newvector_nonneg _ 1 (by norm_num),
    Load.setProto, hp, List.getElem?_set_self, List.length_set, hlt, List.set_set,
    LoadConstants.loop, pure_apply, e1, List.replicate_one, List.map_cons, List.map_nil,
    LoadByte_mk, t1, t2, t3, t4, t5, if_false]
  rfl

/-- `LoadProtos` on an array of no nested function. -/
theorem LoadProtos_none (rec : Nat → Option TString → Load Unit) (g : global_State)
    (st : List TValue) (cls : List LClosure) (P : List Proto) (strs : List TString)
    (Z : List Nat) (nm : String) (f : Nat) (p : Proto) (hp : P[f]? = some p) :
    LoadProtos rec f
        { g := g, stack := st, closures := cls, protos := P, strs := strs,
          Z := layoutInt 0 ++ Z, name := nm } =
      LoadResult.ok ()
        { g := g, stack := st, closures := cls,
          protos := P.set f { p with p := [], sizep := 0 }, strs := strs, Z := Z,
          name := nm } := by
  have h := LoadProtos_head rec g st cls P strs Z nm f 0 p hp (by norm_num)
  exact h

/-- `LoadDebug` on a debug section with no line, no local variable and no
upvalue name. -/
theorem LoadDebug_none (g : global_State) (st : List TValue) (cls : List LClosure)
    (P : List Proto) (strs : List TString) (Z : List Nat) (nm : String) (f : Nat) (p : Proto)
    (hp : P[f]? = some p) :
    LoadDebug f
        { g := g, stack := st, closures := cls, protos := P, strs := strs,
          Z := layoutInt 0 ++ (layoutInt 0 ++ (layoutInt 0 ++ Z)), name := nm } =
      LoadResult.ok ()
        { g := g, stack := st, closures := cls,
          protos := P.set f { p with lineinfo := [], sizelineinfo := 0, locvars := [],
                                     sizelocvars := 0 },
          strs := strs, Z := Z, name := nm } := by
  have hlt := getElem?_lt P f p hp
  have h0 : IsInt 0 := by unfold IsInt; constructor <;> norm_num
  have hb := LoadBlock_mk g st cls (P.set f { p with lineinfo := [], sizelineinfo := 0 }) strs []
    (layoutInt 0 ++ (layoutInt 0 ++ Z)) nm
  simp only [List.length_nil, List.nil_append] at hb
  simp only [LoadDebug, bind_apply, LoadInt_mk _ _ _ _ _ _ _ _ h0,
    newvector_nonneg _ 0 (le_refl _),
    Load.setProto, hp, List.getElem?_set_self, List.length_set, hlt, List.set_set,
    LoadDebug.locvars, LoadDebug.upvalues, pure_apply, Int.toNat_zero, List.replicate_zero,
    List.map_nil, Nat.zero_mul, hb, decodeVector]

/-- `LoadDebug` on a debug section with no line, no local variable and one
upvalue name, absent, for a prototype with no upvalue descriptor: the store
of the name is outside the array. -/
theorem LoadDebug_overrun (g : global_State) (st : List TValue) (cls : List LClosure)
    (P : List Proto) (strs : List TString) (Z : List Nat) (nm : String) (f : Nat) (p : Proto)
    (hp : P[f]? = some p) (hu : p.upvalues = []) :
    LoadDebug f
        { g := g, stack := st, closures := cls, protos := P, strs := strs,
          Z := layoutInt 0 ++ (layoutInt 0 ++ (layoutInt 1 ++ (0 :: Z))), name := nm } =
      LoadResult.undefined
        { g := g, stack := st, closures := cls,
          protos := P.set f { p with lineinfo := [], sizelineinfo := 0, locvars := [],
                                     sizelocvars := 0 },
          strs := strs, Z := Z, name := nm } := by
  have hlt := getElem?_lt P f p hp
  have h0 : IsInt 0 := by unfold IsInt; constructor <;> norm_num
  have h1 : IsInt 1 := by unfold IsInt; constructor <;> norm_num
  have e1 : (1 : Int).toNat = 1 := rfl
  have hb := LoadBlock_mk g st cls (P.set f { p with lineinfo := [], sizelineinfo := 0 }) strs []
    (layoutInt 0 ++ (layoutInt 1 ++ (0 :: Z))) nm
  simp only [List.length_nil, List.nil_append, hu] at hb
  simp only [LoadDebug, bind_apply, LoadInt_mk _ _ _ _ _ _ _ _ h0, LoadInt_mk _ _ _ _ _ _ _ _ h1,
    newvector_nonneg _ 0 (le_refl _),
    Load.setProto, Load.getProto, hp, List.getElem?_set_self, List.length_set, hlt,
    List.set_set, LoadDebug.locvars, LoadDebug.upvalues, pure_apply, Int.toNat_zero,
    List.replicate_zero, List.map_nil, Nat.zero_mul, hb, decodeVector, e1, LoadString_absent,
    hu, List.getElem?_nil, Load.undefined]

/-- A function record with no source, no nested function and an empty debug
section, whose constants `LoadConstants` loads into `cells`: the prototype
`LoadFunction` leaves. -/
theorem LoadFunction_leaf (n : Nat) (g g2 : global_State) (a2 : List TString)
    (cells : List TValue) (h : ChunkHead) (psrc : Option TString) (hv : h.Valid)
    (hsrc : h.source = none)
    (e2 : ∀ (st : List TValue) (cls : List LClosure) (P : List Proto) (strs : List TString)
        (Z : List Nat) (nm : String) (f : Nat) (p : Proto),
        P[f]? = some p →
        LoadConstants f
            { g := g, stack := st, closures := cls, protos := P, strs := strs,
              Z := layoutConstants h.k ++ Z, name := nm } =
          LoadResult.ok ()
            { g := g2, stack := st, closures := cls,
              protos := P.set f { p with k := cells, sizek := h.k.length }, strs := a2 ++ strs,
              Z := Z, name := nm })
    (st : List TValue) (cls : List LClosure) (P : List Proto) (strs : List TString)
    (Z : List Nat) (nm : String) (f : Nat) (p0 : Proto) (hp : P[f]? = some p0) :
    LoadFunction (n + 1) f psrc
        { g := g, stack := st, closures := cls, protos := P, strs := strs,
          Z := layoutHead h ++ (layoutUpvalues h.upvalues ++
            (layoutInt 0 ++ (layoutInt 0 ++ (layoutInt 0 ++ (layoutInt 0 ++ Z))))),
          name := nm } =
      LoadResult.ok ()
        { g := g2, stack := st, closures := cls,
          protos := P.set f
            { p0 with
              source := psrc,
              linedefined := h.linedefined, lastlinedefined := h.lastlinedefined,
              numparams := h.numparams, is_vararg := h.is_vararg,
              maxstacksize := h.maxstacksize, code := h.code, sizecode := h.code.length,
              k := cells, sizek := h.k.length,
              upvalues := h.upvalues.map (fun x => (⟨none, x.1, x.2⟩ : Upvaldesc)),
              sizeupvalues := h.upvalues.length,
              p := [], sizep := 0, lineinfo := [], sizelineinfo := 0, locvars := [],
              sizelocvars := 0 },
          strs := a2 ++ strs, Z := Z, name := nm } := by
  have e1 : ∀ (st : List TValue) (cls : List LClosure) (P : List Proto) (strs : List TString)
      (Z : List Nat) (nm : String),
      LoadString { g := g, stack := st, closures := cls, protos := P, strs := strs,
                   Z := layoutString h.source ++ Z, name := nm } =
        LoadResult.ok none
          { g := g, stack := st, closures := cls, protos := P, strs := [] ++ strs, Z := Z,
            name := nm } := by
    intro st cls P strs Z nm
    rw [hsrc]
    exact LoadString_absent g st cls P strs Z nm
  have hh := LoadFunction_head n g g g2 [] a2 none cells h psrc hv e1 e2 st cls P strs
    (layoutInt 0 ++ (layoutInt 0 ++ (layoutInt 0 ++ (layoutInt 0 ++ Z)))) nm f p0 hp
  rw [hh]
  have hq := set_getElem? P f p0
    { p0 with
      source := (none : Option TString).elim psrc some,
      linedefined := h.linedefined, lastlinedefined := h.lastlinedefined,
      numparams := h.numparams, is_vararg := h.is_vararg,
      maxstacksize := h.maxstacksize, code := h.code, sizecode := h.code.length,
      k := cells, sizek := h.k.length,
      upvalues := h.upvalues.map (fun x => (⟨none, x.1, x.2⟩ : Upvaldesc)),
      sizeupvalues := h.upvalues.length } hp
  rw [bind_ok _ _ _ _ _ (LoadProtos_none (LoadFunction n) g2 st cls _ _ _ nm f _ hq)]
  rw [LoadDebug_none g2 st cls _ _ Z nm f _ (set_getElem? _ f _ _ hq)]
  simp only [List.set_set, List.nil_append, Option.elim]

/-- The same record with one upvalue name, absent, in its debug section and
no upvalue descriptor: the store of the name is outside the array. -/
theorem LoadFunction_leaf_overrun (n : Nat) (g g2 : global_State) (a2 : List TString)
    (cells : List TValue) (h : ChunkHead) (psrc : Option TString) (hv : h.Valid)
    (hsrc : h.source = none) (hup : h.upvalues = [])
    (e2 : ∀ (st : List TValue) (cls : List LClosure) (P : List Proto) (strs : List TString)
        (Z : List Nat) (nm : String) (f : Nat) (p : Proto),
        P[f]? = some p →
        LoadConstants f
            { g := g, stack := st, closures := cls, protos := P, strs := strs,
              Z := layoutConstants h.k ++ Z, name := nm } =
          LoadResult.ok ()
            { g := g2, stack := st, closures := cls,
              protos := P.set f { p with k := cells, sizek := h.k.length }, strs := a2 ++ strs,
              Z := Z, name := nm })
    (st : List TValue) (cls : List LClosure) (P : List Proto) (strs : List TString)
    (Z : List Nat) (nm : String) (f : Nat) (p0 : Proto) (hp : P[f]? = some p0) :
    LoadFunction (n + 1) f psrc
        { g := g, stack := st, closures := cls, protos := P, strs := strs,
          Z := layoutHead h ++ (layoutUpvalues h.upvalues ++
            (layoutInt 0 ++ (layoutInt 0 ++ (layoutInt 0 ++ (layoutInt 1 ++ (0 :: Z)))))),
          name := nm } =
      LoadResult.undefined
        { g := g2, stack := st, closures := cls,
          protos := P.set f
            { p0 with
              source := psrc,
              linedefined := h.linedefined, lastlinedefined := h.lastlinedefined,
              numparams := h.numparams, is_vararg := h.is_vararg,
              maxstacksize := h.maxstacksize, code := h.code, sizecode := h.code.length,
              k := cells, sizek := h.k.length,
              upvalues := [], sizeupvalues := 0,
              p := [], sizep := 0, lineinfo := [], sizelineinfo := 0, locvars := [],
              sizelocvars := 0 },
          strs := a2 ++ strs, Z := Z, name := nm } := by
  have e1 : ∀ (st : List TValue) (cls : List LClosure) (P : List Proto) (strs : List TString)
      (Z : List Nat) (nm : String),
      LoadString { g := g, stack := st, closures := cls, protos := P, strs := strs,
                   Z := layoutString h.source ++ Z, name := nm } =
        LoadResult.ok none
          { g := g, stack := st, closures := cls, protos := P, strs := [] ++ strs, Z := Z,
            name := nm } := by
    intro st cls P strs Z nm
    rw [hsrc]
    exact LoadString_absent g st cls P strs Z nm
  have hh := LoadFunction_head n g g g2 [] a2 none cells h psrc hv e1 e2 st cls P strs
    (layoutInt 0 ++ (layoutInt 0 ++ (layoutInt 0 ++ (layoutInt 1 ++ (0 :: Z))))) nm f p0 hp
  rw [hh]
  have hq := set_getElem? P f p0
    { p0 with
      source := (none : Option TString).elim psrc some,
      linedefined := h.linedefined, lastlinedefined := h.lastlinedefined,
      numparams := h.numparams, is_vararg := h.is_vararg,
      maxstacksize := h.maxstacksize, code := h.code, sizecode := h.code.length,
      k := cells, sizek := h.k.length,
      upvalues := h.upvalues.map (fun x => (⟨none, x.1, x.2⟩ : Upvaldesc)),
      sizeupvalues := h.upvalues.length } hp
  rw [bind_ok _ _ _ _ _ (LoadProtos_none (LoadFunction n) g2 st cls _ _ _ nm f _ hq)]
  rw [LoadDebug_overrun g2 st cls _ _ Z nm f _ (set_getElem? _ f _ _ hq) (by rw [hup]; rfl)]
  simp only [List.set_set, List.nil_append, Option.elim, hup, List.map_nil, List.length_nil]

theorem leaf_head_valid (h : ChunkHead) (h1 : h.source = none) (h2 : h.linedefined = 0)
    (h3 : h.lastlinedefined = 0) (h4 : h.numparams < 256) (h5 : h.is_vararg < 256)
    (h6 : h.maxstacksize < 256) (h7 : h.code = []) (h8 : h.k.length < 2 ^ 31)
    (h9 : ∀ c ∈ h.k, c.Valid) (h10 : h.upvalues.length < 2 ^ 31)
    (h11 : ∀ u ∈ h.upvalues, u.1 < 256 ∧ u.2 < 256) : h.Valid := by
  refine ⟨by rw [h1]; trivial, by rw [h2]; unfold IsInt; constructor <;> norm_num,
    by rw [h3]; unfold IsInt; constructor <;> norm_num, h4, h5, h6, by rw [h7]; norm_num,
    by rw [h7]; simp, h8, h9, h10, h11⟩


theorem bind_error {α β : Type} (m : Load α) (f : α → Load β) (S : LoadState) (e : LuaError)
    (h : (m S).error? = some e) : ((m >>= f) S).error? = some e := by
  cases hm : m S with
  | ok x S1 => rw [hm] at h; cases h
  | throw e1 S1 =>
    rw [hm] at h
    rw [bind_throw _ _ _ _ _ hm]
    exact h
  | undefined S1 => rw [hm] at h; cases h
  | fuel => rw [hm] at h; cases h


/-- The count of the instructions cut after two bytes. -/
theorem LoadCode_short (g : global_State) (st : List TValue) (cls : List LClosure)
    (P : List Proto) (strs : List TString) (nm : String) (f : Nat) :
    LoadCode f { g := g, stack := st, closures := cls, protos := P, strs := strs, Z := [0, 0],
                 name := nm } =
      LoadResult.throw (LuaError.malformed (nm ++ ": truncated precompiled chunk"))
        { g := g, stack := st, closures := cls, protos := P, strs := strs, Z := [],
          name := nm } := by
  unfold LoadCode LoadInt
  rw [Load.bind_assoc]
  have e := LoadBlock_truncated sizeof_int
    { g := g, stack := st, closures := cls, protos := P, strs := strs, Z := [0, 0], name := nm }
    (by show 2 < 4; decide)
  rw [bind_throw _ _ _ _ _ e, truncated_message]
  rfl


/-- A function record that ends two bytes after the number of registers:
the count of the instructions is cut. -/
theorem LoadFunction_short (n : Nat) (g : global_State) (st : List TValue)
    (cls : List LClosure) (P : List Proto) (strs : List TString) (nm : String) (f : Nat)
    (psrc : Option TString) (p : Proto) (hp : P[f]? = some p) :
    (LoadFunction (n + 1) f psrc
      { g := g, stack := st, closures := cls, protos := P, strs := strs,
        Z := 0 :: (layoutInt 0 ++ (layoutInt 0 ++ (0 :: 0 :: 0 :: [0, 0]))), name := nm }).error? =
      some (LuaError.malformed (nm ++ ": truncated precompiled chunk")) := by
  have hlt := getElem?_lt P f p hp
  have h0 : IsInt 0 := by unfold IsInt; constructor <;> norm_num
  unfold LoadFunction
  simp only [bind_apply, LoadString_absent, Load.setProto, hp, List.getElem?_set_self,
    List.length_set, hlt, List.set_set, LoadInt_mk _ _ _ _ _ _ _ _ h0, LoadByte_mk, if_true,
    pure_apply, LoadCode_short, LoadResult.error?]


/-- A record without source whose nested records come before its upvalue
descriptors: the loader takes the count of nested records, 0, for the count
of upvalue descriptors, and the count of upvalue descriptors, 1, for the
count of nested records; the stream ends inside the nested record it then
reads. -/
theorem LoadFunction_swapped (n : Nat) (g g2 : global_State) (a2 : List TString)
    (cells : List TValue) (h : ChunkHead) (psrc : Option TString) (hv : h.Valid)
    (hsrc : h.source = none)
    (e2 : ∀ (st : List TValue) (cls : List LClosure) (P : List Proto) (strs : List TString)
        (Z : List Nat) (nm : String) (f : Nat) (p : Proto),
        P[f]? = some p →
        LoadConstants f
            { g := g, stack := st, closures := cls, protos := P, strs := strs,
              Z := layoutConstants h.k ++ Z, name := nm } =
          LoadResult.ok ()
            { g := g2, stack := st, closures := cls,
              protos := P.set f { p with k := cells, sizek := h.k.length }, strs := a2 ++ strs,
              Z := Z, name := nm })
    (st : List TValue) (cls : List LClosure) (P : List Proto) (strs : List TString)
    (nm : String) (f : Nat) (p0 : Proto) (hp : P[f]? = some p0) :
    (LoadFunction (n + 2) f psrc
        { g := g, stack := st, closures := cls, protos := P, strs := strs,
          Z := layoutHead h ++ (layoutUpvalues h.upvalues ++
            (layoutInt ((1 : Nat) : Int) ++
              (0 :: (layoutInt 0 ++ (layoutInt 0 ++ (0 :: 0 :: 0 :: [0, 0])))))),
          name := nm }).error? =
      some (LuaError.malformed (nm ++ ": truncated precompiled chunk")) := by
  have hlt := getElem?_lt P f p0 hp
  have e1 : ∀ (st : List TValue) (cls : List LClosure) (P : List Proto) (strs : List TString)
      (Z : List Nat) (nm : String),
      LoadString { g := g, stack := st, closures := cls, protos := P, strs := strs,
                   Z := layoutString h.source ++ Z, name := nm } =
        LoadResult.ok none
          { g := g, stack := st, closures := cls, protos := P, strs := [] ++ strs, Z := Z,
            name := nm } := by
    intro st cls P strs Z nm
    rw [hsrc]
    exact LoadString_absent g st cls P strs Z nm
  have hh := LoadFunction_head (n + 1) g g g2 [] a2 none cells h psrc hv e1 e2 st cls P strs
    (layoutInt ((1 : Nat) : Int) ++
      (0 :: (layoutInt 0 ++ (layoutInt 0 ++ (0 :: 0 :: 0 :: [0, 0]))))) nm f p0 hp
  refine (congrArg LoadResult.error? hh).trans ?_
  apply bind_error
  have hq := set_getElem? P f p0
    { p0 with
      source := (none : Option TString).elim psrc some,
      linedefined := h.linedefined, lastlinedefined := h.lastlinedefined,
      numparams := h.numparams, is_vararg := h.is_vararg,
      maxstacksize := h.maxstacksize, code := h.code, sizecode := h.code.length,
      k := cells, sizek := h.k.length,
      upvalues := h.upvalues.map (fun x => (⟨none, x.1, x.2⟩ : Upvaldesc)),
      sizeupvalues := h.upvalues.length } hp
  rw [LoadProtos_head (LoadFunction (n + 1)) g2 st cls _ _ _ nm f 1 _ hq (by norm_num)]
  rw [LoadProtos_step (LoadFunction (n + 1)) g2 st cls _ _ _ nm f 0 0 _
    (set_getElem? _ f _ _ hq) (by show 0 < 1; decide)]
  apply bind_error
  refine LoadFunction_short n _ st cls _ _ nm _ _ (luaF_newproto g2).1 ?_
  simp only [List.length_set]
  rw [List.getElem?_set_ne (by omega)]
  have hm := getElem?_mid ((P.set f
    { p0 with
      source := (none : Option TString).elim psrc some,
      linedefined := h.linedefined, lastlinedefined := h.lastlinedefined,
      numparams := h.numparams, is_vararg := h.is_vararg,
      maxstacksize := h.maxstacksize, code := h.code, sizecode := h.code.length,
      k := cells, sizek := h.k.length,
      upvalues := h.upvalues.map (fun x => (⟨none, x.1, x.2⟩ : Upvaldesc)),
      sizeupvalues := h.upvalues.length }).set f
    { p0 with
      source := (none : Option TString).elim psrc some,
      linedefined := h.linedefined, lastlinedefined := h.lastlinedefined,
      numparams := h.numparams, is_vararg := h.is_vararg,
      maxstacksize := h.maxstacksize, code := h.code, sizecode := h.code.length,
      k := cells, sizek := h.k.length,
      upvalues := h.upvalues.map (fun x => (⟨none, x.1, x.2⟩ : Upvaldesc)),
      sizeupvalues := h.upvalues.length, p := List.replicate 1 none, sizep := 1 })
    (luaF_newproto g2).1 []
  simp only [List.length_set] at hm
  exact hm


/-- The function record of `chunk_min`. -/
theorem LoadFunction_minimal (n : Nat) (g : global_State) (st : List TValue)
    (cls : List LClosure) (p : Proto) (nm : String) :
    LoadFunction (n + 1) 0 none
      { g := g, stack := st, closures := cls, protos := [p], name := nm,
        Z := [0, 0, 0, 0, 0, 0, 0, 0, 0, 0, 0, 2, 0, 0, 0, 0, 0, 0, 0, 0, 0, 0, 0, 0,
              0, 0, 0, 0, 0, 0, 0, 0, 0, 0, 0, 0, 0, 0, 0, 0] } =
    LoadResult.ok ()
      { g := g, stack := st, closures := cls, name := nm, Z := [],
        protos := [
          { p with
            source := none, linedefined := 0, lastlinedefined := 0, numparams := 0,
            is_vararg := 0, maxstacksize := 2, code := [], sizecode := 0,
            k := [], sizek := 0, upvalues := [], sizeupvalues := 0, p := [],
            sizep := 0, lineinfo := [], sizelineinfo := 0, locvars := [], sizelocvars := 0 }] } :=
  LoadFunction_leaf n g g [] [] { maxstacksize := 2 } none
    (leaf_head_valid _ rfl rfl rfl (by decide) (by decide) (by decide) rfl (by decide)
      (by simp) (by decide) (by simp)) rfl
    (fun st cls P strs Z nm f p hp => LoadConstants_none g st cls P strs Z nm f p hp)
    st cls [p] [] [] nm 0 p rfl

theorem undump_minimal :
    luaU_undump { Z := chunk_min } "=demo" = LoadResult.ok 0 S_min := by
  unfold luaU_undump
  rw [steps_after_header _ _ 0 _ (by decide) rfl]
  exact bind_ok _ _ _ _ _ (LoadFunction_minimal _ _ _ _ _ _)

/-- A function record with no source, no instruction, no upvalue, no nested
function, no debug information, and one constant, of type code 2. -/
theorem LoadFunction_badconst (n : Nat) (g : global_State) (st : List TValue)
    (cls : List LClosure) (p : Proto) (nm : String) :
    LoadFunction (n + 1) 0 none
      { g := g, stack := st, closures := cls, protos := [p], name := nm,
        Z := [0, 0, 0, 0, 0, 0, 0, 0, 0, 0, 0, 2, 0, 0, 0, 0, 1, 0, 0, 0, 2, 0, 0, 0, 0,
              0, 0, 0, 0, 0, 0, 0, 0, 0, 0, 0, 0, 0, 0, 0, 0] } =
    LoadResult.ok ()
      { g := g, stack := st, closures := cls, name := nm, Z := [],
        protos := [
          { p with
            source := none, linedefined := 0, lastlinedefined := 0, numparams := 0,
            is_vararg := 0, maxstacksize := 2, code := [], sizecode := 0,
            k := [{ tt_ := LUA_TNIL }], sizek := 1, upvalues := [], sizeupvalues := 0, p := [],
            sizep := 0, lineinfo := [], sizelineinfo := 0, locvars := [], sizelocvars := 0 }] } :=
  LoadFunction_leaf n g g [] [{ tt_ := LUA_TNIL }]
    { maxstacksize := 2, k := [ChunkConst.other 2] } none
    (leaf_head_valid _ rfl rfl rfl (by decide) (by decide) (by decide) rfl (by decide)
      (by simp [ChunkConst.Valid]; decide) (by decide) (by simp)) rfl
    (fun st cls P strs Z nm f p hp => LoadConstants_other g st cls P strs Z nm f p hp)
    st cls [p] [] [] nm 0 p rfl

theorem undump_badconst :
    luaU_undump { Z := chunk_badconst } "=demo" = LoadResult.ok 0 S_badconst := by
  unfold luaU_undump
  rw [steps_after_header _ _ 0 _ (by decide) rfl]
  exact bind_ok _ _ _ _ _ (LoadFunction_badconst _ _ _ _ _ _)
/-! ## Theorems: lundump.c, truncated streams -/

theorem undump_name_strip (name : String) (c : Char) (rest : List Char)
    (h : name.data = c :: rest) (hc : c = '@' ∨ c = '=') :
    luaU_undump.name name = String.mk rest := by
  unfold luaU_undump.name
  rw [h]
  simp only [hc, if_true]

theorem undump_name_binary (name : String) (c : Char) (rest : List Char)
    (h : name.data = c :: rest) (h1 : c ≠ '@') (h2 : c ≠ '=')
    (h3 : c.toNat = LUA_SIGNATURE.headD 0) :
    luaU_undump.name name = "binary string" := by
  unfold luaU_undump.name
  rw [h]
  simp only [h1, h2, or_self, if_false, h3, if_true]

theorem undump_name_other (name : String)
    (h : ∀ c rest, name.data = c :: rest →
      c ≠ '@' ∧ c ≠ '=' ∧ c.toNat ≠ LUA_SIGNATURE.headD 0) :
    luaU_undump.name name = name := by
  unfold luaU_undump.name
  cases hd : name.data with
  | nil => rfl
  | cons c rest =>
    obtain ⟨h1, h2, h3⟩ := h c rest hd
    simp only [h1, h2, or_self, if_false, h3]

/-- C25: when `luaU_undump` succeeds on a stream, having read its first `k`
bytes (the header, the byte for the number of upvalues and the function
record), then on every stream that ends before the `k`-th of these bytes it
returns no closure and raises the syntax error with the message
"<name>: truncated precompiled chunk"; `<name>` is the chunk name without its
first character when that is '@' or '=', "binary string" when the name
begins with the first byte of the signature, and the name itself otherwise. -/
theorem C25_truncated_chunk (S : LoadState) (name : String) (cl : Nat) (S1 : LoadState)
    (h : luaU_undump S name = LoadResult.ok cl S1) (j : Nat)
    (hj : j < S.Z.length - S1.Z.length) :
    (∃ S2, luaU_undump { S with Z := S.Z.take j } name = LoadResult.throw
      (LuaError.malformed (luaU_undump.name name ++ ": truncated precompiled chunk")) S2) ∧
    (∀ c rest, name.data = c :: rest → c = '@' ∨ c = '=' →
      luaU_undump.name name = String.mk rest) ∧
    (∀ c rest, name.data = c :: rest → c ≠ '@' → c ≠ '=' → c.toNat = LUA_SIGNATURE.headD 0 →
      luaU_undump.name name = "binary string") ∧
    ((∀ c rest, name.data = c :: rest →
        c ≠ '@' ∧ c ≠ '=' ∧ c.toNat ≠ LUA_SIGNATURE.headD 0) →
      luaU_undump.name name = name) := by
  refine ⟨?_, undump_name_strip name, undump_name_binary name, undump_name_other name⟩
  unfold luaU_undump at h
  obtain ⟨_, k, hk, hZ, _, hb⟩ := Reads_steps _ _ _ _ h
  have hz : S1.Z.length = S.Z.length - k := by
    rw [hZ]
    simp only [List.length_drop]
  have hjk : j < k := by omega
  obtain ⟨S2, h2⟩ := hb j hjk
  refine ⟨S2, ?_⟩
  have hl : (S.Z.take j).length = j := by
    rw [List.length_take]
    omega
  have hnf := undump_fuel { S with Z := S.Z.take j } name
  unfold luaU_undump at hnf ⊢
  simp only [hl] at hnf ⊢
  have hle : S.Z.length + 1 = (j + 1) + (S.Z.length - j) := by omega
  have hx := Extends_steps (j + 1) (S.Z.length - j) _ hnf
  rw [← hle] at hx
  rw [← hx, ← truncated_message]
  exact h2

theorem C25_truncated_chunk_witness :
    luaU_undump { Z := chunk_min } "=demo" = LoadResult.ok 0 S_min ∧
    60 < ({ Z := chunk_min } : LoadState).Z.length - S_min.Z.length ∧
    (∃ S2, luaU_undump { Z := chunk_min.take 60 } "=demo" = LoadResult.throw
      (LuaError.malformed ("demo" ++ ": truncated precompiled chunk")) S2) :=
  ⟨undump_minimal, by decide,
    (C25_truncated_chunk { Z := chunk_min } "=demo" 0 S_min undump_minimal 60 (by decide)).1⟩

/-! ## Theorems: lundump.c, the closure of a failed load -/

/-- C28 fails: at the chunk `chunk_badconst`, whose only constant has type
code 2, `luaU_undump` raises no error; it returns the closure, with the whole
stream read, and the constant is left nil. -/
theorem C28_unknown_constant_accepted :
    luaU_undump { Z := chunk_badconst } "=demo" = LoadResult.ok 0 S_badconst ∧
    S_badconst.protos.map (fun p => p.k) = [[{ tt_ := LUA_TNIL }]] ∧ S_badconst.Z = [] :=
  ⟨undump_badconst, rfl, rfl⟩

theorem g_init_inv : CacheInv g_init :=
  init_inv {} g_init ⟨rfl, rfl, rfl, by simp, by simp, Or.inl rfl⟩ init_fresh

theorem r_up_valid : r_up.Valid := by
  simp [r_up, ChunkFunction.Valid, ChunkFunction.ValidList, ChunkHead.Valid, ChunkDebug.Valid,
    ChunkOptString, IsInt]

theorem r_nest_valid : r_nest.Valid := by
  simp [r_nest, ChunkFunction.Valid, ChunkFunction.ValidList, ChunkHead.Valid, ChunkDebug.Valid,
    ChunkOptString, ChunkString, IsInt, IsBytes]

theorem r_up_layout :
    layoutFunction r_up =
      [0, 0, 0, 0, 0, 0, 0, 0, 0, 0, 0, 2, 0, 0, 0, 0, 0, 0, 0, 0, 1, 0, 0, 0, 0, 0,
       0, 0, 0, 0, 0, 0, 0, 0, 0, 0, 0, 0, 0, 0, 0, 0] := by
  decide

theorem r_up_specLayout :
    specLayoutFunction r_up =
      [0, 0, 0, 0, 0, 0, 0, 0, 0, 0, 0, 2, 0, 0, 0, 0, 0, 0, 0, 0, 0, 0, 0, 0, 1, 0,
       0, 0, 0, 0, 0, 0, 0, 0, 0, 0, 0, 0, 0, 0, 0, 0] := by
  decide

set_option maxRecDepth 100000 in
theorem r_nest_bytes : IsBytes (luac_header ++ 0 :: (layoutFunction r_nest ++ [])) := by
  decide

/-- The record `r_up` in the order of the specification: the loader takes
the number of nested records, 0, for the number of upvalue descriptors, and
the number of upvalue descriptors, 1, for the number of nested records; the
stream ends inside the nested record it then reads. -/
theorem LoadFunction_specorder (n : Nat) (g : global_State) (st : List TValue)
    (cls : List LClosure) (p : Proto) (nm : String) :
    (LoadFunction (n + 2) 0 none
      { g := g, stack := st, closures := cls, protos := [p], name := nm,
        Z := [0, 0, 0, 0, 0, 0, 0, 0, 0, 0, 0, 2, 0, 0, 0, 0, 0, 0, 0, 0, 0, 0, 0, 0, 1, 0,
              0, 0, 0, 0, 0, 0, 0, 0, 0, 0, 0, 0, 0, 0, 0, 0] }).error? =
    some (LuaError.malformed (nm ++ ": truncated precompiled chunk")) :=
  LoadFunction_swapped n g g [] [] { maxstacksize := 2 } none
    (leaf_head_valid _ rfl rfl rfl (by decide) (by decide) (by decide) rfl (by decide)
      (by simp) (by decide) (by simp)) rfl
    (fun st cls P strs Z nm f p hp => LoadConstants_none g st cls P strs Z nm f p hp)
    st cls [p] [] nm 0 p rfl
/-! ## Theorems: lundump.c, the order of the fields of a function record -/

/-- C26 (counterexample): the record `r_up`, valid, laid out in the order
of the claim (nested function records before upvalue descriptors), is not
loaded: `LoadFunction` raises the error of a truncated chunk. -/
theorem C26_spec_order_rejected :
    r_up.Valid ∧
    (LoadFunction 43 0 none
      { g := g_init, stack := [], closures := [], protos := [{}], strs := [],
        Z := specLayoutFunction r_up ++ [], name := "demo" }).error? =
      some (LuaError.malformed "demo: truncated precompiled chunk") := by
  refine ⟨r_up_valid, ?_⟩
  rw [r_up_specLayout]
  exact LoadFunction_specorder 41 _ _ _ _ _

/-- C26 (amended): `LoadFunction` reads the fields of a function record in
the order source string, two line numbers, parameter count, vararg flag,
register count, then the four arrays in the order instructions, constants,
upvalue descriptors, nested function records, and finally the debug section
(line info, local-variable records, upvalue names): on the bytes of any valid
record in that order, followed by any bytes `Z`, it succeeds, leaves exactly
`Z` unread, and the prototype has the fields of the record. -/
theorem C26_LoadFunction_field_order (r : ChunkFunction) (fuel : Nat) (g : global_State)
    (st : List TValue) (cls : List LClosure) (P : List Proto) (strs : List TString)
    (Z : List Nat) (nm : String) (f : Nat) (psrc : Option TString) (p0 : Proto)
    (hinv : CacheInv g) (hv : r.Valid) (hfuel : (layoutFunction r).length < fuel)
    (hp : P[f]? = some p0) :
    ∃ g1 a P1,
      LoadFunction fuel f psrc
          { g := g, stack := st, closures := cls, protos := P, strs := strs,
            Z := layoutFunction r ++ Z, name := nm } =
        LoadResult.ok ()
          { g := g1, stack := st, closures := cls, protos := P1, strs := a ++ strs, Z := Z,
            name := nm } ∧
      Rep P1 (a ++ strs) f psrc r := by
  obtain ⟨g1, a, P1, e, _, _, _, hrep⟩ :=
    LoadFunction_layout r fuel g st cls P strs Z nm f psrc p0 hinv hv hfuel hp
  exact ⟨g1, a, P1, e, hrep⟩

theorem C26_LoadFunction_field_order_witness :
    CacheInv g_init ∧ r_up.Valid ∧ (layoutFunction r_up).length < 43 ∧
    ([({} : Proto)])[0]? = some ({} : Proto) ∧
    ∃ g1 a P1,
      LoadFunction 43 0 none
          { g := g_init, stack := [], closures := [], protos := [{}], strs := [],
            Z := layoutFunction r_up ++ [], name := "demo" } =
        LoadResult.ok ()
          { g := g1, stack := [], closures := [], protos := P1, strs := a ++ [], Z := [],
            name := "demo" } ∧
      Rep P1 (a ++ []) 0 none r_up :=
  ⟨g_init_inv, r_up_valid, by decide, rfl,
    C26_LoadFunction_field_order r_up 43 g_init [] [] [{}] [] [] "demo" 0 none {}
      g_init_inv r_up_valid (by decide) rfl⟩

/-! ## Theorems: lundump.c, the source of a function -/

/-- C29: in the chunk of a valid function record `r`, loaded with success,
every record at any depth has a prototype; a record with a source string has
a source with these bytes; a record without one has the very source of the
prototype of its enclosing record, and no source when it is the top-level
record; so the source is that of the nearest record above that has one. -/
theorem C29_source_inherited (S : LoadState) (name : String) (nup : Nat) (r : ChunkFunction)
    (rest : List Nat) (hinv : CacheInv S.g) (hv : r.Valid) (hS : IsBytes S.Z)
    (hZ : S.Z = luac_header ++ nup :: (layoutFunction r ++ rest)) :
    ∃ S1, luaU_undump S name = LoadResult.ok S.closures.length S1 ∧
      ∀ path rc, r.recordAt path = some rc →
        ∃ c p, protoAt S1.protos S.protos.length path = some c ∧ S1.protos[c]? = some p ∧
          (∀ s, rc.head.source = some s → ∃ ts, p.source = some ts ∧ ts.contents = s) ∧
          (rc.head.source = none → path = [] → p.source = none) ∧
          (rc.head.source = none → ∀ path0 i, path = path0 ++ [i] →
            ∃ c0 p0, protoAt S1.protos S.protos.length path0 = some c0 ∧
              S1.protos[c0]? = some p0 ∧ p.source = p0.source) ∧
          p.source.map TString.contents = r.sourceAt none path := by
  obtain ⟨S1, e, _, _, hrep⟩ := undump_layout S name nup r rest hinv hv hS hZ
  refine ⟨S1, e, ?_⟩
  intro path rc hrc
  obtain ⟨c, q, h1, h2, h3, h4, h5⟩ := Rep_path S1.protos S1.strs path _ none r rc hrep hrc
  obtain ⟨p, hp, a1, a2, a3, _⟩ := Rep_head _ _ c q rc h2
  refine ⟨c, p, h1, hp, a1, ?_, ?_, ?_⟩
  · intro hs hpath
    rw [a2 hs, h4 hpath]
  · intro hs path0 i hp0
    obtain ⟨c0, p0, e1, e2, e3⟩ := h5 path0 i hp0
    exact ⟨c0, p0, e1, e2, by rw [a2 hs, e3]⟩
  · rw [a3, h3]
    rfl

theorem C29_source_inherited_witness :
    CacheInv S_nest.g ∧ r_nest.Valid ∧ IsBytes S_nest.Z ∧
    S_nest.Z = luac_header ++ 0 :: (layoutFunction r_nest ++ []) ∧
    ∃ S1, luaU_undump S_nest "=demo" = LoadResult.ok S_nest.closures.length S1 ∧
      ∀ path rc, r_nest.recordAt path = some rc →
        ∃ c p, protoAt S1.protos S_nest.protos.length path = some c ∧ S1.protos[c]? = some p ∧
          (∀ s, rc.head.source = some s → ∃ ts, p.source = some ts ∧ ts.contents = s) ∧
          (rc.head.source = none → path = [] → p.source = none) ∧
          (rc.head.source = none → ∀ path0 i, path = path0 ++ [i] →
            ∃ c0 p0, protoAt S1.protos S_nest.protos.length path0 = some c0 ∧
              S1.protos[c0]? = some p0 ∧ p.source = p0.source) ∧
          p.source.map TString.contents = r_nest.sourceAt none path :=
  ⟨g_init_inv, r_nest_valid, r_nest_bytes, rfl,
    C29_source_inherited S_nest "=demo" 0 r_nest [] g_init_inv r_nest_valid r_nest_bytes rfl⟩

/-! ## Theorems: the bucket index `lmod` -/

/-- C39: for every hash `h` (of 32 bits or not) and every table size
`2 ^ k` within `int`, `lmod(h, size)` is `h & (size - 1)`, equals
`h mod size`, is below `size` and is a value of type `int`; so in a well-formed string table the index `lmod(h, size)` that
`internshrstr`, `luaS_resize` and `luaS_remove` compute is `h mod size` and
lies inside the bucket array. -/
theorem C39_lmod_is_mod (h k : Nat) (hk : 2 ^ k ≤ MAX_INT) :
    1 ≤ 2 ^ k ∧
    lmod h (2 ^ k) = h &&& (2 ^ k - 1) ∧
    lmod h (2 ^ k) = h % 2 ^ k ∧
    lmod h (2 ^ k) < 2 ^ k ∧
    lmod h (2 ^ k) ≤ MAX_INT ∧
    (∀ g : global_State, WF g → g.strt.size = 2 ^ k →
      lmod h g.strt.size = h % g.strt.size ∧ lmod h g.strt.size < g.strt.hash.length) := by
  have hpos : 0 < 2 ^ k := Nat.pos_pow_of_pos k (by decide)
  have hlt := lmod_lt h (2 ^ k) hpos hk
  refine ⟨hpos, lmod_eq_and h _ hpos hk, lmod_pow h k hk, hlt, ?_, ?_⟩
  · omega
  · intro g hwf hsz
    rw [hwf.hash_len, hsz]
    exact ⟨lmod_pow h k hk, hlt⟩

theorem C39_lmod_is_mod_witness :
    2 ^ 7 ≤ MAX_INT ∧
    (1 ≤ 2 ^ 7 ∧
    lmod 2087882415 (2 ^ 7) = 2087882415 &&& (2 ^ 7 - 1) ∧
    lmod 2087882415 (2 ^ 7) = 2087882415 % 2 ^ 7 ∧
    lmod 2087882415 (2 ^ 7) < 2 ^ 7 ∧
    lmod 2087882415 (2 ^ 7) ≤ MAX_INT ∧
    (∀ g : global_State, WF g → g.strt.size = 2 ^ 7 →
      lmod 2087882415 g.strt.size = 2087882415 % g.strt.size ∧
      lmod 2087882415 g.strt.size < g.strt.hash.length)) :=
  ⟨by decide, C39_lmod_is_mod 2087882415 7 (by decide)⟩

/-! ## Theorems: `luaF_getlocalname`, every index -/

/-- A count that starts at 0 or below never reaches 0 by counting down. -/
theorem getlocalname_loop_nonpos (pc : Int) (vs : List LocVar) (n : Int) (hn : n ≤ 0) :
    luaF_getlocalname.loop pc vs n = none := by
  induction vs generalizing n with
  | nil => rfl
  | cons v rest ih =>
    rw [luaF_getlocalname.loop]
    split
    · split
      · rw [if_neg (by omega)]
        exact ih (n - 1) (by omega)
      · exact ih n hn
    · rfl

/-- The single local of `f_x` at index 1. -/
theorem getlocalname_f_x (pc : Int) :
    luaF_getlocalname f_x 1 pc = if 2 ≤ pc ∧ pc < 10 then some [120, 0] else none := by
  simp only [luaF_getlocalname, f_x, List.take, luaF_getlocalname.loop, getstr]
  by_cases h1 : (2 : Int) ≤ pc
  · by_cases h2 : pc < 10
    · simp [h1, h2]
    · simp [h1, h2]
  · simp [h1]

/-- C32: for every prototype whose locals table is ordered by non-decreasing
`startpc`, every integer `n` and every `pc`, `luaF_getlocalname(f, n, pc)` is
the name of the `n`-th entry with `startpc <= pc < endpc`, and not-found when
`n <= 0` or fewer than `n` entries match; with the single local "x" active
over `[2, 10)`, index 1 gives "x" at every `pc` from 2 to 9 and not-found at
`pc = 10` and `pc = 12`. -/
theorem C32_getlocalname_reference (f : Proto) (hsz : f.sizelocvars = f.locvars.length)
    (hs : f.locvars.Pairwise (fun a b => a.startpc ≤ b.startpc)) (n pc : Int) :
    luaF_getlocalname f n pc = nthActiveLocal f n pc ∧
    (n ≤ 0 → luaF_getlocalname f n pc = none) ∧
    (1 ≤ n → luaF_getlocalname f n pc =
      ((f.locvars.filter (fun v => decide (v.startpc ≤ pc ∧ pc < v.endpc)))[n.toNat - 1]?).map
        (fun v => getstr v.varname)) ∧
    (∀ pc : Int, 2 ≤ pc → pc ≤ 9 → luaF_getlocalname f_x 1 pc = some [120, 0]) ∧
    luaF_getlocalname f_x 1 5 = some [120, 0] ∧
    luaF_getlocalname f_x 1 10 = none ∧
    luaF_getlocalname f_x 1 12 = none := by
  have hpos : 1 ≤ n → luaF_getlocalname f n pc =
      ((f.locvars.filter (fun v => decide (v.startpc ≤ pc ∧ pc < v.endpc)))[n.toNat - 1]?).map
        (fun v => getstr v.varname) := by
    intro hn
    unfold luaF_getlocalname
    rw [hsz, List.take_length]
    exact getlocalname_loop_sorted pc f.locvars hs n hn
  have hneg : n ≤ 0 → luaF_getlocalname f n pc = none := by
    intro hn
    unfold luaF_getlocalname
    exact getlocalname_loop_nonpos pc _ n hn
  refine ⟨?_, hneg, hpos, ?_, ?_, ?_, ?_⟩
  · by_cases hn : 1 ≤ n
    · rw [hpos hn, nthActiveLocal, if_pos hn]
    · rw [hneg (by omega), nthActiveLocal, if_neg hn]
  · intro pc1 h1 h2
    rw [getlocalname_f_x, if_pos ⟨h1, by omega⟩]
  · rw [getlocalname_f_x]; rfl
  · rw [getlocalname_f_x]; rfl
  · rw [getlocalname_f_x]; rfl

theorem C32_getlocalname_reference_witness :
    f_x.sizelocvars = f_x.locvars.length ∧
    f_x.locvars.Pairwise (fun a b => a.startpc ≤ b.startpc) ∧
    (luaF_getlocalname f_x 0 5 = nthActiveLocal f_x 0 5 ∧
    ((0 : Int) ≤ 0 → luaF_getlocalname f_x 0 5 = none) ∧
    ((1 : Int) ≤ 0 → luaF_getlocalname f_x 0 5 =
      ((f_x.locvars.filter (fun v => decide (v.startpc ≤ 5 ∧ 5 < v.endpc)))[(0 : Int).toNat - 1]?).map
        (fun v => getstr v.varname)) ∧
    (∀ pc : Int, 2 ≤ pc → pc ≤ 9 → luaF_getlocalname f_x 1 pc = some [120, 0]) ∧
    luaF_getlocalname f_x 1 5 = some [120, 0] ∧
    luaF_getlocalname f_x 1 10 = none ∧
    luaF_getlocalname f_x 1 12 = none) :=
  ⟨rfl, by decide, C32_getlocalname_reference f_x rfl (by decide) 0 5⟩

/-! ## Theorems: the setters of collectable values -/

/-- The tag `ctb(t)` has the collectable bit, and its base and variant bits
are those of `t`. -/
theorem ctb_bits (t : Nat) :
    ctb t &&& BIT_ISCOLLECTABLE = BIT_ISCOLLECTABLE ∧ ctb t &&& 0x3F = t &&& 0x3F := by
  unfold ctb BIT_ISCOLLECTABLE
  constructor
  · apply Nat.eq_of_testBit_eq
    intro i
    simp only [Nat.testBit_and, Nat.testBit_or]
    cases Nat.testBit t i <;> simp
  · apply Nat.eq_of_testBit_eq
    intro i
    simp only [Nat.testBit_and, Nat.testBit_or]
    have h64 : (1 <<< 6 : Nat) = 2 ^ 6 := by decide
    have h63 : (0x3F : Nat) = 2 ^ 6 - 1 := by decide
    rw [h64, h63, Nat.testBit_two_pow, Nat.testBit_two_pow_sub_one]
    by_cases h : i < 6
    · have : ¬ (6 = i) := by omega
      simp [h, this]
    · simp [h]

/-- What a setter of a collectable value leaves in the cell: the pointer to
the object, the collectable bit, and base and variant bits `t`; the test
`righttt` compares `t` with the tag stored in the object. -/
theorem setter_spec (heap : Nat → Option GCObject) (x : GCObject) (t : Nat)
    (hx : heap x.addr = some x) (o : TValue) (ho : o = { value_ := Value.gc x.addr, tt_ := ctb t }) :
    gcvalue o = some x.addr ∧ iscollectable o = BIT_ISCOLLECTABLE ∧ ttype o = t &&& 0x3F ∧
    (righttt heap o = true ↔ x.tt = t &&& 0x3F) := by
  subst ho
  obtain ⟨h1, h2⟩ := ctb_bits t
  refine ⟨rfl, h1, h2, ?_⟩
  simp only [righttt, gcvalue, hx, ttype, rttype, h2, beq_iff_eq]
  exact eq_comm

/-- C31: each of `setsvalue`, `setuvalue`, `setthvalue`, `setclLvalue`,
`setclCvalue` and `sethvalue` leaves in the cell the pointer to the given
object, the collectable bit, and the base and variant bits of the kind it
writes, so that `righttt` passes exactly when the tag stored in the object is
that kind (for `setsvalue`, which writes the tag of the string itself, always
when that tag is a string tag); `setobj` copies payload and tag together, and
`righttt` holds of the copy exactly when it holds of the source. -/
theorem C31_collectable_setters (heap : Nat → Option GCObject) (s : TString) (c : LClosure)
    (u th cc h : GCObject) (o : TValue)
    (hs : heap s.addr = some s.obj2gco) (hc : heap c.addr = some c.obj2gco)
    (hu : heap u.addr = some u) (hth : heap th.addr = some th) (hcc : heap cc.addr = some cc)
    (hh : heap h.addr = some h) :
    (gcvalue (setsvalue s) = some s.addr ∧ iscollectable (setsvalue s) = BIT_ISCOLLECTABLE ∧
      ttype (setsvalue s) = s.tt &&& 0x3F ∧
      (righttt heap (setsvalue s) = true ↔ s.tt = s.tt &&& 0x3F) ∧
      (s.tt = LUA_TSHRSTR ∨ s.tt = LUA_TLNGSTR → righttt heap (setsvalue s) = true)) ∧
    (gcvalue (setuvalue u) = some u.addr ∧ iscollectable (setuvalue u) = BIT_ISCOLLECTABLE ∧
      ttype (setuvalue u) = LUA_TUSERDATA ∧
      (righttt heap (setuvalue u) = true ↔ u.tt = LUA_TUSERDATA)) ∧
    (gcvalue (setthvalue th) = some th.addr ∧ iscollectable (setthvalue th) = BIT_ISCOLLECTABLE ∧
      ttype (setthvalue th) = LUA_TTHREAD ∧
      (righttt heap (setthvalue th) = true ↔ th.tt = LUA_TTHREAD)) ∧
    (gcvalue (setclLvalue c) = some c.addr ∧ iscollectable (setclLvalue c) = BIT_ISCOLLECTABLE ∧
      ttype (setclLvalue c) = LUA_TLCL ∧
      (righttt heap (setclLvalue c) = true ↔ c.tt = LUA_TLCL)) ∧
    (gcvalue (setclCvalue cc) = some cc.addr ∧ iscollectable (setclCvalue cc) = BIT_ISCOLLECTABLE ∧
      ttype (setclCvalue cc) = LUA_TCCL ∧
      (righttt heap (setclCvalue cc) = true ↔ cc.tt = LUA_TCCL)) ∧
    (gcvalue (sethvalue h) = some h.addr ∧ iscollectable (sethvalue h) = BIT_ISCOLLECTABLE ∧
      ttype (sethvalue h) = LUA_TTABLE ∧
      (righttt heap (sethvalue h) = true ↔ h.tt = LUA_TTABLE)) ∧
    BIT_ISCOLLECTABLE ≠ 0 ∧
    (setobj o = o ∧ gcvalue (setobj o) = gcvalue o ∧ rttype (setobj o) = rttype o ∧
      righttt heap (setobj o) = righttt heap o) := by
  have es := setter_spec heap s.obj2gco s.tt hs (setsvalue s) rfl
  have eu := setter_spec heap u LUA_TUSERDATA hu (setuvalue u) rfl
  have eth := setter_spec heap th LUA_TTHREAD hth (setthvalue th) rfl
  have ec := setter_spec heap c.obj2gco LUA_TLCL hc (setclLvalue c) rfl
  have ecc := setter_spec heap cc LUA_TCCL hcc (setclCvalue cc) rfl
  have eh := setter_spec heap h LUA_TTABLE hh (sethvalue h) rfl
  have k1 : LUA_TUSERDATA &&& 0x3F = LUA_TUSERDATA := by decide
  have k2 : LUA_TTHREAD &&& 0x3F = LUA_TTHREAD := by decide
  have k3 : LUA_TLCL &&& 0x3F = LUA_TLCL := by decide
  have k4 : LUA_TCCL &&& 0x3F = LUA_TCCL := by decide
  have k5 : LUA_TTABLE &&& 0x3F = LUA_TTABLE := by decide
  rw [k1] at eu
  rw [k2] at eth
  rw [k3] at ec
  rw [k4] at ecc
  rw [k5] at eh
  refine ⟨⟨es.1, es.2.1, es.2.2.1, es.2.2.2, ?_⟩, eu, eth, ec, ecc, eh, by decide,
    rfl, rfl, rfl, rfl⟩
  intro hst
  apply es.2.2.2.2
  show s.tt = s.tt &&& 0x3F
  rcases hst with e | e <;> rw [e] <;> decide

theorem C31_collectable_setters_witness :
    heap_six 0 = some (TString.obj2gco { addr := 0, tt := LUA_TSHRSTR, marked := 1 }) ∧
    heap_six 1 = some (LClosure.obj2gco { addr := 1, tt := LUA_TLCL, marked := 1 }) ∧
    (righttt heap_six (setsvalue { addr := 0, tt := LUA_TSHRSTR, marked := 1 }) = true ∧
     righttt heap_six (setclLvalue { addr := 1, tt := LUA_TLCL, marked := 1 }) = true ∧
     righttt heap_six (sethvalue { addr := 5, tt := LUA_TTABLE, marked := 1 }) = true ∧
     (righttt heap_six (setuvalue { addr := 3, tt := LUA_TTHREAD, marked := 1 }) = true ↔
        LUA_TTHREAD = LUA_TUSERDATA)) :=
  have h := C31_collectable_setters heap_six { addr := 0, tt := LUA_TSHRSTR, marked := 1 }
    { addr := 1, tt := LUA_TLCL, marked := 1 } { addr := 3, tt := LUA_TTHREAD, marked := 1 }
    { addr := 3, tt := LUA_TTHREAD, marked := 1 } { addr := 4, tt := LUA_TCCL, marked := 1 }
    { addr := 5, tt := LUA_TTABLE, marked := 1 } {} rfl rfl rfl rfl rfl rfl
  ⟨rfl, rfl, h.1.2.2.2.2 (Or.inl rfl), h.2.2.2.1.2.2.2.2 rfl, h.2.2.2.2.2.1.2.2.2.2 rfl,
    h.2.1.2.2.2⟩

/-! ## Theorems: lundump.c, `LoadString` -/

/-- The size `LoadString` reads: the first byte `b`, or, after a first byte
0xFF, the `size_t` of the bytes `v` that follow; what is left to do is on the
stream behind the size. -/
theorem LoadString_size (S : LoadState) (b : Nat) (v : List Nat) (size : Nat) (rest : List Nat)
    (hhead : (b ≠ 0xFF ∧ v = [] ∧ size = b) ∨
      (b = 0xFF ∧ v.length = sizeof_size_t ∧ size = uintLE v))
    (hZ : S.Z = b :: (v ++ rest)) :
    LoadString S =
      (if size = 0 then pure none
        else if size - 1 ≤ LUAI_MAXSHORTLEN then do
          let buff ← LoadBlock (size - 1)
          let ts ← Load.newlstr buff (size - 1)
          Load.modify (fun S => { S with strs := ts :: S.strs })
          pure (some ts)
        else do
          let ts ← Load.createlngstrobj (size - 1)
          let v ← LoadBlock (size - 1)
          let ts1 : TString := { ts with bytes := memcpy ts.bytes v (size - 1) }
          Load.modify (fun S => { S with strs := ts1 :: S.strs })
          pure (some ts1) : Load (Option TString)) { S with Z := rest } := by
  unfold LoadString
  rw [bind_ok _ _ _ _ _ (LoadByte_ok S b _ hZ)]
  rcases hhead with ⟨h1, h2, h3⟩ | ⟨h1, h2, h3⟩
  · subst h2
    subst h3
    rw [if_neg h1, pure_bind_apply]
    rfl
  · rw [if_pos h1, Load.bind_assoc]
    have hb := LoadBlock_append { S with Z := v ++ rest } v rest rfl
    rw [h2] at hb
    rw [bind_ok _ _ _ _ _ hb, pure_bind_apply, ← h3]

/-- C33: `LoadString` reads a size of one byte, or, when that byte is 0xFF,
a size of type `size_t`; for size 0 it returns the absent string and reads
nothing more; otherwise it reads exactly the `size - 1` bytes `s` that follow
and returns a string with these bytes and this length: the short string
`internshrstr` gives (through `luaS_newlstr`) when `size - 1` is at most
`LUAI_MAXSHORTLEN`, so that the buffer of `LUAI_MAXSHORTLEN` bytes holds them,
and else a new long string object. -/
theorem C33_LoadString_decodes (S : LoadState) (hinv : CacheInv S.g) (b : Nat) (v : List Nat)
    (size : Nat) (s rest : List Nat)
    (hhead : (b ≠ 0xFF ∧ v = [] ∧ size = b) ∨
      (b = 0xFF ∧ v.length = sizeof_size_t ∧ size = uintLE v))
    (hs : s.length = size - 1) (hZ : S.Z = b :: (v ++ (s ++ rest))) :
    (size = 0 → LoadString S = LoadResult.ok none { S with Z := rest }) ∧
    (0 < size → size - 1 ≤ LUAI_MAXSHORTLEN →
      ∃ ts g1, LoadString S =
          LoadResult.ok (some ts) { S with g := g1, strs := ts :: S.strs, Z := rest } ∧
        s.length ≤ LUAI_MAXSHORTLEN ∧
        luaS_newlstr S.g s (size - 1) = Except.ok (ts, g1) ∧
        internshrstr S.g s (size - 1) = (ts, g1) ∧
        ts.tt = LUA_TSHRSTR ∧ tsslen ts = size - 1 ∧ ts.contents = s ∧
        ts ∈ g1.strt.hash.flatten) ∧
    (LUAI_MAXSHORTLEN < size - 1 →
      ∃ ts, LoadString S =
          LoadResult.ok (some ts)
            { S with g := (luaS_createlngstrobj S.g (size - 1)).2, strs := ts :: S.strs,
                     Z := rest } ∧
        ts.tt = LUA_TLNGSTR ∧ tsslen ts = size - 1 ∧ ts.contents = s ∧
        ts.addr = S.g.ud ∧ (luaS_createlngstrobj S.g (size - 1)).2.strt = S.g.strt) := by
  have hpre := LoadString_size S b v size (s ++ rest) hhead hZ
  refine ⟨?_, ?_, ?_⟩
  · intro h0
    rw [hpre, if_pos h0]
    have : s = [] := List.length_eq_zero.1 (by omega)
    subst this
    rfl
  · intro hpos hshort
    have hsl : s.length ≤ LUAI_MAXSHORTLEN := by omega
    have e : luaS_newlstr S.g s s.length = Except.ok (internshrstr S.g s s.length) := by
      simp only [luaS_newlstr, hsl, if_true]
    obtain ⟨_, i2, _⟩ := intern_inv S.g hinv s hsl
    obtain ⟨r1, r2, r3, _⟩ := intern_result S.g hinv.wf hinv.term s hsl
    refine ⟨(internshrstr S.g s s.length).1, (internshrstr S.g s s.length).2, ?_, hsl,
      by rw [← hs]; exact e, by rw [← hs], r1, ?_, r3, i2⟩
    rotate_left
    · rw [← hs]
      simp only [tsslen, r1, if_true, r2]
    rw [hpre, if_neg (by omega), if_pos hshort, ← hs]
    rw [bind_ok _ _ _ _ _ (LoadBlock_append { S with Z := s ++ rest } s rest rfl)]
    have e2 : Load.newlstr s s.length { S with Z := rest } =
        LoadResult.ok (internshrstr S.g s s.length).1
          { S with g := (internshrstr S.g s s.length).2, Z := rest } := by
      simp only [Load.newlstr, e]
    rw [bind_ok _ _ _ _ _ e2]
    rfl
  · intro hlong
    refine ⟨{ addr := S.g.ud, tt := LUA_TLNGSTR, marked := luaC_white S.g, hash := S.g.seed,
              extra := 0, lnglen := s.length, bytes := s ++ [0] }, ?_, rfl, ?_, ?_, rfl, rfl⟩
    · rw [hpre, if_neg (by omega), if_neg (by omega), ← hs]
      have e1 : Load.createlngstrobj s.length { S with Z := s ++ rest } = LoadResult.ok
          { addr := S.g.ud, tt := LUA_TLNGSTR, marked := luaC_white S.g, hash := S.g.seed,
            extra := 0, lnglen := s.length,
            bytes := (List.replicate (s.length + 1) 0).set s.length 0 }
          { S with g := (luaS_createlngstrobj S.g s.length).2, Z := s ++ rest } := rfl
      rw [bind_ok _ _ _ _ _ e1]
      rw [bind_ok _ _ _ _ _ (LoadBlock_append
        { S with g := (luaS_createlngstrobj S.g s.length).2, Z := s ++ rest } s rest rfl)]
      simp only [memcpy_new]
      rfl
    · rw [← hs]
      simp [tsslen, LUA_TLNGSTR, LUA_TSHRSTR, LUA_TSTRING]
    · simp only [TString.contents, tsslen]
      simp [LUA_TLNGSTR, LUA_TSHRSTR, LUA_TSTRING]

theorem C33_LoadString_decodes_witness :
    CacheInv S_hi.g ∧
    (((3 : Nat) ≠ 0xFF ∧ ([] : List Nat) = [] ∧ 3 = 3) ∨
      ((3 : Nat) = 0xFF ∧ ([] : List Nat).length = sizeof_size_t ∧ 3 = uintLE [])) ∧
    [104, 105].length = 3 - 1 ∧ S_hi.Z = 3 :: ([] ++ ([104, 105] ++ [7])) ∧
    ((3 = 0 → LoadString S_hi = LoadResult.ok none { S_hi with Z := [7] }) ∧
    (0 < 3 → 3 - 1 ≤ LUAI_MAXSHORTLEN →
      ∃ ts g1, LoadString S_hi =
          LoadResult.ok (some ts) { S_hi with g := g1, strs := ts :: S_hi.strs, Z := [7] } ∧
        [104, 105].length ≤ LUAI_MAXSHORTLEN ∧
        luaS_newlstr S_hi.g [104, 105] (3 - 1) = Except.ok (ts, g1) ∧
        internshrstr S_hi.g [104, 105] (3 - 1) = (ts, g1) ∧
        ts.tt = LUA_TSHRSTR ∧ tsslen ts = 3 - 1 ∧ ts.contents = [104, 105] ∧
        ts ∈ g1.strt.hash.flatten) ∧
    (LUAI_MAXSHORTLEN < 3 - 1 →
      ∃ ts, LoadString S_hi =
          LoadResult.ok (some ts)
            { S_hi with g := (luaS_createlngstrobj S_hi.g (3 - 1)).2, strs := ts :: S_hi.strs,
                        Z := [7] } ∧
        ts.tt = LUA_TLNGSTR ∧ tsslen ts = 3 - 1 ∧ ts.contents = [104, 105] ∧
        ts.addr = S_hi.g.ud ∧ (luaS_createlngstrobj S_hi.g (3 - 1)).2.strt = S_hi.g.strt)) :=
  ⟨g_init_inv, Or.inl ⟨by decide, rfl, rfl⟩, rfl, rfl,
    C33_LoadString_decodes S_hi g_init_inv 3 [] 3 [104, 105] [7]
      (Or.inl ⟨by decide, rfl, rfl⟩) rfl rfl⟩

/-! ## Theorems: lundump.c, the length of a long string is not checked -/

/-- A long string whose bytes the stream does not have: the object is
created, and the error is that of a truncated chunk. -/
theorem LoadString_long_truncated (S : LoadState) (b : Nat) (v : List Nat) (size : Nat)
    (rest : List Nat)
    (hhead : (b ≠ 0xFF ∧ v = [] ∧ size = b) ∨
      (b = 0xFF ∧ v.length = sizeof_size_t ∧ size = uintLE v))
    (hZ : S.Z = b :: (v ++ rest)) (hlong : LUAI_MAXSHORTLEN < size - 1)
    (hrest : rest.length < size - 1) :
    LoadString S = LoadResult.throw
      (LuaError.malformed (S.name ++ ": truncated precompiled chunk"))
      { S with g := (luaS_createlngstrobj S.g (size - 1)).2, Z := [] } := by
  rw [LoadString_size S b v size rest hhead hZ, if_neg (by omega), if_neg (by omega)]
  have e1 : Load.createlngstrobj (size - 1) { S with Z := rest } = LoadResult.ok
      (luaS_createlngstrobj S.g (size - 1)).1
      { S with g := (luaS_createlngstrobj S.g (size - 1)).2, Z := rest } := rfl
  rw [bind_ok _ _ _ _ _ e1]
  have e2 := LoadBlock_truncated (size - 1)
    { S with g := (luaS_createlngstrobj S.g (size - 1)).2, Z := rest } hrest
  rw [bind_throw _ _ _ _ _ e2, ← truncated_message]
  have : rest.drop (size - 1) = [] := List.drop_eq_nil_of_le (by omega)
  simp only [this]

/-- C34 fails: on the size `MAX_SIZE - sizeof(TString) + 1`, which declares
the least length `luaS_newlstr` refuses with the allocation-size-exceeded
error, `LoadString` does not raise that error: `luaS_createlngstrobj` creates
the string object (the allocator has handed out address 0), and the error
raised afterwards is that of a truncated chunk. -/
theorem C34_LoadString_no_size_check :
    (MAX_SIZE - sizeof_TString) / 1 ≤ MAX_SIZE - sizeof_TString ∧
    luaS_newlstr S_big.g [] (MAX_SIZE - sizeof_TString) = Except.error LuaError.toobig ∧
    LoadString S_big =
      LoadResult.throw (LuaError.malformed "demo: truncated precompiled chunk")
        { g := { ud := 1, allgc := [0] }, Z := [], name := "demo" } := by
  have hu : uintLE (bytesLE sizeof_size_t (MAX_SIZE - sizeof_TString + 1)) =
      MAX_SIZE - sizeof_TString + 1 := by
    rw [uintLE_bytesLE_mod]
    decide
  refine ⟨by decide, ?_, ?_⟩
  · simp [luaS_newlstr, LUAI_MAXSHORTLEN, MAX_SIZE, sizeof_TString]
  · rw [LoadString_long_truncated S_big 0xFF
      (bytesLE sizeof_size_t (MAX_SIZE - sizeof_TString + 1))
      (MAX_SIZE - sizeof_TString + 1) []
      (Or.inr ⟨rfl, bytesLE_length _ _, hu.symm⟩) rfl (by decide) (by decide)]
    rfl

/-! ## Theorems: lundump.c, counts the loader does not compare -/

/-- The function record of `chunk_names`: the store of the upvalue name at
index 0 is outside the array of upvalue descriptors, which has no entry. -/
theorem LoadFunction_names (n : Nat) (g : global_State) (st : List TValue)
    (cls : List LClosure) (p : Proto) (nm : String) :
    LoadFunction (n + 1) 0 none
      { g := g, stack := st, closures := cls, protos := [p], name := nm,
        Z := [0, 0, 0, 0, 0, 0, 0, 0, 0, 0, 0, 2, 0, 0, 0, 0, 0, 0, 0, 0, 0, 0, 0, 0,
              0, 0, 0, 0, 0, 0, 0, 0, 0, 0, 0, 0, 1, 0, 0, 0, 0] } =
    LoadResult.undefined
      { g := g, stack := st, closures := cls, name := nm, Z := [],
        protos := [
          { p with
            source := none, linedefined := 0, lastlinedefined := 0, numparams := 0,
            is_vararg := 0, maxstacksize := 2, code := [], sizecode := 0,
            k := [], sizek := 0, upvalues := [], sizeupvalues := 0, p := [],
            sizep := 0, lineinfo := [], sizelineinfo := 0, locvars := [], sizelocvars := 0 }] } :=
  LoadFunction_leaf_overrun n g g [] [] { maxstacksize := 2 } none
    (leaf_head_valid _ rfl rfl rfl (by decide) (by decide) (by decide) rfl (by decide)
      (by simp) (by decide) (by simp)) rfl rfl
    (fun st cls P strs Z nm f p hp => LoadConstants_none g st cls P strs Z nm f p hp)
    st cls [p] [] [] nm 0 p rfl
theorem undump_names :
    luaU_undump { Z := chunk_names } "=demo" = LoadResult.undefined S_names := by
  unfold luaU_undump
  rw [steps_after_header _ _ 0 _ (by decide) rfl]
  exact bind_undefined _ _ _ _ (LoadFunction_names _ _ _ _ _ _)

/-- The function record of `chunk_nullconst`: `setsvalue2n` is applied to the
`NULL` that `LoadString` returns for the size 0. -/
theorem LoadFunction_nullconst (n : Nat) (g : global_State) (st : List TValue)
    (cls : List LClosure) (p : Proto) (nm : String) :
    LoadFunction (n + 1) 0 none
      { g := g, stack := st, closures := cls, protos := [p], name := nm,
        Z := [0, 0, 0, 0, 0, 0, 0, 0, 0, 0, 0, 2, 0, 0, 0, 0, 1, 0, 0, 0, 4, 0, 0, 0, 0, 0,
              0, 0, 0, 0, 0, 0, 0, 0, 0, 0, 0, 0, 0, 0, 0, 0] } =
    LoadResult.undefined
      { g := g, stack := st, closures := cls, name := nm,
        Z := [0, 0, 0, 0, 0, 0, 0, 0, 0, 0, 0, 0, 0, 0, 0, 0, 0, 0, 0, 0],
        protos := [
          { p with
            source := none, linedefined := 0, lastlinedefined := 0, numparams := 0,
            is_vararg := 0, maxstacksize := 2, code := [], sizecode := 0,
            k := [{ tt_ := LUA_TNIL }], sizek := 1 }] } := by
  simp [LoadFunction, LoadString, LoadByte, LoadCode, LoadConstants, LoadConstants.loop,
    LoadInt, LoadBlock, luaZ_read, bind_apply, pure_apply, Load.setProto,
    Load.setk, Load.undefined, setnilvalue, sizeof_int, sizeof_Instruction, luaM_newvector,
    sintLE, uintLE, decodeVector, error, LUA_TNIL, LUA_TBOOLEAN, LUA_TNUMFLT, LUA_TNUMINT,
    LUA_TSHRSTR, LUA_TLNGSTR, LUA_TNUMBER, LUA_TSTRING]

theorem undump_nullconst :
    luaU_undump { Z := chunk_nullconst } "=demo" = LoadResult.undefined S_nullconst := by
  unfold luaU_undump
  rw [steps_after_header _ _ 0 _ (by decide) rfl]
  exact bind_undefined _ _ _ _ (LoadFunction_nullconst _ _ _ _ _ _)

/-- The function record `r_up`: one upvalue descriptor, no upvalue name. -/
theorem LoadFunction_up (n : Nat) (g : global_State) (st : List TValue)
    (cls : List LClosure) (p : Proto) (nm : String) :
    LoadFunction (n + 1) 0 none
      { g := g, stack := st, closures := cls, protos := [p], name := nm,
        Z := [0, 0, 0, 0, 0, 0, 0, 0, 0, 0, 0, 2, 0, 0, 0, 0, 0, 0, 0, 0, 1, 0, 0, 0, 0, 0,
              0, 0, 0, 0, 0, 0, 0, 0, 0, 0, 0, 0, 0, 0, 0, 0] } =
    LoadResult.ok ()
      { g := g, stack := st, closures := cls, name := nm, Z := [],
        protos := [
          { p with
            source := none, linedefined := 0, lastlinedefined := 0, numparams := 0,
            is_vararg := 0, maxstacksize := 2, code := [], sizecode := 0,
            k := [], sizek := 0, upvalues := [{ name := none, instack := 0, idx := 0 }],
            sizeupvalues := 1, p := [],
            sizep := 0, lineinfo := [], sizelineinfo := 0, locvars := [], sizelocvars := 0 }] } :=
  LoadFunction_leaf n g g [] [] { maxstacksize := 2, upvalues := [(0, 0)] } none
    (leaf_head_valid _ rfl rfl rfl (by decide) (by decide) (by decide) rfl (by decide)
      (by simp) (by decide) (by simp)) rfl
    (fun st cls P strs Z nm f p hp => LoadConstants_none g st cls P strs Z nm f p hp)
    st cls [p] [] [] nm 0 p rfl

theorem undump_up0 : luaU_undump { Z := chunk_up 0 } "=demo" = LoadResult.ok 0 (S_up 0) := by
  unfold luaU_undump
  rw [steps_after_header _ _ 0 (layoutFunction r_up) (by decide) rfl]
  simp only [r_up_layout]
  exact bind_ok _ _ _ _ _ (LoadFunction_up _ _ _ _ _ _)

theorem undump_up1 : luaU_undump { Z := chunk_up 1 } "=demo" = LoadResult.ok 0 (S_up 1) := by
  unfold luaU_undump
  rw [steps_after_header _ _ 1 (layoutFunction r_up) (by decide) rfl]
  simp only [r_up_layout]
  exact bind_ok _ _ _ _ _ (LoadFunction_up _ _ _ _ _ _)

/-- C35 fails: on `chunk_names`, whose function record has no upvalue
descriptor and a debug section with one upvalue name, the load does not
fail: no error is raised, and `LoadDebug` stores the name at index 0 of an
array of upvalue descriptors with no entry (`sizeupvalues = 0`), which C
leaves undefined; and on `chunk_up 1`, whose record has one upvalue
descriptor and no upvalue name, the load succeeds and the name of the
upvalue is `NULL`. -/
theorem C35_upvalue_names_unchecked :
    luaU_undump { Z := chunk_names } "=demo" = LoadResult.undefined S_names ∧
    S_names.protos.map (fun p => (p.sizeupvalues, p.upvalues)) = [(0, [])] ∧
    S_names.Z = [] ∧
    luaU_undump { Z := chunk_up 1 } "=demo" = LoadResult.ok 0 (S_up 1) ∧
    (S_up 1).protos.map (fun p => (p.sizeupvalues, p.upvalues.map (fun u => u.name))) =
      [(1, [none])] :=
  ⟨undump_names, rfl, rfl, undump_up1, rfl⟩

/-- C36 fails: on `chunk_nullconst`, whose only constant has the type code of
a short string and the size byte 0, `LoadString` returns `NULL` and
`LoadConstants` applies `setsvalue2n` to it, which reads the tag of the
string through the `NULL` pointer; the cell still holds nil, and the rest of
the stream is unread. -/
theorem C36_null_string_constant :
    luaU_undump { Z := chunk_nullconst } "=demo" = LoadResult.undefined S_nullconst ∧
    S_nullconst.protos.map (fun p => p.k) = [[{ tt_ := LUA_TNIL }]] ∧
    S_nullconst.Z.length = 20 ∧ S_nullconst.strs = [] :=
  ⟨undump_nullconst, rfl, rfl, rfl⟩

/-- C37 fails: on `chunk_up 0`, whose byte after the header declares no
upvalue and whose function record has one upvalue descriptor, `luaU_undump`
succeeds and returns a closure with `nupvalues = 0` for a prototype with
`sizeupvalues = 1`; the closure is the only slot of the stack. -/
theorem C37_upvalue_count_mismatch :
    luaU_undump { Z := chunk_up 0 } "=demo" = LoadResult.ok 0 (S_up 0) ∧
    (S_up 0).closures.map (fun c => (c.nupvalues, c.upvals, c.p)) = [(0, [], some 0)] ∧
    (S_up 0).protos.map (fun p => p.sizeupvalues) = [1] ∧
    (S_up 0).stack = [setclLvalue { addr := 0 }] :=
  ⟨undump_up0, rfl, rfl, rfl⟩

/-! ## Theorems: the string table stays well formed -/

theorem TableInv_congr (g g1 : global_State) (h1 : g1.strt = g.strt) (h2 : g1.seed = g.seed)
    (h3 : g1.currentwhite = g.currentwhite) (h4 : g1.ud = g.ud) (h5 : g1.allgc = g.allgc)
    (h6 : g1.fixedgc = g.fixedgc) (h : TableInv g) : TableInv g1 := by
  refine ⟨WF_congr g g1 h1 h2 h3 h.wf, ?_, ?_, ?_⟩
  · unfold AllocOK
    rw [h1, h4, h5, h6]
    exact h.alloc
  · unfold Terminated
    rw [h1]
    exact h.term
  · intro ts hts
    rw [h1] at hts
    rw [isdead_congr g g1 h3]
    exact h.live ts hts

theorem TableInv.toCache {g : global_State} (h : TableInv g) :
    CacheInv { g with strcache := [] } := by
  have h1 := TableInv_congr g { g with strcache := [] } rfl rfl rfl rfl rfl rfl h
  exact ⟨h1.wf, h1.alloc, h1.term, h1.live, fun row hrow => by simp at hrow⟩

theorem CacheInv.toTable {g : global_State} (h : CacheInv g) : TableInv g :=
  ⟨h.wf, h.alloc, h.term, h.live⟩

/-- The cache of `luaS_new` plays no part in `internshrstr`. -/
theorem internshrstr_strcache (g : global_State) (c : List (List TString)) (s : List Nat)
    (l : Nat) :
    internshrstr { g with strcache := c } s l =
      ((internshrstr g s l).1, { (internshrstr g s l).2 with strcache := c }) := by
  unfold internshrstr
  simp only [search_congr g { g with strcache := c } rfl]
  split
  · rfl
  · unfold internshrstr.grow
    split <;> rfl

theorem intern_tableInv (g : global_State) (h : TableInv g) (str : List Nat) (l : Nat)
    (hl : l ≤ LUAI_MAXSHORTLEN) (hlen : l ≤ str.length) :
    TableInv (internshrstr g str l).2 := by
  have hs : (str.take l).length = l := by simp [hlen]
  have h1 := (intern_inv { g with strcache := [] } h.toCache (str.take l) (by omega)).1
  rw [hs, internshrstr_take, internshrstr_strcache] at h1
  exact TableInv_congr { (internshrstr g str l).2 with strcache := [] } _ rfl rfl rfl rfl rfl rfl
    h1.toTable

theorem resize_tableInv (g : global_State) (h : TableInv g) (k : Nat) (hk : 2 ^ k ≤ MAX_INT) :
    TableInv (luaS_resize g (2 ^ k)) := by
  obtain ⟨_, _, _, hp, _⟩ := resize_spec g h.wf k hk
  have hmem : ∀ t, t ∈ (luaS_resize g (2 ^ k)).strt.hash.flatten ↔ t ∈ g.strt.hash.flatten :=
    fun t => hp.mem_iff
  refine ⟨resize_WF g h.wf k hk, ?_, ?_, ?_⟩
  · exact ⟨h.alloc.1, h.alloc.2.1, fun ts hts => h.alloc.2.2 ts ((hmem ts).1 hts)⟩
  · intro ts hts
    exact h.term ts ((hmem ts).1 hts)
  · intro ts hts
    exact h.live ts ((hmem ts).1 hts)

/-- What `luaS_remove` does to a well-formed table that holds `ts`. -/
theorem remove_spec (g : global_State) (hwf : WF g) (ts : TString)
    (hts : ts ∈ g.strt.hash.flatten) :
    ∃ i l1 l2, i < g.strt.hash.length ∧ lmod ts.hash g.strt.size = i ∧
      g.strt.hash.getD i [] = l1 ++ ts :: l2 ∧
      luaS_remove g ts = some { g with strt := { g.strt with
        hash := g.strt.hash.set i (l1 ++ l2), nuse := g.strt.nuse - 1 } } ∧
      g.strt.hash.flatten.Perm (ts :: (g.strt.hash.set i (l1 ++ l2)).flatten) := by
  obtain ⟨i, hi⟩ := (mem_flatten_iff_getD _ _).1 hts
  have hidx := (hwf.chained i ts hi).1
  have hilt : i < g.strt.hash.length := by
    rw [hwf.hash_len, ← hidx]
    exact lmod_lt _ _ hwf.size_pos hwf.size_le
  obtain ⟨l1, l2, e1, e2, _, _⟩ := unlink_spec ts (g.strt.hash.getD i []) hi
    (bucket_nodup g hwf i)
    (fun p hp e => List.inj_on_of_nodup_map hwf.nodup_addr
      ((mem_flatten_iff_getD _ _).2 ⟨i, hp⟩) hts e)
  refine ⟨i, l1, l2, hilt, hidx, e1, ?_, ?_⟩
  · simp only [luaS_remove, hidx, e2]
  · have h1 := flatten_set_nil g.strt.hash i
    have h2 := flatten_set_perm g.strt.hash i (l1 ++ l2) hilt
    rw [e1] at h1
    refine h1.trans ?_
    refine List.Perm.trans ?_ (List.Perm.cons ts h2.symm)
    simp only [List.append_assoc, List.cons_append]
    exact List.perm_middle

theorem remove_tableInv (g : global_State) (h : TableInv g) (ts : TString) (g1 : global_State)
    (hts : ts ∈ g.strt.hash.flatten) (hrem : luaS_remove g ts = some g1) : TableInv g1 := by
  obtain ⟨i, l1, l2, hilt, hidx, e1, e2, hp⟩ := remove_spec g h.wf ts hts
  rw [e2] at hrem
  simp only [Option.some.injEq] at hrem
  subst hrem
  have hsub : ∀ t ∈ (g.strt.hash.set i (l1 ++ l2)).flatten, t ∈ g.strt.hash.flatten :=
    fun t ht => hp.mem_iff.2 (List.mem_cons_of_mem _ ht)
  have hwf := h.wf
  refine ⟨⟨hwf.size_pow, hwf.size_le, ?_, ?_, ?_, ?_, ?_, hwf.white⟩, ?_, ?_, ?_⟩
  · show (g.strt.hash.set i (l1 ++ l2)).length = g.strt.size
    rw [List.length_set]
    exact hwf.hash_len
  · show g.strt.nuse - 1 = ((g.strt.hash.set i (l1 ++ l2)).flatten.length : Int)
    have := hp.length_eq
    rw [hwf.nuse_eq, this]
    simp
  · intro j t ht
    have ht1 : t ∈ (g.strt.hash.set i (l1 ++ l2)).getD j [] := ht
    rw [getD_set_self _ _ _ _ hilt] at ht1
    have ht2 : t ∈ g.strt.hash.getD j [] := by
      by_cases e : j = i
      · rw [if_pos e] at ht1
        rw [e, e1]
        rcases List.mem_append.1 ht1 with x | x
        · exact List.mem_append_left _ x
        · exact List.mem_append_right _ (List.mem_cons_of_mem _ x)
      · rw [if_neg e] at ht1
        exact ht1
    exact hwf.chained j t ht2
  · have h1 : (g.strt.hash.flatten.map TString.contents).Perm
        (ts.contents :: (g.strt.hash.set i (l1 ++ l2)).flatten.map TString.contents) :=
      hp.map TString.contents
    exact (List.nodup_cons.1 (h1.nodup_iff.1 hwf.nodup_contents)).2
  · have h1 : (g.strt.hash.flatten.map TString.addr).Perm
        (ts.addr :: (g.strt.hash.set i (l1 ++ l2)).flatten.map TString.addr) :=
      hp.map TString.addr
    exact (List.nodup_cons.1 (h1.nodup_iff.1 hwf.nodup_addr)).2
  · exact ⟨h.alloc.1, h.alloc.2.1, fun t ht => h.alloc.2.2 t (hsub t ht)⟩
  · intro t ht
    exact h.term t (hsub t ht)
  · intro t ht
    exact h.live t (hsub t ht)

theorem reachable_tableInv (g : global_State) (hr : StrtReachable g) : TableInv g := by
  induction hr with
  | init g0 g h0 h => exact (init_inv g0 g h0 h).toTable
  | intern g str l _ hl hlen ih => exact intern_tableInv g ih str l hl hlen
  | resize g k _ hk ih => exact resize_tableInv g ih k hk
  | remove g ts g1 _ hts h ih => exact remove_tableInv g ih ts g1 hts h

theorem g_init_strt_reachable : StrtReachable g_init :=
  StrtReachable.init {} g_init ⟨rfl, rfl, rfl, by simp, by simp, Or.inl rfl⟩ init_fresh

/-- C38: in every state reachable from `luaS_init` through `internshrstr`,
`luaS_resize` to a power of two and `luaS_remove` of a chained string, the
string table is well formed: the size is a power of two, every string is
chained in the bucket `hash mod size`, inside the bucket array, with the hash
`luaS_hash` of its bytes, its length and the seed of the state, `nuse` is the
number of chained strings, and no two chained strings have the same length
and bytes. -/
theorem C38_table_wellformed (g : global_State) (hr : StrtReachable g) :
    WF g ∧
    (∃ k, g.strt.size = 2 ^ k) ∧
    (∀ i, ∀ ts ∈ g.strt.hash.getD i [],
      i = ts.hash % g.strt.size ∧ i < g.strt.hash.length ∧
      ts.hash = luaS_hash ts.bytes ts.shrlen g.seed ∧ tsslen ts = ts.shrlen) ∧
    g.strt.nuse = (g.strt.hash.flatten.length : Int) ∧
    g.strt.hash.flatten.Pairwise
      (fun a b => ¬ (tsslen a = tsslen b ∧ a.contents = b.contents)) := by
  have hwf := (reachable_tableInv g hr).wf
  refine ⟨hwf, hwf.size_pow, ?_, hwf.nuse_eq, ?_⟩
  · intro i ts hts
    obtain ⟨h1, h2, _, _, h5⟩ := hwf.chained i ts hts
    obtain ⟨k, hk⟩ := hwf.size_pow
    have hmod : lmod ts.hash g.strt.size = ts.hash % g.strt.size := by
      rw [hk]
      exact lmod_pow _ _ (by rw [← hk]; exact hwf.size_le)
    refine ⟨by rw [← hmod, h1], ?_, h5, by simp only [tsslen, h2, if_true]⟩
    rw [hwf.hash_len, ← h1]
    exact lmod_lt _ _ hwf.size_pos hwf.size_le
  · have h1 := hwf.nodup_contents
    unfold List.Nodup at h1
    rw [List.pairwise_map] at h1
    exact h1.imp (fun hab hcon => hab hcon.2)

theorem C38_table_wellformed_witness :
    StrtReachable (luaS_resize g_init (2 ^ 3)) ∧
    (WF (luaS_resize g_init (2 ^ 3)) ∧
    (∃ k, (luaS_resize g_init (2 ^ 3)).strt.size = 2 ^ k) ∧
    (∀ i, ∀ ts ∈ (luaS_resize g_init (2 ^ 3)).strt.hash.getD i [],
      i = ts.hash % (luaS_resize g_init (2 ^ 3)).strt.size ∧
      i < (luaS_resize g_init (2 ^ 3)).strt.hash.length ∧
      ts.hash = luaS_hash ts.bytes ts.shrlen (luaS_resize g_init (2 ^ 3)).seed ∧
      tsslen ts = ts.shrlen) ∧
    (luaS_resize g_init (2 ^ 3)).strt.nuse =
      ((luaS_resize g_init (2 ^ 3)).strt.hash.flatten.length : Int) ∧
    (luaS_resize g_init (2 ^ 3)).strt.hash.flatten.Pairwise
      (fun a b => ¬ (tsslen a = tsslen b ∧ a.contents = b.contents))) :=
  ⟨StrtReachable.resize g_init 3 g_init_strt_reachable (by decide),
    C38_table_wellformed _ (StrtReachable.resize g_init 3 g_init_strt_reachable (by decide))⟩

end LuaStudy
